import Mathlib

/-!
# microsat: a shallow embedding of `micro_solver` (src/microsat.c)

The solver keeps every array in one `malloc`ed block and addresses it through
the pointer members of `struct micro_solver`.  The embedding keeps one total
map `Int → Int` per pointer member (`DB`, `model`, `reason`, `mfalse`, `first`,
`next`, `prev`, `buffer`, the trail `mfalseStack`) and an integer for every
scalar member.  The three trail cursors `forced`, `processed`, `assigned` are
indices into `mfalseStack`; clause pointers are offsets into `DB`.  The stores
of `parse` through `buffer`, whose index the program does not bound, are
followed into the members that lie behind the buffer in the block
(`bufferCell`).

C `int` is modelled by `Int` (no wrap-around).  Loops that the C code does not
bound syntactically take a `fuel` argument and fail with `Fault.outOfFuel` when
it is exhausted; `getMemory` fails with `Fault.outOfMemory` where the C code
prints a diagnostic and calls `exit(0)`.
-/

namespace Microsat

/-! ## Constants of the anonymous enum -/

def END : Int := -9
def UNSAT : Int := 0
def SAT : Int := 1
def MARK : Int := 2
def IMPLIED : Int := 6

/-- Ways in which a run of the model stops without a C return value. -/
inductive Fault where
  | outOfMemory
  | outOfFuel
  deriving DecidableEq, Repr

/-- An `int` array reached through one pointer member. -/
abbrev Cells := Int → Int

/-- The array `a` after the store `a[k] = v`. -/
def put (a : Cells) (k v : Int) : Cells := fun i => if i = k then v else a i

/-- C `abs` on `int`. -/
def absInt (x : Int) : Int := if x < 0 then -x else x

/-- The `int` value of a C comparison. -/
def b2i (b : Bool) : Int := if b then 1 else 0

/-- The members of `struct micro_solver`. -/
structure State where
  DB : Cells
  nVars : Int
  nClauses : Int
  mem_used : Int
  mem_fixed : Int
  mem_max : Int
  maxLemmas : Int
  nLemmas : Int
  buffer : Cells
  nConflicts : Int
  model : Cells
  reason : Cells
  mfalseStack : Cells
  mfalse : Cells
  first : Cells
  forced : Int
  processed : Int
  assigned : Int
  next : Cells
  prev : Cells
  head : Int
  res : Int
  fast : Int
  slow : Int

/-- A `micro_solver` object all of whose memory is zero. -/
def zeroState : State :=
  { DB := fun _ => 0, nVars := 0, nClauses := 0, mem_used := 0, mem_fixed := 0,
    mem_max := 0, maxLemmas := 0, nLemmas := 0, buffer := fun _ => 0,
    nConflicts := 0, model := fun _ => 0, reason := fun _ => 0,
    mfalseStack := fun _ => 0, mfalse := fun _ => 0, first := fun _ => 0,
    forced := 0, processed := 0, assigned := 0, next := fun _ => 0,
    prev := fun _ => 0, head := 0, res := 0, fast := 0, slow := 0 }

/-! ## restart, assign, addWatch, getMemory, addClause -/

/-- `unassign(lit)`: `mfalse[lit] = 0`. -/
def unassign (s : State) (lit : Int) : State :=
  { s with mfalse := put s.mfalse lit 0 }

/-- The `while (assigned > forced) unassign(*(--assigned));` loop of `restart`;
the first argument bounds the number of iterations. -/
def restartLoop : Nat → State → State
  | 0, s => s
  | k + 1, s =>
    if s.assigned > s.forced then
      let a := s.assigned - 1
      restartLoop k (unassign { s with assigned := a } (s.mfalseStack a))
    else s

/-- `restart()`.  The loop runs `assigned - forced` times when that is positive. -/
def restart (s : State) : State :=
  let s1 := restartLoop (s.assigned - s.forced).toNat s
  { s1 with processed := s1.forced }

/-- `assign(reason, forced)`; `reason` is the offset of the clause in `DB`. -/
def assign (s : State) (reason forced : Int) : State :=
  let lit := s.DB reason
  let s1 := { s with mfalse := put s.mfalse (-lit) (if forced ≠ 0 then IMPLIED else 1) }
  let s2 := { s1 with mfalseStack := put s1.mfalseStack s1.assigned (-lit),
                      assigned := s1.assigned + 1 }
  let s3 := { s2 with reason := put s2.reason (absInt lit) (1 + reason) }
  { s3 with model := put s3.model (absInt lit) (b2i (decide (lit > 0))) }

/-- `addWatch(lit, mem)`. -/
def addWatch (s : State) (lit mem : Int) : State :=
  let s1 := { s with DB := put s.DB mem (s.first lit) }
  { s1 with first := put s1.first lit mem }

/-- `getMemory(mem_size)`: the offset of the new block and the new state. -/
def getMemory (s : State) (mem_size : Int) : Except Fault (Int × State) :=
  if s.mem_used + mem_size > s.mem_max then .error .outOfMemory
  else .ok (s.mem_used, { s with mem_used := s.mem_used + mem_size })

/-- The cell `this->buffer[i]`.  `initCDCL` takes `buffer` (`nVars` cells),
`reason` (`nVars + 1`), `mfalseStack` (`nVars + 1`), `mfalse` (`2 * nVars + 1`,
biased by `nVars`), `first` (the same) and the cell of the leading 0 from
consecutive cells of the one block, in this order, and the arena follows: an
index at or beyond `nVars` designates a cell of the members that follow the
buffer.  With `n = nVars` the cell `buffer[i]` is `reason[i - n]` for
`n ≤ i < 2n + 1`, `mfalseStack[i - (2n + 1)]` for `2n + 1 ≤ i < 3n + 2`,
`mfalse[i - (4n + 2)]` for `3n + 2 ≤ i < 5n + 3`, `first[i - (6n + 3)]` for
`5n + 3 ≤ i < 7n + 4` and `DB[i + 3n + 3]` from there on (`buffer` itself is
`DB + 3n + 3`). -/
def bufferCell (s : State) (i : Int) : Int :=
  if i < s.nVars then s.buffer i
  else if i < 2 * s.nVars + 1 then s.reason (i - s.nVars)
  else if i < 3 * s.nVars + 2 then s.mfalseStack (i - (2 * s.nVars + 1))
  else if i < 5 * s.nVars + 3 then s.mfalse (i - (4 * s.nVars + 2))
  else if i < 7 * s.nVars + 4 then s.first (i - (6 * s.nVars + 3))
  else s.DB (i + (3 * s.nVars + 3))

/-- The store `this->buffer[i] = v`, which lands in the member that owns the
cell (see `bufferCell`). -/
def setBufferCell (s : State) (i v : Int) : State :=
  if i < s.nVars then { s with buffer := put s.buffer i v }
  else if i < 2 * s.nVars + 1 then { s with reason := put s.reason (i - s.nVars) v }
  else if i < 3 * s.nVars + 2 then
    { s with mfalseStack := put s.mfalseStack (i - (2 * s.nVars + 1)) v }
  else if i < 5 * s.nVars + 3 then { s with mfalse := put s.mfalse (i - (4 * s.nVars + 2)) v }
  else if i < 7 * s.nVars + 4 then { s with first := put s.first (i - (6 * s.nVars + 3)) v }
  else { s with DB := put s.DB (i + (3 * s.nVars + 3)) v }

/-- The argument `int* in` of `addClause`.  `buf off`: a sequence held in the
cells of the buffer themselves (`analyze` passes `this->buffer` with the lemma
it has collected from the trail).  `db off`: a pointer into the arena
(`reduceDB`).  `raw off`: the address `this->buffer + off` followed wherever the
index leads (`parse` passes `this->buffer` with a clause whose length it has
not bounded, see `bufferCell`). -/
inductive LitPtr where
  | buf (off : Int)
  | db (off : Int)
  | raw (off : Int)
  deriving DecidableEq, Repr

/-- The value `in[i]` read in state `s`. -/
def LitPtr.get (s : State) : LitPtr → Int → Int
  | .buf o, i => s.buffer (o + i)
  | .db o, i => s.DB (o + i)
  | .raw o, i => bufferCell s (o + i)

/-- The loop `for (i = 0; i < size; i++) clause[i] = in[i];` from index `i` on,
with `k` iterations left. -/
def copyLits (inp : LitPtr) (clause : Int) : Nat → Int → State → State
  | 0, _, s => s
  | k + 1, i, s =>
    copyLits inp clause k (i + 1) { s with DB := put s.DB (clause + i) (inp.get s i) }

/-- `addClause(in, size, irr)`: the offset of the literals of the new clause
and the new state. -/
def addClause (s : State) (inp : LitPtr) (size irr : Int) : Except Fault (Int × State) :=
  let used := s.mem_used
  match getMemory s (size + 3) with
  | .error e => .error e
  | .ok (store, s1) =>
    let clause := store + 2
    let s2 :=
      if size > 1 then
        let t := addWatch s1 (inp.get s1 0) used
        addWatch t (inp.get t 1) (used + 1)
      else s1
    let s3 := copyLits inp clause size.toNat 0 s2
    let i : Int := size.toNat
    let s4 := { s3 with DB := put s3.DB (clause + i) 0 }
    let s5 := if irr ≠ 0 then { s4 with mem_fixed := s4.mem_used }
              else { s4 with nLemmas := s4.nLemmas + 1 }
    .ok (clause, s5)

/-! ## reduceDB -/

/-- The loop `while (nLemmas > maxLemmas) maxLemmas += 300;`: the final value
of `maxLemmas`; the first argument bounds the number of iterations. -/
def growMaxLemmas : Nat → Int → Int → Int
  | 0, _, maxL => maxL
  | k + 1, nL, maxL => if nL > maxL then growMaxLemmas k nL (maxL + 300) else maxL

/-- The variable `int* watch` of `reduceDB` and `propagate`: the address of a
watch head `&first[lit]` or of a link cell `DB + off`. -/
inductive WatchPtr where
  | head (lit : Int)
  | cell (off : Int)
  deriving DecidableEq, Repr

/-- The value `*watch`. -/
def WatchPtr.get (s : State) : WatchPtr → Int
  | .head l => s.first l
  | .cell o => s.DB o

/-- The store `*watch = v`. -/
def WatchPtr.set (s : State) (w : WatchPtr) (v : Int) : State :=
  match w with
  | .head l => { s with first := put s.first l v }
  | .cell o => { s with DB := put s.DB o v }

/-- The loop `while (*watch != END) ...` of `reduceDB` for one literal. -/
def unwatchLemmas : Nat → State → WatchPtr → Except Fault State
  | 0, _, _ => .error .outOfFuel
  | f + 1, s, watch =>
    if watch.get s ≠ END then
      if watch.get s < s.mem_fixed then unwatchLemmas f s (.cell (watch.get s))
      else unwatchLemmas f (watch.set s (s.DB (watch.get s))) watch
    else .ok s

/-- The loop `for (i = -nVars; i <= nVars; i++)` of `reduceDB` from `i` on, with
`k` iterations left. -/
def unwatchAll (fuel : Nat) : Nat → Int → State → Except Fault State
  | 0, _, s => .ok s
  | k + 1, i, s =>
    if i = 0 then unwatchAll fuel k (i + 1) s
    else
      match unwatchLemmas fuel s (.head i) with
      | .error e => .error e
      | .ok s1 => unwatchAll fuel k (i + 1) s1

/-- The loop `while (DB[i]) ...` of `reduceDB`: the final `i` and `count`. -/
def countSatisfied : Nat → State → Int → Int → Except Fault (Int × Int)
  | 0, _, _, _ => .error .outOfFuel
  | f + 1, s, i, count =>
    if s.DB i ≠ 0 then
      let lit := s.DB i
      countSatisfied f s (i + 1)
        (if b2i (decide (lit > 0)) = s.model (absInt lit) then count + 1 else count)
    else .ok (i, count)

/-- The loop `for (i = mem_fixed + 2; i < old_used; i += 3)` of `reduceDB`. -/
def sweepLemmas (fuel : Nat) : Nat → State → Int → Int → Int → Except Fault State
  | 0, _, _, _, _ => .error .outOfFuel
  | f + 1, s, old_used, k, i =>
    if i < old_used then
      let head := i
      match countSatisfied fuel s i 0 with
      | .error e => .error e
      | .ok (i1, count) =>
        if count < k then
          match addClause s (.db head) (i1 - head) 0 with
          | .error e => .error e
          | .ok (_, s1) => sweepLemmas fuel f s1 old_used k (i1 + 3)
        else sweepLemmas fuel f s old_used k (i1 + 3)
    else .ok s

/-- `reduceDB(k)`. -/
def reduceDB (fuel : Nat) (s : State) (k : Int) : Except Fault State :=
  let s1 := { s with maxLemmas :=
                growMaxLemmas (s.nLemmas - s.maxLemmas).toNat s.nLemmas s.maxLemmas }
  let s2 := { s1 with nLemmas := 0 }
  match unwatchAll fuel (2 * s2.nVars + 1).toNat (-s2.nVars) s2 with
  | .error e => .error e
  | .ok s3 =>
    let old_used := s3.mem_used
    let s4 := { s3 with mem_used := s3.mem_fixed }
    sweepLemmas fuel fuel s4 old_used k (s4.mem_fixed + 2)

/-! ## bump, implied, analyze -/

/-- `bump(lit)`. -/
def bump (s : State) (lit : Int) : State :=
  if s.mfalse lit ≠ IMPLIED then
    let s1 := { s with mfalse := put s.mfalse lit MARK }
    let var := absInt lit
    if var ≠ s1.head then
      let s2 := { s1 with prev := put s1.prev (s1.next var) (s1.prev var) }
      let s3 := { s2 with next := put s2.next (s2.prev var) (s2.next var) }
      let s4 := { s3 with next := put s3.next s3.head var }
      let s5 := { s4 with prev := put s4.prev var s4.head }
      { s5 with head := var }
    else s1
  else s

/-- The loop `while (*clause) bump(*(clause++));` started at offset `clause`. -/
def bumpAll : Nat → State → Int → Except Fault State
  | 0, _, _ => .error .outOfFuel
  | f + 1, s, clause =>
    if s.DB clause ≠ 0 then bumpAll f (bump s (s.DB clause)) (clause + 1)
    else .ok s

/-- `implied(lit)` when the last argument is `none`; with `some p` the loop
`while (*(++p)) ...` of the call `implied(lit)` resumed with pointer `p`.
The result is the returned `int` and the new state. -/
def implied : Nat → State → Int → Option Int → Except Fault (Int × State)
  | 0, _, _, _ => .error .outOfFuel
  | f + 1, s, lit, none =>
    if s.mfalse lit > MARK then .ok (Int.land (s.mfalse lit) MARK, s)
    else if s.reason (absInt lit) = 0 then .ok (0, s)
    else implied f s lit (some (s.reason (absInt lit) - 1))
  | f + 1, s, lit, some p0 =>
    let p := p0 + 1
    if s.DB p ≠ 0 then
      -- `mfalse[*p] ^ MARK` is non-zero exactly when `mfalse[*p] != MARK`
      if s.mfalse (s.DB p) ≠ MARK then
        match implied f s (s.DB p) none with
        | .error e => .error e
        | .ok (r, s1) =>
          if r = 0 then .ok (0, { s1 with mfalse := put s1.mfalse lit (IMPLIED - 1) })
          else implied f s1 lit (some p)
      else implied f s lit (some p)
    else .ok (1, { s with mfalse := put s.mfalse lit IMPLIED })

/-- The loop `while (mfalse[*(--check)] != MARK) if (!reason[abs(*check)]) goto build;`
of `analyze`: `true` when the `goto` is taken. -/
def reachesDecision : Nat → State → Int → Except Fault Bool
  | 0, _, _ => .error .outOfFuel
  | f + 1, s, check0 =>
    let check := check0 - 1
    if s.mfalse (s.mfalseStack check) ≠ MARK then
      if s.reason (absInt (s.mfalseStack check)) = 0 then .ok true
      else reachesDecision f s check
    else .ok false

/-- The first loop of `analyze`, `while (reason[abs(*(--assigned))]) ...`, up to
the label `build`. -/
def resolveLoop (fuel : Nat) : Nat → State → Except Fault State
  | 0, _ => .error .outOfFuel
  | f + 1, s0 =>
    let s := { s0 with assigned := s0.assigned - 1 }
    if s.reason (absInt (s.mfalseStack s.assigned)) ≠ 0 then
      if s.mfalse (s.mfalseStack s.assigned) = MARK then
        match reachesDecision fuel s s.assigned with
        | .error e => .error e
        | .ok true => .ok s
        | .ok false =>
          match bumpAll fuel s (s.reason (absInt (s.mfalseStack s.assigned))) with
          | .error e => .error e
          | .ok s1 => resolveLoop fuel f (unassign s1 (s1.mfalseStack s1.assigned))
      else resolveLoop fuel f (unassign s (s.mfalseStack s.assigned))
    else .ok s

/-- The test `(mfalse[*p] == MARK) && !implied(*p)` of `analyze` for the trail
pointer `p`: its value and the state after it. -/
def buildTest (fuel : Nat) (s : State) (p : Int) : Except Fault (Bool × State) :=
  if s.mfalse (s.mfalseStack p) = MARK then
    match implied fuel s (s.mfalseStack p) none with
    | .error e => .error e
    | .ok (r, s1) => .ok (decide (r = 0), s1)
  else .ok (false, s)

/-- The state after the rest of one iteration of the loop `while (p >= forced)`
of `analyze`, where `add` is the value of the test and `s1` the state after it. -/
def buildNext (s1 : State) (p size : Int) (add : Bool) : State :=
  let s2 := if add then { s1 with buffer := put s1.buffer size (s1.mfalseStack p) } else s1
  let size1 := if add then size + 1 else size
  let dec := decide (s2.reason (absInt (s2.mfalseStack p)) = 0)
  let s3 := if dec && decide (size1 = 1) then { s2 with processed := p } else s2
  { s3 with mfalse := put s3.mfalse (s3.mfalseStack p) 1 }

/-- The loop `while (p >= forced) ...` of `analyze`; the result is the state
with the final `size` and `lbd`. -/
def buildLoop (fuel : Nat) : Nat → State → Int → Int → Int → Int →
    Except Fault (State × Int × Int)
  | 0, _, _, _, _, _ => .error .outOfFuel
  | f + 1, s, p, size, lbd, flag =>
    if p ≥ s.forced then
      match buildTest fuel s p with
      | .error e => .error e
      | .ok (add, s1) =>
        let size1 := if add then size + 1 else size
        let flag1 := if add then 1 else flag
        let dec := decide (s1.reason (absInt (s1.mfalseStack p)) = 0)
        let lbd1 := if dec then lbd + flag1 else lbd
        let flag2 := if dec then 0 else flag1
        buildLoop fuel f (buildNext s1 p size add) (p - 1) size1 lbd1 flag2
    else .ok (s, size, lbd)

/-- The loop `while (assigned > processed) unassign(*(assigned--));` of
`analyze`; the first argument bounds the number of iterations. -/
def backjumpLoop : Nat → State → State
  | 0, s => s
  | k + 1, s =>
    if s.assigned > s.processed then
      backjumpLoop k { unassign s (s.mfalseStack s.assigned) with assigned := s.assigned - 1 }
    else s

/-- `analyze(clause)`: the offset of the learned clause and the new state. -/
def analyze (fuel : Nat) (s : State) (clause : Int) : Except Fault (Int × State) :=
  let s1 := { s with res := s.res + 1 }
  let s2 := { s1 with nConflicts := s1.nConflicts + 1 }
  match bumpAll fuel s2 clause with
  | .error e => .error e
  | .ok s3 =>
    match resolveLoop fuel fuel s3 with
    | .error e => .error e
    | .ok s4 =>
      let s5 := { s4 with processed := s4.assigned }
      match buildLoop fuel fuel s5 s5.assigned 0 0 0 with
      | .error e => .error e
      | .ok (s6, size, lbd) =>
        let s7 := { s6 with fast := s6.fast - (s6.fast >>> 5) }
        let s8 := { s7 with fast := s7.fast + (lbd <<< 15) }
        let s9 := { s8 with slow := s8.slow - (s8.slow >>> 15) }
        let s10 := { s9 with slow := s9.slow + (lbd <<< 5) }
        let s11 := backjumpLoop (s10.assigned - s10.processed).toNat s10
        let s12 := unassign s11 (s11.mfalseStack s11.assigned)
        let s13 := { s12 with buffer := put s12.buffer size 0 }
        addClause s13 (.buf 0) size 0

/-! ## propagate -/

/-- The search part of `for (i = 2; unit && clause[i]; i++) if (!mfalse[clause[i]]) ...`:
the first index `i ≥ 2` whose literal has `mfalse` zero, or `none` when the
terminating 0 of the clause is reached first. -/
def findFree : Nat → State → Int → Int → Except Fault (Option Int)
  | 0, _, _, _ => .error .outOfFuel
  | f + 1, s, clause, i =>
    if s.DB (clause + i) ≠ 0 then
      if s.mfalse (s.DB (clause + i)) = 0 then .ok (some i)
      else findFree f s clause (i + 1)
    else .ok none

/-- How the watch loop of `propagate` for one trail literal ends: `return UNSAT`,
or control reaches the outer loop again (end of chain or `break`) with the
local `forced`. -/
inductive WatchExit where
  | unsat (s : State)
  | cont (s : State) (forced : Int)

/-- How the body of the watch loop of `propagate` ends when `*watch != END`:
control returns to the loop head, `return UNSAT` is executed, or `analyze` is
called on `clause`. -/
inductive WatchStep where
  | next (s : State) (watch : WatchPtr)
  | unsat (s : State)
  | conflict (s : State) (clause : Int)

/-- The body of the loop `while (*watch != END) ...` of `propagate` for the
falsified literal `lit`, up to the call of `analyze`. -/
def watchStep (fuel : Nat) (s : State) (lit forced : Int) (watch : WatchPtr) :
    Except Fault WatchStep :=
  let clause0 := watch.get s + 1
  let clause := if s.DB (clause0 - 2) = 0 then clause0 + 1 else clause0
  let s1 := if s.DB clause = lit then { s with DB := put s.DB clause (s.DB (clause + 1)) }
            else s
  match findFree fuel s1 clause 2 with
  | .error e => .error e
  | .ok (some i) =>
    let s2 := { s1 with DB := put s1.DB (clause + 1) (s1.DB (clause + i)) }
    let s3 := { s2 with DB := put s2.DB (clause + i) lit }
    let store := watch.get s3
    let s4 := watch.set s3 (s3.DB (watch.get s3))
    let s5 := addWatch s4 (s4.DB (clause + 1)) store
    .ok (.next s5 watch)
  | .ok none =>
    let s2 := { s1 with DB := put s1.DB (clause + 1) lit }
    let watch1 := WatchPtr.cell (watch.get s2)
    if s2.mfalse (-(s2.DB clause)) ≠ 0 then .ok (.next s2 watch1)
    else if s2.mfalse (s2.DB clause) = 0 then .ok (.next (assign s2 clause forced) watch1)
    else if forced ≠ 0 then .ok (.unsat s2)
    else .ok (.conflict s2 clause)

/-- The loop `while (*watch != END) ...` of `propagate` for the falsified
literal `lit`. -/
def watchLoop (fuel : Nat) : Nat → State → Int → Int → WatchPtr → Except Fault WatchExit
  | 0, _, _, _, _ => .error .outOfFuel
  | f + 1, s, lit, forced, watch =>
    if watch.get s ≠ END then
      match watchStep fuel s lit forced watch with
      | .error e => .error e
      | .ok (.next s1 watch1) => watchLoop fuel f s1 lit forced watch1
      | .ok (.unsat s1) => .ok (.unsat s1)
      | .ok (.conflict s2 clause) =>
        match analyze fuel s2 clause with
        | .error e => .error e
        | .ok (lem, s3) =>
          let forced1 := if s3.DB (lem + 1) = 0 then 1 else forced
          .ok (.cont (assign s3 lem forced1) forced1)
    else .ok (.cont s forced)

/-- The loop `while (processed < assigned) ...` of `propagate` and the code
after it: the returned `int` and the new state. -/
def propagateLoop (fuel : Nat) : Nat → State → Int → Except Fault (Int × State)
  | 0, _, _ => .error .outOfFuel
  | f + 1, s, forced =>
    if s.processed < s.assigned then
      let lit := s.mfalseStack s.processed
      let s1 := { s with processed := s.processed + 1 }
      match watchLoop fuel fuel s1 lit forced (.head lit) with
      | .error e => .error e
      | .ok (.unsat s2) => .ok (UNSAT, s2)
      | .ok (.cont s2 forced1) => propagateLoop fuel f s2 forced1
    else
      .ok (SAT, if forced ≠ 0 then { s with forced := s.processed } else s)

/-- `propagate()`. -/
def propagate (fuel : Nat) (s : State) : Except Fault (Int × State) :=
  propagateLoop fuel fuel s (s.reason (absInt (s.mfalseStack s.processed)))

/-! ## solve -/

/-- The loop `while (mfalse[decision] || mfalse[-decision]) decision = prev[decision];`
of `solve`: the final `decision`. -/
def nextDecision : Nat → State → Int → Except Fault Int
  | 0, _, _ => .error .outOfFuel
  | f + 1, s, decision =>
    if s.mfalse decision ≠ 0 ∨ s.mfalse (-decision) ≠ 0 then nextDecision f s (s.prev decision)
    else .ok decision

/-- The part of the main loop of `solve` between the call of `propagate` and
the decision loop: the new state and the new value of `decision`. -/
def afterPropagate (fuel : Nat) (s : State) (old_nLemmas decision : Int) :
    Except Fault (State × Int) :=
  if s.nLemmas > old_nLemmas then
    let decision1 := s.head
    if s.fast > (Int.tdiv s.slow 100) * 60 then
      let s1 := { s with res := 0 }
      let s2 := { s1 with fast := (Int.tdiv s1.slow 100) * 60 }
      let s3 := restart s2
      if s3.nLemmas > s3.maxLemmas then
        match reduceDB fuel s3 6 with
        | .error e => .error e
        | .ok s4 => .ok (s4, decision1)
      else .ok (s3, decision1)
    else .ok (s, decision1)
  else .ok (s, decision)

/-- How one iteration of the main loop of `solve` ends: `return`, or the next
iteration with the new value of `decision`. -/
inductive SolveStep where
  | done (r : Int) (s : State)
  | next (s : State) (decision : Int)

/-- The body of the main loop `for (;;)` of `solve`. -/
def solveStep (fuel : Nat) (s : State) (decision : Int) : Except Fault SolveStep :=
  let old_nLemmas := s.nLemmas
  match propagate fuel s with
  | .error e => .error e
  | .ok (r, s1) =>
    if r = UNSAT then .ok (.done UNSAT s1)
    else
      match afterPropagate fuel s1 old_nLemmas decision with
      | .error e => .error e
      | .ok (s2, decision1) =>
        match nextDecision fuel s2 decision1 with
        | .error e => .error e
        | .ok decision2 =>
          if decision2 = 0 then .ok (.done SAT s2)
          else
            let decision3 := if s2.model decision2 ≠ 0 then decision2 else -decision2
            let s3 := { s2 with mfalse := put s2.mfalse (-decision3) 1 }
            let s4 := { s3 with mfalseStack := put s3.mfalseStack s3.assigned (-decision3),
                                assigned := s3.assigned + 1 }
            let decision4 := absInt decision3
            let s5 := { s4 with reason := put s4.reason decision4 0 }
            .ok (.next s5 decision4)

/-- The main loop `for (;;)` of `solve`: the returned `int` and the final state. -/
def solveLoop (fuel : Nat) : Nat → State → Int → Except Fault (Int × State)
  | 0, _, _ => .error .outOfFuel
  | f + 1, s, decision =>
    match solveStep fuel s decision with
    | .error e => .error e
    | .ok (.done r s1) => .ok (r, s1)
    | .ok (.next s1 decision1) => solveLoop fuel f s1 decision1

/-- `solve()`. -/
def solve (fuel : Nat) (s : State) : Except Fault (Int × State) :=
  let decision := s.head
  solveLoop fuel fuel { s with res := 0 } decision

/-! ## initCDCL and the loading of clauses -/

/-- The loop `for (i = 1; i <= n; i++)` of `initCDCL` from `i` on, with `k`
iterations left. -/
def initLists : Nat → Int → State → State
  | 0, _, s => s
  | k + 1, i, s =>
    let s1 := { s with prev := put s.prev i (i - 1) }
    let s2 := { s1 with next := put s1.next (i - 1) i }
    let s3 := { s2 with mfalse := put s2.mfalse i 0 }
    let s4 := { s3 with mfalse := put s3.mfalse (-i) 0 }
    let s5 := { s4 with model := put s4.model i 0 }
    let s6 := { s5 with first := put s5.first (-i) END }
    let s7 := { s6 with first := put s6.first i END }
    initLists k (i + 1) s7

/-- The sizes of the blocks that `initCDCL` takes from the arena, in order:
`model`, `next`, `prev`, `buffer`, `reason`, `mfalseStack`, `mfalse`, `first`. -/
def initBlocks (n : Int) : List Int :=
  [n + 1, n + 1, n + 1, n, n + 1, n + 1, 2 * n + 1, 2 * n + 1]

/-- The successive `getMemory` calls of `initCDCL`. -/
def getBlocks : List Int → State → Except Fault State
  | [], s => .ok s
  | b :: bs, s =>
    match getMemory s b with
    | .error e => .error e
    | .ok (_, s1) => getBlocks bs s1

/-- `initCDCL(n, m)` run on the object `s`; the arrays of `s` stand for the
content of the memory that `malloc` returns. -/
def initCDCL (s : State) (n0 m : Int) : Except Fault State :=
  let n := if n0 < 1 then 1 else n0
  let s1 := { s with nVars := n, nClauses := m, mem_max := 1 <<< 30, mem_used := 0,
                     nLemmas := 0, nConflicts := 0, maxLemmas := 3000,
                     fast := 1 <<< 24, slow := 1 <<< 24 }
  match getBlocks (initBlocks n) s1 with
  | .error e => .error e
  | .ok s2 =>
    let s3 := { s2 with forced := 0, processed := 0, assigned := 0 }
    let s4 := { s3 with DB := put s3.DB s3.mem_used 0, mem_used := s3.mem_used + 1 }
    let s5 := initLists n.toNat 1 s4
    .ok { s5 with head := n }

/-- The loop `this->buffer[size++] = lit;` of `parse` for the literals of one
clause, from index `size` on.  `parse` does not compare `size` with the
`nVars` cells of the buffer: the literals of a longer clause land in the
members that follow it. -/
def fillBuffer : List Int → Int → State → State
  | [], _, s => s
  | l :: ls, size, s => fillBuffer ls (size + 1) (setBufferCell s size l)

/-- What `parse` does with one clause: `none` stands for its `return UNSAT`. -/
def loadClause (s : State) (lits : List Int) : Except Fault (Option State) :=
  let size : Int := lits.length
  match addClause (fillBuffer lits 0 s) (.raw 0) size 1 with
  | .error e => .error e
  | .ok (clause, s1) =>
    if size = 0 ∨ (size = 1 ∧ s1.mfalse (s1.DB clause) ≠ 0) then .ok none
    else if size = 1 ∧ s1.mfalse (-(s1.DB clause)) = 0 then .ok (some (assign s1 clause 1))
    else .ok (some s1)

/-- The clause loop of `parse` over a list of clauses. -/
def loadClauses : List (List Int) → State → Except Fault (Option State)
  | [], s => .ok (some s)
  | c :: cs, s =>
    match loadClause s c with
    | .error e => .error e
    | .ok none => .ok none
    | .ok (some s1) => loadClauses cs s1

/-- The `int` returned by a run, when it returned. -/
def answer (r : Except Fault (Int × State)) : Option Int :=
  match r with
  | .error _ => none
  | .ok (a, _) => some a

/-- The final state of a run, turned into the value `model[v]`. -/
def modelAt (r : Except Fault (Int × State)) (v : Int) : Option Int :=
  match r with
  | .error _ => none
  | .ok (_, s) => some (s.model v)


/-- The cells `in[0..size)` are not among the cells `addClause` writes before it
has read them: a buffer is never written, an arena pointer is safe when the
sequence ends below the new block or starts at or above its literal area, and
a sequence followed from `this->buffer` is safe when it ends inside the
buffer. -/
def LitPtr.clearOf (s : State) (size : Int) : LitPtr → Prop
  | .buf _ => True
  | .db o => o + size ≤ s.mem_used ∨ s.mem_used + 2 ≤ o
  | .raw o => o + size ≤ s.nVars


/-- The state in which `solve` is called on a formula: `initCDCL(n, m)` on
zeroed memory followed by the clause loop of `parse`; `none` when that loop
returns UNSAT or the arena is exhausted. -/
def loaded (n m : Int) (cs : List (List Int)) : Option State :=
  match initCDCL zeroState n m with
  | .error _ => none
  | .ok s =>
    match loadClauses cs s with
    | .ok (some s1) => some s1
    | _ => none

/-- A small object used to instantiate statements: zeroed memory with room for
64 cells and the literals 1, -2 in the clause buffer. -/
def sampleState : State :=
  { zeroState with mem_max := 64, buffer := put (put zeroState.buffer 0 1) 1 (-2) }

/-! ## Invariants of the solver state -/

/-- A literal over the variables `1..n`. -/
def IsLit (n l : Int) : Prop := l ≠ 0 ∧ -n ≤ l ∧ l ≤ n

instance (n l : Int) : Decidable (IsLit n l) := by
  unfold IsLit
  infer_instance

/-- A clause block of the arena: the offset `c` of its first link cell and the
number `k` of its literals.  The literals are the cells `c+2 .. c+1+k`, the
terminating 0 is the cell `c+2+k`. -/
structure Blk where
  c : Int
  k : Nat

/-- The value of `mem_used` when `initCDCL(n, m)` returns. -/
def arenaBase (n : Int) : Int := 10 * n + 8

/-- The blocks (newest first) tile the interval `[lo, hi)` of the arena. -/
def Layout (lo : Int) : List Blk → Int → Prop
  | [], hi => hi = lo
  | b :: bs, hi => hi = b.c + b.k + 3 ∧ Layout lo bs b.c

/-- The body of a block holds `k ≥ 1` literals and then 0. -/
def BlkOK (n : Int) (DB : Cells) (b : Blk) : Prop :=
  1 ≤ b.k ∧ (∀ i : Nat, i < b.k → IsLit n (DB (b.c + 2 + i))) ∧ DB (b.c + 2 + b.k) = 0

/-- The pointer value `v` leads through the link cells `ws`, in this order, to
the value `e`. -/
def Lseg (DB : Cells) : Int → List Int → Int → Prop
  | v, [], e => v = e
  | v, w :: ws, e => v = w ∧ w ≠ END ∧ Lseg DB (DB w) ws e

/-- The logical description of the arena: its blocks (newest first) and, for
every literal, the link cells of its watch chain in chain order. -/
structure Ghost where
  bs : List Blk
  ch : Int → List Int

/-- The arena is tiled by well-formed blocks and the watch chains are
well-formed, pairwise disjoint lists of link cells. -/
structure ArenaCore (g : Ghost) (s : State) : Prop where
  npos : 1 ≤ s.nVars
  base0 : s.DB (arenaBase s.nVars - 1) = 0
  layout : Layout (arenaBase s.nVars) g.bs s.mem_used
  blk : ∀ b ∈ g.bs, BlkOK s.nVars s.DB b
  seg : ∀ l, IsLit s.nVars l → Lseg s.DB (s.first l) (g.ch l) END
  nodup : ∀ l, (g.ch l).Nodup
  cell : ∀ l w, w ∈ g.ch l →
    IsLit s.nVars l ∧ ∃ b ∈ g.bs, 2 ≤ b.k ∧ (w = b.c ∨ w = b.c + 1)
  disj : ∀ l l2 w, w ∈ g.ch l → w ∈ g.ch l2 → l = l2

/-- The two link cells of the block `b` are in the chains of its first two
literals, one in each. -/
def Watched (g : Ghost) (DB : Cells) (b : Blk) : Prop :=
  (b.c ∈ g.ch (DB (b.c + 2)) ∧ b.c + 1 ∈ g.ch (DB (b.c + 3))) ∨
  (b.c ∈ g.ch (DB (b.c + 3)) ∧ b.c + 1 ∈ g.ch (DB (b.c + 2)))

/-- The arena invariant: `ArenaCore`, and every block of at least two literals
is watched by its first two literals. -/
structure ArenaInv (g : Ghost) (s : State) extends ArenaCore g s : Prop where
  watched : ∀ b ∈ g.bs, 2 ≤ b.k → Watched g s.DB b

/-- The trail entry at index `i` is a decision. -/
def IsDec (s : State) (i : Int) : Prop := s.reason (absInt (s.mfalseStack i)) = 0

/-- The trail holds literals of pairwise different variables, and `mfalse` is
non-zero exactly on the trail entries. -/
structure TrailInv (s : State) : Prop where
  f0 : 0 ≤ s.forced
  fp : s.forced ≤ s.processed
  pa : s.processed ≤ s.assigned
  lit : ∀ i, 0 ≤ i → i < s.assigned → IsLit s.nVars (s.mfalseStack i)
  inj : ∀ i j, 0 ≤ i → i < s.assigned → 0 ≤ j → j < s.assigned →
    absInt (s.mfalseStack i) = absInt (s.mfalseStack j) → i = j
  mf : ∀ l, s.mfalse l ≠ 0 ↔ ∃ i, 0 ≤ i ∧ i < s.assigned ∧ s.mfalseStack i = l

/-- The labels of the trail entries; `fl` is the local variable `forced` of
`propagate`. -/
structure LevelInv (s : State) (fl : Int) : Prop where
  root : ∀ i, 0 ≤ i → i < s.forced →
    s.mfalse (s.mfalseStack i) = IMPLIED ∧ ¬ IsDec s i
  rootMode : fl ≠ 0 → ∀ i, s.forced ≤ i → i < s.assigned →
    s.mfalse (s.mfalseStack i) = IMPLIED ∧ ¬ IsDec s i
  search : fl = 0 → ∀ i, s.forced ≤ i → i < s.assigned → s.mfalse (s.mfalseStack i) = 1
  firstDec : fl = 0 → s.forced < s.assigned → IsDec s s.forced
  pend : ∀ i, s.processed < i → i < s.assigned → ¬ IsDec s i

/-- Every propagated entry above `forced` has a reason clause in the arena: its
first literal is the negation of the entry, its other literals are earlier
trail entries, one of them with no decision between it and the entry. -/
structure ReasonInv (g : Ghost) (s : State) : Prop where
  ok : ∀ i, s.forced ≤ i → i < s.assigned → ¬ IsDec s i →
    ∃ b ∈ g.bs, 2 ≤ b.k ∧ s.reason (absInt (s.mfalseStack i)) = b.c + 3 ∧
      s.DB (b.c + 2) = -(s.mfalseStack i) ∧
      (∀ t : Nat, 1 ≤ t → t < b.k →
        ∃ j, 0 ≤ j ∧ j < i ∧ s.mfalseStack j = s.DB (b.c + 2 + t)) ∧
      (∃ t : Nat, 1 ≤ t ∧ t < b.k ∧ ∃ j, 0 ≤ j ∧ j < i ∧
        s.mfalseStack j = s.DB (b.c + 2 + t) ∧ ∀ m, j < m → m ≤ i → ¬ IsDec s m)

/-- The two-watched-literal invariant, per link cell: when the literal `l` of
the chain holding the cell `u` is a trail entry that propagation has dealt with
for `u`, the literal `l2` of the chain holding the other link cell `v` of the
block is true, and no backjump can unassign it without unassigning `l`.
`rest` lists the cells of the chain of the entry at `processed - 1` that are
still to be visited. -/
structure WatchInv (g : Ghost) (s : State) (rest : List Int) : Prop where
  ok : ∀ b ∈ g.bs, 2 ≤ b.k → ∀ u v l l2,
    ((u = b.c ∧ v = b.c + 1) ∨ (u = b.c + 1 ∧ v = b.c)) → u ∈ g.ch l → v ∈ g.ch l2 →
    ∀ i, 0 ≤ i → i < s.assigned → s.mfalseStack i = l →
      (i + 1 < s.processed ∨ (i + 1 = s.processed ∧ u ∉ rest)) →
      ∃ j, 0 ≤ j ∧ j < s.assigned ∧ s.mfalseStack j = -l2 ∧
        (j < i ∨ ∀ m, i < m → m ≤ j → ¬ IsDec s m)

/-- The state at the head of the loop `while (processed < assigned)` of
`propagate`, with the local variable `forced` equal to `fl`. -/
structure PInv (g : Ghost) (s : State) (fl : Int) : Prop where
  arena : ArenaInv g s
  trail : TrailInv s
  level : LevelInv s fl
  reason : fl = 0 → ReasonInv g s
  watch2 : WatchInv g s []

/-- The state at the head of the loop `while (*watch != END)` of `propagate`
for the trail entry `lit`: `visited` are the cells of its chain that the loop
has passed, `rest` those still to come. -/
structure WLoop (g : Ghost) (s : State) (fl lit : Int) (watch : WatchPtr)
    (visited rest : List Int) : Prop where
  arena : ArenaInv g s
  trail : TrailInv s
  level : LevelInv s fl
  reason : fl = 0 → ReasonInv g s
  watch2 : WatchInv g s rest
  fpos : s.forced < s.processed
  cur : s.mfalseStack (s.processed - 1) = lit
  pend : ∀ m, s.processed ≤ m → m < s.assigned → ¬ IsDec s m
  chain : g.ch lit = visited ++ rest
  wptr : (visited = [] ∧ watch = WatchPtr.head lit) ∨
    (∃ vs u, visited = vs ++ [u] ∧ watch = WatchPtr.cell u)

/-- The chains after the link cell `w` has moved from the chain of `lit`,
which becomes `rem`, to the front of the chain of `x`. -/
def Ghost.move (g : Ghost) (lit x w : Int) (rem : List Int) : Ghost :=
  { bs := g.bs,
    ch := fun l => if l = x then w :: g.ch x else if l = lit then rem else g.ch l }

/-! ## Named steps of the watch loop of `propagate` -/

/-- The pointer `clause` that the watch loop derives from `*watch`. -/
def wlClause (s : State) (watch : WatchPtr) : Int :=
  if s.DB (watch.get s + 1 - 2) = 0 then watch.get s + 1 + 1 else watch.get s + 1

/-- The state after `if (clause[0] == lit) clause[0] = clause[1];`. -/
def wlFront (s : State) (clause lit : Int) : State :=
  if s.DB clause = lit then { s with DB := put s.DB clause (s.DB (clause + 1)) } else s

/-- The state after the body of `if (!mfalse[clause[i]]) ...`: the literal at
index `i` becomes the second watched literal and the link cell moves to its
chain. -/
def wlSwap (s1 : State) (clause lit i : Int) (watch : WatchPtr) : State :=
  let s2 := { s1 with DB := put s1.DB (clause + 1) (s1.DB (clause + i)) }
  let s3 := { s2 with DB := put s2.DB (clause + i) lit }
  let store := watch.get s3
  let s4 := watch.set s3 (s3.DB (watch.get s3))
  addWatch s4 (s4.DB (clause + 1)) store

/-- The state after `clause[1] = lit;`. -/
def wlUnit (s1 : State) (clause lit : Int) : State :=
  { s1 with DB := put s1.DB (clause + 1) lit }

/-- The state in which the falsified literal `lit` is the second literal of
the clause: `wlFront` followed by `wlUnit`. -/
def wlNorm (s : State) (clause lit : Int) : State :=
  wlUnit (wlFront s clause lit) clause lit

/-- The hypotheses under which `assign(r, fl)` extends the trail: the first
literal `y` of the clause is a literal and neither it nor its negation is on
the trail. -/
structure Fresh (s : State) (y : Int) : Prop where
  isLit : IsLit s.nVars y
  free : s.mfalse y = 0
  nfree : s.mfalse (-y) = 0

/-- The description of the arena after a clause of `k` literals starting with
`x0`, `x1` has been added at offset `c`. -/
def Ghost.push (g : Ghost) (c : Int) (k : Nat) (x0 x1 : Int) : Ghost :=
  { bs := ⟨c, k⟩ :: g.bs,
    ch := fun l => (if 2 ≤ k ∧ l = x1 then [c + 1] else []) ++
      ((if 2 ≤ k ∧ l = x0 then [c] else []) ++ g.ch l) }

/-! ## Invariants of conflict analysis -/

/-- The members that `analyze` leaves alone until it calls `addClause`. -/
structure Static (t s : State) : Prop where
  nVars : s.nVars = t.nVars
  DB : s.DB = t.DB
  first : s.first = t.first
  mem_used : s.mem_used = t.mem_used
  mem_max : s.mem_max = t.mem_max
  mem_fixed : s.mem_fixed = t.mem_fixed
  nLemmas : s.nLemmas = t.nLemmas
  maxLemmas : s.maxLemmas = t.maxLemmas
  mfalseStack : s.mfalseStack = t.mfalseStack
  reason : s.reason = t.reason
  forced : s.forced = t.forced
  model : s.model = t.model

/-- The state in which `propagate` calls `analyze` on the clause block `b`:
a search state in which every literal of `b` is falsified and the second one is
the trail entry that is being processed. -/
structure Conflict (g : Ghost) (t : State) (b : Blk) : Prop where
  arena : ArenaInv g t
  trail : TrailInv t
  level : LevelInv t 0
  reason : ReasonInv g t
  fpos : t.forced < t.processed
  pend : ∀ m, t.processed ≤ m → m < t.assigned → ¬ IsDec t m
  hb : b ∈ g.bs
  hk : 2 ≤ b.k
  allFalse : ∀ r : Nat, r < b.k → t.mfalse (t.DB (b.c + 2 + r)) ≠ 0
  cur : t.DB (b.c + 3) = t.mfalseStack (t.processed - 1)

/-- The index `D` of the last decision on the trail. -/
structure TopDec (t : State) (D : Int) : Prop where
  lo : t.forced ≤ D
  hi : D < t.processed
  dec : IsDec t D
  top : ∀ m, D < m → m < t.assigned → ¬ IsDec t m

/-- The head of the first loop of `analyze`: the entries from `assigned` on are
unassigned, and an entry of the last decision level is marked. -/
structure Resolving (t s : State) (D : Int) : Prop where
  static : Static t s
  lo : D < s.assigned
  hi : s.assigned ≤ t.assigned
  below : ∀ i, 0 ≤ i → i < t.forced → s.mfalse (t.mfalseStack i) = IMPLIED
  mid : ∀ i, t.forced ≤ i → i < s.assigned →
    s.mfalse (t.mfalseStack i) = 1 ∨ s.mfalse (t.mfalseStack i) = MARK
  gone : ∀ l, s.mfalse l ≠ 0 → ∃ i, 0 ≤ i ∧ i < s.assigned ∧ t.mfalseStack i = l
  marked : ∃ i, D ≤ i ∧ i < s.assigned ∧ s.mfalse (t.mfalseStack i) = MARK

/-- The label `build` of `analyze`: the entry at `assigned` is the only marked
entry of the last decision level. -/
structure Resolved (t s : State) (D : Int) : Prop where
  static : Static t s
  lo : D ≤ s.assigned
  hi : s.assigned < t.assigned
  below : ∀ i, 0 ≤ i → i < t.forced → s.mfalse (t.mfalseStack i) = IMPLIED
  mid : ∀ i, t.forced ≤ i → i ≤ s.assigned →
    s.mfalse (t.mfalseStack i) = 1 ∨ s.mfalse (t.mfalseStack i) = MARK
  gone : ∀ l, s.mfalse l ≠ 0 → ∃ i, 0 ≤ i ∧ i ≤ s.assigned ∧ t.mfalseStack i = l
  uip : s.mfalse (t.mfalseStack s.assigned) = MARK
  alone : ∀ i, D ≤ i → i < s.assigned → s.mfalse (t.mfalseStack i) = 1

/-- The labels while `analyze` builds the learned clause: entries above
`forced` carry 1, `MARK`, or a cached answer of `implied` (`IMPLIED - 1` or
`IMPLIED`); the entries of the last decision level below the one at `A` are
never cached as implied. -/
structure Cache (t s : State) (D A : Int) : Prop where
  static : Static t s
  below : ∀ i, 0 ≤ i → i < t.forced → s.mfalse (t.mfalseStack i) = IMPLIED
  vals : ∀ i, t.forced ≤ i → i ≤ A →
    s.mfalse (t.mfalseStack i) = 1 ∨ s.mfalse (t.mfalseStack i) = MARK ∨
    s.mfalse (t.mfalseStack i) = IMPLIED - 1 ∨ s.mfalse (t.mfalseStack i) = IMPLIED
  top : ∀ i, D ≤ i → i < A →
    s.mfalse (t.mfalseStack i) = 1 ∨ s.mfalse (t.mfalseStack i) = IMPLIED - 1
  gone : ∀ l, s.mfalse l ≠ 0 → ∃ i, 0 ≤ i ∧ i ≤ A ∧ t.mfalseStack i = l

/-- The context of the loop `while (*(++p))` of `implied(lit)` with `p` at
offset `p0`: `lit` is the propagated trail entry at index `i0`, `p0` points
into its reason clause, and a literal of that clause from the last decision
level, if there is one, is still ahead. -/
structure InReason (g : Ghost) (t s : State) (D i0 lit p0 : Int) : Prop where
  lo : t.forced ≤ i0
  prop : ¬ IsDec t i0
  lbl : s.mfalse lit = 1 ∨ s.mfalse lit = MARK
  blk : ∃ rb ∈ g.bs, ∃ r0 : Nat, r0 < rb.k ∧ p0 = rb.c + 2 + r0 ∧
    t.reason (absInt lit) = rb.c + 3 ∧
    (∀ ts : Nat, 1 ≤ ts → ts < rb.k →
      ∃ j, 0 ≤ j ∧ j < i0 ∧ t.mfalseStack j = t.DB (rb.c + 2 + ts)) ∧
    (D ≤ i0 → ∃ ts : Nat, r0 < ts ∧ ts < rb.k ∧ ∃ j, D ≤ j ∧ j < i0 ∧
      t.mfalseStack j = t.DB (rb.c + 2 + ts))

/-- The head of the loop `while (p >= forced)` of `analyze` with `p` at trail
index `p`: the entries above `p` are relabelled 1, the buffer starts with the
entry at `A` (the first unique implication point), and `processed` is the
lowest decision index passed while the buffer held one literal. -/
structure Building (t s : State) (D A p size : Int) : Prop where
  cache : Cache t s D A
  asg : s.assigned = A
  plo : t.forced - 1 ≤ p
  phi : p ≤ A
  finished : ∀ i, p < i → i ≤ A → s.mfalse (t.mfalseStack i) = 1
  uip : p = A → s.mfalse (t.mfalseStack A) = MARK ∧ size = 0
  first : p < A → 1 ≤ size ∧ s.buffer 0 = t.mfalseStack A
  high : D ≤ p → p < A → size = 1
  proc : p < D → IsDec t s.processed ∧ p < s.processed ∧ s.processed ≤ D
  one : p < D → size = 1 → ∀ m, p < m → m < s.processed → ¬ IsDec t m
  more : p < D → 2 ≤ size → ∃ q1, p < q1 ∧ q1 < s.processed ∧
    s.buffer 1 = t.mfalseStack q1 ∧ (∀ m, q1 < m → m < s.processed → ¬ IsDec t m) ∧
    ∀ r, 2 ≤ r → r < size → ∃ q, p < q ∧ q < q1 ∧ s.buffer r = t.mfalseStack q

/-- The state `s` that `analyze` returns, with the learned clause of `k`
literals at offset `lem`, for a conflict in state `t`: the trail is cut at the
decision index `P`, the first literal of the clause is an unassigned former
trail entry, the others are entries below `P`, the second one of the level
that ends at `P`. -/
structure Learned (g : Ghost) (t s : State) (lem : Int) (k : Nat) (P : Int) : Prop where
  off : lem = t.mem_used + 2
  k1 : 1 ≤ k
  arena : ArenaInv (g.push t.mem_used k (s.DB lem) (s.DB (lem + 1))) s
  lo : t.forced ≤ P
  hi : P < t.processed
  dec : IsDec t P
  asg : s.assigned = P
  proc : s.processed = P
  forced : s.forced = t.forced
  nVars : s.nVars = t.nVars
  trail : s.mfalseStack = t.mfalseStack
  reason : s.reason = t.reason
  model : s.model = t.model
  mem_fixed : s.mem_fixed = t.mem_fixed
  mem_max : s.mem_max = t.mem_max
  maxLemmas : s.maxLemmas = t.maxLemmas
  nLemmas : s.nLemmas = t.nLemmas + 1
  old : ∀ x, x < t.mem_used → s.DB x = t.DB x
  root : ∀ i, 0 ≤ i → i < t.forced → s.mfalse (t.mfalseStack i) = IMPLIED
  kept : ∀ i, t.forced ≤ i → i < P → s.mfalse (t.mfalseStack i) = 1
  gone : ∀ l, s.mfalse l ≠ 0 → ∃ i, 0 ≤ i ∧ i < P ∧ t.mfalseStack i = l
  uip : ∃ A, P ≤ A ∧ A < t.assigned ∧ s.DB lem = t.mfalseStack A
  fin : s.DB (lem + k) = 0
  unit : k = 1 → P = t.forced
  second : 2 ≤ k → ∃ q1, t.forced ≤ q1 ∧ q1 < P ∧ s.DB (lem + 1) = t.mfalseStack q1 ∧
    (∀ m, q1 < m → m < P → ¬ IsDec t m) ∧
    ∀ r : Nat, 2 ≤ r → r < k → ∃ q, t.forced ≤ q ∧ q < q1 ∧ s.DB (lem + r) = t.mfalseStack q

/-! ## The decision list and the layout of the formula -/

/-- The list `vs` is doubly linked: `prev` leads from every element to the next
one of the list and from the last one to 0, `next` leads back. -/
def Linked (prev next : Cells) : List Int → Prop
  | [] => True
  | [v] => prev v = 0
  | a :: b :: vs => prev a = b ∧ next b = a ∧ Linked prev next (b :: vs)

/-- The decision list: `order` holds every variable once, starts at `head` and
is linked by `prev` (towards the end) and `next` (towards the head). -/
structure Vmtf (s : State) (order : List Int) : Prop where
  nodup : order.Nodup
  mem : ∀ v, v ∈ order ↔ 1 ≤ v ∧ v ≤ s.nVars
  head : order.head? = some s.head
  linked : Linked s.prev s.next order

/-- The irredundant clauses are the blocks below `mem_fixed`, the lemmas the
blocks above; lemmas exist only when there are irredundant clauses. -/
structure FixedInv (g : Ghost) (s : State) (lem fix : List Blk) : Prop where
  split : g.bs = lem ++ fix
  layout : fix ≠ [] → Layout (arenaBase s.nVars) fix s.mem_fixed
  none : fix = [] → lem = []

/-- The members that one iteration of the watch loop of `propagate` leaves
alone when no conflict is analysed. -/
structure Admin (s s2 : State) : Prop where
  nVars : s2.nVars = s.nVars
  next : s2.next = s.next
  prev : s2.prev = s.prev
  head : s2.head = s.head
  mem_used : s2.mem_used = s.mem_used
  mem_fixed : s2.mem_fixed = s.mem_fixed
  mem_max : s2.mem_max = s.mem_max
  nLemmas : s2.nLemmas = s.nLemmas
  maxLemmas : s2.maxLemmas = s.maxLemmas

/-! ## Reachable states -/

/-- The states and values of `decision` at the head of the main loop of
`solve`, for the formula `cs` over `n` variables loaded by `parse`. -/
inductive SolveHead (n m : Int) (cs : List (List Int)) : State → Int → Prop
  | init (s : State) : loaded n m cs = some s → SolveHead n m cs { s with res := 0 } s.head
  | step (fuel : Nat) (s : State) (d : Int) (s1 : State) (d1 : Int) :
      SolveHead n m cs s d → solveStep fuel s d = .ok (.next s1 d1) → SolveHead n m cs s1 d1

/-- The states and values of the local `forced` at the head of the loop
`while (processed < assigned)` of a call of `propagate` made by `solve`. -/
inductive PropHead (n m : Int) (cs : List (List Int)) : State → Int → Prop
  | start (s : State) (d : Int) : SolveHead n m cs s d →
      PropHead n m cs s (s.reason (absInt (s.mfalseStack s.processed)))
  | iter (fuel : Nat) (s : State) (fl : Int) (s2 : State) (fl1 : Int) :
      PropHead n m cs s fl → s.processed < s.assigned →
      watchLoop fuel fuel { s with processed := s.processed + 1 } (s.mfalseStack s.processed)
        fl (.head (s.mfalseStack s.processed)) = .ok (.cont s2 fl1) →
      PropHead n m cs s2 fl1

/-- The states at the head of the loop `while (*watch != END)` of `propagate`,
with the literal `lit` being processed, the local `forced` and the pointer
`watch`. -/
inductive WatchHead (n m : Int) (cs : List (List Int)) :
    State → Int → Int → WatchPtr → Prop
  | start (s : State) (fl : Int) : PropHead n m cs s fl → s.processed < s.assigned →
      WatchHead n m cs { s with processed := s.processed + 1 } (s.mfalseStack s.processed) fl
        (.head (s.mfalseStack s.processed))
  | next (fuel : Nat) (s : State) (lit fl : Int) (w : WatchPtr) (s1 : State) (w1 : WatchPtr) :
      WatchHead n m cs s lit fl w → w.get s ≠ END →
      watchStep fuel s lit fl w = .ok (.next s1 w1) → WatchHead n m cs s1 lit fl w1

/-- The invariants of the members that the two-watched-literal scheme does not
read: the decision list and the border between clauses and lemmas. -/
structure Extra (N : Int) (g : Ghost) (s : State) : Prop where
  nvars : s.nVars = N
  vmtf : ∃ order, Vmtf s order
  fixed : ∃ lem fix, FixedInv g s lem fix ∧ s.nLemmas = lem.length
  maxpos : 0 ≤ s.maxLemmas

/-- The chains when the link cells from offset `F` on have left them. -/
def Ghost.keepBelow (g : Ghost) (F : Int) (bs : List Blk) : Ghost :=
  { bs := bs, ch := fun l => (g.ch l).filter (fun w => decide (w < F)) }

/-- The members that `reduceDB` leaves alone. -/
structure Kept (s t : State) : Prop where
  nVars : t.nVars = s.nVars
  mfalse : t.mfalse = s.mfalse
  mfalseStack : t.mfalseStack = s.mfalseStack
  reason : t.reason = s.reason
  forced : t.forced = s.forced
  processed : t.processed = s.processed
  assigned : t.assigned = s.assigned
  model : t.model = s.model
  next : t.next = s.next
  prev : t.prev = s.prev
  head : t.head = s.head
  mem_fixed : t.mem_fixed = s.mem_fixed
  mem_max : t.mem_max = s.mem_max

/-- The head of the second loop of `reduceDB` with `i` at the first literal of
the oldest lemma of `rem` (newest first): these lemmas are still intact at
their old place, the arena `gc` ends at or below that place, and every block of
`gc` has the literals of a block of the arena `g0` before the call. -/
structure Sweeping (g0 : Ghost) (s0 : State) (fix : List Blk) (gc : Ghost) (t : State)
    (rem : List Blk) (i U : Int) : Prop where
  arena : ArenaInv gc t
  tiles : Layout (i - 2) rem U
  room : t.mem_used ≤ i - 2
  sub : ∀ b ∈ rem, b ∈ g0.bs
  intact : ∀ b ∈ rem, ∀ x, b.c + 2 ≤ x → x ≤ b.c + 2 + b.k → t.DB x = s0.DB x
  prov : ∀ b2 ∈ gc.bs, ∃ b ∈ g0.bs, b2.k = b.k ∧
    ∀ r : Nat, r < b.k → t.DB (b2.c + 2 + r) = s0.DB (b.c + 2 + r)
  fixed : ∃ lemc, FixedInv gc t lemc fix ∧ t.nLemmas = lemc.length
  fixbody : ∀ b ∈ fix, ∀ r : Nat, r < b.k → t.DB (b.c + 2 + r) = s0.DB (b.c + 2 + r)
  maxpos : 0 ≤ t.maxLemmas
  keep : Kept s0 t

/-- The state between the literals `i - 1` and `i` of the first loop of
`reduceDB`: the chains of the literals below `i` hold no lemma any more. -/
structure Unwatching (g : Ghost) (s t : State) (i : Int) : Prop where
  frame : t = { s with DB := t.DB, first := t.first }
  done : ∀ l, IsLit s.nVars l → l < i →
    Lseg t.DB (t.first l) ((g.ch l).filter (fun w => decide (w < s.mem_fixed))) END
  todo : ∀ l, IsLit s.nVars l → i ≤ l → Lseg t.DB (t.first l) (g.ch l) END
  same : ∀ y, (∀ l, y ∉ (g.ch l).filter (fun w => decide (w < s.mem_fixed))) → t.DB y = s.DB y

/-- When a watched literal of the block at `c` is falsified, the other one is
true. -/
def TwoWatch (s : State) (c : Int) : Prop :=
  (s.mfalse (s.DB (c + 2)) ≠ 0 → s.mfalse (-(s.DB (c + 3))) ≠ 0) ∧
  (s.mfalse (s.DB (c + 3)) ≠ 0 → s.mfalse (-(s.DB (c + 2))) ≠ 0)

/-- The invariant at the head of the main loop of `solve`, with the variable
`d` in `decision`. -/
def SInv (N : Int) (s : State) (d : Int) : Prop :=
  ∃ g, PInv g s (s.reason (absInt (s.mfalseStack s.processed))) ∧ Extra N g s ∧
    1 ≤ d ∧ d ≤ N

/-! ## The loaded formula -/

/-- The variables `k, k-1, .., 1`: the decision list that `initCDCL` builds. -/
def countdown : Nat → List Int
  | 0 => []
  | k + 1 => ((k : Int) + 1) :: countdown k

/-- The object of `initCDCL(n, m)` on zeroed memory when its allocations are
done and the cell before the first clause is written, before the loop over the
variables. -/
def initArena (n m : Int) : State :=
  { zeroState with
    nVars := n
    nClauses := m
    mem_max := 1 <<< 30
    mem_used := 10 * n + 8
    maxLemmas := 3000
    fast := 1 <<< 24
    slow := 1 <<< 24
    DB := put zeroState.DB (10 * n + 7) 0 }

/-- The state between two clauses of the loading loop of `parse`: the trail
holds the unit clauses met so far, nothing has been propagated, there is no
lemma. -/
structure Loading (N : Int) (g : Ghost) (s : State) : Prop where
  arena : ArenaInv g s
  trail : TrailInv s
  forced : s.forced = 0
  processed : s.processed = 0
  units : ∀ i, 0 ≤ i → i < s.assigned →
    s.mfalse (s.mfalseStack i) = IMPLIED ∧ ¬ IsDec s i
  nvars : s.nVars = N
  vmtf : ∃ order, Vmtf s order
  fixed : FixedInv g s [] g.bs
  nLemmas : s.nLemmas = 0
  maxLemmas : s.maxLemmas = 3000

/-- The clause blocks of the arena as the state shows them: the first one
starts where `initCDCL` left `mem_used`, each one holds two link cells, its
non-zero literals and a 0, and the next one follows it. `ArenaBlock s c k`: a
block of `k` literals starts at offset `c`. -/
inductive ArenaBlock (s : State) : Int → Nat → Prop
  | first (k : Nat) : arenaBase s.nVars < s.mem_used →
      (∀ i : Nat, i < k → s.DB (arenaBase s.nVars + 2 + i) ≠ 0) →
      s.DB (arenaBase s.nVars + 2 + k) = 0 → ArenaBlock s (arenaBase s.nVars) k
  | next (c : Int) (k k1 : Nat) : ArenaBlock s c k → c + k + 3 < s.mem_used →
      (∀ i : Nat, i < k1 → s.DB (c + k + 3 + 2 + i) ≠ 0) →
      s.DB (c + k + 3 + 2 + k1) = 0 → ArenaBlock s (c + k + 3) k1

/-! ## Runs on a small formula, used to instantiate the statements -/

/-- The state and the decision with which an iteration of the main loop of
`solve` hands over to the next one. -/
def nextOf (r : Except Fault SolveStep) : Option (State × Int) :=
  match r with
  | .ok (.next s d) => some (s, d)
  | _ => none

/-- The state and the pointer with which an iteration of the watch loop of
`propagate` hands over to the next one. -/
def watchNextOf (r : Except Fault WatchStep) : Option (State × WatchPtr) :=
  match r with
  | .ok (.next s w) => some (s, w)
  | _ => none

/-- The state and the clause that an iteration of the watch loop of
`propagate` passes to `analyze`. -/
def conflictOf (r : Except Fault WatchStep) : Option (State × Int) :=
  match r with
  | .ok (.conflict s c) => some (s, c)
  | _ => none

/-- The result of a run that returned. -/
def resultOf {α : Type} (r : Except Fault α) : Option α :=
  match r with
  | .ok a => some a
  | .error _ => none

/-- The formula `(x1 ∨ x2) ∧ (¬x1 ∨ x2)`. -/
def sampleCnf : List (List Int) := [[1, 2], [-1, 2]]

/-- The state in which `solve` is called on `sampleCnf`. -/
def sampleLoaded : State := (loaded 2 2 sampleCnf).getD zeroState

/-- The head of the second iteration of the main loop of `solve` on
`sampleCnf`: the first decision has been pushed. -/
def sampleDecided : State × Int :=
  (nextOf (solveStep 10 { sampleLoaded with res := 0 } sampleLoaded.head)).getD (zeroState, 0)

/-- What `propagate` returns after the first decision on `sampleCnf`. -/
def samplePropagated : Int × State :=
  (resultOf (propagate 10 sampleDecided.1)).getD (0, zeroState)

/-! ## Quiescent states and watch chains as the state shows them -/

/-- The walk along a watch chain: `ChainReach DB v w` when the link cell `w` is
met by the walk that starts with the pointer value `v` and follows `DB[v]`
until `END`. -/
inductive ChainReach (DB : Cells) : Int → Int → Prop
  | here (w : Int) : w ≠ END → ChainReach DB w w
  | step (v w : Int) : v ≠ END → ChainReach DB (DB v) w → ChainReach DB v w

/-- What `reduceDB(6)` returns in the state in which `solve` is called on
`sampleCnf`, where `nLemmas` is 0 and `maxLemmas` is 3000. -/
def sampleReduced : State := (resultOf (reduceDB 10 sampleLoaded 6)).getD zeroState

/-- The state in which `solve` is called on `sampleCnf`, with the counter
`nLemmas` set to 3001. -/
def sampleOverfull : State := { sampleLoaded with nLemmas := 3001 }

/-- What `reduceDB(6)` returns in the state `sampleOverfull`. -/
def sampleOverfullReduced : State := (resultOf (reduceDB 10 sampleOverfull 6)).getD zeroState

/-! ### A run in which `implied` answers 1 -/

/-- The formula `(x4 ∨ x3) ∧ (x2 ∨ x1 ∨ x4 ∨ ¬x3) ∧ (x2 ∨ ¬x1 ∨ ¬x3)`. -/
def chainCnf : List (List Int) := [[4, 3], [2, 1, 4, -3], [2, -1, -3]]

/-- The state in which `solve` is called on `chainCnf`. -/
def chainLoaded : State := (loaded 4 3 chainCnf).getD zeroState

/-- The head of the second iteration of the main loop of `solve` on `chainCnf`:
the decision `¬x4` has been pushed. -/
def chainHead1 : State × Int :=
  (nextOf (solveStep 20 { chainLoaded with res := 0 } chainLoaded.head)).getD (zeroState, 0)

/-- The head of the third iteration of the main loop of `solve` on `chainCnf`:
`x3` has been propagated and the decision `¬x2` has been pushed. -/
def chainHead2 : State × Int :=
  (nextOf (solveStep 20 chainHead1.1 chainHead1.2)).getD (zeroState, 0)

/-- The literal that the second decision on `chainCnf` falsifies. -/
def chainLit : Int := chainHead2.1.mfalseStack chainHead2.1.processed

/-- The head of the second iteration of the watch loop for `chainLit`. -/
def chainWatch1 : State × WatchPtr :=
  (watchNextOf (watchStep 20 { chainHead2.1 with processed := chainHead2.1.processed + 1 }
    chainLit (chainHead2.1.reason (absInt chainLit)) (.head chainLit))).getD (zeroState, .head 0)

/-- The conflict that the second iteration of the watch loop meets on
`chainCnf`: the state and the clause passed to `analyze`. -/
def chainConflict : State × Int :=
  (conflictOf (watchStep 20 chainWatch1.1 chainLit (chainHead2.1.reason (absInt chainLit))
    chainWatch1.2)).getD (zeroState, 0)

/-- The state of `analyze` for `chainConflict` after its first loop, at the
label `build`, with `processed = assigned` set. -/
def chainResolved : State :=
  let s1 := { chainConflict.1 with res := chainConflict.1.res + 1 }
  let s2 := { s1 with nConflicts := s1.nConflicts + 1 }
  let s3 := (resultOf (bumpAll 20 s2 chainConflict.2)).getD zeroState
  let s4 := (resultOf (resolveLoop 20 20 s3)).getD zeroState
  { s4 with processed := s4.assigned }

/-- The test of the first iteration of the loop `while (p >= forced)` of
`analyze` for `chainConflict`. -/
def chainTest : Bool × State :=
  (resultOf (buildTest 20 chainResolved chainResolved.assigned)).getD (false, zeroState)

/-- The state of `analyze` for `chainConflict` at the head of the second
iteration of the loop `while (p >= forced)`. -/
def chainBuild : State := buildNext chainTest.2 chainResolved.assigned 0 chainTest.1

/-- The trail entry `*p` of that iteration, for which `implied` is called. -/
def chainBuildLit : Int := chainBuild.mfalseStack (chainResolved.assigned - 1)

/-- What the call `implied(*p)` of that iteration returns. -/
def chainImplied : Int × State :=
  (resultOf (implied 20 chainBuild chainBuildLit none)).getD (0, zeroState)

/-- What a second call `implied(*p)` returns. -/
def chainImpliedAgain : Int × State :=
  (resultOf (implied 20 chainImplied.2 chainBuildLit none)).getD (0, zeroState)

/-! ## The nesting of the recursive calls of `implied` -/

/-- The loop `while (*(++p))` of `implied(lit)` with `p` at offset `p0`, bounded
by `w` iterations, in which the recursive calls `implied(*p)` are made by
`call`. -/
def scanReason (call : State → Int → Except Fault (Int × State)) :
    Nat → State → Int → Int → Except Fault (Int × State)
  | 0, _, _, _ => .error .outOfFuel
  | w + 1, s, lit, p0 =>
    let p := p0 + 1
    if s.DB p ≠ 0 then
      if s.mfalse (s.DB p) ≠ MARK then
        match call s (s.DB p) with
        | .error e => .error e
        | .ok (r, s1) =>
          if r = 0 then .ok (0, { s1 with mfalse := put s1.mfalse lit (IMPLIED - 1) })
          else scanReason call w s1 lit p
      else scanReason call w s lit p
    else .ok (1, { s with mfalse := put s.mfalse lit IMPLIED })

/-- `implied(lit)` with the nesting of the calls bounded by `d` (the call
itself counts) and every run of its loop bounded by `w` iterations: the same
code as `implied`, with one budget for the depth of the recursion and one for
the loop. -/
def impliedNest (w : Nat) : Nat → State → Int → Except Fault (Int × State)
  | 0, _, _ => .error .outOfFuel
  | d + 1, s, lit =>
    if s.mfalse lit > MARK then .ok (Int.land (s.mfalse lit) MARK, s)
    else if s.reason (absInt lit) = 0 then .ok (0, s)
    else scanReason (impliedNest w d) w s lit (s.reason (absInt lit) - 1)

/-- Every trail entry with a non-zero reason has a reason clause of fewer than
`w` literals after the first, each of them a trail entry strictly below it. -/
def EarlierReasons (s : State) (w : Nat) : Prop :=
  ∀ i, 0 ≤ i → i < s.assigned → s.reason (absInt (s.mfalseStack i)) ≠ 0 →
    ∃ K : Nat, K < w ∧ s.DB (s.reason (absInt (s.mfalseStack i)) + K) = 0 ∧
      ∀ t : Nat, t < K → s.DB (s.reason (absInt (s.mfalseStack i)) + t) ≠ 0 ∧
        ∃ j, 0 ≤ j ∧ j < i ∧ s.mfalseStack j = s.DB (s.reason (absInt (s.mfalseStack i)) + t)

/-! ## The lemmas that `reduceDB` keeps -/

/-- The number of literals `l` among the `k` cells from offset `i` on with
`(l > 0) == model[abs(l)]`: the value of `count` in the second loop of
`reduceDB`. -/
def satCount (s : State) : Int → Nat → Int
  | _, 0 => 0
  | i, k + 1 =>
    (if b2i (decide (s.DB i > 0)) = s.model (absInt (s.DB i)) then 1 else 0) +
      satCount s (i + 1) k

/-- The second loop of `reduceDB(k)` with the lemmas `rem` still to visit: every
lemma of the new arena `bs` is a copy of a lemma of `lem` with a count below
`k`, and the new `nLemmas` counts them. -/
structure Retained (s0 : State) (lem : List Blk) (k : Int) (bs : List Blk) (t : State)
    (rem : List Blk) : Prop where
  sub : ∀ b ∈ rem, b ∈ lem
  num : t.nLemmas + rem.length ≤ lem.length
  copy : ∀ b2 ∈ bs, s0.mem_fixed ≤ b2.c → ∃ b ∈ lem, b2.k = b.k ∧
    (∀ r : Nat, r < b.k → t.DB (b2.c + 2 + r) = s0.DB (b.c + 2 + r)) ∧
    satCount s0 (b.c + 2) b.k < k

/-- What `reduceDB(6)` returns in the state `samplePropagated`, whose arena
holds the two clauses of `sampleCnf` and one lemma. -/
def samplePropagatedReduced : State :=
  (resultOf (reduceDB 20 samplePropagated.2 6)).getD zeroState

/-! ## Properties kept by `propagate` -/

/-- The local `forced` of `propagate` after a lemma has been learned in the
state `s` at offset `lem`: 1 for a unit lemma, otherwise still 0. -/
def learnFlag (s : State) (lem : Int) : Int := if s.DB (lem + 1) = 0 then 1 else 0

/-- A property `A bs s fl` of the blocks `bs` of the arena, the state and the
local `forced` of `propagate` that every step of `propagate` keeps, given the
invariants of the loops: entering the watch loop, an iteration that returns to
its head, an iteration that ends with `return UNSAT`, an iteration that
analyses a conflict and assigns the lemma, and leaving `propagate`. -/
structure PropClosed (fuel : Nat) (N : Int) (A : List Blk → State → Int → Prop) : Prop where
  start : ∀ (g : Ghost) (s : State) (fl : Int), PInv g s fl → Extra N g s →
    s.processed < s.assigned → A g.bs s fl →
    A g.bs { s with processed := s.processed + 1 } fl
  next : ∀ (g : Ghost) (s : State) (fl lit : Int) (w : WatchPtr) (vis rest : List Int)
    (s1 : State) (w1 : WatchPtr), WLoop g s fl lit w vis rest → Extra N g s →
    w.get s ≠ END → A g.bs s fl → watchStep fuel s lit fl w = .ok (.next s1 w1) →
    A g.bs s1 fl
  unsat : ∀ (g : Ghost) (s : State) (fl lit : Int) (w : WatchPtr) (vis rest : List Int)
    (s1 : State), WLoop g s fl lit w vis rest → Extra N g s →
    w.get s ≠ END → A g.bs s fl → watchStep fuel s lit fl w = .ok (.unsat s1) →
    A g.bs s1 fl
  learn : ∀ (g : Ghost) (s : State) (lit : Int) (w : WatchPtr) (vis rest : List Int)
    (s2 : State) (b : Blk) (lem : Int) (s3 : State) (k : Nat) (P : Int),
    WLoop g s 0 lit w vis rest → Extra N g s → w.get s ≠ END → A g.bs s 0 →
    watchStep fuel s lit 0 w = .ok (.conflict s2 (b.c + 2)) → Conflict g s2 b →
    analyze fuel s2 (b.c + 2) = .ok (lem, s3) → Learned g s2 s3 lem k P →
    A (⟨s2.mem_used, k⟩ :: g.bs) (assign s3 lem (learnFlag s3 lem)) (learnFlag s3 lem)
  quiet : ∀ (g : Ghost) (s : State) (fl : Int), PInv g s fl → Extra N g s →
    ¬ s.processed < s.assigned → A g.bs s fl →
    A g.bs (if fl ≠ 0 then { s with forced := s.processed } else s) 0

/-- The variables that precede `d` in the decision list are assigned. -/
def Scanned (s : State) (d : Int) : Prop :=
  ∃ pre post, Vmtf s (pre ++ d :: post) ∧ ∀ v ∈ pre, s.mfalse v ≠ 0 ∨ s.mfalse (-v) ≠ 0

/-- The saved phase of every variable on the trail is the value that the trail
gives it (`model[|e|] = 1` exactly when the falsified entry `e` is negative),
and every saved phase is 0 or 1. -/
structure ModelOK (s : State) : Prop where
  agree : ∀ i, 0 ≤ i → i < s.assigned →
    s.model (absInt (s.mfalseStack i)) = b2i (decide (s.mfalseStack i < 0))
  bool : ∀ v, s.model v = 0 ∨ s.model v = 1

/-- The literals of the block of `k` literals at offset `c`, in the order in
which the arena `DB` holds them. -/
def bodyOf (DB : Cells) (c : Int) (k : Nat) : List Int :=
  (List.range k).map (fun (i : Nat) => DB (c + 2 + (i : Int)))

/-- The watch invariant W1 as a property of one state: for every clause block
of at least two literals, one link cell is met by the walk from
`first[body[0]]`, the other by the walk from `first[body[1]]`, and neither is
met by the walk from the watch head of another literal of `1..nVars`. -/
def W1 (s : State) : Prop :=
  ∀ (c : Int) (k : Nat), ArenaBlock s c k → 2 ≤ k →
    ∃ u v, ((u = c ∧ v = c + 1) ∨ (u = c + 1 ∧ v = c)) ∧
      ChainReach s.DB (s.first (s.DB (c + 2))) u ∧
      ChainReach s.DB (s.first (s.DB (c + 3))) v ∧
      (∀ l, IsLit s.nVars l → ChainReach s.DB (s.first l) u → l = s.DB (c + 2)) ∧
      (∀ l, IsLit s.nVars l → ChainReach s.DB (s.first l) v → l = s.DB (c + 3))

/-- How the arena of `t`, with the blocks `bs`, relates to the arena of the
state `s0` in which `propagate` was called with the blocks `bs0`: the blocks of
`s0` are still there with the same literals up to their order, the other
blocks were appended at or after the old `mem_used`, and `mem_fixed` is the
same. -/
structure KeptBodies (bs0 : List Blk) (s0 : State) (bs : List Blk) (t : State) : Prop where
  more : ∃ new, bs = new ++ bs0 ∧ ∀ b ∈ new, s0.mem_used ≤ b.c
  perm : ∀ b ∈ bs0, (bodyOf t.DB b.c b.k).Perm (bodyOf s0.DB b.c b.k)
  used : s0.mem_used ≤ t.mem_used
  fixed : t.mem_fixed = s0.mem_fixed

/-- The state in which one iteration of the watch loop of `propagate` ends. -/
def WatchStep.after : WatchStep → State
  | .next s _ => s
  | .unsat s => s
  | .conflict s _ => s

/-- The state in which `solve` is called on `sampleCnf`, changed in three
places: the trail holds the one entry 0, which is not a literal, and `first[0]`,
which is the watch head of no literal, holds the offset of the first link cell
of the first clause. -/
def strayState : State :=
  { sampleLoaded with
    first := put sampleLoaded.first 0 (arenaBase sampleLoaded.nVars),
    mfalseStack := put sampleLoaded.mfalseStack 0 0,
    assigned := 1 }

/-- What `propagate` returns in the state `strayState`. -/
def strayResult : Int × State :=
  (resultOf (propagate 10 strayState)).getD (0, zeroState)

/-- What `propagate` returns after the second decision on `chainCnf`: it has
met a conflict and learned a lemma. -/
def chainPropagated : Int × State :=
  (resultOf (propagate 20 chainHead2.1)).getD (0, zeroState)

/-! ## The original clauses across `solve` -/

/-- The pointer `clause` that the watch loop of `propagate` derives from the
watch entry `w`: `DB + w + 1`, advanced by one cell when `clause[-2]` is 0. -/
def headerPtr (s : State) (w : Int) : Int :=
  if s.DB (w + 1 - 2) = 0 then w + 1 + 1 else w + 1

/-! ## Decision levels of a learned clause -/

instance (s : State) (i : Int) : Decidable (IsDec s i) := by
  unfold IsDec
  infer_instance

/-- The literals `buffer[0..size)`. -/
def bufList (s : State) (size : Int) : List Int :=
  (List.range size.toNat).map (fun (r : Nat) => s.buffer (r : Int))

/-- The decision levels of the trail of `t`, among the entries with an index
above `lo` and up to `hi`, that hold a literal of `lits`. A level is the
segment of a decision and the propagated entries above it, and is named by the
index `d` of its decision: it holds a literal of `lits` when some entry at an
index `i ≥ d`, with no decision in `(d, i]`, is in `lits`. -/
def lemmaLevels (t : State) (lits : List Int) (lo hi : Int) : Finset Int :=
  (Finset.Ioc lo hi).filter (fun d => IsDec t d ∧
    ∃ i ∈ Finset.Icc d hi, t.mfalseStack i ∈ lits ∧ ∀ m ∈ Finset.Ioc d i, ¬ IsDec t m)

/-- The head of the loop `while (p >= forced)` of `analyze` with the locals
`p`, `size`, `lbd` and `flag`, for the conflict state `t` and the index `A` at
which the loop started: the buffer holds entries above `p`, `lbd` counts the
levels above `p` that hold a literal of the buffer, and `flag` is 1 exactly
when an entry above `p` with no decision between `p` and it is in the buffer. -/
structure LbdInv (t s : State) (A p size lbd flag : Int) : Prop where
  size0 : 0 ≤ size
  src : ∀ l ∈ bufList s size, ∃ i, p < i ∧ i ≤ A ∧ t.mfalseStack i = l
  lbd : lbd = ((lemmaLevels t (bufList s size) p A).card : Int)
  flag : (flag = 1 ∧ ∃ i, p < i ∧ i ≤ A ∧ t.mfalseStack i ∈ bufList s size ∧
      ∀ m, p < m → m ≤ i → ¬ IsDec t m) ∨
    (flag = 0 ∧ ¬ ∃ i, p < i ∧ i ≤ A ∧ t.mfalseStack i ∈ bufList s size ∧
      ∀ m, p < m → m ≤ i → ¬ IsDec t m)

/-! ## Truth assignments -/

/-- The value of the literal `l` under the assignment `σ` of the variables. -/
def litTrue (σ : Int → Bool) (l : Int) : Bool := if l > 0 then σ l else !(σ (-l))

/-- The assignment `σ` gives the value false to every trail entry of `t` below
the index `j` that is labelled `MARK` in `s`. -/
def MarkFalse (σ : Int → Bool) (t s : State) (j : Int) : Prop :=
  ∀ i, 0 ≤ i → i < j → s.mfalse (t.mfalseStack i) = MARK → litTrue σ (t.mfalseStack i) = false

theorem absInt_eq_abs (x : Int) : absInt x = |x| := by
  unfold absInt
  split_ifs with h
  · exact (abs_of_neg h).symm
  · exact (abs_of_nonneg (not_lt.mp h)).symm

theorem put_same (a : Cells) (k v : Int) : put a k v k = v := by simp [put]

theorem put_other (a : Cells) (k v i : Int) (h : i ≠ k) : put a k v i = a i := by
  simp [put, h]

theorem copyLits_frame (inp : LitPtr) (c : Int) (k : Nat) :
    ∀ (i : Int) (s : State),
      copyLits inp c k i s = { s with DB := (copyLits inp c k i s).DB } := by
  induction k with
  | zero => intro i s; rfl
  | succ k ih =>
    intro i s
    simp only [copyLits]
    rw [ih]

theorem bufferCell_inside {s : State} {i : Int} (h : i < s.nVars) :
    bufferCell s i = s.buffer i := by
  unfold bufferCell
  rw [if_pos h]

theorem bufferCell_congr {a s : State} {j : Int} (hn : a.nVars = s.nVars)
    (hb : a.buffer = s.buffer) (h : j < s.nVars) : bufferCell a j = bufferCell s j := by
  rw [bufferCell_inside (by rw [hn]; exact h), bufferCell_inside h, hb]

theorem copyLits_DB (inp : LitPtr) (c : Int) (k : Nat) :
    ∀ (i : Int) (s : State),
      (∀ o, inp = .db o → ∀ j j2 : Int, i ≤ j2 → j2 < j → j < i + k → o + j ≠ c + j2) →
      (∀ o, inp = .raw o → ∀ j : Int, j < i + k → o + j < s.nVars) →
      ∀ x, (copyLits inp c k i s).DB x =
        if c + i ≤ x ∧ x < c + i + k then inp.get s (x - c) else s.DB x := by
  induction k with
  | zero =>
    intro i s _ _ x
    have : ¬ (c + i ≤ x ∧ x < c + i + ((0 : Nat) : Int)) := by
      push_cast; omega
    simp only [copyLits, this, if_false]
  | succ k ih =>
    intro i s hsafe hraw x
    simp only [copyLits]
    rw [ih (i + 1)]
    · by_cases hx : x = c + i
      · subst hx
        have h1 : ¬ (c + (i + 1) ≤ c + i ∧ c + i < c + (i + 1) + (k : Int)) := by omega
        have h2 : (c + i ≤ c + i ∧ c + i < c + i + ((k + 1 : Nat) : Int)) := by
          push_cast; omega
        rw [if_neg h1, if_pos h2]
        simp only [put, if_true]
        congr 1
        omega
      · by_cases hr : c + (i + 1) ≤ x ∧ x < c + (i + 1) + (k : Int)
        · have h2 : (c + i ≤ x ∧ x < c + i + ((k + 1 : Nat) : Int)) := by
            push_cast; omega
          rw [if_pos hr, if_pos h2]
          cases inp with
          | buf o => rfl
          | db o =>
            simp only [LitPtr.get]
            have hne : o + (x - c) ≠ c + i := by
              apply hsafe o rfl (x - c) i (le_refl _)
              · omega
              · push_cast; omega
            simp [put, hne]
          | raw o =>
            have hlt : o + (x - c) < s.nVars := by
              apply hraw o rfl
              push_cast; omega
            simp only [LitPtr.get]
            rw [bufferCell_inside (by exact hlt), bufferCell_inside hlt]
        · have h2 : ¬ (c + i ≤ x ∧ x < c + i + ((k + 1 : Nat) : Int)) := by
            push_cast; omega
          rw [if_neg hr, if_neg h2]
          simp [put, hx]
    · intro o ho j j2 h1 h2 h3
      apply hsafe o ho j j2 (by omega) h2
      push_cast; omega
    · intro o ho j h1
      apply hraw o ho j
      push_cast; omega

theorem copyLits_fields (inp : LitPtr) (c : Int) (k : Nat) (i : Int) (s : State) :
    (copyLits inp c k i s).first = s.first ∧ (copyLits inp c k i s).mem_used = s.mem_used ∧
    (copyLits inp c k i s).mem_fixed = s.mem_fixed ∧
    (copyLits inp c k i s).nLemmas = s.nLemmas ∧
    (copyLits inp c k i s).buffer = s.buffer := by
  rw [copyLits_frame]
  exact ⟨rfl, rfl, rfl, rfl, rfl⟩

/-- C4. `addClause(in, size, irr)` in a state with `mem_used + size + 3 <= mem_max`,
for a sequence `in[0..size)` that the call does not overwrite before reading it
(`LitPtr.clearOf`): it returns the old `mem_used + 2`, sets `mem_used` to the old
`mem_used + size + 3`, stores `in[i]` at the old `mem_used + 2 + i` for `i < size`
and 0 at the old `mem_used + 2 + size`; with `irr != 0` it sets `mem_fixed` to
the new `mem_used` and keeps `nLemmas`, otherwise it adds 1 to `nLemmas` and
keeps `mem_fixed`; with `size <= 1` every watch head `first[l]` is unchanged. -/
theorem addClause_post (s : State) (inp : LitPtr) (size : Nat) (irr : Int)
    (hmem : s.mem_used + size + 3 ≤ s.mem_max) (hin : inp.clearOf s size) :
    ∃ s1, addClause s inp size irr = .ok (s.mem_used + 2, s1) ∧
      s1.mem_used = s.mem_used + size + 3 ∧
      (∀ i : Nat, i < size → s1.DB (s.mem_used + 2 + i) = inp.get s i) ∧
      s1.DB (s.mem_used + 2 + size) = 0 ∧
      (irr ≠ 0 → s1.mem_fixed = s1.mem_used ∧ s1.nLemmas = s.nLemmas) ∧
      (irr = 0 → s1.nLemmas = s.nLemmas + 1 ∧ s1.mem_fixed = s.mem_fixed) ∧
      (size ≤ 1 → ∀ l, s1.first l = s.first l) := by
  have hget : getMemory s ((size : Int) + 3) =
      .ok (s.mem_used, { s with mem_used := s.mem_used + ((size : Int) + 3) }) := by
    unfold getMemory
    rw [if_neg]
    omega
  -- the state after the two `addWatch` calls
  obtain ⟨s2, hs2, hs2first, hs2used, hs2fixed, hs2lem, hs2buf, hs2DB⟩ :
      ∃ s2 : State,
        s2 = (if (size : Int) > 1 then
                addWatch (addWatch { s with mem_used := s.mem_used + ((size : Int) + 3) }
                  (inp.get { s with mem_used := s.mem_used + ((size : Int) + 3) } 0) s.mem_used)
                  (inp.get (addWatch { s with mem_used := s.mem_used + ((size : Int) + 3) }
                    (inp.get { s with mem_used := s.mem_used + ((size : Int) + 3) } 0)
                    s.mem_used) 1) (s.mem_used + 1)
              else { s with mem_used := s.mem_used + ((size : Int) + 3) }) ∧
        (size ≤ 1 → s2.first = s.first) ∧ s2.mem_used = s.mem_used + ((size : Int) + 3) ∧
        s2.mem_fixed = s.mem_fixed ∧ s2.nLemmas = s.nLemmas ∧ s2.buffer = s.buffer ∧
        (∀ x, x ≠ s.mem_used → x ≠ s.mem_used + 1 → s2.DB x = s.DB x) := by
    refine ⟨_, rfl, ?_, ?_, ?_, ?_, ?_, ?_⟩
    · intro h
      rw [if_neg (by omega)]
    · split_ifs <;> rfl
    · split_ifs <;> rfl
    · split_ifs <;> rfl
    · split_ifs <;> rfl
    · intro x h1 h2
      split_ifs
      · simp [addWatch, put, h1, h2]
      · rfl
  have hsafe : ∀ o, inp = .db o → ∀ j j2 : Int, 0 ≤ j2 → j2 < j → j < 0 + (size : Int) →
      o + j ≠ s.mem_used + 2 + j2 := by
    intro o ho j j2 h1 h2 h3
    subst ho
    simp only [LitPtr.clearOf] at hin
    omega
  have hs2n : s2.nVars = s.nVars := by
    rw [hs2]
    split_ifs <;> rfl
  have hraw : ∀ o, inp = .raw o → ∀ j : Int, j < 0 + (size : Int) → o + j < s2.nVars := by
    intro o ho j h1
    subst ho
    simp only [LitPtr.clearOf] at hin
    rw [hs2n]
    omega
  have hread : ∀ i : Nat, i < size → inp.get s2 i = inp.get s i := by
    intro i hi
    cases inp with
    | buf o => simp only [LitPtr.get, hs2buf]
    | db o =>
      simp only [LitPtr.clearOf] at hin
      simp only [LitPtr.get]
      apply hs2DB <;> omega
    | raw o =>
      simp only [LitPtr.clearOf] at hin
      simp only [LitPtr.get]
      rw [bufferCell_inside (by rw [hs2n]; omega), bufferCell_inside (by omega), hs2buf]
  have hcopy := copyLits_DB inp (s.mem_used + 2) size 0 s2 hsafe hraw
  obtain ⟨hcfirst, hcused, hcfixed, hclem, -⟩ := copyLits_fields inp (s.mem_used + 2) size 0 s2
  unfold addClause
  rw [hget]
  simp only [Int.toNat_ofNat, ← hs2]
  refine ⟨_, rfl, ?_, ?_, ?_, ?_, ?_, ?_⟩
  · split_ifs
    · show (copyLits inp (s.mem_used + 2) size 0 s2).mem_used = _
      rw [hcused, hs2used]; ring
    · show (copyLits inp (s.mem_used + 2) size 0 s2).mem_used = _
      rw [hcused, hs2used]; ring
  · intro i hi
    have hval : (copyLits inp (s.mem_used + 2) size 0 s2).DB (s.mem_used + 2 + i) =
        inp.get s i := by
      rw [hcopy, if_pos (by omega)]
      have : s.mem_used + 2 + (i : Int) - (s.mem_used + 2) = i := by ring
      rw [this]
      exact hread i hi
    have hne : s.mem_used + 2 + (i : Int) ≠ s.mem_used + 2 + (size : Int) := by omega
    split_ifs <;> simp [put, hne, hval]
  · split_ifs <;> simp [put]
  · intro hirr
    rw [if_pos hirr]
    refine ⟨rfl, ?_⟩
    show (copyLits inp (s.mem_used + 2) size 0 s2).nLemmas = _
    rw [hclem, hs2lem]
  · intro hirr
    rw [if_neg (by simpa using hirr)]
    refine ⟨?_, ?_⟩
    · show (copyLits inp (s.mem_used + 2) size 0 s2).nLemmas + 1 = _
      rw [hclem, hs2lem]
    · show (copyLits inp (s.mem_used + 2) size 0 s2).mem_fixed = _
      rw [hcfixed, hs2fixed]
  · intro hsz l
    have : (copyLits inp (s.mem_used + 2) size 0 s2).first = s.first := by
      rw [hcfirst, hs2first hsz]
    split_ifs <;> simp [this]

theorem addClause_post_witness :
    sampleState.mem_used + (2 : Nat) + 3 ≤ sampleState.mem_max ∧
    (LitPtr.buf 0).clearOf sampleState (2 : Nat) ∧
    ∃ s1, addClause sampleState (.buf 0) (2 : Nat) 1 = .ok (sampleState.mem_used + 2, s1) ∧
      s1.mem_used = sampleState.mem_used + (2 : Nat) + 3 ∧
      (∀ i : Nat, i < 2 → s1.DB (sampleState.mem_used + 2 + i) =
        (LitPtr.buf 0).get sampleState i) ∧
      s1.DB (sampleState.mem_used + 2 + (2 : Nat)) = 0 ∧
      ((1 : Int) ≠ 0 → s1.mem_fixed = s1.mem_used ∧ s1.nLemmas = sampleState.nLemmas) ∧
      ((1 : Int) = 0 → s1.nLemmas = sampleState.nLemmas + 1 ∧
        s1.mem_fixed = sampleState.mem_fixed) ∧
      (2 ≤ 1 → ∀ l, s1.first l = sampleState.first l) :=
  ⟨by decide, trivial, addClause_post sampleState (.buf 0) 2 1 (by decide) trivial⟩

/-- C5. `assign(r, f)` with `l = r[0]`: `mfalse[-l]` becomes `IMPLIED` (6) when
`f != 0` and 1 otherwise, `-l` is written at the old top of the trail and
`assigned` advances by one, `reason[|l|]` becomes the offset of `r` plus 1,
`model[|l|]` becomes 1 if `l > 0` and 0 otherwise, and no other entry of
`mfalse`, `reason`, `model` or the trail changes (nor do `DB`, `forced`,
`processed`).  The condition `l ≠ 0` of the claim is not needed. -/
theorem assign_post (s : State) (r f : Int) :
    (assign s r f).mfalse (-(s.DB r)) = (if f ≠ 0 then IMPLIED else 1) ∧
    IMPLIED = 6 ∧
    (assign s r f).mfalseStack s.assigned = -(s.DB r) ∧
    (assign s r f).assigned = s.assigned + 1 ∧
    (assign s r f).reason |s.DB r| = r + 1 ∧
    (assign s r f).model |s.DB r| = (if s.DB r > 0 then 1 else 0) ∧
    (∀ x, x ≠ -(s.DB r) → (assign s r f).mfalse x = s.mfalse x) ∧
    (∀ v, v ≠ |s.DB r| → (assign s r f).reason v = s.reason v) ∧
    (∀ v, v ≠ |s.DB r| → (assign s r f).model v = s.model v) ∧
    (∀ i, i ≠ s.assigned → (assign s r f).mfalseStack i = s.mfalseStack i) ∧
    (assign s r f).DB = s.DB ∧ (assign s r f).forced = s.forced ∧
    (assign s r f).processed = s.processed := by
  rw [← absInt_eq_abs]
  refine ⟨?_, rfl, ?_, rfl, ?_, ?_, ?_, ?_, ?_, ?_, rfl, rfl, rfl⟩
  · simp [assign, put]
  · simp [assign, put]
  · simp [assign, put]; ring
  · simp [assign, put, b2i]
  · intro x hx; simp [assign, put, hx]
  · intro v hv; simp [assign, put, hv]
  · intro v hv; simp [assign, put, hv]
  · intro i hi; simp [assign, put, hi]

/-! ## End-to-end scenarios -/

set_option maxRecDepth 100000 in
/-- C6. After `initCDCL(3, 6)` on zeroed memory and the loading of the six
clauses of the XOR chain with `irr = 1`, `solve()` returns UNSAT (a loop budget
of 12 is enough). -/
theorem xor_chain_unsat :
    (loaded 3 6 [[1, 2], [-1, -2], [2, 3], [-2, -3], [3, 1], [-3, -1]]).map
      (fun s => answer (solve 12 s)) = some (some UNSAT) := by
  decide!

set_option maxRecDepth 100000 in
/-- C7. After `initCDCL(1, 0)` on zeroed memory with no clause added, `solve()`
returns SAT and `model[1] == 0` (a loop budget of 8 is enough). -/
theorem empty_formula_sat :
    (loaded 1 0 []).map (fun s => (answer (solve 8 s), modelAt (solve 8 s) 1)) =
      some (some SAT, some 0) := by
  decide!

/-! ## Integers and literals -/

theorem absInt_nonneg (x : Int) : 0 ≤ absInt x := by
  unfold absInt; split_ifs <;> omega

theorem absInt_neg (x : Int) : absInt (-x) = absInt x := by
  unfold absInt; split_ifs <;> omega

theorem absInt_eq_iff (x y : Int) : absInt x = absInt y ↔ x = y ∨ x = -y := by
  unfold absInt; split_ifs <;> omega

theorem absInt_eq_zero (x : Int) : absInt x = 0 ↔ x = 0 := by
  unfold absInt; split_ifs <;> omega

theorem IsLit.neg {n l : Int} (h : IsLit n l) : IsLit n (-l) := by
  unfold IsLit at *; omega

theorem IsLit.abs_pos {n l : Int} (h : IsLit n l) : 1 ≤ absInt l ∧ absInt l ≤ n := by
  unfold IsLit at h; unfold absInt; split_ifs <;> omega

theorem IsLit.ne_neg {n l : Int} (h : IsLit n l) : l ≠ -l := by
  unfold IsLit at h; omega

/-! ## The tiling of the arena -/

theorem Layout.le {lo : Int} : ∀ {bs : List Blk} {hi : Int}, Layout lo bs hi → lo ≤ hi
  | [], _, h => by simp only [Layout] at h; omega
  | b :: bs, hi, h => by
    simp only [Layout] at h
    have := Layout.le h.2
    omega

theorem Layout.mem_bounds {lo : Int} : ∀ {bs : List Blk} {hi : Int}, Layout lo bs hi →
    ∀ b ∈ bs, lo ≤ b.c ∧ b.c + b.k + 3 ≤ hi
  | [], _, _, b, hb => by cases hb
  | b0 :: bs, hi, h, b, hb => by
    simp only [Layout] at h
    rcases List.mem_cons.mp hb with rfl | hb
    · exact ⟨Layout.le h.2, by omega⟩
    · have := Layout.mem_bounds h.2 b hb
      omega

/-- Two blocks of a tiling with the same start are the same block, and
different blocks occupy disjoint intervals. -/
theorem Layout.apart {lo : Int} : ∀ {bs : List Blk} {hi : Int}, Layout lo bs hi →
    ∀ b ∈ bs, ∀ b2 ∈ bs, b = b2 ∨ b.c + b.k + 3 ≤ b2.c ∨ b2.c + b2.k + 3 ≤ b.c
  | [], _, _, b, hb, _, _ => by cases hb
  | b0 :: bs, hi, h, b, hb, b2, hb2 => by
    simp only [Layout] at h
    rcases List.mem_cons.mp hb with e1 | m1
    · rcases List.mem_cons.mp hb2 with e2 | m2
      · exact Or.inl (e1.trans e2.symm)
      · have := Layout.mem_bounds h.2 b2 m2
        rw [e1]
        right; right; omega
    · rcases List.mem_cons.mp hb2 with e2 | m2
      · have := Layout.mem_bounds h.2 b m1
        rw [e2]
        right; left; omega
      · exact Layout.apart h.2 b m1 b2 m2

/-- The cell below a block holds 0: the terminator of the block before it, or
the cell that `initCDCL` zeroes. -/
theorem Layout.prev_zero_layout {lo n : Int} {DB : Cells} (h0 : DB (lo - 1) = 0) :
    ∀ {bs : List Blk} {hi : Int}, Layout lo bs hi → (∀ b ∈ bs, BlkOK n DB b) →
    (DB (hi - 1) = 0) ∧ ∀ b ∈ bs, DB (b.c - 1) = 0
  | [], hi, h, _ => by
    simp only [Layout] at h
    subst h
    exact ⟨h0, fun b hb => by cases hb⟩
  | b0 :: bs, hi, h, hok => by
    simp only [Layout] at h
    have ih := Layout.prev_zero_layout h0 h.2 (fun b hb => hok b (List.mem_cons_of_mem _ hb))
    have hb0 := hok b0 (List.mem_cons_self _ _)
    refine ⟨?_, ?_⟩
    · have : hi - 1 = b0.c + 2 + b0.k := by omega
      rw [this]; exact hb0.2.2
    · intro b hb
      rcases List.mem_cons.mp hb with rfl | hb
      · exact ih.1
      · exact ih.2 b hb

/-! ## Chains of link cells -/

theorem Lseg.append_lseg {DB : Cells} : ∀ {xs : List Int} {v : Int} {ys : List Int} {e : Int},
    Lseg DB v (xs ++ ys) e ↔ ∃ m, Lseg DB v xs m ∧ Lseg DB m ys e
  | [], v, ys, e => by
    simp only [List.nil_append, Lseg]
    constructor
    · intro h; exact ⟨v, rfl, h⟩
    · rintro ⟨m, rfl, h⟩; exact h
  | x :: xs, v, ys, e => by
    simp only [List.cons_append, Lseg]
    constructor
    · rintro ⟨h1, h2, h3⟩
      obtain ⟨m, hm1, hm2⟩ := Lseg.append_lseg.mp h3
      exact ⟨m, ⟨h1, h2, hm1⟩, hm2⟩
    · rintro ⟨m, ⟨h1, h2, h3⟩, hm⟩
      exact ⟨h1, h2, Lseg.append_lseg.mpr ⟨m, h3, hm⟩⟩

/-- A chain only depends on the content of its own link cells. -/
theorem Lseg.congr_lseg {DB DB2 : Cells} : ∀ {ws : List Int} {v e : Int},
    (∀ w ∈ ws, DB2 w = DB w) → Lseg DB v ws e → Lseg DB2 v ws e
  | [], _, _, _, h => h
  | w :: ws, v, e, hc, h => by
    simp only [Lseg] at h ⊢
    refine ⟨h.1, h.2.1, ?_⟩
    rw [hc w (List.mem_cons_self _ _)]
    exact Lseg.congr_lseg (fun x hx => hc x (List.mem_cons_of_mem _ hx)) h.2.2

/-- The value stored in the last cell of a non-empty chain segment. -/
theorem Lseg.snoc {DB : Cells} {xs : List Int} {v u e : Int} :
    Lseg DB v (xs ++ [u]) e ↔ ∃ m, Lseg DB v xs m ∧ m = u ∧ u ≠ END ∧ DB u = e := by
  rw [Lseg.append_lseg]
  simp only [Lseg]

theorem Lseg.head_ne_END {DB : Cells} {w : Int} {ws : List Int} {v e : Int}
    (h : Lseg DB v (w :: ws) e) : v = w ∧ w ≠ END := ⟨h.1, h.2.1⟩

/-! ## Frame lemmas: each invariant reads only some members of the state -/

theorem ArenaCore.congr_arenacore {g : Ghost} {s t : State} (h : ArenaCore g s)
    (h1 : t.nVars = s.nVars) (h2 : t.DB = s.DB) (h3 : t.mem_used = s.mem_used)
    (h4 : t.first = s.first) : ArenaCore g t := by
  obtain ⟨a1, a2, a3, a4, a5, a6, a7, a8⟩ := h
  constructor <;> first | assumption | (simp only [h1, h2, h3, h4]; assumption)

theorem ArenaInv.congr_arenainv {g : Ghost} {s t : State} (h : ArenaInv g s)
    (h1 : t.nVars = s.nVars) (h2 : t.DB = s.DB) (h3 : t.mem_used = s.mem_used)
    (h4 : t.first = s.first) : ArenaInv g t :=
  ⟨h.toArenaCore.congr_arenacore h1 h2 h3 h4, by rw [h2]; exact h.watched⟩

theorem IsDec.congr_isdec {s t : State} (h1 : t.reason = s.reason)
    (h2 : t.mfalseStack = s.mfalseStack) (i : Int) : IsDec t i ↔ IsDec s i := by
  unfold IsDec; rw [h1, h2]

theorem TrailInv.congr_trailinv {s t : State} (h : TrailInv s)
    (h1 : t.nVars = s.nVars) (h2 : t.mfalseStack = s.mfalseStack) (h3 : t.mfalse = s.mfalse)
    (h4 : t.forced = s.forced) (h5 : t.processed = s.processed)
    (h6 : t.assigned = s.assigned) : TrailInv t := by
  obtain ⟨a1, a2, a3, a4, a5, a6⟩ := h
  constructor <;> first | assumption | (simp only [h1, h2, h3, h4, h5, h6]; assumption)

theorem LevelInv.congr_levelinv {s t : State} {fl : Int} (h : LevelInv s fl)
    (h2 : t.mfalseStack = s.mfalseStack) (h3 : t.mfalse = s.mfalse)
    (h4 : t.forced = s.forced) (h5 : t.processed = s.processed)
    (h6 : t.assigned = s.assigned) (h7 : t.reason = s.reason) : LevelInv t fl := by
  obtain ⟨a1, a2, a3, a4, a5⟩ := h
  constructor <;> first | assumption | (simp only [IsDec, h2, h3, h4, h5, h6, h7]; assumption)

theorem ReasonInv.congr_reasoninv {g : Ghost} {s t : State} (h : ReasonInv g s)
    (h1 : t.DB = s.DB) (h2 : t.mfalseStack = s.mfalseStack)
    (h4 : t.forced = s.forced) (h6 : t.assigned = s.assigned)
    (h7 : t.reason = s.reason) : ReasonInv g t := by
  obtain ⟨a1⟩ := h
  constructor; simp only [IsDec, h1, h2, h4, h6, h7]; assumption

theorem WatchInv.congr_watchinv {g : Ghost} {s t : State} {rest : List Int} (h : WatchInv g s rest)
    (h2 : t.mfalseStack = s.mfalseStack) (h5 : t.processed = s.processed)
    (h6 : t.assigned = s.assigned) (h7 : t.reason = s.reason) : WatchInv g t rest := by
  obtain ⟨a1⟩ := h
  constructor; simp only [IsDec, h2, h5, h6, h7]; assumption

/-! ## Consequences of the arena invariant -/

theorem arenaBase_pos {n : Int} (h : 1 ≤ n) : 0 < arenaBase n := by
  unfold arenaBase; omega

theorem ArenaCore.blk_bounds {g : Ghost} {s : State} (h : ArenaCore g s) {b : Blk}
    (hb : b ∈ g.bs) : arenaBase s.nVars ≤ b.c ∧ b.c + b.k + 3 ≤ s.mem_used :=
  Layout.mem_bounds h.layout b hb

theorem ArenaCore.prev_zero_arenacore {g : Ghost} {s : State} (h : ArenaCore g s) {b : Blk}
    (hb : b ∈ g.bs) : s.DB (b.c - 1) = 0 :=
  (Layout.prev_zero_layout h.base0 h.layout h.blk).2 b hb

theorem ArenaCore.cell_pos {g : Ghost} {s : State} (h : ArenaCore g s) {l w : Int}
    (hw : w ∈ g.ch l) : 0 < w := by
  obtain ⟨_, b, hb, _, hw⟩ := h.cell l w hw
  have := h.blk_bounds hb
  have := arenaBase_pos h.npos
  omega

theorem Lseg.next_mem_lseg {DB : Cells} : ∀ {ws : List Int} {v : Int}, Lseg DB v ws END →
    ∀ w ∈ ws, DB w = END ∨ DB w ∈ ws
  | [], _, _, w, hw => by cases hw
  | x :: xs, v, h, w, hw => by
    simp only [Lseg] at h
    rcases List.mem_cons.mp hw with e | m
    · subst e
      cases xs with
      | nil => left; simpa [Lseg] using h.2.2
      | cons y ys =>
        right
        have := h.2.2.1
        rw [this]
        exact List.mem_cons_of_mem _ (List.mem_cons_self _ _)
    · rcases Lseg.next_mem_lseg h.2.2 w m with e | m2
      · exact Or.inl e
      · exact Or.inr (List.mem_cons_of_mem _ m2)

/-- A link cell of a chain never holds 0. -/
theorem ArenaCore.cell_ne_zero {g : Ghost} {s : State} (h : ArenaCore g s) {l w : Int}
    (hw : w ∈ g.ch l) : s.DB w ≠ 0 := by
  have hl := (h.cell l w hw).1
  rcases Lseg.next_mem_lseg (h.seg l hl) w hw with e | m
  · rw [e]; decide
  · have := h.cell_pos m
    omega

/-- The literal pointer that `propagate` derives from a watch entry is the
body of the block of that link cell. -/
theorem ArenaInv.header {g : Ghost} {s : State} (h : ArenaInv g s) {l w : Int}
    (hw : w ∈ g.ch l) :
    ∃ b ∈ g.bs, 2 ≤ b.k ∧ (w = b.c ∨ w = b.c + 1) ∧
      (if s.DB (w + 1 - 2) = 0 then w + 1 + 1 else w + 1) = b.c + 2 := by
  obtain ⟨_, b, hb, hk, hwb⟩ := h.cell l w hw
  refine ⟨b, hb, hk, hwb, ?_⟩
  rcases hwb with e | e
  · have hz := h.prev_zero_arenacore hb
    have : w + 1 - 2 = b.c - 1 := by omega
    rw [this, if_pos hz]; omega
  · have hne : s.DB b.c ≠ 0 := by
      rcases h.watched b hb hk with ⟨h1, _⟩ | ⟨h1, _⟩
      · exact h.toArenaCore.cell_ne_zero h1
      · exact h.toArenaCore.cell_ne_zero h1
    have : w + 1 - 2 = b.c := by omega
    rw [this, if_neg hne]; omega

/-- The literal of a chain is one of the two watched literals of the block of
each of its cells. -/
theorem ArenaInv.chain_lit {g : Ghost} {s : State} (h : ArenaInv g s) {l w : Int} {b : Blk}
    (hw : w ∈ g.ch l) (hb : b ∈ g.bs) (hk : 2 ≤ b.k) (hwb : w = b.c ∨ w = b.c + 1) :
    l = s.DB (b.c + 2) ∨ l = s.DB (b.c + 3) := by
  rcases h.watched b hb hk with ⟨h1, h2⟩ | ⟨h1, h2⟩ <;> rcases hwb with e | e <;> subst e
  · exact Or.inl (h.disj _ _ _ hw h1)
  · exact Or.inr (h.disj _ _ _ hw h2)
  · exact Or.inr (h.disj _ _ _ hw h1)
  · exact Or.inl (h.disj _ _ _ hw h2)

/-! ## The scan of the unwatched literals -/

theorem findFree_some : ∀ (f : Nat) (s : State) (c i0 i : Int),
    findFree f s c i0 = .ok (some i) →
    i0 ≤ i ∧ s.DB (c + i) ≠ 0 ∧ s.mfalse (s.DB (c + i)) = 0 ∧
      ∀ t, i0 ≤ t → t < i → s.DB (c + t) ≠ 0 ∧ s.mfalse (s.DB (c + t)) ≠ 0
  | 0, _, _, _, _, h => by simp [findFree] at h
  | f + 1, s, c, i0, i, h => by
    simp only [findFree] at h
    split_ifs at h with h1 h2
    · have e : i0 = i := by simpa using h
      subst e
      exact ⟨le_refl _, h1, h2, fun t ht1 ht2 => by omega⟩
    · obtain ⟨a1, a2, a3, a4⟩ := findFree_some f s c (i0 + 1) i h
      refine ⟨by omega, a2, a3, fun t ht1 ht2 => ?_⟩
      by_cases e : t = i0
      · subst e; exact ⟨h1, h2⟩
      · exact a4 t (by omega) ht2
    · simp at h

theorem findFree_none : ∀ (f : Nat) (s : State) (c i0 : Int),
    findFree f s c i0 = .ok none →
    ∃ e, i0 ≤ e ∧ s.DB (c + e) = 0 ∧
      ∀ t, i0 ≤ t → t < e → s.DB (c + t) ≠ 0 ∧ s.mfalse (s.DB (c + t)) ≠ 0
  | 0, _, _, _, h => by simp [findFree] at h
  | f + 1, s, c, i0, h => by
    simp only [findFree] at h
    split_ifs at h with h1 h2
    · simp at h
    · obtain ⟨e, a1, a2, a4⟩ := findFree_none f s c (i0 + 1) h
      refine ⟨e, by omega, a2, fun t ht1 ht2 => ?_⟩
      by_cases e : t = i0
      · subst e; exact ⟨h1, h2⟩
      · exact a4 t (by omega) ht2
    · exact ⟨i0, le_refl _, by simpa using h1, fun t ht1 ht2 => by omega⟩

/-- In a well-formed block the scan finds an index below the size. -/
theorem findFree_some_lt {n : Int} {s : State} {b : Blk} (hb : BlkOK n s.DB b)
    (hk : 2 ≤ b.k) {f : Nat} {i : Int} (h : findFree f s (b.c + 2) 2 = .ok (some i)) :
    ∃ t : Nat, i = t ∧ 2 ≤ t ∧ t < b.k ∧ s.mfalse (s.DB (b.c + 2 + t)) = 0 ∧
      ∀ r : Nat, 2 ≤ r → r < t → s.mfalse (s.DB (b.c + 2 + r)) ≠ 0 := by
  obtain ⟨a1, a2, a3, a4⟩ := findFree_some f s _ 2 i h
  have hi : i < b.k := by
    by_contra hc
    rcases lt_or_eq_of_le (not_lt.mp hc) with hlt | heq
    · exact (a4 b.k (by omega) hlt).1 hb.2.2
    · rw [← heq] at a2; exact a2 hb.2.2
  refine ⟨i.toNat, by omega, by omega, by omega, ?_, ?_⟩
  · have : (i.toNat : Int) = i := by omega
    rw [this]; exact a3
  · intro r hr1 hr2
    exact (a4 r (by omega) (by omega)).2

/-- In a well-formed block a failed scan has seen all literals from index 2 on. -/
theorem findFree_none_all {n : Int} {s : State} {b : Blk} (hb : BlkOK n s.DB b)
    {f : Nat} (h : findFree f s (b.c + 2) 2 = .ok none) :
    ∀ r : Nat, 2 ≤ r → r < b.k → s.mfalse (s.DB (b.c + 2 + r)) ≠ 0 := by
  obtain ⟨e, a1, a2, a4⟩ := findFree_none f s _ 2 h
  intro r hr1 hr2
  have he : (b.k : Int) ≤ e := by
    by_contra hc
    have := (hb.2.1 e.toNat (by omega)).1
    have he2 : ((e.toNat : Nat) : Int) = e := by omega
    rw [he2] at this
    exact this a2
  exact (a4 r (by omega) (by omega)).2

/-! ## Writes into the body of one block -/

/-- The cells of a chain are not body cells of a block. -/
theorem ArenaCore.cell_not_body {g : Ghost} {s : State} (h : ArenaCore g s) {l w : Int}
    (hw : w ∈ g.ch l) {b : Blk} (hb : b ∈ g.bs) : w < b.c + 2 ∨ b.c + 2 + b.k < w := by
  obtain ⟨_, b2, hb2, _, hw2⟩ := h.cell l w hw
  rcases Layout.apart h.layout b hb b2 hb2 with e | e | e
  · subst e; omega
  · omega
  · omega

theorem ArenaCore.body_update_arenacore {g : Ghost} {s t : State} (h : ArenaCore g s) {b : Blk}
    (hb : b ∈ g.bs)
    (hn : t.nVars = s.nVars) (hm : t.mem_used = s.mem_used) (hf : t.first = s.first)
    (hout : ∀ x, (x < b.c + 2 ∨ b.c + 2 + b.k ≤ x) → t.DB x = s.DB x)
    (hlit : ∀ i : Nat, i < b.k → IsLit s.nVars (t.DB (b.c + 2 + i))) : ArenaCore g t := by
  have hbb := h.blk_bounds hb
  constructor
  · rw [hn]; exact h.npos
  · rw [hn, hout _ (by omega)]; exact h.base0
  · rw [hn, hm]; exact h.layout
  · intro b2 hb2
    rw [hn]
    rcases Layout.apart h.layout b hb b2 hb2 with e | e | e
    · subst e
      refine ⟨(h.blk b hb).1, hlit, ?_⟩
      rw [hout _ (by omega)]; exact (h.blk b hb).2.2
    · obtain ⟨a1, a2, a3⟩ := h.blk b2 hb2
      refine ⟨a1, fun i hi => ?_, ?_⟩
      · rw [hout _ (by omega)]; exact a2 i hi
      · rw [hout _ (by omega)]; exact a3
    · obtain ⟨a1, a2, a3⟩ := h.blk b2 hb2
      refine ⟨a1, fun i hi => ?_, ?_⟩
      · rw [hout _ (by omega)]; exact a2 i hi
      · rw [hout _ (by omega)]; exact a3
  · intro l hl
    rw [hn] at hl
    rw [hf]
    refine Lseg.congr_lseg (fun w hw => ?_) (h.seg l hl)
    have := h.cell_not_body hw hb
    exact hout w (by omega)
  · exact h.nodup
  · rw [hn]; exact h.cell
  · exact h.disj

/-- A body write in one block leaves the watched literals of the others. -/
theorem Watched.body_update_watched {g : Ghost} {s t : State} (h : ArenaCore g s) {b b2 : Blk}
    (hb : b ∈ g.bs) (hb2 : b2 ∈ g.bs) (hne : b2 ≠ b)
    (hout : ∀ x, (x < b.c + 2 ∨ b.c + 2 + b.k ≤ x) → t.DB x = s.DB x)
    (hk2 : 2 ≤ b2.k)
    (hw : Watched g s.DB b2) : Watched g t.DB b2 := by
  have e2 : t.DB (b2.c + 2) = s.DB (b2.c + 2) ∧ t.DB (b2.c + 3) = s.DB (b2.c + 3) := by
    rcases Layout.apart h.layout b hb b2 hb2 with e | e | e
    · exact absurd e.symm hne
    · exact ⟨hout _ (by omega), hout _ (by omega)⟩
    · exact ⟨hout _ (by omega), hout _ (by omega)⟩
  unfold Watched
  rw [e2.1, e2.2]
  exact hw

/-! ## Moving a link cell from one chain to the front of another -/

theorem mem_move {g : Ghost} {s : State} (h : ArenaCore g s) {lit x w : Int}
    {visited rest : List Int} (hne : x ≠ lit) (hch : g.ch lit = visited ++ w :: rest)
    (l u : Int) :
    u ∈ (g.move lit x w (visited ++ rest)).ch l ↔ (l = x ∧ u = w) ∨ (u ≠ w ∧ u ∈ g.ch l) := by
  have hwlit : w ∈ g.ch lit := by rw [hch]; simp
  have hnd := h.nodup lit
  rw [hch] at hnd
  have hwn : w ∉ visited ∧ w ∉ rest := by
    have := List.nodup_append.mp hnd
    refine ⟨fun hv => this.2.2 hv (List.mem_cons_self _ _), ?_⟩
    exact (List.nodup_cons.mp this.2.1).1
  simp only [Ghost.move]
  by_cases hl : l = x
  · subst hl
    rw [if_pos rfl]
    have : w ∉ g.ch l := fun hc => hne (h.disj _ _ _ hc hwlit)
    constructor
    · intro hu
      rcases List.mem_cons.mp hu with e | m
      · exact Or.inl ⟨rfl, e⟩
      · exact Or.inr ⟨fun e => this (e ▸ m), m⟩
    · rintro (⟨_, e⟩ | ⟨_, m⟩)
      · rw [e]; exact List.mem_cons_self _ _
      · exact List.mem_cons_of_mem _ m
  · rw [if_neg hl]
    by_cases hl2 : l = lit
    · subst hl2
      rw [if_pos rfl, hch]
      constructor
      · intro hu
        refine Or.inr ⟨?_, ?_⟩
        · rintro rfl
          rcases List.mem_append.mp hu with m | m
          · exact hwn.1 m
          · exact hwn.2 m
        · rcases List.mem_append.mp hu with m | m
          · exact List.mem_append_left _ m
          · exact List.mem_append_right _ (List.mem_cons_of_mem _ m)
      · rintro (⟨e, _⟩ | ⟨hu1, hu2⟩)
        · exact absurd e hl
        · rcases List.mem_append.mp hu2 with m | m
          · exact List.mem_append_left _ m
          · rcases List.mem_cons.mp m with e | m
            · exact absurd e hu1
            · exact List.mem_append_right _ m
    · rw [if_neg hl2]
      constructor
      · intro hu
        exact Or.inr ⟨fun e => hl2 (h.disj _ _ _ (e ▸ hu) hwlit), hu⟩
      · rintro (⟨e, _⟩ | ⟨_, m⟩)
        · exact absurd e hl
        · exact m

theorem ArenaCore.move {g : Ghost} {s t : State} (h : ArenaCore g s) {lit x w : Int}
    {visited rest : List Int}
    (hx : IsLit s.nVars x) (hlit : IsLit s.nVars lit) (hne : x ≠ lit)
    (hch : g.ch lit = visited ++ w :: rest)
    (hn : t.nVars = s.nVars) (hm : t.mem_used = s.mem_used)
    (hFo : ∀ l, l ≠ x → l ≠ lit → t.first l = s.first l)
    (hFx : t.first x = w) (hDw : t.DB w = s.first x)
    (hlink : (visited = [] ∧ t.first lit = s.DB w ∧ ∀ y, y ≠ w → t.DB y = s.DB y) ∨
      (∃ vs u, visited = vs ++ [u] ∧ t.first lit = s.first lit ∧ t.DB u = s.DB w ∧
        ∀ y, y ≠ w → y ≠ u → t.DB y = s.DB y)) :
    ArenaCore (g.move lit x w (visited ++ rest)) t := by
  have hwlit : w ∈ g.ch lit := by rw [hch]; simp
  have hnd := h.nodup lit
  rw [hch] at hnd
  have hnd2 := List.nodup_append.mp hnd
  have hwr : w ∉ rest := (List.nodup_cons.mp hnd2.2.1).1
  have hwv : w ∉ visited := fun hv => hnd2.2.2 hv (List.mem_cons_self _ _)
  -- cells that are neither `w` nor in `visited` keep their content
  have hD : ∀ y, y ≠ w → y ∉ visited → t.DB y = s.DB y := by
    intro y h1 h2
    rcases hlink with ⟨_, _, hl⟩ | ⟨vs, u, hv, _, _, hl⟩
    · exact hl y h1
    · exact hl y h1 (fun e => h2 (by rw [hv, e]; simp))
  have hDnc : ∀ y, (∀ l, y ∉ g.ch l) → t.DB y = s.DB y := by
    intro y hy
    exact hD y (fun e => hy lit (e ▸ hwlit)) (fun hv => hy lit (by rw [hch]; exact List.mem_append_left _ hv))
  have hbody : ∀ b ∈ g.bs, ∀ y, b.c + 2 ≤ y → y ≤ b.c + 2 + b.k → t.DB y = s.DB y := by
    intro b hb y h1 h2
    apply hDnc
    intro l hy
    have := h.cell_not_body hy hb
    omega
  have hmm := mem_move h hne hch
  constructor
  · rw [hn]; exact h.npos
  · rw [hn, hDnc]
    · exact h.base0
    · intro l hy
      obtain ⟨_, b, hb, _, hy2⟩ := h.cell l _ hy
      have := h.blk_bounds hb
      omega
  · rw [hn, hm]; exact h.layout
  · intro b hb
    rw [hn]
    obtain ⟨a1, a2, a3⟩ := h.blk b hb
    refine ⟨a1, fun i hi => ?_, ?_⟩
    · rw [hbody b hb _ (by omega) (by omega)]; exact a2 i hi
    · rw [hbody b hb _ (by omega) (by omega)]; exact a3
  · intro l hl
    rw [hn] at hl
    simp only [Ghost.move]
    by_cases hlx : l = x
    · subst hlx
      rw [if_pos rfl]
      refine ⟨hFx, ?_, ?_⟩
      · have := h.cell_pos hwlit
        intro e; rw [e] at this; revert this; decide
      · rw [hDw]
        refine Lseg.congr_lseg (fun y hy => ?_) (h.seg l hl)
        apply hD
        · exact fun e => hne (h.disj _ _ _ (e ▸ hy) hwlit)
        · intro hv
          exact hne (h.disj _ _ _ hy (by rw [hch]; exact List.mem_append_left _ hv))
    · rw [if_neg hlx]
      by_cases hll : l = lit
      · subst hll
        rw [if_pos rfl]
        have hold := h.seg l hl
        rw [hch] at hold
        rcases hlink with ⟨hv, hfl, hl2⟩ | ⟨vs, u, hv, hfl, hdu, hl2⟩
        · subst hv
          simp only [List.nil_append] at hold ⊢
          rw [hfl]
          refine Lseg.congr_lseg (fun y hy => ?_) hold.2.2
          exact hl2 y (fun e => hwr (e ▸ hy))
        · subst hv
          obtain ⟨m, hm1, hm2⟩ := Lseg.append_lseg.mp hold
          obtain ⟨m2, hm3, hm4, hm5, hm6⟩ := Lseg.snoc.mp hm1
          have hmw : m = w := hm2.1
          have hund : u ∉ vs ∧ u ∉ rest ∧ u ≠ w := by
            have h1 := List.nodup_append.mp hnd2.1
            refine ⟨fun hc => h1.2.2 hc (List.mem_singleton_self _), ?_, ?_⟩
            · intro hc
              exact hnd2.2.2 (List.mem_append_right _ (List.mem_singleton_self _))
                (List.mem_cons_of_mem _ hc)
            · intro e
              exact hwv (by rw [← e]; simp)
          rw [hfl]
          refine Lseg.append_lseg.mpr ⟨s.DB w, Lseg.snoc.mpr ⟨m2, ?_, hm4, hm5, hdu⟩, ?_⟩
          · refine Lseg.congr_lseg (fun y hy => ?_) hm3
            apply hl2
            · intro e; exact hwv (by rw [← e]; exact List.mem_append_left _ hy)
            · intro e; exact hund.1 (e ▸ hy)
          · refine Lseg.congr_lseg (fun y hy => ?_) hm2.2.2
            apply hl2
            · intro e; exact hwr (e ▸ hy)
            · intro e; exact hund.2.1 (e ▸ hy)
      · rw [if_neg hll, hFo l hlx hll]
        refine Lseg.congr_lseg (fun y hy => ?_) (h.seg l hl)
        apply hD
        · exact fun e => hll (h.disj _ _ _ (e ▸ hy) hwlit)
        · intro hv
          exact hll (h.disj _ _ _ hy (by rw [hch]; exact List.mem_append_left _ hv))
  · intro l
    simp only [Ghost.move]
    by_cases hlx : l = x
    · subst hlx
      rw [if_pos rfl]
      exact List.nodup_cons.mpr ⟨fun hc => hne (h.disj _ _ _ hc hwlit), h.nodup l⟩
    · rw [if_neg hlx]
      by_cases hll : l = lit
      · rw [if_pos hll]
        exact List.nodup_append.mpr ⟨hnd2.1, (List.nodup_cons.mp hnd2.2.1).2,
          fun a ha hb => hnd2.2.2 ha (List.mem_cons_of_mem _ hb)⟩
      · rw [if_neg hll]; exact h.nodup l
  · intro l u hu
    rw [hn]
    rcases (hmm l u).mp hu with ⟨e1, e2⟩ | ⟨_, m⟩
    · subst e1; subst e2
      exact ⟨hx, (h.cell lit _ hwlit).2⟩
    · exact h.cell l u m
  · intro l l2 u hu hu2
    rcases (hmm l u).mp hu with ⟨e1, e2⟩ | ⟨n1, m1⟩ <;>
      rcases (hmm l2 u).mp hu2 with ⟨e3, e4⟩ | ⟨n2, m2⟩
    · rw [e1, e3]
    · exact absurd e2 n2
    · exact absurd e4 n1
    · exact h.disj _ _ _ m1 m2

/-! ## Facts at the head of the watch loop -/

theorem TrailInv.on_trail {s : State} (h : TrailInv s) {i : Int} (h0 : 0 ≤ i)
    (h1 : i < s.assigned) : s.mfalse (s.mfalseStack i) ≠ 0 :=
  (h.mf _).mpr ⟨i, h0, h1, rfl⟩

/-- A literal and its negation are not both on the trail. -/
theorem TrailInv.not_both {s : State} (h : TrailInv s) {l : Int}
    (h1 : s.mfalse l ≠ 0) (h2 : s.mfalse (-l) ≠ 0) : False := by
  obtain ⟨i, hi0, hi1, hi2⟩ := (h.mf _).mp h1
  obtain ⟨j, hj0, hj1, hj2⟩ := (h.mf _).mp h2
  have hl := h.lit i hi0 hi1
  have e : i = j := h.inj i j hi0 hi1 hj0 hj1 (by rw [hi2, hj2, absInt_neg])
  subst e
  rw [hi2] at hj2 hl
  exact hl.ne_neg hj2

theorem TrailInv.pos_unique {s : State} (h : TrailInv s) {i j : Int} (hi0 : 0 ≤ i)
    (hi1 : i < s.assigned) (hj0 : 0 ≤ j) (hj1 : j < s.assigned)
    (e : s.mfalseStack i = s.mfalseStack j) : i = j :=
  h.inj i j hi0 hi1 hj0 hj1 (by rw [e])

theorem WLoop.cur_pos {g : Ghost} {s : State} {fl lit : Int} {watch : WatchPtr}
    {visited rest : List Int} (h : WLoop g s fl lit watch visited rest) :
    0 ≤ s.processed - 1 ∧ s.processed - 1 < s.assigned := by
  have := h.trail.f0; have := h.trail.pa; have := h.fpos
  omega

theorem WLoop.lit_isLit {g : Ghost} {s : State} {fl lit : Int} {watch : WatchPtr}
    {visited rest : List Int} (h : WLoop g s fl lit watch visited rest) :
    IsLit s.nVars lit := by
  have := h.trail.lit _ h.cur_pos.1 h.cur_pos.2
  rwa [h.cur] at this

theorem WLoop.lit_false {g : Ghost} {s : State} {fl lit : Int} {watch : WatchPtr}
    {visited rest : List Int} (h : WLoop g s fl lit watch visited rest) :
    s.mfalse lit ≠ 0 := by
  have := h.trail.on_trail h.cur_pos.1 h.cur_pos.2
  rwa [h.cur] at this

/-- The value `*watch` starts the part of the chain that is still to be visited. -/
theorem WLoop.get_rest {g : Ghost} {s : State} {fl lit : Int} {watch : WatchPtr}
    {visited rest : List Int} (h : WLoop g s fl lit watch visited rest) :
    Lseg s.DB (watch.get s) rest END := by
  have hseg := h.arena.seg lit h.lit_isLit
  rw [h.chain] at hseg
  rcases h.wptr with ⟨hv, hw⟩ | ⟨vs, u, hv, hw⟩
  · subst hv; subst hw
    simpa [WatchPtr.get] using hseg
  · subst hv; subst hw
    obtain ⟨m, hm1, hm2⟩ := Lseg.append_lseg.mp hseg
    obtain ⟨m2, _, _, _, hm6⟩ := Lseg.snoc.mp hm1
    simp only [WatchPtr.get]
    rw [hm6]; exact hm2

theorem WLoop.get_nil {g : Ghost} {s : State} {fl lit : Int} {watch : WatchPtr}
    {visited : List Int} (h : WLoop g s fl lit watch visited []) : watch.get s = END :=
  h.get_rest

theorem WLoop.get_cons {g : Ghost} {s : State} {fl lit : Int} {watch : WatchPtr}
    {visited rest : List Int} {w : Int} (h : WLoop g s fl lit watch visited (w :: rest)) :
    watch.get s = w ∧ w ≠ END := ⟨h.get_rest.1, h.get_rest.2.1⟩

/-- The chain that the loop walks is determined by the state: when `*watch`
is `END` nothing is left, otherwise `*watch` is the next cell. -/
theorem WLoop.rest_cases {g : Ghost} {s : State} {fl lit : Int} {watch : WatchPtr}
    {visited rest : List Int} (h : WLoop g s fl lit watch visited rest) :
    (watch.get s = END ∧ rest = []) ∨
    (watch.get s ≠ END ∧ ∃ rest2, rest = watch.get s :: rest2) := by
  cases rest with
  | nil => exact Or.inl ⟨h.get_nil, rfl⟩
  | cons w rest2 =>
    have := h.get_cons
    exact Or.inr ⟨by rw [this.1]; exact this.2, rest2, by rw [this.1]⟩

/-- The literals of the block of a cell `w` of the chain of `lit`: `lit` is one
of the two watched literals and the other link cell is in the chain of the
other one. -/
theorem ArenaInv.other_cell {g : Ghost} {s : State} (h : ArenaInv g s) {lit w : Int}
    {b : Blk} (hb : b ∈ g.bs) (hk : 2 ≤ b.k) (hw : w ∈ g.ch lit)
    (hwb : w = b.c ∨ w = b.c + 1) :
    ((s.DB (b.c + 2) = lit) ∨ (s.DB (b.c + 2) ≠ lit ∧ s.DB (b.c + 3) = lit)) ∧
    (if w = b.c then b.c + 1 else b.c) ∈
      g.ch (if s.DB (b.c + 2) = lit then s.DB (b.c + 3) else s.DB (b.c + 2)) := by
  have hd := fun l2 (h2 : w ∈ g.ch l2) => h.disj _ _ _ hw h2
  rcases h.watched b hb hk with ⟨h1, h2⟩ | ⟨h1, h2⟩ <;> rcases hwb with e | e <;> subst e
  · have := hd _ h1
    rw [if_pos rfl, if_pos this.symm]
    exact ⟨Or.inl this.symm, h2⟩
  · have := hd _ h2
    have hne : b.c + 1 ≠ b.c := by omega
    rw [if_neg hne]
    by_cases ha : s.DB (b.c + 2) = lit
    · rw [if_pos ha]
      refine ⟨Or.inl ha, ?_⟩
      rw [← this, ← ha]; exact h1
    · rw [if_neg ha]
      exact ⟨Or.inr ⟨ha, this.symm⟩, h1⟩
  · have := hd _ h1
    rw [if_pos rfl]
    by_cases ha : s.DB (b.c + 2) = lit
    · rw [if_pos ha]
      refine ⟨Or.inl ha, ?_⟩
      rw [← this, ← ha]; exact h2
    · rw [if_neg ha]
      exact ⟨Or.inr ⟨ha, this.symm⟩, h2⟩
  · have := hd _ h2
    have hne : b.c + 1 ≠ b.c := by omega
    rw [if_neg hne, if_pos this.symm]
    exact ⟨Or.inl this.symm, h1⟩

/-! ## One iteration of the watch loop, unfolded -/

theorem watchLoop_zero (fuel : Nat) (s : State) (lit fl : Int) (watch : WatchPtr) :
    watchLoop fuel 0 s lit fl watch = .error .outOfFuel := rfl

theorem watchLoop_succ (fuel f : Nat) (s : State) (lit fl : Int) (watch : WatchPtr) :
    watchLoop fuel (f + 1) s lit fl watch =
      if watch.get s ≠ END then
        match watchStep fuel s lit fl watch with
        | .error e => .error e
        | .ok (.next s1 watch1) => watchLoop fuel f s1 lit fl watch1
        | .ok (.unsat s1) => .ok (.unsat s1)
        | .ok (.conflict s2 clause) =>
          match analyze fuel s2 clause with
          | .error e => .error e
          | .ok (lem, s3) =>
            .ok (.cont (assign s3 lem (if s3.DB (lem + 1) = 0 then 1 else fl))
              (if s3.DB (lem + 1) = 0 then 1 else fl))
      else .ok (.cont s fl) := rfl

theorem watchStep_unfold (fuel : Nat) (s : State) (lit fl : Int) (watch : WatchPtr) :
    watchStep fuel s lit fl watch =
      match findFree fuel (wlFront s (wlClause s watch) lit) (wlClause s watch) 2 with
      | .error e => .error e
      | .ok (some i) =>
        .ok (.next (wlSwap (wlFront s (wlClause s watch) lit) (wlClause s watch) lit i
          watch) watch)
      | .ok none =>
        if (wlUnit (wlFront s (wlClause s watch) lit) (wlClause s watch) lit).mfalse
            (-((wlUnit (wlFront s (wlClause s watch) lit) (wlClause s watch) lit).DB
              (wlClause s watch))) ≠ 0 then
          .ok (.next (wlUnit (wlFront s (wlClause s watch) lit) (wlClause s watch) lit)
            (WatchPtr.cell (watch.get
              (wlUnit (wlFront s (wlClause s watch) lit) (wlClause s watch) lit))))
        else if (wlUnit (wlFront s (wlClause s watch) lit) (wlClause s watch) lit).mfalse
            ((wlUnit (wlFront s (wlClause s watch) lit) (wlClause s watch) lit).DB
              (wlClause s watch)) = 0 then
          .ok (.next
            (assign (wlUnit (wlFront s (wlClause s watch) lit) (wlClause s watch) lit)
              (wlClause s watch) fl)
            (WatchPtr.cell (watch.get
              (wlUnit (wlFront s (wlClause s watch) lit) (wlClause s watch) lit))))
        else if fl ≠ 0 then
          .ok (.unsat (wlUnit (wlFront s (wlClause s watch) lit) (wlClause s watch) lit))
        else
          .ok (.conflict (wlUnit (wlFront s (wlClause s watch) lit) (wlClause s watch) lit)
            (wlClause s watch)) := rfl

/-! ## The normalised clause body -/

theorem put_put_same (a : Cells) (k v v2 : Int) : put (put a k v) k v2 = put a k v2 := by
  funext i; unfold put; split_ifs <;> rfl

theorem put_self (a : Cells) (k : Int) : put a k (a k) = a := by
  funext i; unfold put; split_ifs with h
  · rw [h]
  · rfl

theorem wlFront_eq (s : State) (c lit : Int) :
    wlFront s c lit =
      { s with DB := put s.DB c (if s.DB c = lit then s.DB (c + 1) else s.DB c) } := by
  unfold wlFront
  split_ifs
  · rfl
  · rw [put_self]

theorem wlNorm_eq (s : State) (c lit : Int) :
    wlNorm s c lit =
      { s with DB := put (put s.DB c (if s.DB c = lit then s.DB (c + 1) else s.DB c))
                       (c + 1) lit } := by
  unfold wlNorm wlUnit
  rw [wlFront_eq]

theorem findFree_congr : ∀ (f : Nat) (s t : State) (c i0 : Int),
    t.mfalse = s.mfalse → (∀ i, i0 ≤ i → t.DB (c + i) = s.DB (c + i)) →
    findFree f t c i0 = findFree f s c i0
  | 0, _, _, _, _, _, _ => rfl
  | f + 1, s, t, c, i0, hm, hd => by
    simp only [findFree]
    rw [hd i0 (le_refl _), hm, findFree_congr f s t c (i0 + 1) hm (fun i hi => hd i (by omega))]

theorem findFree_front (f : Nat) (s : State) (c lit : Int) :
    findFree f (wlFront s c lit) c 2 = findFree f (wlNorm s c lit) c 2 := by
  apply findFree_congr
  · rfl
  · intro i hi
    have : c + i ≠ c + 1 := by omega
    simp [wlNorm, wlUnit, put, this]

theorem wlSwap_front (s : State) (c lit i : Int) (watch : WatchPtr) (hi : 2 ≤ i) :
    wlSwap (wlFront s c lit) c lit i watch = wlSwap (wlNorm s c lit) c lit i watch := by
  have h1 : (wlNorm s c lit).DB (c + i) = (wlFront s c lit).DB (c + i) := by
    have : c + i ≠ c + 1 := by omega
    simp [wlNorm, wlUnit, put, this]
  unfold wlSwap
  simp only [h1]
  simp only [wlNorm, wlUnit, put_put_same]

/-- One iteration of the watch loop in terms of the normalised body. -/
theorem watchStep_eq (fuel : Nat) (s : State) (lit fl : Int) (watch : WatchPtr) :
    watchStep fuel s lit fl watch =
      match findFree fuel (wlNorm s (wlClause s watch) lit) (wlClause s watch) 2 with
      | .error e => .error e
      | .ok (some i) =>
        .ok (.next (wlSwap (wlNorm s (wlClause s watch) lit) (wlClause s watch) lit i watch)
          watch)
      | .ok none =>
        if (wlNorm s (wlClause s watch) lit).mfalse
            (-((wlNorm s (wlClause s watch) lit).DB (wlClause s watch))) ≠ 0 then
          .ok (.next (wlNorm s (wlClause s watch) lit)
            (WatchPtr.cell (watch.get (wlNorm s (wlClause s watch) lit))))
        else if (wlNorm s (wlClause s watch) lit).mfalse
            ((wlNorm s (wlClause s watch) lit).DB (wlClause s watch)) = 0 then
          .ok (.next (assign (wlNorm s (wlClause s watch) lit) (wlClause s watch) fl)
            (WatchPtr.cell (watch.get (wlNorm s (wlClause s watch) lit))))
        else if fl ≠ 0 then .ok (.unsat (wlNorm s (wlClause s watch) lit))
        else .ok (.conflict (wlNorm s (wlClause s watch) lit) (wlClause s watch)) := by
  rw [watchStep_unfold, findFree_front]
  cases hff : findFree fuel (wlNorm s (wlClause s watch) lit) (wlClause s watch) 2 with
  | error e => rfl
  | ok r =>
    cases r with
    | none => rfl
    | some i =>
      have hi := (findFree_some _ _ _ _ _ hff).1
      simp only []
      rw [wlSwap_front _ _ _ _ _ hi]

/-! ## The invariants survive the normalisation of the clause body -/

/-- Reasons survive when the bodies of the reason clauses are not written. -/
theorem ReasonInv.transfer {g : Ghost} {s t : State} (h : ReasonInv g s)
    (h2 : t.mfalseStack = s.mfalseStack) (h4 : t.forced = s.forced)
    (h6 : t.assigned = s.assigned) (h7 : t.reason = s.reason)
    (hDB : ∀ i, s.forced ≤ i → i < s.assigned → ∀ b ∈ g.bs,
      s.DB (b.c + 2) = -(s.mfalseStack i) →
      (∀ r : Nat, 1 ≤ r → r < b.k →
        ∃ j, 0 ≤ j ∧ j < i ∧ s.mfalseStack j = s.DB (b.c + 2 + r)) →
      ∀ x, b.c + 2 ≤ x → x < b.c + 2 + b.k → t.DB x = s.DB x) : ReasonInv g t := by
  constructor
  intro i hi1 hi2 hd
  rw [h4] at hi1; rw [h6] at hi2
  rw [IsDec.congr_isdec h7 h2] at hd
  obtain ⟨b, hb, hk, hr, h0, hall, t0, ht1, ht2, j, hj0, hj1, hj2, hj3⟩ := h.ok i hi1 hi2 hd
  have hcell := hDB i hi1 hi2 b hb h0 hall
  refine ⟨b, hb, hk, ?_, ?_, ?_, ?_⟩
  · rw [h7, h2]; exact hr
  · rw [h2, hcell _ (by omega) (by omega)]; exact h0
  · intro r hr1 hr2
    obtain ⟨j, a1, a2, a3⟩ := hall r hr1 hr2
    exact ⟨j, a1, a2, by rw [h2, hcell _ (by omega) (by omega)]; exact a3⟩
  · refine ⟨t0, ht1, ht2, j, hj0, hj1, ?_, ?_⟩
    · rw [h2, hcell _ (by omega) (by omega)]; exact hj2
    · intro m hm1 hm2
      rw [IsDec.congr_isdec h7 h2]
      exact hj3 m hm1 hm2

theorem ReasonInv.ghost {g g2 : Ghost} {s : State} (h : ReasonInv g s)
    (e : g2.bs = g.bs) : ReasonInv g2 s := by
  constructor
  rw [e]
  exact h.ok

theorem State.ext_DB {s : State} {d : Cells} (h : d = s.DB) : { s with DB := d } = s := by
  subst h; rfl

theorem WLoop.norm {g : Ghost} {s : State} {fl lit : Int} {watch : WatchPtr}
    {visited rest : List Int} {w : Int} (h : WLoop g s fl lit watch visited (w :: rest)) :
    ∃ b ∈ g.bs, 2 ≤ b.k ∧ (w = b.c ∨ w = b.c + 1) ∧ wlClause s watch = b.c + 2 ∧
      WLoop g (wlNorm s (b.c + 2) lit) fl lit watch visited (w :: rest) ∧
      (wlNorm s (b.c + 2) lit).DB (b.c + 3) = lit ∧
      (if w = b.c then b.c + 1 else b.c) ∈ g.ch ((wlNorm s (b.c + 2) lit).DB (b.c + 2)) := by
  have hwmem : w ∈ g.ch lit := by rw [h.chain]; simp
  obtain ⟨b, hb, hk, hwb, hcl⟩ := h.arena.header hwmem
  have hget := h.get_cons
  have hclause : wlClause s watch = b.c + 2 := by
    unfold wlClause; rw [hget.1]; exact hcl
  obtain ⟨hab, hother⟩ := h.arena.other_cell hb hk hwmem hwb
  refine ⟨b, hb, hk, hwb, hclause, ?_⟩
  have e3 : b.c + 2 + 1 = b.c + 3 := by ring
  by_cases ha : s.DB (b.c + 2) = lit
  · -- the two watched literals change places
    rw [if_pos ha] at hother
    have hDB : (wlNorm s (b.c + 2) lit).DB =
        put (put s.DB (b.c + 2) (s.DB (b.c + 3))) (b.c + 3) lit := by
      rw [wlNorm_eq, if_pos ha, e3]
    have hD2 : (wlNorm s (b.c + 2) lit).DB (b.c + 2) = s.DB (b.c + 3) := by
      rw [hDB]; simp [put]
    have hD3 : (wlNorm s (b.c + 2) lit).DB (b.c + 3) = lit := by
      rw [hDB]; simp [put]
    have hout : ∀ x, (x < b.c + 2 ∨ b.c + 2 + b.k ≤ x) →
        (wlNorm s (b.c + 2) lit).DB x = s.DB x := by
      intro x hx
      rw [hDB]
      have h1 : x ≠ b.c + 3 := by omega
      have h2 : x ≠ b.c + 2 := by omega
      simp [put, h1, h2]
    have hout2 : ∀ x, x ≠ b.c + 2 → x ≠ b.c + 3 →
        (wlNorm s (b.c + 2) lit).DB x = s.DB x := by
      intro x h1 h2
      rw [hDB]; simp [put, h1, h2]
    have hbk := h.arena.blk b hb
    have hcore : ArenaCore g (wlNorm s (b.c + 2) lit) := by
      refine h.arena.toArenaCore.body_update_arenacore hb ?_ ?_ ?_ hout ?_
      · rw [wlNorm_eq]
      · rw [wlNorm_eq]
      · rw [wlNorm_eq]
      · intro i hi
        by_cases h0 : i = 0
        · subst h0
          have := hbk.2.1 1 (by omega)
          simp only [Nat.cast_zero, add_zero, Nat.cast_one] at this ⊢
          rw [hD2]; rw [e3] at this; exact this
        · by_cases h1 : i = 1
          · subst h1
            simp only [Nat.cast_one]
            rw [e3, hD3]; exact h.lit_isLit
          · rw [hout2 _ (by omega) (by omega)]
            exact hbk.2.1 i hi
    have harena : ArenaInv g (wlNorm s (b.c + 2) lit) := by
      refine ⟨hcore, ?_⟩
      intro b2 hb2 hk2
      by_cases e : b2 = b
      · subst e
        unfold Watched
        rw [hD2, hD3]
        rcases hwb with e | e
        · subst e
          rw [if_pos rfl] at hother
          exact Or.inr ⟨hwmem, hother⟩
        · subst e
          rw [if_neg (by omega)] at hother
          exact Or.inl ⟨hother, hwmem⟩
      · exact Watched.body_update_watched h.arena.toArenaCore hb hb2 e hout hk2
          (h.arena.watched b2 hb2 hk2)
    refine ⟨?_, hD3, ?_⟩
    · refine ⟨harena, ?_, ?_, ?_, ?_, ?_, ?_, ?_, h.chain, h.wptr⟩
      · exact h.trail.congr_trailinv (by rw [wlNorm_eq]) (by rw [wlNorm_eq]) (by rw [wlNorm_eq])
          (by rw [wlNorm_eq]) (by rw [wlNorm_eq]) (by rw [wlNorm_eq])
      · exact h.level.congr_levelinv (by rw [wlNorm_eq]) (by rw [wlNorm_eq]) (by rw [wlNorm_eq])
          (by rw [wlNorm_eq]) (by rw [wlNorm_eq]) (by rw [wlNorm_eq])
      · intro hfl
        refine (h.reason hfl).transfer (by rw [wlNorm_eq]) (by rw [wlNorm_eq])
          (by rw [wlNorm_eq]) (by rw [wlNorm_eq]) ?_
        intro i hi1 hi2 b2 hb2 h0 _ x hx1 hx2
        have hne : b2 ≠ b := by
          rintro rfl
          rw [ha] at h0
          have hf0 := h.trail.f0
          have h1 := h.trail.on_trail (by omega : 0 ≤ i) hi2
          have h2 : s.mfalse (-lit) ≠ 0 := by rw [h0, neg_neg]; exact h1
          exact h.trail.not_both h.lit_false h2
        rcases Layout.apart h.arena.layout b hb b2 hb2 with e | e | e
        · exact absurd e.symm hne
        · exact hout _ (by omega)
        · exact hout _ (by omega)
      · exact h.watch2.congr_watchinv (by rw [wlNorm_eq]) (by rw [wlNorm_eq]) (by rw [wlNorm_eq])
          (by rw [wlNorm_eq])
      · have := h.fpos; rw [wlNorm_eq]; exact this
      · have := h.cur; rw [wlNorm_eq]; exact this
      · intro m hm1 hm2
        have := h.pend m (by rw [wlNorm_eq] at hm1; exact hm1) (by rw [wlNorm_eq] at hm2; exact hm2)
        rw [IsDec.congr_isdec (by rw [wlNorm_eq]) (by rw [wlNorm_eq])]
        exact this
    · rw [hD2]; exact hother
  · -- the body already has the falsified literal in second place
    have hb3 : s.DB (b.c + 3) = lit := by
      rcases hab with e | e
      · exact absurd e ha
      · exact e.2
    rw [if_neg ha] at hother
    have hs : wlNorm s (b.c + 2) lit = s := by
      rw [wlNorm_eq, if_neg ha, put_self, e3]
      apply State.ext_DB
      rw [← hb3, put_self]
    rw [hs]
    exact ⟨h, hb3, hother⟩

/-! ## `assign` and the trail invariants -/

theorem assign_fields (s : State) (r fl : Int) :
    (assign s r fl).DB = s.DB ∧ (assign s r fl).first = s.first ∧
    (assign s r fl).nVars = s.nVars ∧ (assign s r fl).mem_used = s.mem_used ∧
    (assign s r fl).forced = s.forced ∧ (assign s r fl).processed = s.processed ∧
    (assign s r fl).assigned = s.assigned + 1 ∧
    (assign s r fl).mfalseStack = put s.mfalseStack s.assigned (-(s.DB r)) ∧
    (assign s r fl).mfalse = put s.mfalse (-(s.DB r)) (if fl ≠ 0 then IMPLIED else 1) ∧
    (assign s r fl).reason = put s.reason (absInt (s.DB r)) (1 + r) :=
  ⟨rfl, rfl, rfl, rfl, rfl, rfl, rfl, rfl, rfl, rfl⟩

theorem Fresh.not_on_trail {s : State} {y : Int} (hy : Fresh s y) (h : TrailInv s)
    {i : Int} (h0 : 0 ≤ i) (h1 : i < s.assigned) :
    absInt (s.mfalseStack i) ≠ absInt y := by
  intro e
  have := h.on_trail h0 h1
  rcases (absInt_eq_iff _ _).mp e with e | e
  · rw [e] at this; exact this hy.free
  · rw [e] at this; exact this hy.nfree

theorem assign_old_entry {s : State} (r fl : Int) {i : Int} (h1 : i < s.assigned) :
    (assign s r fl).mfalseStack i = s.mfalseStack i := by
  have : i ≠ s.assigned := by omega
  simp [assign, put, this]

theorem assign_new_entry (s : State) (r fl : Int) :
    (assign s r fl).mfalseStack s.assigned = -(s.DB r) := by
  simp [assign, put]

theorem assign_isDec_old {s : State} {r fl : Int} (hy : Fresh s (s.DB r)) (h : TrailInv s)
    {i : Int} (h0 : 0 ≤ i) (h1 : i < s.assigned) :
    IsDec (assign s r fl) i ↔ IsDec s i := by
  unfold IsDec
  rw [assign_old_entry r fl h1]
  have := hy.not_on_trail h h0 h1
  simp [assign, put, this]

theorem assign_isDec_new {s : State} {r fl : Int} (hr : 1 + r ≠ 0) :
    ¬ IsDec (assign s r fl) s.assigned := by
  unfold IsDec
  rw [assign_new_entry]
  simp [assign, put, absInt_neg, hr]

theorem assign_mfalse_old {s : State} {r fl : Int} (hy : Fresh s (s.DB r)) (h : TrailInv s)
    {i : Int} (h0 : 0 ≤ i) (h1 : i < s.assigned) :
    (assign s r fl).mfalse (s.mfalseStack i) = s.mfalse (s.mfalseStack i) := by
  have hne : s.mfalseStack i ≠ -(s.DB r) := by
    intro e
    have := h.on_trail h0 h1
    rw [e] at this
    exact this hy.nfree
  simp [assign, put, hne]

theorem assign_mfalse_new (s : State) (r fl : Int) :
    (assign s r fl).mfalse (-(s.DB r)) = if fl ≠ 0 then IMPLIED else 1 := by
  simp [assign, put]

theorem assign_trail {s : State} {r fl : Int} (hy : Fresh s (s.DB r)) (h : TrailInv s) :
    TrailInv (assign s r fl) := by
  obtain ⟨-, -, e3, -, e5, e6, e7, -, e9, -⟩ := assign_fields s r fl
  constructor
  · rw [e5]; exact h.f0
  · rw [e5, e6]; exact h.fp
  · rw [e6, e7]; have := h.pa; omega
  · intro i h0 h1
    rw [e7] at h1; rw [e3]
    by_cases e : i = s.assigned
    · subst e; rw [assign_new_entry]; exact hy.isLit.neg
    · rw [assign_old_entry r fl (by omega)]; exact h.lit i h0 (by omega)
  · intro i j hi0 hi1 hj0 hj1 e
    rw [e7] at hi1 hj1
    by_cases ei : i = s.assigned <;> by_cases ej : j = s.assigned
    · rw [ei, ej]
    · exfalso
      rw [ei, assign_new_entry, assign_old_entry r fl (by omega : j < s.assigned),
        absInt_neg] at e
      exact hy.not_on_trail h hj0 (by omega) e.symm
    · exfalso
      rw [ej, assign_new_entry, assign_old_entry r fl (by omega : i < s.assigned),
        absInt_neg] at e
      exact hy.not_on_trail h hi0 (by omega) e
    · rw [assign_old_entry r fl (by omega : i < s.assigned),
        assign_old_entry r fl (by omega : j < s.assigned)] at e
      exact h.inj i j hi0 (by omega) hj0 (by omega) e
  · intro l
    rw [e7]
    by_cases el : l = -(s.DB r)
    · subst el
      rw [assign_mfalse_new]
      constructor
      · intro _
        exact ⟨s.assigned, by have := h.pa; have := h.fp; have := h.f0; omega, by omega,
          assign_new_entry s r fl⟩
      · intro _; split_ifs <;> decide
    · have hm : (assign s r fl).mfalse l = s.mfalse l := by rw [e9]; simp [put, el]
      rw [hm, h.mf l]
      constructor
      · rintro ⟨i, a1, a2, a3⟩
        exact ⟨i, a1, by omega, by rw [assign_old_entry r fl a2]; exact a3⟩
      · rintro ⟨i, a1, a2, a3⟩
        by_cases e : i = s.assigned
        · rw [e, assign_new_entry] at a3; exact absurd a3.symm el
        · exact ⟨i, a1, by omega, by rw [assign_old_entry r fl (by omega)] at a3; exact a3⟩

theorem assign_level {s : State} {r fl : Int} (hy : Fresh s (s.DB r)) (h : TrailInv s)
    (hl : LevelInv s fl) (hr : 1 + r ≠ 0) (hne : fl = 0 → s.forced < s.assigned) :
    LevelInv (assign s r fl) fl := by
  obtain ⟨-, -, e3, -, e5, e6, e7, -, e9, -⟩ := assign_fields s r fl
  have hf0 := h.f0; have hfp := h.fp; have hpa := h.pa
  constructor
  · intro i h0 h1
    rw [e5] at h1
    rw [assign_old_entry r fl (by omega), assign_mfalse_old hy h h0 (by omega),
      assign_isDec_old hy h h0 (by omega)]
    exact hl.root i h0 h1
  · intro hfl i h0 h1
    rw [e5] at h0; rw [e7] at h1
    by_cases e : i = s.assigned
    · subst e
      rw [assign_new_entry, assign_mfalse_new, if_pos hfl]
      exact ⟨rfl, assign_isDec_new hr⟩
    · rw [assign_old_entry r fl (by omega), assign_mfalse_old hy h (by omega) (by omega),
        assign_isDec_old hy h (by omega) (by omega)]
      exact hl.rootMode hfl i h0 (by omega)
  · intro hfl i h0 h1
    rw [e5] at h0; rw [e7] at h1
    by_cases e : i = s.assigned
    · subst e
      rw [assign_new_entry, assign_mfalse_new, if_neg (by simpa using hfl)]
    · rw [assign_old_entry r fl (by omega), assign_mfalse_old hy h (by omega) (by omega)]
      exact hl.search hfl i h0 (by omega)
  · intro hfl _
    rw [e5]
    have := hne hfl
    rw [assign_isDec_old hy h hf0 this]
    exact hl.firstDec hfl this
  · intro i h0 h1
    rw [e6] at h0; rw [e7] at h1
    by_cases e : i = s.assigned
    · subst e; exact assign_isDec_new hr
    · rw [assign_isDec_old hy h (by omega) (by omega)]
      exact hl.pend i h0 (by omega)

/-! ## Reasons and watches when the trail grows -/

theorem Layout.block_of_cell {lo hi : Int} {bs : List Blk} (h : Layout lo bs hi)
    {b b2 : Blk} (hb : b ∈ bs) (hb2 : b2 ∈ bs) {w : Int}
    (h1 : w = b.c ∨ w = b.c + 1) (h2 : w = b2.c ∨ w = b2.c + 1) : b = b2 := by
  rcases Layout.apart h b hb b2 hb2 with e | e | e
  · exact e
  · omega
  · omega

/-- The reasons of the old entries survive `assign`. -/
theorem assign_reason_old {g : Ghost} {s : State} {r fl : Int} (hy : Fresh s (s.DB r))
    (h : TrailInv s) (hr : ReasonInv g s) :
    ∀ i, s.forced ≤ i → i < s.assigned → ¬ IsDec (assign s r fl) i →
    ∃ b ∈ g.bs, 2 ≤ b.k ∧
      (assign s r fl).reason (absInt ((assign s r fl).mfalseStack i)) = b.c + 3 ∧
      (assign s r fl).DB (b.c + 2) = -((assign s r fl).mfalseStack i) ∧
      (∀ t : Nat, 1 ≤ t → t < b.k → ∃ j, 0 ≤ j ∧ j < i ∧
        (assign s r fl).mfalseStack j = (assign s r fl).DB (b.c + 2 + t)) ∧
      (∃ t : Nat, 1 ≤ t ∧ t < b.k ∧ ∃ j, 0 ≤ j ∧ j < i ∧
        (assign s r fl).mfalseStack j = (assign s r fl).DB (b.c + 2 + t) ∧
        ∀ m, j < m → m ≤ i → ¬ IsDec (assign s r fl) m) := by
  intro i h0 h1 hd
  have hf0 := h.f0
  rw [assign_isDec_old hy h (by omega) h1] at hd
  obtain ⟨b, hb, hk, a1, a2, a3, t0, ht1, ht2, j, hj0, hj1, hj2, hj3⟩ := hr.ok i h0 h1 hd
  have hDB : (assign s r fl).DB = s.DB := rfl
  refine ⟨b, hb, hk, ?_, ?_, ?_, ?_⟩
  · rw [assign_old_entry r fl h1]
    have := hy.not_on_trail h (by omega : 0 ≤ i) h1
    simp only [assign, put, this, if_false]
    exact a1
  · rw [assign_old_entry r fl h1, hDB]; exact a2
  · intro t ht1 ht2
    obtain ⟨j, b1, b2, b3⟩ := a3 t ht1 ht2
    exact ⟨j, b1, b2, by rw [assign_old_entry r fl (by omega), hDB]; exact b3⟩
  · refine ⟨t0, ht1, ht2, j, hj0, hj1, ?_, ?_⟩
    · rw [assign_old_entry r fl (by omega), hDB]; exact hj2
    · intro m hm1 hm2
      rw [assign_isDec_old hy h (by omega) (by omega)]
      exact hj3 m hm1 hm2

/-- A watch that has been dealt with keeps its witness when the trail grows by
`assign`. -/
theorem assign_watch_old {s : State} {r fl : Int} (hy : Fresh s (s.DB r))
    (h : TrailInv s) {i : Int} {l2 : Int} (hi : 0 ≤ i)
    (hw : ∃ j, 0 ≤ j ∧ j < s.assigned ∧ s.mfalseStack j = -l2 ∧
      (j < i ∨ ∀ m, i < m → m ≤ j → ¬ IsDec s m)) :
    ∃ j, 0 ≤ j ∧ j < (assign s r fl).assigned ∧ (assign s r fl).mfalseStack j = -l2 ∧
      (j < i ∨ ∀ m, i < m → m ≤ j → ¬ IsDec (assign s r fl) m) := by
  obtain ⟨j, a1, a2, a3, a4⟩ := hw
  refine ⟨j, a1, by show j < s.assigned + 1; omega, ?_, ?_⟩
  · rw [assign_old_entry r fl a2]; exact a3
  · rcases a4 with a4 | a4
    · exact Or.inl a4
    · by_cases hji : j < i
      · exact Or.inl hji
      · right
        intro m hm1 hm2
        rw [assign_isDec_old hy h (by omega) (by omega)]
        exact a4 m hm1 hm2

/-- Passing the cell `w` of the chain: the watch invariant for the shorter rest
follows when the other watched literal of the block of `w` is shown true. -/
theorem WatchInv.advance {g : Ghost} {s : State} {w : Int} {rest : List Int}
    (h : WatchInv g s (w :: rest))
    (hnew : ∀ b ∈ g.bs, 2 ≤ b.k → ∀ v l l2,
      ((w = b.c ∧ v = b.c + 1) ∨ (w = b.c + 1 ∧ v = b.c)) → w ∈ g.ch l → v ∈ g.ch l2 →
      ∀ i, 0 ≤ i → i < s.assigned → s.mfalseStack i = l → i + 1 = s.processed →
        ∃ j, 0 ≤ j ∧ j < s.assigned ∧ s.mfalseStack j = -l2 ∧
          (j < i ∨ ∀ m, i < m → m ≤ j → ¬ IsDec s m)) :
    WatchInv g s rest := by
  constructor
  intro b hb hk u v l l2 hp hu hv i hi0 hi1 hil hdone
  by_cases e : u = w
  · rcases hdone with hd | ⟨hd, _⟩
    · exact h.ok b hb hk u v l l2 hp hu hv i hi0 hi1 hil (Or.inl hd)
    · subst e
      exact hnew b hb hk v l l2 hp hu hv i hi0 hi1 hil hd
  · refine h.ok b hb hk u v l l2 hp hu hv i hi0 hi1 hil ?_
    rcases hdone with hd | ⟨hd, hn⟩
    · exact Or.inl hd
    · exact Or.inr ⟨hd, fun hc => by
        rcases List.mem_cons.mp hc with e2 | e2
        · exact e e2
        · exact hn e2⟩

/-! ## The watch loop passes a clause that is satisfied or unit -/

/-- The loop passes the cell `w`: the other watched literal `y` of its block is
true and cannot be unassigned without the falsified one. -/
theorem WLoop.pass {g : Ghost} {s : State} {fl lit : Int} {watch : WatchPtr}
    {visited rest : List Int} {w : Int} (h : WLoop g s fl lit watch visited (w :: rest))
    {b : Blk} (hb : b ∈ g.bs) (hwb : w = b.c ∨ w = b.c + 1)
    (hother : (if w = b.c then b.c + 1 else b.c) ∈ g.ch (s.DB (b.c + 2)))
    (hwit : ∃ j, 0 ≤ j ∧ j < s.assigned ∧ s.mfalseStack j = -(s.DB (b.c + 2)) ∧
      (j < s.processed - 1 ∨ ∀ m, s.processed - 1 < m → m ≤ j → ¬ IsDec s m)) :
    WLoop g s fl lit (WatchPtr.cell w) (visited ++ [w]) rest := by
  have hwmem : w ∈ g.ch lit := by rw [h.chain]; simp
  refine ⟨h.arena, h.trail, h.level, h.reason, ?_, h.fpos, h.cur, h.pend, ?_, ?_⟩
  · refine h.watch2.advance ?_
    intro b2 hb2 hk2 v l l2 hp hu hv i hi0 hi1 hil hd
    have eb : b2 = b := by
      refine Layout.block_of_cell h.arena.layout hb2 hb ?_ hwb
      rcases hp with ⟨e, _⟩ | ⟨e, _⟩
      · exact Or.inl e
      · exact Or.inr e
    subst eb
    have hv2 : v = if w = b2.c then b2.c + 1 else b2.c := by
      rcases hp with ⟨e1, e2⟩ | ⟨e1, e2⟩
      · rw [if_pos e1]; exact e2
      · rw [if_neg (by omega)]; exact e2
    have el2 : l2 = s.DB (b2.c + 2) := by
      rw [hv2] at hv
      exact h.arena.disj _ _ _ hv hother
    have ei : i = s.processed - 1 := by omega
    rw [el2, ei]
    exact hwit
  · rw [h.chain]; simp
  · exact Or.inr ⟨visited, w, rfl, rfl⟩

/-- A true literal is on the trail, and from the entry that is being processed
on no decision follows. -/
theorem WLoop.witness_of_true {g : Ghost} {s : State} {fl lit : Int} {watch : WatchPtr}
    {visited rest : List Int} (h : WLoop g s fl lit watch visited rest) {y : Int}
    (hy : s.mfalse (-y) ≠ 0) :
    ∃ j, 0 ≤ j ∧ j < s.assigned ∧ s.mfalseStack j = -y ∧
      (j < s.processed - 1 ∨ ∀ m, s.processed - 1 < m → m ≤ j → ¬ IsDec s m) := by
  obtain ⟨j, hj0, hj1, hj2⟩ := (h.trail.mf _).mp hy
  refine ⟨j, hj0, hj1, hj2, Or.inr ?_⟩
  intro m hm1 hm2
  exact h.pend m (by omega) (by omega)

/-- The trail grows by a propagated literal while the loop is at `watch`. -/
theorem WLoop.assign {g : Ghost} {s : State} {fl lit : Int} {watch : WatchPtr}
    {visited rest : List Int} (h : WLoop g s fl lit watch visited rest)
    {b : Blk} (hb : b ∈ g.bs) (hk : 2 ≤ b.k) (hy : Fresh s (s.DB (b.c + 2)))
    (hfalse : ∀ r : Nat, 1 ≤ r → r < b.k → s.mfalse (s.DB (b.c + 2 + r)) ≠ 0)
    (hlit : s.DB (b.c + 3) = lit) :
    WLoop g (Microsat.assign s (b.c + 2) fl) fl lit watch visited rest := by
  obtain ⟨e1, e2, e3, e4, e5, e6, e7, e8, e9, e10⟩ := assign_fields s (b.c + 2) fl
  have hf0 := h.trail.f0; have hfp := h.trail.fp; have hpa := h.trail.pa
  have hfpos := h.fpos
  have hbb := h.arena.toArenaCore.blk_bounds hb
  have hbase := arenaBase_pos h.arena.npos
  have hr : 1 + (b.c + 2) ≠ 0 := by omega
  have hpend : ∀ m, s.processed ≤ m → m < s.assigned + 1 →
      ¬ IsDec (Microsat.assign s (b.c + 2) fl) m := by
    intro m hm1 hm2
    by_cases e : m = s.assigned
    · subst e; exact assign_isDec_new hr
    · rw [assign_isDec_old hy h.trail (by omega) (by omega)]
      exact h.pend m hm1 (by omega)
  refine ⟨h.arena.congr_arenainv e3 e1 e4 e2, assign_trail hy h.trail,
    assign_level hy h.trail h.level hr (fun _ => by omega), ?_, ?_, ?_, ?_, ?_, h.chain, h.wptr⟩
  · intro hfl
    constructor
    intro i hi0 hi1 hd
    rw [e5] at hi0; rw [e7] at hi1
    by_cases e : i = s.assigned
    · subst e
      refine ⟨b, hb, hk, ?_, ?_, ?_, ?_⟩
      · rw [assign_new_entry, absInt_neg, e10]; simp [put]; ring
      · rw [assign_new_entry, e1, neg_neg]
      · intro r hr1 hr2
        obtain ⟨j, hj0, hj1, hj2⟩ := (h.trail.mf _).mp (hfalse r hr1 hr2)
        exact ⟨j, hj0, hj1, by rw [assign_old_entry _ _ hj1, e1]; exact hj2⟩
      · refine ⟨1, le_refl _, by omega, s.processed - 1, by omega, by omega, ?_, ?_⟩
        · rw [assign_old_entry _ _ (by omega), e1, h.cur]
          have : b.c + 2 + ((1 : Nat) : Int) = b.c + 3 := by push_cast; ring
          rw [this, hlit]
        · intro m hm1 hm2
          exact hpend m (by omega) (by omega)
    · exact assign_reason_old hy h.trail (h.reason hfl) i hi0 (by omega) hd
  · constructor
    intro b2 hb2 hk2 u v l l2 hp hu hv i hi0 hi1 hil hdone
    rw [e7] at hi1; rw [e6] at hdone
    have hi2 : i < s.assigned := by omega
    rw [assign_old_entry _ _ hi2] at hil
    exact assign_watch_old hy h.trail hi0
      (h.watch2.ok b2 hb2 hk2 u v l l2 hp hu hv i hi0 hi2 hil hdone)
  · rw [e5, e6]; exact hfpos
  · rw [e6, assign_old_entry _ _ (by omega)]; exact h.cur
  · intro m hm1 hm2
    rw [e6] at hm1; rw [e7] at hm2
    exact hpend m hm1 hm2

/-! ## The watch loop moves a watch -/

theorem wlSwap_fields (t : State) (c lit i : Int) (watch : WatchPtr) :
    (wlSwap t c lit i watch).nVars = t.nVars ∧
    (wlSwap t c lit i watch).mem_used = t.mem_used ∧
    (wlSwap t c lit i watch).mfalse = t.mfalse ∧
    (wlSwap t c lit i watch).mfalseStack = t.mfalseStack ∧
    (wlSwap t c lit i watch).reason = t.reason ∧
    (wlSwap t c lit i watch).forced = t.forced ∧
    (wlSwap t c lit i watch).processed = t.processed ∧
    (wlSwap t c lit i watch).assigned = t.assigned := by
  cases watch <;> exact ⟨rfl, rfl, rfl, rfl, rfl, rfl, rfl, rfl⟩

/-- The state between the two body writes and the chain surgery of `wlSwap`. -/
theorem wlSwap_body (t : State) (c lit i : Int) (watch : WatchPtr) :
    wlSwap t c lit i watch =
      (let t3 : State :=
        { t with DB := put (put t.DB (c + 1) (t.DB (c + i))) (c + i) lit }
       let t4 := watch.set t3 (t3.DB (watch.get t3))
       addWatch t4 (t4.DB (c + 1)) (watch.get t3)) := rfl

/-- The arena after `wlSwap`: the cell `w` has moved to the chain of the
literal `x` found at index `r`, which is now the second watched literal. -/
theorem WLoop.swap_arena {g : Ghost} {t : State} {fl lit : Int} {watch : WatchPtr}
    {visited rest : List Int} {w : Int} (h : WLoop g t fl lit watch visited (w :: rest))
    {b : Blk} (hb : b ∈ g.bs) (hk : 2 ≤ b.k) (hwb : w = b.c ∨ w = b.c + 1)
    (hlit : t.DB (b.c + 3) = lit)
    (hother : (if w = b.c then b.c + 1 else b.c) ∈ g.ch (t.DB (b.c + 2)))
    {r : Nat} (hr1 : 2 ≤ r) (hr2 : r < b.k) (hfree : t.mfalse (t.DB (b.c + 2 + r)) = 0) :
    ArenaInv (g.move lit (t.DB (b.c + 2 + r)) w (visited ++ rest))
      (wlSwap t (b.c + 2) lit r watch) ∧
    (∀ b2 ∈ g.bs, b2 ≠ b → ∀ y, b2.c + 2 ≤ y → y ≤ b2.c + 2 + b2.k →
      (wlSwap t (b.c + 2) lit r watch).DB y = t.DB y) := by
  have hwmem : w ∈ g.ch lit := by rw [h.chain]; simp
  have hbk := h.arena.blk b hb
  have hx : IsLit t.nVars (t.DB (b.c + 2 + r)) := hbk.2.1 r hr2
  have hxne : t.DB (b.c + 2 + r) ≠ lit := by
    intro e; rw [e] at hfree; exact h.lit_false hfree
  have e3 : b.c + 2 + 1 = b.c + 3 := by ring
  -- the state after the two body writes
  obtain ⟨t3, ht3⟩ : ∃ t3 : State, t3 =
      { t with DB := put (put t.DB (b.c + 3) (t.DB (b.c + 2 + r))) (b.c + 2 + r) lit } :=
    ⟨_, rfl⟩
  have hout : ∀ y, y ≠ b.c + 3 → y ≠ b.c + 2 + r → t3.DB y = t.DB y := by
    intro y h1 h2; rw [ht3]; simp [put, h1, h2]
  have hD3 : t3.DB (b.c + 3) = t.DB (b.c + 2 + r) := by
    rw [ht3]
    have : b.c + 3 ≠ b.c + 2 + (r : Int) := by omega
    simp [put, this]
  have hDr : t3.DB (b.c + 2 + r) = lit := by rw [ht3]; simp [put]
  have hcore3 : ArenaCore g t3 := by
    refine h.arena.toArenaCore.body_update_arenacore hb (by rw [ht3]) (by rw [ht3]) (by rw [ht3]) ?_ ?_
    · intro y hy; exact hout y (by omega) (by omega)
    · intro i hi
      by_cases h1 : i = 1
      · subst h1
        have : b.c + 2 + ((1 : Nat) : Int) = b.c + 3 := by push_cast; ring
        rw [this, hD3]; exact hx
      · by_cases h2 : i = r
        · subst h2; rw [hDr]; exact h.lit_isLit
        · rw [hout _ (by omega) (by omega)]; exact hbk.2.1 i hi
  have hlink3 : ∀ u l, u ∈ g.ch l → t3.DB u = t.DB u := by
    intro u l hu
    have := h.arena.toArenaCore.cell_not_body hu hb
    exact hout u (by omega) (by omega)
  have hget := h.get_cons
  have hmoved : ArenaCore (g.move lit (t.DB (b.c + 2 + r)) w (visited ++ rest))
      (wlSwap t (b.c + 2) lit r watch) ∧
      (∀ y, (∀ l, y ∉ g.ch l) → (wlSwap t (b.c + 2) lit r watch).DB y = t3.DB y) := by
    rw [wlSwap_body, e3, ← ht3]
    rcases h.wptr with ⟨hv, hw⟩ | ⟨vs, u, hv, hw⟩
    · subst hw
      have hg : WatchPtr.get t3 (WatchPtr.head lit) = w := by
        have := hget.1
        simp only [WatchPtr.get] at this ⊢
        rw [ht3]; exact this
      simp only [hg]
      constructor
      · refine hcore3.move (by rw [ht3]; exact hx) (by rw [ht3]; exact h.lit_isLit) hxne
          h.chain rfl rfl ?_ ?_ ?_ (Or.inl ⟨hv, ?_, ?_⟩)
        · intro l h1 h2
          simp [addWatch, WatchPtr.set, put, hD3, h1, h2]
        · simp [addWatch, WatchPtr.set, put, hD3]
        · simp [addWatch, WatchPtr.set, put, hD3, hxne]
        · simp [addWatch, WatchPtr.set, put, hD3, hxne.symm]
        · intro y hy
          simp [addWatch, WatchPtr.set, put, hy]
      · intro y hy
        have : y ≠ w := fun e => hy lit (e ▸ hwmem)
        simp [addWatch, WatchPtr.set, put, this]
    · subst hw
      have humem : u ∈ g.ch lit := by rw [h.chain, hv]; simp
      have hg : WatchPtr.get t3 (WatchPtr.cell u) = w := by
        have := hget.1
        simp only [WatchPtr.get] at this ⊢
        rw [hlink3 u lit humem]; exact this
      have huw : u ≠ w := by
        intro e
        have hnd := h.arena.nodup lit
        rw [h.chain, hv, e] at hnd
        have := (List.nodup_append.mp hnd).2.2 (List.mem_append_right _ (List.mem_singleton_self w))
          (List.mem_cons_self _ _)
        exact this
      have hu3 : u ≠ b.c + 3 := by
        have := h.arena.toArenaCore.cell_not_body humem hb; omega
      simp only [hg]
      constructor
      · refine hcore3.move (by rw [ht3]; exact hx) (by rw [ht3]; exact h.lit_isLit) hxne
          h.chain rfl rfl ?_ ?_ ?_ (Or.inr ⟨vs, u, hv, ?_, ?_, ?_⟩)
        · intro l h1 h2
          simp [addWatch, WatchPtr.set, put, hD3, h1, h2, hu3.symm]
        · simp [addWatch, WatchPtr.set, put, hD3, hu3.symm]
        · simp [addWatch, WatchPtr.set, put, hD3, hxne, hu3.symm]
        · simp [addWatch, WatchPtr.set, put, hD3, hxne.symm, hu3.symm]
        · simp [addWatch, WatchPtr.set, put, hD3, huw, hu3.symm]
        · intro y hy1 hy2
          simp [addWatch, WatchPtr.set, put, hy1, hy2]
      · intro y hy
        have h1 : y ≠ w := fun e => hy lit (e ▸ hwmem)
        have h2 : y ≠ u := fun e => hy lit (e ▸ humem)
        simp [addWatch, WatchPtr.set, put, h1, h2]
  obtain ⟨hcore5, hsame⟩ := hmoved
  have hmm := mem_move h.arena.toArenaCore hxne h.chain
  have hbodyall : ∀ b2 ∈ g.bs, ∀ y, b2.c + 2 ≤ y → y ≤ b2.c + 2 + b2.k →
      (wlSwap t (b.c + 2) lit r watch).DB y = t3.DB y := by
    intro b2 hb2 y h1 h2
    apply hsame
    intro l hy
    have := h.arena.toArenaCore.cell_not_body hy hb2
    omega
  have hbody : ∀ b2 ∈ g.bs, b2 ≠ b → ∀ y, b2.c + 2 ≤ y → y ≤ b2.c + 2 + b2.k →
      (wlSwap t (b.c + 2) lit r watch).DB y = t.DB y := by
    intro b2 hb2 hne y h1 h2
    rw [hbodyall b2 hb2 y h1 h2]
    rcases Layout.apart h.arena.layout b hb b2 hb2 with e | e | e
    · exact absurd e.symm hne
    · exact hout y (by omega) (by omega)
    · exact hout y (by omega) (by omega)
  refine ⟨⟨hcore5, ?_⟩, hbody⟩
  intro b2 hb2 hk2
  by_cases e : b2 = b
  · subst e
    unfold Watched
    have h2 : (wlSwap t (b2.c + 2) lit r watch).DB (b2.c + 2) = t.DB (b2.c + 2) := by
      rw [hbodyall b2 hb (b2.c + 2) (by omega) (by omega)]
      exact hout _ (by omega) (by omega)
    have h3 : (wlSwap t (b2.c + 2) lit r watch).DB (b2.c + 3) = t.DB (b2.c + 2 + r) := by
      rw [hbodyall b2 hb (b2.c + 3) (by omega) (by omega)]
      exact hD3
    rw [h2, h3]
    have hwx : ∀ u, u = w → u ∈ (g.move lit (t.DB (b2.c + 2 + r)) w (visited ++ rest)).ch
        (t.DB (b2.c + 2 + r)) := fun u hu => (hmm _ _).mpr (Or.inl ⟨rfl, hu⟩)
    rcases hwb with e | e
    · rw [if_pos e] at hother
      exact Or.inr ⟨hwx _ e.symm, (hmm _ _).mpr (Or.inr ⟨by omega, hother⟩)⟩
    · rw [if_neg (by omega)] at hother
      exact Or.inl ⟨(hmm _ _).mpr (Or.inr ⟨by omega, hother⟩), hwx _ e.symm⟩
  · have hold := h.arena.watched b2 hb2 hk2
    unfold Watched at hold ⊢
    rw [hbody b2 hb2 e _ (by omega) (by omega), hbody b2 hb2 e _ (by omega) (by omega)]
    have hc1 : b2.c ≠ w := by
      intro e2
      exact e (Layout.block_of_cell h.arena.layout hb2 hb (Or.inl e2.symm) hwb)
    have hc2 : b2.c + 1 ≠ w := by
      intro e2
      exact e (Layout.block_of_cell h.arena.layout hb2 hb (Or.inr e2.symm) hwb)
    rcases hold with ⟨a1, a2⟩ | ⟨a1, a2⟩
    · exact Or.inl ⟨(hmm _ _).mpr (Or.inr ⟨hc1, a1⟩), (hmm _ _).mpr (Or.inr ⟨hc2, a2⟩)⟩
    · exact Or.inr ⟨(hmm _ _).mpr (Or.inr ⟨hc1, a1⟩), (hmm _ _).mpr (Or.inr ⟨hc2, a2⟩)⟩

/-- The loop invariant after `wlSwap`. -/
theorem WLoop.swap {g : Ghost} {t : State} {fl lit : Int} {watch : WatchPtr}
    {visited rest : List Int} {w : Int} (h : WLoop g t fl lit watch visited (w :: rest))
    {b : Blk} (hb : b ∈ g.bs) (hk : 2 ≤ b.k) (hwb : w = b.c ∨ w = b.c + 1)
    (hlit : t.DB (b.c + 3) = lit)
    (hother : (if w = b.c then b.c + 1 else b.c) ∈ g.ch (t.DB (b.c + 2)))
    {r : Nat} (hr1 : 2 ≤ r) (hr2 : r < b.k) (hfree : t.mfalse (t.DB (b.c + 2 + r)) = 0) :
    WLoop (g.move lit (t.DB (b.c + 2 + r)) w (visited ++ rest))
      (wlSwap t (b.c + 2) lit r watch) fl lit watch visited rest := by
  obtain ⟨harena, hbody⟩ := h.swap_arena hb hk hwb hlit hother hr1 hr2 hfree
  obtain ⟨f1, f2, f3, f4, f5, f6, f7, f8⟩ := wlSwap_fields t (b.c + 2) lit r watch
  have hwmem : w ∈ g.ch lit := by rw [h.chain]; simp
  have hxne : t.DB (b.c + 2 + r) ≠ lit := by
    intro e; rw [e] at hfree; exact h.lit_false hfree
  have hmm := mem_move h.arena.toArenaCore hxne h.chain
  have hf0 := h.trail.f0
  refine ⟨harena, h.trail.congr_trailinv f1 f4 f3 f6 f7 f8, h.level.congr_levelinv f4 f3 f6 f7 f8 f5, ?_, ?_,
    ?_, ?_, ?_, ?_, h.wptr⟩
  · intro hfl
    refine ((h.reason hfl).transfer f4 f6 f8 f5 ?_).ghost rfl
    intro i hi1 hi2 b2 hb2 h0 hall x hx1 hx2
    have hne : b2 ≠ b := by
      rintro rfl
      obtain ⟨j, hj0, hj1, hj2⟩ := hall r (by omega) hr2
      have := h.trail.on_trail hj0 (by omega : j < t.assigned)
      rw [hj2] at this
      exact this hfree
    exact hbody b2 hb2 hne x hx1 (by omega)
  · constructor
    intro b2 hb2 hk2 u v l l2 hp hu hv i hi0 hi1 hil hdone
    rw [f8] at hi1; rw [f4] at hil; rw [f7] at hdone
    have hres : ∃ j, 0 ≤ j ∧ j < t.assigned ∧ t.mfalseStack j = -l2 ∧
        (j < i ∨ ∀ m, i < m → m ≤ j → ¬ IsDec t m) := by
      rcases (hmm l u).mp hu with ⟨e1, _⟩ | ⟨hu1, hu2⟩
      · exfalso
        have := h.trail.on_trail hi0 hi1
        rw [hil, e1] at this
        exact this hfree
      · have hdone2 : i + 1 < t.processed ∨ (i + 1 = t.processed ∧ u ∉ w :: rest) := by
          rcases hdone with hd | ⟨hd, hn⟩
          · exact Or.inl hd
          · refine Or.inr ⟨hd, fun hc => ?_⟩
            rcases List.mem_cons.mp hc with e | e
            · exact hu1 e
            · exact hn e
        rcases (hmm l2 v).mp hv with ⟨_, e2⟩ | ⟨_, hv2⟩
        · exfalso
          rw [e2] at hp
          obtain ⟨j, hj0, hj1, hj2, _⟩ :=
            h.watch2.ok b2 hb2 hk2 u w l lit hp hu2 hwmem i hi0 hi1 hil hdone2
          have := h.trail.on_trail hj0 hj1
          rw [hj2] at this
          exact h.trail.not_both h.lit_false this
        · exact h.watch2.ok b2 hb2 hk2 u v l l2 hp hu2 hv2 i hi0 hi1 hil hdone2
    obtain ⟨j, a1, a2, a3, a4⟩ := hres
    refine ⟨j, a1, by rw [f8]; exact a2, by rw [f4]; exact a3, ?_⟩
    rcases a4 with a4 | a4
    · exact Or.inl a4
    · right
      intro m hm1 hm2
      rw [IsDec.congr_isdec f5 f4]
      exact a4 m hm1 hm2
  · rw [f6, f7]; exact h.fpos
  · rw [f4, f7]; exact h.cur
  · intro m hm1 hm2
    rw [f7] at hm1; rw [f8] at hm2
    rw [IsDec.congr_isdec f5 f4]
    exact h.pend m hm1 hm2
  · simp [Ghost.move, hxne.symm]

/-! ## The state after `addClause` -/

/-- What `addClause(in, size, irr)` does, for a sequence `in[0..size)` that the
call does not overwrite before reading it. -/
theorem addClause_spec (s : State) (inp : LitPtr) (size : Nat) (irr : Int)
    (hmem : s.mem_used + size + 3 ≤ s.mem_max) (hin : inp.clearOf s size) :
    ∃ s1, addClause s inp size irr = .ok (s.mem_used + 2, s1) ∧
      s1.mem_used = s.mem_used + size + 3 ∧
      (∀ i : Nat, i < size → s1.DB (s.mem_used + 2 + i) = inp.get s i) ∧
      s1.DB (s.mem_used + 2 + size) = 0 ∧
      (∀ x, x < s.mem_used ∨ s.mem_used + 2 + size < x → s1.DB x = s.DB x) ∧
      (2 ≤ size → s1.DB s.mem_used = s.first (inp.get s 0) ∧
        s1.DB (s.mem_used + 1) = put s.first (inp.get s 0) s.mem_used (inp.get s 1) ∧
        s1.first = put (put s.first (inp.get s 0) s.mem_used) (inp.get s 1) (s.mem_used + 1)) ∧
      (size ≤ 1 → s1.first = s.first) ∧
      s1.mem_fixed = (if irr ≠ 0 then s.mem_used + size + 3 else s.mem_fixed) ∧
      s1.nLemmas = (if irr ≠ 0 then s.nLemmas else s.nLemmas + 1) ∧
      s1.nVars = s.nVars ∧ s1.mfalse = s.mfalse ∧ s1.mfalseStack = s.mfalseStack ∧
      s1.reason = s.reason ∧ s1.forced = s.forced ∧ s1.processed = s.processed ∧
      s1.assigned = s.assigned ∧ s1.model = s.model ∧ s1.buffer = s.buffer ∧
      s1.next = s.next ∧ s1.prev = s.prev ∧ s1.head = s.head ∧
      s1.mem_max = s.mem_max ∧ s1.maxLemmas = s.maxLemmas := by
  have hget : getMemory s ((size : Int) + 3) =
      .ok (s.mem_used, { s with mem_used := s.mem_used + ((size : Int) + 3) }) := by
    unfold getMemory
    rw [if_neg]
    omega
  obtain ⟨s0, hs0⟩ : ∃ s0 : State, s0 = { s with mem_used := s.mem_used + ((size : Int) + 3) } :=
    ⟨_, rfl⟩
  have hs0get : ∀ i, inp.get s0 i = inp.get s i := by
    intro i; rw [hs0]; cases inp <;> rfl
  -- the state after the two `addWatch` calls
  obtain ⟨s2, hs2⟩ : ∃ s2 : State,
      s2 = (if (size : Int) > 1 then
              addWatch (addWatch s0 (inp.get s0 0) s.mem_used)
                (inp.get (addWatch s0 (inp.get s0 0) s.mem_used) 1) (s.mem_used + 1)
            else s0) := ⟨_, rfl⟩
  have hread1 : 2 ≤ size → inp.get (addWatch s0 (inp.get s0 0) s.mem_used) 1 = inp.get s 1 := by
    intro h2
    cases inp with
    | buf o => rw [hs0]; rfl
    | db o =>
      simp only [LitPtr.clearOf] at hin
      have : o + 1 ≠ s.mem_used := by omega
      rw [hs0]
      simp [LitPtr.get, addWatch, put, this]
    | raw o =>
      simp only [LitPtr.clearOf] at hin
      simp only [LitPtr.get]
      exact bufferCell_congr (by rw [hs0]; rfl) (by rw [hs0]; rfl) (by omega)
  have hs2DB : ∀ x, x ≠ s.mem_used → x ≠ s.mem_used + 1 → s2.DB x = s.DB x := by
    intro x h1 h2
    rw [hs2]
    split_ifs
    · rw [hs0]; simp [addWatch, put, h1, h2]
    · rw [hs0]
  have hs2DB2 : 2 ≤ size → s2.DB s.mem_used = s.first (inp.get s 0) ∧
      s2.DB (s.mem_used + 1) = put s.first (inp.get s 0) s.mem_used (inp.get s 1) ∧
      s2.first = put (put s.first (inp.get s 0) s.mem_used) (inp.get s 1) (s.mem_used + 1) := by
    intro h2
    have hgt : (size : Int) > 1 := by omega
    rw [hs2, if_pos hgt, hread1 h2, hs0get]
    rw [hs0]
    refine ⟨?_, ?_, ?_⟩
    · simp [addWatch, put]
    · simp [addWatch, put]
    · simp [addWatch]
  have hs2first : size ≤ 1 → s2.first = s.first := by
    intro h; rw [hs2, if_neg (by omega), hs0]
  have hs2rest : s2.mem_used = s.mem_used + ((size : Int) + 3) ∧ s2.mem_fixed = s.mem_fixed ∧
      s2.nLemmas = s.nLemmas ∧ s2.buffer = s.buffer ∧ s2.nVars = s.nVars ∧
      s2.mfalse = s.mfalse ∧ s2.mfalseStack = s.mfalseStack ∧ s2.reason = s.reason ∧
      s2.forced = s.forced ∧ s2.processed = s.processed ∧ s2.assigned = s.assigned ∧
      s2.model = s.model ∧ s2.next = s.next ∧ s2.prev = s.prev ∧ s2.head = s.head ∧
      s2.mem_max = s.mem_max ∧ s2.maxLemmas = s.maxLemmas := by
    rw [hs2]
    split_ifs <;> rw [hs0] <;>
      exact ⟨rfl, rfl, rfl, rfl, rfl, rfl, rfl, rfl, rfl, rfl, rfl, rfl, rfl, rfl, rfl, rfl, rfl⟩
  obtain ⟨r1, r2, r3, r4, r5, r6, r7, r8, r9, r10, r11, r12, r13, r14, r15, r16, r17⟩ := hs2rest
  have hsafe : ∀ o, inp = .db o → ∀ j j2 : Int, 0 ≤ j2 → j2 < j → j < 0 + (size : Int) →
      o + j ≠ s.mem_used + 2 + j2 := by
    intro o ho j j2 h1 h2 h3
    subst ho
    simp only [LitPtr.clearOf] at hin
    omega
  have hraw : ∀ o, inp = .raw o → ∀ j : Int, j < 0 + (size : Int) → o + j < s2.nVars := by
    intro o ho j h1
    subst ho
    simp only [LitPtr.clearOf] at hin
    rw [r5]
    omega
  have hread : ∀ i : Nat, i < size → inp.get s2 i = inp.get s i := by
    intro i hi
    cases inp with
    | buf o => simp only [LitPtr.get, r4]
    | db o =>
      simp only [LitPtr.clearOf] at hin
      simp only [LitPtr.get]
      apply hs2DB <;> omega
    | raw o =>
      simp only [LitPtr.clearOf] at hin
      simp only [LitPtr.get]
      rw [bufferCell_inside (by rw [r5]; omega), bufferCell_inside (by omega), r4]
  have hcopy := copyLits_DB inp (s.mem_used + 2) size 0 s2 hsafe hraw
  obtain ⟨s3, hs3⟩ : ∃ s3 : State, s3 = copyLits inp (s.mem_used + 2) size 0 s2 := ⟨_, rfl⟩
  have hs3eq : s3 = { s2 with DB := s3.DB } := by
    rw [hs3]; exact copyLits_frame inp _ size 0 s2
  rw [← hs3] at hcopy
  have hfin : addClause s inp size irr = .ok (s.mem_used + 2,
      if irr ≠ 0 then
        { s3 with DB := put s3.DB (s.mem_used + 2 + size) 0, mem_fixed := s3.mem_used }
      else
        { s3 with DB := put s3.DB (s.mem_used + 2 + size) 0, nLemmas := s3.nLemmas + 1 }) := by
    unfold addClause
    rw [hget]
    simp only [Int.toNat_ofNat, ← hs0, ← hs2, ← hs3]
  have hDBfin : ∀ x, (if irr ≠ 0 then
        ({ s3 with DB := put s3.DB (s.mem_used + 2 + size) 0, mem_fixed := s3.mem_used } : State)
      else
        { s3 with DB := put s3.DB (s.mem_used + 2 + size) 0, nLemmas := s3.nLemmas + 1 }).DB x =
      put s3.DB (s.mem_used + 2 + size) 0 x := by
    intro x; split_ifs <;> rfl
  refine ⟨_, hfin, ?_, ?_, ?_, ?_, ?_, ?_, ?_, ?_, ?_⟩
  · split_ifs <;> (rw [hs3eq]; show s2.mem_used = _; rw [r1]; ring)
  · intro i hi
    rw [hDBfin]
    have hne : s.mem_used + 2 + (i : Int) ≠ s.mem_used + 2 + (size : Int) := by omega
    simp only [put, if_neg hne]
    rw [hcopy, if_pos (by omega)]
    have : s.mem_used + 2 + (i : Int) - (s.mem_used + 2) = i := by ring
    rw [this]
    exact hread i hi
  · rw [hDBfin]; simp [put]
  · intro x hx
    rw [hDBfin]
    have hne : x ≠ s.mem_used + 2 + (size : Int) := by omega
    simp only [put, if_neg hne]
    rw [hcopy, if_neg (by omega)]
    exact hs2DB x (by omega) (by omega)
  · intro h2
    obtain ⟨a1, a2, a3⟩ := hs2DB2 h2
    refine ⟨?_, ?_, ?_⟩
    · rw [hDBfin]
      have hne : s.mem_used ≠ s.mem_used + 2 + (size : Int) := by omega
      simp only [put, if_neg hne]
      rw [hcopy, if_neg (by omega)]; exact a1
    · rw [hDBfin]
      have hne : s.mem_used + 1 ≠ s.mem_used + 2 + (size : Int) := by omega
      simp only [put, if_neg hne]
      rw [hcopy, if_neg (by omega)]; exact a2
    · split_ifs <;> (rw [hs3eq]; exact a3)
  · intro h1
    split_ifs <;> (rw [hs3eq]; exact hs2first h1)
  · split_ifs
    · rw [hs3eq]; show s2.mem_used = _; rw [r1]; ring
    · rw [hs3eq]; exact r2
  · split_ifs
    · rw [hs3eq]; exact r3
    · rw [hs3eq]; show s2.nLemmas + 1 = _; rw [r3]
  · split_ifs <;> (rw [hs3eq]; exact ⟨r5, r6, r7, r8, r9, r10, r11, r12, r4, r13, r14, r15, r16, r17⟩)

/-! ## The arena invariant after `addClause` -/

theorem mem_push (g : Ghost) (c : Int) (k : Nat) (x0 x1 l w : Int) :
    w ∈ (g.push c k x0 x1).ch l ↔
      (2 ≤ k ∧ l = x1 ∧ w = c + 1) ∨ (2 ≤ k ∧ l = x0 ∧ w = c) ∨ w ∈ g.ch l := by
  simp only [Ghost.push, List.mem_append]
  constructor
  · rintro (h | h | h)
    · split_ifs at h with h1
      · exact Or.inl ⟨h1.1, h1.2, by simpa using h⟩
      · cases h
    · split_ifs at h with h1
      · exact Or.inr (Or.inl ⟨h1.1, h1.2, by simpa using h⟩)
      · cases h
    · exact Or.inr (Or.inr h)
  · rintro (⟨h1, h2, h3⟩ | ⟨h1, h2, h3⟩ | h)
    · left; rw [if_pos ⟨h1, h2⟩, h3]; simp
    · right; left; rw [if_pos ⟨h1, h2⟩, h3]; simp
    · exact Or.inr (Or.inr h)

theorem ArenaCore.cell_lt {g : Ghost} {s : State} (h : ArenaCore g s) {l w : Int}
    (hw : w ∈ g.ch l) : arenaBase s.nVars ≤ w ∧ w + 1 < s.mem_used := by
  obtain ⟨_, b, hb, _, hwb⟩ := h.cell l w hw
  have := h.blk_bounds hb
  omega

theorem ArenaInv.push {g : Ghost} {s s1 : State} (h : ArenaInv g s) {k : Nat} {x0 x1 : Int}
    (hk : 1 ≤ k) (hn : s1.nVars = s.nVars)
    (hused : s1.mem_used = s.mem_used + k + 3)
    (hlits : ∀ i : Nat, i < k → IsLit s.nVars (s1.DB (s.mem_used + 2 + i)))
    (h0 : s1.DB (s.mem_used + 2) = x0) (h1 : 2 ≤ k → s1.DB (s.mem_used + 3) = x1)
    (hend : s1.DB (s.mem_used + 2 + k) = 0)
    (hold : ∀ x, x < s.mem_used → s1.DB x = s.DB x)
    (hw : 2 ≤ k → s1.DB s.mem_used = s.first x0 ∧
      s1.DB (s.mem_used + 1) = put s.first x0 s.mem_used x1 ∧
      s1.first = put (put s.first x0 s.mem_used) x1 (s.mem_used + 1))
    (hnw : k ≤ 1 → s1.first = s.first) :
    ArenaInv (g.push s.mem_used k x0 x1) s1 := by
  have hbase := arenaBase_pos h.npos
  have hle := Layout.le h.layout
  have hmp := mem_push g s.mem_used k x0 x1
  have holdcell : ∀ l w, w ∈ g.ch l → s1.DB w = s.DB w := by
    intro l w hw
    exact hold w (by have := h.toArenaCore.cell_lt hw; omega)
  have hx0 : 2 ≤ k → IsLit s.nVars x0 := by
    intro h2; have := hlits 0 (by omega); simpa [h0] using this
  have hx1 : 2 ≤ k → IsLit s.nVars x1 := by
    intro h2
    have := hlits 1 (by omega)
    have e : s.mem_used + 2 + ((1 : Nat) : Int) = s.mem_used + 3 := by push_cast; ring
    rw [e, h1 h2] at this; exact this
  have hE1 : s.mem_used ≠ END := by unfold END; omega
  have hE2 : s.mem_used + 1 ≠ END := by unfold END; omega
  refine ⟨⟨?_, ?_, ?_, ?_, ?_, ?_, ?_, ?_⟩, ?_⟩
  · rw [hn]; exact h.npos
  · rw [hn, hold _ (by omega)]; exact h.base0
  · rw [hn, hused]
    exact ⟨by simp, h.layout⟩
  · intro b hb
    rw [hn]
    rcases List.mem_cons.mp hb with e | m
    · subst e; exact ⟨hk, hlits, hend⟩
    · obtain ⟨a1, a2, a3⟩ := h.blk b m
      have := h.toArenaCore.blk_bounds m
      refine ⟨a1, fun i hi => ?_, ?_⟩
      · rw [hold _ (by omega)]; exact a2 i hi
      · rw [hold _ (by omega)]; exact a3
  · intro l hl
    rw [hn] at hl
    have hold_seg : Lseg s1.DB (s.first l) (g.ch l) END :=
      Lseg.congr_lseg (fun w hw => holdcell l w hw) (h.seg l hl)
    by_cases h2 : 2 ≤ k
    · obtain ⟨w1, w2, w3⟩ := hw h2
      simp only [Ghost.push]
      by_cases e1 : l = x1
      · by_cases e0 : l = x0
        · have e10 : x1 = x0 := by rw [← e1, e0]
          rw [if_pos ⟨h2, e1⟩, if_pos ⟨h2, e0⟩]
          simp only [List.singleton_append, Lseg]
          refine ⟨by rw [w3, e1]; simp [put], hE2, ?_, hE1, ?_⟩
          · rw [w2, e10]; simp [put]
          · rw [w1, ← e0]; exact hold_seg
        · have e10 : x1 ≠ x0 := by rw [← e1]; exact e0
          rw [if_pos ⟨h2, e1⟩, if_neg (fun hc => e0 hc.2)]
          simp only [List.singleton_append, List.nil_append, Lseg]
          refine ⟨by rw [w3, e1]; simp [put], hE2, ?_⟩
          rw [w2]; simp only [put, if_neg e10]
          rw [← e1]; exact hold_seg
      · rw [if_neg (fun hc => e1 hc.2)]
        by_cases e0 : l = x0
        · rw [if_pos ⟨h2, e0⟩]
          simp only [List.singleton_append, List.nil_append, Lseg]
          refine ⟨by rw [w3, e0]; simp [put]; intro hc; exact absurd (e0.trans hc) e1, hE1, ?_⟩
          rw [w1, ← e0]; exact hold_seg
        · rw [if_neg (fun hc => e0 hc.2)]
          simp only [List.nil_append]
          rw [w3]; simp only [put, if_neg e1, if_neg e0]
          exact hold_seg
    · simp only [Ghost.push]
      rw [if_neg (fun hc => h2 hc.1), if_neg (fun hc => h2 hc.1), hnw (by omega)]
      exact hold_seg
  · intro l
    simp only [Ghost.push]
    have hnew : ∀ w, w ∈ g.ch l → w ≠ s.mem_used ∧ w ≠ s.mem_used + 1 := by
      intro w hw
      have := h.toArenaCore.cell_lt hw
      omega
    split_ifs
    · simp only [List.singleton_append, List.nodup_cons, List.mem_cons]
      refine ⟨?_, ?_, h.nodup l⟩
      · rintro (hc | hc)
        · omega
        · exact (hnew _ hc).2 rfl
      · exact fun hc => (hnew _ hc).1 rfl
    · simp only [List.singleton_append, List.nil_append, List.nodup_cons]
      exact ⟨fun hc => (hnew _ hc).2 rfl, h.nodup l⟩
    · simp only [List.singleton_append, List.nil_append, List.nodup_cons]
      exact ⟨fun hc => (hnew _ hc).1 rfl, h.nodup l⟩
    · simpa using h.nodup l
  · intro l w hw
    rw [hn]
    rcases (hmp l w).mp hw with ⟨a1, a2, a3⟩ | ⟨a1, a2, a3⟩ | m
    · exact ⟨a2 ▸ hx1 a1, ⟨s.mem_used, k⟩, List.mem_cons_self _ _, a1, Or.inr a3⟩
    · exact ⟨a2 ▸ hx0 a1, ⟨s.mem_used, k⟩, List.mem_cons_self _ _, a1, Or.inl a3⟩
    · obtain ⟨b1, b, hb, b2, b3⟩ := h.cell l w m
      exact ⟨b1, b, List.mem_cons_of_mem _ hb, b2, b3⟩
  · intro l l2 w hw hw2
    have hlt : ∀ l, w ∈ g.ch l → w + 1 < s.mem_used := fun l m => (h.toArenaCore.cell_lt m).2
    rcases (hmp l w).mp hw with ⟨a1, a2, a3⟩ | ⟨a1, a2, a3⟩ | m <;>
      rcases (hmp l2 w).mp hw2 with ⟨c1, c2, c3⟩ | ⟨c1, c2, c3⟩ | m2
    · rw [a2, c2]
    · omega
    · have := hlt _ m2; omega
    · omega
    · rw [a2, c2]
    · have := hlt _ m2; omega
    · have := hlt _ m; omega
    · have := hlt _ m; omega
    · exact h.disj _ _ _ m m2
  · intro b hb hk2
    rcases List.mem_cons.mp hb with e | m
    · subst e
      unfold Watched
      simp only []
      rw [h0, h1 hk2]
      exact Or.inl ⟨(hmp _ _).mpr (Or.inr (Or.inl ⟨hk2, rfl, rfl⟩)),
        (hmp _ _).mpr (Or.inl ⟨hk2, rfl, rfl⟩)⟩
    · have hbb := h.toArenaCore.blk_bounds m
      have := h.watched b m hk2
      unfold Watched at this ⊢
      rw [hold _ (by omega), hold _ (by omega)]
      rcases this with ⟨a1, a2⟩ | ⟨a1, a2⟩
      · exact Or.inl ⟨(hmp _ _).mpr (Or.inr (Or.inr a1)), (hmp _ _).mpr (Or.inr (Or.inr a2))⟩
      · exact Or.inr ⟨(hmp _ _).mpr (Or.inr (Or.inr a1)), (hmp _ _).mpr (Or.inr (Or.inr a2))⟩

/-! ## bump and the marking loop -/

theorem Static.refl_static (t : State) : Static t t :=
  ⟨rfl, rfl, rfl, rfl, rfl, rfl, rfl, rfl, rfl, rfl, rfl, rfl⟩

theorem Static.trans_static {t s u : State} (h1 : Static t s) (h2 : Static s u) : Static t u :=
  ⟨h2.nVars.trans h1.nVars, h2.DB.trans h1.DB, h2.first.trans h1.first,
    h2.mem_used.trans h1.mem_used, h2.mem_max.trans h1.mem_max,
    h2.mem_fixed.trans h1.mem_fixed, h2.nLemmas.trans h1.nLemmas,
    h2.maxLemmas.trans h1.maxLemmas, h2.mfalseStack.trans h1.mfalseStack,
    h2.reason.trans h1.reason, h2.forced.trans h1.forced, h2.model.trans h1.model⟩

theorem bump_static (s : State) (lit : Int) :
    Static s (bump s lit) ∧ (bump s lit).assigned = s.assigned ∧
    (bump s lit).processed = s.processed ∧ (bump s lit).buffer = s.buffer ∧
    (bump s lit).fast = s.fast ∧ (bump s lit).slow = s.slow := by
  simp only [bump]
  split_ifs <;>
    exact ⟨⟨rfl, rfl, rfl, rfl, rfl, rfl, rfl, rfl, rfl, rfl, rfl, rfl⟩, rfl, rfl, rfl, rfl, rfl⟩

theorem bump_mfalse (s : State) (lit l : Int) :
    (bump s lit).mfalse l =
      if l = lit ∧ s.mfalse l ≠ IMPLIED then MARK else s.mfalse l := by
  by_cases h : s.mfalse lit = IMPLIED <;> by_cases h2 : absInt lit = s.head <;>
    by_cases e : l = lit <;> simp [bump, put, h, h2, e]

/-- The marking loop over the cells `c0 .. c0+m-1`, which hold literals, up
to the 0 in cell `c0+m`. -/
theorem bumpAll_spec : ∀ (m f : Nat) (s s1 : State) (c0 : Int),
    (∀ i : Nat, i < m → s.DB (c0 + i) ≠ 0) → s.DB (c0 + m) = 0 →
    bumpAll f s c0 = .ok s1 →
    Static s s1 ∧ s1.assigned = s.assigned ∧ s1.processed = s.processed ∧
    s1.buffer = s.buffer ∧ s1.fast = s.fast ∧ s1.slow = s.slow ∧
    ∀ l, s1.mfalse l =
      if (∃ i : Nat, i < m ∧ s.DB (c0 + i) = l) ∧ s.mfalse l ≠ IMPLIED then MARK
      else s.mfalse l
  | _, 0, _, _, _, _, _, h => by simp [bumpAll] at h
  | 0, f + 1, s, s1, c0, _, h0, h => by
    simp only [bumpAll] at h
    have h0' : s.DB c0 = 0 := by simpa using h0
    rw [if_neg (by simpa using h0')] at h
    have e : s = s1 := by simpa using h
    subst e
    refine ⟨Static.refl_static _, rfl, rfl, rfl, rfl, rfl, fun l => ?_⟩
    rw [if_neg]
    rintro ⟨⟨i, hi, _⟩, _⟩
    omega
  | m + 1, f + 1, s, s1, c0, hnz, h0, h => by
    simp only [bumpAll] at h
    have hc0 : s.DB c0 ≠ 0 := by simpa using hnz 0 (by omega)
    rw [if_pos hc0] at h
    obtain ⟨b1, b2, b3, b4, b5, b6⟩ := bump_static s (s.DB c0)
    have hnz2 : ∀ i : Nat, i < m → (bump s (s.DB c0)).DB (c0 + 1 + i) ≠ 0 := by
      intro i hi
      rw [b1.DB]
      have := hnz (i + 1) (by omega)
      have e : c0 + ((i + 1 : Nat) : Int) = c0 + 1 + i := by push_cast; ring
      rwa [e] at this
    have h02 : (bump s (s.DB c0)).DB (c0 + 1 + m) = 0 := by
      rw [b1.DB]
      have e : c0 + ((m + 1 : Nat) : Int) = c0 + 1 + m := by push_cast; ring
      rwa [e] at h0
    obtain ⟨a1, a2, a3, a4, a5, a6, a7⟩ := bumpAll_spec m f _ s1 (c0 + 1) hnz2 h02 h
    refine ⟨b1.trans_static a1, a2.trans b2, a3.trans b3, a4.trans b4, a5.trans b5, a6.trans b6,
      fun l => ?_⟩
    rw [a7 l, bump_mfalse, b1.DB]
    have hex : (∃ i : Nat, i < m + 1 ∧ s.DB (c0 + i) = l) ↔
        (l = s.DB c0 ∨ ∃ i : Nat, i < m ∧ s.DB (c0 + 1 + i) = l) := by
      constructor
      · rintro ⟨i, hi, e⟩
        rcases Nat.eq_zero_or_pos i with e0 | e0
        · subst e0; left; simpa using e.symm
        · right
          refine ⟨i - 1, by omega, ?_⟩
          have : c0 + 1 + ((i - 1 : Nat) : Int) = c0 + i := by omega
          rw [this]; exact e
      · rintro (e | ⟨i, hi, e⟩)
        · exact ⟨0, by omega, by simpa using e.symm⟩
        · refine ⟨i + 1, by omega, ?_⟩
          have : c0 + ((i + 1 : Nat) : Int) = c0 + 1 + i := by push_cast; ring
          rw [this]; exact e
    have hMI : MARK ≠ IMPLIED := by decide
    simp only [hex]
    by_cases hI : s.mfalse l = IMPLIED
    · have hin : (if l = s.DB c0 ∧ s.mfalse l ≠ IMPLIED then MARK else s.mfalse l) =
          s.mfalse l := if_neg (fun hc => hc.2 hI)
      rw [hin, if_neg (fun hc => hc.2 hI), if_neg (fun hc => hc.2 hI)]
    · by_cases e1 : l = s.DB c0
      · have hin : (if l = s.DB c0 ∧ s.mfalse l ≠ IMPLIED then MARK else s.mfalse l) =
            MARK := if_pos ⟨e1, hI⟩
        have hL : (if (∃ i : Nat, i < m ∧ s.DB (c0 + 1 + i) = l) ∧ MARK ≠ IMPLIED then MARK
            else MARK) = MARK := by split_ifs <;> rfl
        have hR : (if (l = s.DB c0 ∨ ∃ i : Nat, i < m ∧ s.DB (c0 + 1 + i) = l) ∧
            s.mfalse l ≠ IMPLIED then MARK else s.mfalse l) = MARK :=
          if_pos ⟨Or.inl e1, hI⟩
        rw [hin, hL, hR]
      · have hin : (if l = s.DB c0 ∧ s.mfalse l ≠ IMPLIED then MARK else s.mfalse l) =
            s.mfalse l := if_neg (fun hc => e1 hc.1)
        rw [hin]
        by_cases e2 : ∃ i : Nat, i < m ∧ s.DB (c0 + 1 + i) = l
        · rw [if_pos ⟨e2, hI⟩, if_pos ⟨Or.inr e2, hI⟩]
        · rw [if_neg (fun hc => e2 hc.1), if_neg]
          rintro ⟨h3 | h3, _⟩
          · exact e1 h3
          · exact e2 h3

/-! ## The last decision -/

theorem exists_last_dec (t : State) : ∀ (n : Nat) (lo hi : Int), hi - lo = n + 1 →
    IsDec t lo → ∃ D, lo ≤ D ∧ D < hi ∧ IsDec t D ∧ ∀ m, D < m → m < hi → ¬ IsDec t m
  | 0, lo, hi, h, hd => ⟨lo, le_refl _, by omega, hd, fun m h1 h2 => by omega⟩
  | n + 1, lo, hi, h, hd => by
    by_cases hl : IsDec t (hi - 1)
    · exact ⟨hi - 1, by omega, by omega, hl, fun m h1 h2 => by omega⟩
    · obtain ⟨D, a1, a2, a3, a4⟩ := exists_last_dec t n lo (hi - 1) (by omega) hd
      refine ⟨D, a1, by omega, a3, fun m h1 h2 => ?_⟩
      by_cases e : m = hi - 1
      · rw [e]; exact hl
      · exact a4 m h1 (by omega)

theorem Conflict.topDec {g : Ghost} {t : State} {b : Blk} (h : Conflict g t b) :
    ∃ D, TopDec t D := by
  have hpa := h.trail.pa
  have hfp := h.fpos
  have hd := h.level.firstDec rfl (by omega)
  obtain ⟨D, a1, a2, a3, a4⟩ := exists_last_dec t (t.processed - t.forced - 1).toNat
    t.forced t.processed (by omega) hd
  refine ⟨D, a1, a2, a3, fun m h1 h2 => ?_⟩
  by_cases e : m < t.processed
  · exact a4 m h1 e
  · exact h.pend m (by omega) h2

/-! ## The first loop of `analyze` -/

theorem reachesDecision_spec : ∀ (f : Nat) (s : State) (ck : Int) (r : Bool),
    reachesDecision f s ck = .ok r →
    (r = true → ∃ d, d < ck ∧ IsDec s d ∧
      (∀ m, d ≤ m → m < ck → s.mfalse (s.mfalseStack m) ≠ MARK) ∧
      (∀ m, d < m → m < ck → ¬ IsDec s m)) ∧
    (r = false → ∃ c, c < ck ∧ s.mfalse (s.mfalseStack c) = MARK ∧
      ∀ m, c < m → m < ck → (s.mfalse (s.mfalseStack m) ≠ MARK ∧ ¬ IsDec s m))
  | 0, _, _, _, h => by simp [reachesDecision] at h
  | f + 1, s, ck, r, h => by
    simp only [reachesDecision] at h
    split_ifs at h with h1 h2
    · have e : r = true := by simpa using h.symm
      subst e
      refine ⟨fun _ => ⟨ck - 1, by omega, h2, fun m a1 a2 => ?_, fun m a1 a2 => by omega⟩,
        fun hc => by cases hc⟩
      have : m = ck - 1 := by omega
      rw [this]; exact h1
    · obtain ⟨ih1, ih2⟩ := reachesDecision_spec f s (ck - 1) r h
      constructor
      · intro hr
        obtain ⟨d, a1, a2, a3, a4⟩ := ih1 hr
        refine ⟨d, by omega, a2, fun m b1 b2 => ?_, fun m b1 b2 => ?_⟩
        · by_cases e : m = ck - 1
          · rw [e]; exact h1
          · exact a3 m b1 (by omega)
        · by_cases e : m = ck - 1
          · rw [e]; exact h2
          · exact a4 m b1 (by omega)
      · intro hr
        obtain ⟨c, a1, a2, a3⟩ := ih2 hr
        refine ⟨c, by omega, a2, fun m b1 b2 => ?_⟩
        by_cases e : m = ck - 1
        · rw [e]; exact ⟨h1, h2⟩
        · exact a3 m b1 (by omega)
    · have e : r = false := by simpa using h.symm
      subst e
      refine ⟨fun hc => (by cases hc), fun _ => ⟨ck - 1, by omega, (by simpa using h1),
        fun m a1 a2 => (by omega)⟩⟩

/-- The state after the literals of the conflicting clause have been marked. -/
theorem Conflict.resolving {g : Ghost} {t s : State} {b : Blk} {D : Int} {f : Nat}
    (h : Conflict g t b) (hD : TopDec t D)
    (hrun : bumpAll f { { t with res := t.res + 1 } with nConflicts := t.nConflicts + 1 }
      (b.c + 2) = .ok s) :
    Resolving t s D ∧ s.processed = t.processed ∧ s.buffer = t.buffer ∧
      s.fast = t.fast ∧ s.slow = t.slow := by
  have hbk := h.arena.blk b h.hb
  obtain ⟨t1, ht1⟩ : ∃ t1 : State,
      t1 = { { t with res := t.res + 1 } with nConflicts := t.nConflicts + 1 } := ⟨_, rfl⟩
  rw [← ht1] at hrun
  have hDB1 : t1.DB = t.DB := by rw [ht1]
  obtain ⟨a1, a2, a3, a4, a5, a6, a7⟩ := bumpAll_spec b.k f t1 s (b.c + 2)
    (fun i hi => by rw [hDB1]; exact (hbk.2.1 i hi).1) (by rw [hDB1]; exact hbk.2.2) hrun
  rw [ht1] at a1 a2 a3 a4 a5 a6 a7
  have hst : Static t s := ⟨a1.nVars, a1.DB, a1.first, a1.mem_used, a1.mem_max, a1.mem_fixed,
    a1.nLemmas, a1.maxLemmas, a1.mfalseStack, a1.reason, a1.forced, a1.model⟩
  have hf0 := h.trail.f0; have hpa := h.trail.pa
  have hmf : ∀ l, s.mfalse l =
      if (∃ i : Nat, i < b.k ∧ t.DB (b.c + 2 + i) = l) ∧ t.mfalse l ≠ IMPLIED then MARK
      else t.mfalse l := a7
  refine ⟨⟨hst, ?_, ?_, ?_, ?_, ?_, ?_⟩, a3, a4, a5, a6⟩
  · rw [a2]; show D < t.assigned; have := hD.hi; omega
  · exact le_of_eq a2
  · intro i h0 h1
    have := (h.level.root i h0 h1).1
    rw [hmf, if_neg (fun hc => hc.2 this)]; exact this
  · intro i h0 h1
    rw [a2] at h1
    have := h.level.search rfl i h0 h1
    rw [hmf]
    split_ifs
    · exact Or.inr rfl
    · exact Or.inl this
  · intro l hl
    rw [a2]
    apply (h.trail.mf l).mp
    rw [hmf] at hl
    split_ifs at hl with hc
    · obtain ⟨⟨i, hi, e⟩, _⟩ := hc
      rw [← e]; exact h.allFalse i hi
    · exact hl
  · refine ⟨t.processed - 1, by have := hD.hi; omega, by rw [a2]; show _ < t.assigned; omega, ?_⟩
    have hs := h.level.search rfl (t.processed - 1) (by have := h.fpos; omega) (by omega)
    rw [hmf, if_pos]
    refine ⟨⟨1, h.hk, ?_⟩, ?_⟩
    · have e : b.c + 2 + ((1 : Nat) : Int) = b.c + 3 := by push_cast; ring
      rw [e]; exact h.cur
    · rw [hs]; decide

/-- One entry leaves the trail in the first loop of `analyze`: its label
becomes 0, other labels stay or become `MARK` (for earlier trail entries that
are not `IMPLIED`), and a marked entry of the last level remains. -/
theorem Resolving.drop {t s0 u : State} {D : Int} (ht : TrailInv t)
    (h : Resolving t s0 D) (hst : Static t u) (ha : u.assigned = s0.assigned - 1)
    (hlo : D < s0.assigned - 1) (hD0 : t.forced ≤ D)
    (hX : u.mfalse (t.mfalseStack (s0.assigned - 1)) = 0)
    (hO : ∀ l, l ≠ t.mfalseStack (s0.assigned - 1) →
      u.mfalse l = s0.mfalse l ∨
      (u.mfalse l = MARK ∧ s0.mfalse l ≠ IMPLIED ∧
        ∃ j, 0 ≤ j ∧ j < s0.assigned - 1 ∧ t.mfalseStack j = l))
    (hc : ∃ c, D ≤ c ∧ c < s0.assigned - 1 ∧ s0.mfalse (t.mfalseStack c) = MARK) :
    Resolving t u D := by
  have hf0 := ht.f0
  have hhi := h.hi
  have hne : ∀ i, 0 ≤ i → i < s0.assigned - 1 →
      t.mfalseStack i ≠ t.mfalseStack (s0.assigned - 1) := by
    intro i h0 h1 e
    have := ht.pos_unique h0 (by omega) (by omega) (by omega) e
    omega
  refine ⟨hst, by rw [ha]; exact hlo, by rw [ha]; omega, ?_, ?_, ?_, ?_⟩
  · intro i h0 h1
    have hb := h.below i h0 h1
    rcases hO _ (hne i h0 (by omega)) with e | ⟨_, e, _⟩
    · rw [e]; exact hb
    · exact absurd hb e
  · intro i h0 h1
    rw [ha] at h1
    rcases hO _ (hne i (by omega) h1) with e | ⟨e, _, _⟩
    · rw [e]; exact h.mid i h0 (by omega)
    · exact Or.inr e
  · intro l hl
    rw [ha]
    by_cases e : l = t.mfalseStack (s0.assigned - 1)
    · rw [e] at hl; exact absurd hX hl
    · rcases hO l e with e2 | ⟨_, _, j, hj⟩
      · rw [e2] at hl
        obtain ⟨i, a1, a2, a3⟩ := h.gone l hl
        refine ⟨i, a1, ?_, a3⟩
        by_contra hc2
        have : i = s0.assigned - 1 := by omega
        rw [this] at a3
        exact e a3.symm
      · exact ⟨j, hj⟩
  · obtain ⟨c, c1, c2, c3⟩ := hc
    refine ⟨c, c1, by rw [ha]; exact c2, ?_⟩
    rcases hO _ (hne c (by omega) c2) with e | ⟨e, _, _⟩
    · rw [e]; exact c3
    · exact e

/-- A property of the heads of the first loop of `analyze` that every
iteration keeps leads to what the two exits of the loop establish. -/
theorem resolveLoop_induct (fuel : Nat) (I Q : State → Prop)
    (hdrop : ∀ s0, I s0 →
      s0.reason (absInt (s0.mfalseStack (s0.assigned - 1))) ≠ 0 →
      s0.mfalse (s0.mfalseStack (s0.assigned - 1)) ≠ MARK →
      I (unassign { s0 with assigned := s0.assigned - 1 } (s0.mfalseStack (s0.assigned - 1))))
    (hres : ∀ s0 s2, I s0 →
      s0.reason (absInt (s0.mfalseStack (s0.assigned - 1))) ≠ 0 →
      s0.mfalse (s0.mfalseStack (s0.assigned - 1)) = MARK →
      reachesDecision fuel { s0 with assigned := s0.assigned - 1 } (s0.assigned - 1) =
        .ok false →
      bumpAll fuel { s0 with assigned := s0.assigned - 1 }
        (s0.reason (absInt (s0.mfalseStack (s0.assigned - 1)))) = .ok s2 →
      I (unassign s2 (s2.mfalseStack s2.assigned)))
    (hexit1 : ∀ s0, I s0 →
      s0.reason (absInt (s0.mfalseStack (s0.assigned - 1))) = 0 →
      Q { s0 with assigned := s0.assigned - 1 })
    (hexit2 : ∀ s0, I s0 →
      s0.reason (absInt (s0.mfalseStack (s0.assigned - 1))) ≠ 0 →
      s0.mfalse (s0.mfalseStack (s0.assigned - 1)) = MARK →
      reachesDecision fuel { s0 with assigned := s0.assigned - 1 } (s0.assigned - 1) =
        .ok true →
      Q { s0 with assigned := s0.assigned - 1 }) :
    ∀ (f : Nat) (s0 s1 : State), I s0 → resolveLoop fuel f s0 = .ok s1 → Q s1
  | 0, _, _, _, hrun => by simp [resolveLoop] at hrun
  | f + 1, s0, s1, hI, hrun => by
    simp only [resolveLoop] at hrun
    by_cases hdd : s0.reason (absInt (s0.mfalseStack (s0.assigned - 1))) = 0
    · rw [if_neg (by simpa using hdd)] at hrun
      have e := Except.ok.inj hrun
      rw [← e]
      exact hexit1 s0 hI hdd
    · rw [if_pos hdd] at hrun
      by_cases hmk : s0.mfalse (s0.mfalseStack (s0.assigned - 1)) = MARK
      · rw [if_pos hmk] at hrun
        cases hrd : reachesDecision fuel { s0 with assigned := s0.assigned - 1 }
            (s0.assigned - 1) with
        | error e => rw [hrd] at hrun; cases hrun
        | ok r =>
          rw [hrd] at hrun
          cases r with
          | true =>
            have e := Except.ok.inj hrun
            rw [← e]
            exact hexit2 s0 hI hdd hmk hrd
          | false =>
            simp only [] at hrun
            cases hba : bumpAll fuel { s0 with assigned := s0.assigned - 1 }
                (s0.reason (absInt (s0.mfalseStack (s0.assigned - 1)))) with
            | error e => rw [hba] at hrun; cases hrun
            | ok s2 =>
              rw [hba] at hrun
              exact resolveLoop_induct fuel I Q hdrop hres hexit1 hexit2 f _ s1
                (hres s0 s2 hI hdd hmk hrd hba) hrun
      · rw [if_neg hmk] at hrun
        exact resolveLoop_induct fuel I Q hdrop hres hexit1 hexit2 f _ s1
          (hdrop s0 hI hdd hmk) hrun

theorem Resolving.exit_dec {g : Ghost} {t : State} {b : Blk} {D : Int} (h : Conflict g t b)
    (hD : TopDec t D) {s0 : State} (hR : Resolving t s0 D)
    (hdd : s0.reason (absInt (s0.mfalseStack (s0.assigned - 1))) = 0) :
    Resolved t { s0 with assigned := s0.assigned - 1 } D := by
  have hf0 := h.trail.f0
  have hst := hR.static
  rw [hst.reason, hst.mfalseStack] at hdd
  have hlo := hR.lo
  have hhi := hR.hi
  have hDa : s0.assigned - 1 = D := by
    by_contra hc
    exact hD.top (s0.assigned - 1) (by omega) (by omega) hdd
  obtain ⟨i, i1, i2, i3⟩ := hR.marked
  have hi : i = D := by omega
  refine ⟨⟨hst.nVars, hst.DB, hst.first, hst.mem_used, hst.mem_max, hst.mem_fixed,
        hst.nLemmas, hst.maxLemmas, hst.mfalseStack, hst.reason, hst.forced, hst.model⟩,
    by show D ≤ s0.assigned - 1; omega, by show s0.assigned - 1 < t.assigned; omega,
    hR.below, ?_, ?_, ?_, ?_⟩
  · intro j j1 j2
    have j3 : j ≤ s0.assigned - 1 := j2
    exact hR.mid j j1 (by omega)
  · intro l hl
    obtain ⟨j, j1, j2, j3⟩ := hR.gone l hl
    exact ⟨j, j1, by show j ≤ s0.assigned - 1; omega, j3⟩
  · show s0.mfalse (t.mfalseStack (s0.assigned - 1)) = MARK
    rw [hDa, ← hi]; exact i3
  · intro j j1 j2
    have j3 : j < s0.assigned - 1 := j2
    omega

theorem Resolving.exit_level {g : Ghost} {t : State} {b : Blk} {D : Int} (fuel : Nat)
    (h : Conflict g t b) (hD : TopDec t D) {s0 : State} (hR : Resolving t s0 D)
    (hdd : s0.reason (absInt (s0.mfalseStack (s0.assigned - 1))) ≠ 0)
    (hmk : s0.mfalse (s0.mfalseStack (s0.assigned - 1)) = MARK)
    (hrd : reachesDecision fuel { s0 with assigned := s0.assigned - 1 } (s0.assigned - 1) =
      .ok true) :
    Resolved t { s0 with assigned := s0.assigned - 1 } D := by
  have hf0 := h.trail.f0
  have hst := hR.static
  rw [hst.reason, hst.mfalseStack] at hdd
  rw [hst.mfalseStack] at hmk
  have hlo := hR.lo
  have hhi := hR.hi
  have hdec : ∀ i, IsDec { s0 with assigned := s0.assigned - 1 } i ↔ IsDec t i :=
    fun i => IsDec.congr_isdec hst.reason hst.mfalseStack i
  have hDlt : D < s0.assigned - 1 := by
    by_contra hc
    have : s0.assigned - 1 = D := by omega
    rw [this] at hdd
    exact hdd hD.dec
  obtain ⟨sp1, -⟩ := reachesDecision_spec _ _ _ _ hrd
  obtain ⟨d, d1, d2, d3, d4⟩ := sp1 rfl
  rw [hdec] at d2
  have hdD : d = D := by
    by_contra hc
    rcases lt_or_gt_of_ne hc with c1 | c1
    · exact d4 D c1 (by omega) ((hdec D).mpr hD.dec)
    · exact hD.top d c1 (by omega) d2
  refine ⟨⟨hst.nVars, hst.DB, hst.first, hst.mem_used, hst.mem_max, hst.mem_fixed,
        hst.nLemmas, hst.maxLemmas, hst.mfalseStack, hst.reason, hst.forced, hst.model⟩,
    by show D ≤ s0.assigned - 1; omega, by show s0.assigned - 1 < t.assigned; omega,
    hR.below, ?_, ?_, hmk, ?_⟩
  · intro j j1 j2
    have j3 : j ≤ s0.assigned - 1 := j2
    exact hR.mid j j1 (by omega)
  · intro l hl
    obtain ⟨j, j1, j2, j3⟩ := hR.gone l hl
    exact ⟨j, j1, by show j ≤ s0.assigned - 1; omega, j3⟩
  · intro j j1 j2
    have j3 : j < s0.assigned - 1 := j2
    have := d3 j (by omega) j3
    have hms : ({ s0 with assigned := s0.assigned - 1 } : State).mfalseStack = t.mfalseStack :=
      hst.mfalseStack
    rw [hms] at this
    rcases hR.mid j (by have := hD.lo; omega) (by omega) with e | e
    · exact e
    · exact absurd e this

theorem Resolving.step_drop {g : Ghost} {t : State} {b : Blk} {D : Int} (h : Conflict g t b)
    (hD : TopDec t D) {s0 : State} (hR : Resolving t s0 D)
    (hdd : s0.reason (absInt (s0.mfalseStack (s0.assigned - 1))) ≠ 0)
    (hmk : s0.mfalse (s0.mfalseStack (s0.assigned - 1)) ≠ MARK) :
    Resolving t (unassign { s0 with assigned := s0.assigned - 1 }
      (s0.mfalseStack (s0.assigned - 1))) D := by
  have hst := hR.static
  rw [hst.reason, hst.mfalseStack] at hdd
  rw [hst.mfalseStack] at hmk
  have key : Resolving t (unassign { s0 with assigned := s0.assigned - 1 }
      (t.mfalseStack (s0.assigned - 1))) D := ?_
  · rw [← hst.mfalseStack] at key; exact key
  have hlo := hR.lo
  have hhi := hR.hi
  have hDlt : D < s0.assigned - 1 := by
    by_contra hc
    have : s0.assigned - 1 = D := by omega
    rw [this] at hdd
    exact hdd hD.dec
  obtain ⟨c, c1, c2, c3⟩ := hR.marked
  have hcne : c ≠ s0.assigned - 1 := by
    intro e; rw [e] at c3; exact hmk c3
  exact Resolving.drop h.trail hR
    ⟨hst.nVars, hst.DB, hst.first, hst.mem_used, hst.mem_max, hst.mem_fixed,
      hst.nLemmas, hst.maxLemmas, hst.mfalseStack, hst.reason, hst.forced, hst.model⟩
    rfl hDlt hD.lo (by simp [unassign, put])
    (by intro l hl; left; simp [unassign, put, hl])
    ⟨c, c1, by omega, c3⟩

/-- The marking of the reason clause of the entry that is resolved away. -/
theorem Resolving.bumped {g : Ghost} {t : State} {b : Blk} {D : Int} (fuel : Nat)
    (h : Conflict g t b) (hD : TopDec t D) {s0 s2 : State} (hR : Resolving t s0 D)
    (hdd : s0.reason (absInt (s0.mfalseStack (s0.assigned - 1))) ≠ 0)
    (hba : bumpAll fuel { s0 with assigned := s0.assigned - 1 }
      (s0.reason (absInt (s0.mfalseStack (s0.assigned - 1)))) = .ok s2) :
    D < s0.assigned - 1 ∧ Static t s2 ∧ s2.assigned = s0.assigned - 1 ∧
    ∃ rb ∈ g.bs, 2 ≤ rb.k ∧
      t.reason (absInt (t.mfalseStack (s0.assigned - 1))) = rb.c + 3 ∧
      t.DB (rb.c + 2) = -(t.mfalseStack (s0.assigned - 1)) ∧
      (∀ r : Nat, 1 ≤ r → r < rb.k →
        ∃ j, 0 ≤ j ∧ j < s0.assigned - 1 ∧ t.mfalseStack j = t.DB (rb.c + 2 + r)) ∧
      (∀ l, s2.mfalse l =
        if (∃ r : Nat, r < rb.k ∧ (1 ≤ r ∧ t.DB (rb.c + 2 + r) = l)) ∧ s0.mfalse l ≠ IMPLIED
        then MARK else s0.mfalse l) := by
  have hst := hR.static
  have harg : s0.reason (absInt (s0.mfalseStack (s0.assigned - 1))) =
      t.reason (absInt (t.mfalseStack (s0.assigned - 1))) := by
    rw [hst.reason, hst.mfalseStack]
  rw [harg] at hdd hba
  have hlo := hR.lo
  have hhi := hR.hi
  have hDlt : D < s0.assigned - 1 := by
    by_contra hc
    have : s0.assigned - 1 = D := by omega
    rw [this] at hdd
    exact hdd hD.dec
  obtain ⟨rb, hrb, hrk, hr1, hr2, hr3, -⟩ :=
    h.reason.ok (s0.assigned - 1) (by have := hD.lo; omega) (by omega) hdd
  rw [hr1] at hba
  have hbk := h.arena.blk rb hrb
  have hcell : ∀ i : Nat, rb.c + 3 + (i : Int) = rb.c + 2 + ((i + 1 : Nat) : Int) := by
    intro i; push_cast; ring
  have hsDB : ({ s0 with assigned := s0.assigned - 1 } : State).DB = t.DB := hst.DB
  obtain ⟨a1, a2, a3, a4, a5, a6, a7⟩ := bumpAll_spec (rb.k - 1) fuel _ s2 (rb.c + 3)
    (fun i hi => by rw [hsDB, hcell]; exact (hbk.2.1 (i + 1) (by omega)).1)
    (by
      rw [hsDB]
      have : rb.c + 3 + ((rb.k - 1 : Nat) : Int) = rb.c + 2 + (rb.k : Int) := by omega
      rw [this]; exact hbk.2.2) hba
  have hsst : Static t { s0 with assigned := s0.assigned - 1 } :=
    ⟨hst.nVars, hst.DB, hst.first, hst.mem_used, hst.mem_max, hst.mem_fixed,
      hst.nLemmas, hst.maxLemmas, hst.mfalseStack, hst.reason, hst.forced, hst.model⟩
  refine ⟨hDlt, hsst.trans_static a1, a2, rb, hrb, hrk, hr1, hr2, hr3, fun l => ?_⟩
  rw [a7 l]
  have hex : (∃ i : Nat, i < rb.k - 1 ∧
      ({ s0 with assigned := s0.assigned - 1 } : State).DB (rb.c + 3 + i) = l) ↔
      (∃ r : Nat, r < rb.k ∧ (1 ≤ r ∧ t.DB (rb.c + 2 + r) = l)) := by
    rw [hsDB]
    constructor
    · rintro ⟨i, i1, i2⟩
      exact ⟨i + 1, by omega, by omega, by rw [← hcell]; exact i2⟩
    · rintro ⟨r, r2, r1, r3⟩
      refine ⟨r - 1, by omega, ?_⟩
      rw [hcell]
      have : r - 1 + 1 = r := by omega
      rw [this]; exact r3
  simp only [hex]

theorem Resolving.step_resolve {g : Ghost} {t : State} {b : Blk} {D : Int} (fuel : Nat)
    (h : Conflict g t b) (hD : TopDec t D) {s0 s2 : State} (hR : Resolving t s0 D)
    (hdd : s0.reason (absInt (s0.mfalseStack (s0.assigned - 1))) ≠ 0)
    (hrd : reachesDecision fuel { s0 with assigned := s0.assigned - 1 } (s0.assigned - 1) =
      .ok false)
    (hba : bumpAll fuel { s0 with assigned := s0.assigned - 1 }
      (s0.reason (absInt (s0.mfalseStack (s0.assigned - 1)))) = .ok s2) :
    Resolving t (unassign s2 (s2.mfalseStack s2.assigned)) D := by
  obtain ⟨hDlt, hst2, ha2, rb, hrb, hrk, hr1, hr2, hr3, hmf⟩ := hR.bumped fuel h hD hdd hba
  have hst := hR.static
  have hlo := hR.lo
  have hhi := hR.hi
  have hdec : ∀ i, IsDec { s0 with assigned := s0.assigned - 1 } i ↔ IsDec t i :=
    fun i => IsDec.congr_isdec hst.reason hst.mfalseStack i
  obtain ⟨-, sp2⟩ := reachesDecision_spec _ _ _ _ hrd
  obtain ⟨c, c1, c2, c3⟩ := sp2 rfl
  have hms : ({ s0 with assigned := s0.assigned - 1 } : State).mfalseStack = t.mfalseStack :=
    hst.mfalseStack
  rw [hms] at c2
  have hcD : D ≤ c := by
    by_contra hc
    exact (c3 D (by omega) hDlt).2 ((hdec D).mpr hD.dec)
  have key : Resolving t (unassign s2 (t.mfalseStack (s0.assigned - 1))) D := ?_
  · rw [hst2.mfalseStack, ha2]; exact key
  exact Resolving.drop h.trail hR
    ⟨hst2.nVars, hst2.DB, hst2.first, hst2.mem_used, hst2.mem_max, hst2.mem_fixed,
      hst2.nLemmas, hst2.maxLemmas, hst2.mfalseStack, hst2.reason, hst2.forced, hst2.model⟩
    ha2 hDlt hD.lo (by simp [unassign, put])
    (by
      intro l hl
      have e1 : (unassign s2 (t.mfalseStack (s0.assigned - 1))).mfalse l = s2.mfalse l := by
        simp [unassign, put, hl]
      rw [e1, hmf l]
      split_ifs with hc2
      · right
        obtain ⟨⟨r, r2, r1, r3⟩, i3⟩ := hc2
        refine ⟨rfl, i3, ?_⟩
        obtain ⟨j, j1, j2, j3⟩ := hr3 r r1 r2
        exact ⟨j, j1, j2, by rw [j3, r3]⟩
      · left; rfl)
    ⟨c, hcD, c1, c2⟩

theorem resolveLoop_spec {g : Ghost} {t : State} {b : Blk} {D : Int} (fuel : Nat)
    (h : Conflict g t b) (hD : TopDec t D) (f : Nat) (s0 s1 : State)
    (hR : Resolving t s0 D) (hrun : resolveLoop fuel f s0 = .ok s1) : Resolved t s1 D :=
  resolveLoop_induct fuel (fun s => Resolving t s D) (fun s => Resolved t s D)
    (fun _ hI hdd hmk => hI.step_drop h hD hdd hmk)
    (fun _ _ hI hdd _ hrd hba => hI.step_resolve fuel h hD hdd hrd hba)
    (fun _ hI hdd => hI.exit_dec h hD hdd)
    (fun _ hI hdd hmk hrd => hI.exit_level fuel h hD hdd hmk hrd) f s0 s1 hR hrun

/-! ## `implied` -/

/-- `implied` only writes `mfalse`. -/
theorem implied_frame : ∀ (f : Nat) (s : State) (lit : Int) (mode : Option Int) (r : Int)
    (s1 : State), implied f s lit mode = .ok (r, s1) → s1 = { s with mfalse := s1.mfalse }
  | 0, _, _, _, _, _, h => by simp [implied] at h
  | f + 1, s, lit, none, r, s1, h => by
    simp only [implied] at h
    split_ifs at h with h1 h2
    · have : s = s1 := (Prod.mk.inj (Except.ok.inj h)).2
      subst this; rfl
    · have : s = s1 := (Prod.mk.inj (Except.ok.inj h)).2
      subst this; rfl
    · exact implied_frame f s lit _ r s1 h
  | f + 1, s, lit, some p0, r, s1, h => by
    simp only [implied] at h
    split_ifs at h with h1 h2
    · cases hrec : implied f s (s.DB (p0 + 1)) none with
      | error e => rw [hrec] at h; simp at h
      | ok v =>
        obtain ⟨r2, s2⟩ := v
        rw [hrec] at h
        simp only [] at h
        have e2 := implied_frame f s _ _ r2 s2 hrec
        split_ifs at h with h3
        · have := (Prod.mk.inj (Except.ok.inj h)).2
          rw [← this, e2]
        · have e3 := implied_frame f s2 lit _ r s1 h
          rw [e3, e2]
    · exact implied_frame f s lit _ r s1 h
    · have := (Prod.mk.inj (Except.ok.inj h)).2
      rw [← this]

/-- Caching an answer of `implied` for the trail entry at `i0`. -/
theorem Cache.write {t s : State} {D A i0 v : Int} (ht : TrailInv t) (hA : A < t.assigned)
    (hD0 : 0 ≤ D) (h : Cache t s D A) (h0 : t.forced ≤ i0) (h1 : i0 ≤ A)
    (hv : v = IMPLIED - 1 ∨ (v = IMPLIED ∧ ¬ (D ≤ i0 ∧ i0 < A))) :
    Cache t { s with mfalse := put s.mfalse (t.mfalseStack i0) v } D A := by
  have hf0 := ht.f0
  have hne : ∀ i, 0 ≤ i → i ≤ A → i ≠ i0 → t.mfalseStack i ≠ t.mfalseStack i0 := by
    intro i a1 a2 a3 e
    exact a3 (ht.pos_unique a1 (by omega) (by omega) (by omega) e)
  have hst := h.static
  refine ⟨⟨hst.nVars, hst.DB, hst.first, hst.mem_used, hst.mem_max, hst.mem_fixed,
    hst.nLemmas, hst.maxLemmas, hst.mfalseStack, hst.reason, hst.forced, hst.model⟩,
    ?_, ?_, ?_, ?_⟩
  · intro i a1 a2
    have := hne i a1 (by omega) (by omega)
    simp only [put, if_neg this]
    exact h.below i a1 a2
  · intro i a1 a2
    by_cases e : i = i0
    · subst e
      simp only [put, if_true]
      rcases hv with e | ⟨e, _⟩
      · exact Or.inr (Or.inr (Or.inl e))
      · exact Or.inr (Or.inr (Or.inr e))
    · have := hne i (by omega) a2 e
      simp only [put, if_neg this]
      exact h.vals i a1 a2
  · intro i a1 a2
    by_cases e : i = i0
    · subst e
      simp only [put, if_true]
      rcases hv with e | ⟨_, e⟩
      · exact Or.inr e
      · exact absurd ⟨a1, a2⟩ e
    · have := hne i (by omega) (by omega) e
      simp only [put, if_neg this]
      exact h.top i a1 a2
  · intro l hl
    by_cases e : l = t.mfalseStack i0
    · exact ⟨i0, by omega, h1, e.symm⟩
    · simp only [put, if_neg e] at hl
      exact h.gone l hl

theorem land_five : Int.land (IMPLIED - 1) MARK = 0 := by decide

theorem implied_spec {g : Ghost} {t : State} {b : Blk} {D A : Int} (hC : Conflict g t b)
    (hD : TopDec t D) (hA1 : D ≤ A) (hA2 : A < t.assigned) :
    ∀ (f : Nat) (s : State) (lit : Int) (mode : Option Int) (r : Int) (s1 : State) (i0 : Int),
    Cache t s D A → 0 ≤ i0 → i0 ≤ A → lit = t.mfalseStack i0 →
    (∀ p0, mode = some p0 → InReason g t s D i0 lit p0) →
    implied f s lit mode = .ok (r, s1) →
    Cache t s1 D A ∧
    (∀ l, l ≠ lit → s.mfalse l = MARK → s1.mfalse l = MARK) ∧
    (∀ l, s1.mfalse l = MARK → s.mfalse l = MARK) ∧
    (∀ i, i0 < i → i ≤ A → s1.mfalse (t.mfalseStack i) = s.mfalse (t.mfalseStack i)) ∧
    (D ≤ i0 → s.mfalse lit ≠ IMPLIED → r = 0)
  | 0, _, _, _, _, _, _, _, _, _, _, _, h => by simp [implied] at h
  | f + 1, s, lit, none, r, s1, i0, hc, hi0, hi1, hlit, _, h => by
    have hf0 := hC.trail.f0
    simp only [implied] at h
    by_cases h1 : s.mfalse lit > MARK
    · rw [if_pos h1] at h
      obtain ⟨e1, e2⟩ := Prod.mk.inj (Except.ok.inj h)
      subst e2
      refine ⟨hc, fun _ _ hm => hm, fun _ hm => hm, fun _ _ _ => rfl, fun hd hne => ?_⟩
      have hv := hc.vals i0 (by have := hD.lo; omega) hi1
      rw [← hlit] at hv
      have : s.mfalse lit = IMPLIED - 1 := by
        rcases hv with e | e | e | e
        · rw [e] at h1; exact absurd h1 (by decide)
        · rw [e] at h1; exact absurd h1 (by decide)
        · exact e
        · exact absurd e hne
      rw [← e1, this]; exact land_five
    · rw [if_neg h1] at h
      by_cases h2 : s.reason (absInt lit) = 0
      · rw [if_pos h2] at h
        obtain ⟨e1, e2⟩ := Prod.mk.inj (Except.ok.inj h)
        subst e2
        exact ⟨hc, fun _ _ hm => hm, fun _ hm => hm, fun _ _ _ => rfl, fun _ _ => e1.symm⟩
      · rw [if_neg h2] at h
        -- `lit` is a propagated entry above `forced`
        have hlo : t.forced ≤ i0 := by
          by_contra hcn
          have := hc.below i0 hi0 (by omega)
          rw [← hlit] at this
          rw [this] at h1
          exact h1 (by decide)
        have hnd : ¬ IsDec t i0 := by
          unfold IsDec; rw [← hlit, ← hc.static.reason]; exact h2
        obtain ⟨rb, hrb, hrk, hr1, hr2, hr3, ts, hts1, hts2, j, hj0, hj1, hj2, hj3⟩ :=
          hC.reason.ok i0 hlo (by omega) hnd
        rw [← hlit] at hr1
        have hv := hc.vals i0 hlo hi1
        rw [← hlit] at hv
        have hlbl : s.mfalse lit = 1 ∨ s.mfalse lit = MARK := by
          rcases hv with e | e | e | e
          · exact Or.inl e
          · exact Or.inr e
          · rw [e] at h1; exact absurd (by decide) h1
          · rw [e] at h1; exact absurd (by decide) h1
        have hin : InReason g t s D i0 lit (s.reason (absInt lit) - 1) := by
          refine ⟨hlo, hnd, hlbl, rb, hrb, 0, by omega, ?_, hr1, hr3, ?_⟩
          · rw [hc.static.reason, hr1]; push_cast; ring
          · intro hd
            refine ⟨ts, by omega, hts2, j, ?_, hj1, hj2⟩
            by_contra hcn
            exact hj3 D (by omega) hd hD.dec
        obtain ⟨a1, a2, a3, a4, a5⟩ := implied_spec hC hD hA1 hA2 f s lit _ r s1 i0 hc hi0 hi1
          hlit (fun p0 hp => by cases hp; exact hin) h
        exact ⟨a1, a2, a3, a4, a5⟩
  | f + 1, s, lit, some p0, r, s1, i0, hc, hi0, hi1, hlit, hmode, h => by
    have hf0 := hC.trail.f0
    obtain ⟨hlo, hnd, hlbl, rb, hrb, r0, hr0, hp0, hr1, hothers, hsame⟩ := hmode p0 rfl
    have hbk := hC.arena.blk rb hrb
    simp only [implied] at h
    have hp : p0 + 1 = rb.c + 2 + ((r0 + 1 : Nat) : Int) := by rw [hp0]; push_cast; ring
    rw [hp, hc.static.DB] at h
    by_cases hend : r0 + 1 < rb.k
    · have hq := hbk.2.1 (r0 + 1) hend
      rw [if_pos hq.1] at h
      obtain ⟨j, hj0, hj1, hj2⟩ := hothers (r0 + 1) (by omega) hend
      by_cases hmk : s.mfalse (t.DB (rb.c + 2 + ((r0 + 1 : Nat) : Int))) = MARK
      · rw [if_neg (by simpa using hmk)] at h
        refine implied_spec hC hD hA1 hA2 f s lit _ r s1 i0 hc hi0 hi1 hlit ?_ h
        intro p1 hp1
        cases hp1
        refine ⟨hlo, hnd, hlbl, rb, hrb, r0 + 1, hend, rfl, hr1, hothers, fun hd => ?_⟩
        obtain ⟨ts, a1, a2, j2, b1, b2, b3⟩ := hsame hd
        refine ⟨ts, ?_, a2, j2, b1, b2, b3⟩
        by_contra hcn
        have e : ts = r0 + 1 := by omega
        subst e
        rw [← b3] at hmk
        rcases hc.top j2 b1 (by omega) with e | e
        · rw [e] at hmk; revert hmk; decide
        · rw [e] at hmk; revert hmk; decide
      · rw [if_pos hmk] at h
        cases hrec : implied f s (t.DB (rb.c + 2 + ((r0 + 1 : Nat) : Int))) none with
        | error e => rw [hrec] at h; simp at h
        | ok v =>
          obtain ⟨r2, s2⟩ := v
          rw [hrec] at h
          simp only [] at h
          obtain ⟨c1, c2, c3, c4, c5⟩ := implied_spec hC hD hA1 hA2 f s _ none r2 s2 j hc hj0
            (by omega) hj2.symm (fun p1 hp1 => by cases hp1) hrec
          have hlit2 : s2.mfalse lit = s.mfalse lit := by
            rw [hlit]; exact c4 i0 hj1 hi1
          by_cases hr2 : r2 = 0
          · rw [if_pos hr2] at h
            obtain ⟨e1, e2⟩ := Prod.mk.inj (Except.ok.inj h)
            have hw := Cache.write hC.trail hA2 (by have := hD.lo; omega) c1 hlo hi1 (Or.inl rfl)
            rw [← hlit] at hw
            rw [← e2]
            refine ⟨hw, ?_, ?_, ?_, fun _ _ => e1.symm⟩
            · intro l hl hm
              simp only [put, if_neg hl]
              by_cases e : l = t.DB (rb.c + 2 + ((r0 + 1 : Nat) : Int))
              · rw [e] at hm; exact absurd hm hmk
              · exact c2 l e hm
            · intro l hm
              by_cases e : l = lit
              · rw [e] at hm; simp only [put, if_true] at hm; exact absurd hm (by decide)
              · simp only [put, if_neg e] at hm
                exact c3 l hm
            · intro i a1 a2
              have hne : t.mfalseStack i ≠ lit := by
                rw [hlit]; intro e
                have := hC.trail.pos_unique (by omega) (by omega) (by omega) (by omega) e
                omega
              simp only [put, if_neg hne]
              exact c4 i (by omega) a2
          · rw [if_neg hr2] at h
            obtain ⟨d1, d2, d3, d4, d5⟩ := implied_spec hC hD hA1 hA2 f s2 lit _ r s1 i0 c1 hi0
              hi1 hlit (fun p1 hp1 => by
                cases hp1
                refine ⟨hlo, hnd, by rw [hlit2]; exact hlbl, rb, hrb, r0 + 1, hend, rfl, hr1,
                  hothers, fun hd => ?_⟩
                obtain ⟨ts, a1, a2, j2, b1, b2, b3⟩ := hsame hd
                refine ⟨ts, ?_, a2, j2, b1, b2, b3⟩
                by_contra hcn
                have e : ts = r0 + 1 := by omega
                subst e
                have hD0 := hD.lo
                have ej : j2 = j := hC.trail.pos_unique (by omega) (by omega) hj0 (by omega)
                  (b3.trans hj2.symm)
                subst ej
                apply hr2
                apply c5 b1
                rcases hc.top j2 b1 (by omega) with e | e
                · rw [← b3, e]; decide
                · rw [← b3, e]; decide) h
            refine ⟨d1, ?_, ?_, ?_, ?_⟩
            · intro l hl hm
              by_cases e : l = t.DB (rb.c + 2 + ((r0 + 1 : Nat) : Int))
              · rw [e] at hm; exact absurd hm hmk
              · exact d2 l hl (c2 l e hm)
            · intro l hm; exact c3 l (d3 l hm)
            · intro i a1 a2
              rw [d4 i a1 a2, c4 i (by omega) a2]
            · intro hd hne
              exact d5 hd (by rw [hlit2]; exact hne)
    · have hk : r0 + 1 = rb.k := by omega
      have hz : t.DB (rb.c + 2 + ((r0 + 1 : Nat) : Int)) = 0 := by rw [hk]; exact hbk.2.2
      rw [if_neg (by simpa using hz), ← hc.static.DB] at h
      obtain ⟨e1, e2⟩ := Prod.mk.inj (Except.ok.inj h)
      have hnot : ¬ D ≤ i0 := by
        intro hd
        obtain ⟨ts, a1, a2, _⟩ := hsame hd
        omega
      have hw := Cache.write hC.trail hA2 (by have := hD.lo; omega) hc hlo hi1 (Or.inr ⟨rfl, fun hcn => hnot hcn.1⟩)
      rw [← hlit] at hw
      rw [← e2]
      refine ⟨hw, ?_, ?_, ?_, fun hd => absurd hd hnot⟩
      · intro l hl hm
        simp only [put, if_neg hl]; exact hm
      · intro l hm
        by_cases e : l = lit
        · rw [e] at hm; simp only [put, if_true] at hm; exact absurd hm (by decide)
        · simp only [put, if_neg e] at hm; exact hm
      · intro i a1 a2
        have hne : t.mfalseStack i ≠ lit := by
          rw [hlit]; intro e
          have := hC.trail.pos_unique (by omega) (by omega) (by omega) (by omega) e
          omega
        simp only [put, if_neg hne]

/-- Relabelling the entry at `p` with 1 keeps the cache invariant. -/
theorem Cache.reset {t s : State} {D A p : Int} (ht : TrailInv t) (hA : A < t.assigned)
    (h : Cache t s D A) (h0 : t.forced ≤ p) (h1 : p ≤ A) :
    Cache t { s with mfalse := put s.mfalse (t.mfalseStack p) 1 } D A := by
  have hf0 := ht.f0
  have hne : ∀ i, 0 ≤ i → i ≤ A → i ≠ p → t.mfalseStack i ≠ t.mfalseStack p := by
    intro i a1 a2 a3 e
    exact a3 (ht.pos_unique a1 (by omega) (by omega) (by omega) e)
  have hst := h.static
  refine ⟨⟨hst.nVars, hst.DB, hst.first, hst.mem_used, hst.mem_max, hst.mem_fixed,
    hst.nLemmas, hst.maxLemmas, hst.mfalseStack, hst.reason, hst.forced, hst.model⟩,
    ?_, ?_, ?_, ?_⟩
  · intro i a1 a2
    have := hne i a1 (by omega) (by omega)
    simp only [put, if_neg this]
    exact h.below i a1 a2
  · intro i a1 a2
    by_cases e : i = p
    · subst e
      simp only [put, if_true]
      exact Or.inl trivial
    · have := hne i (by omega) a2 e
      simp only [put, if_neg this]
      exact h.vals i a1 a2
  · intro i a1 a2
    by_cases e : i = p
    · subst e
      simp only [put, if_true]
      exact Or.inl trivial
    · by_cases hi : 0 ≤ i
      · have := hne i hi (by omega) e
        simp only [put, if_neg this]
        exact h.top i a1 a2
      · rcases h.top i a1 a2 with e1 | e1
        · by_cases e2 : t.mfalseStack i = t.mfalseStack p
          · simp only [put, if_pos e2]; exact Or.inl trivial
          · simp only [put, if_neg e2]; exact Or.inl e1
        · by_cases e2 : t.mfalseStack i = t.mfalseStack p
          · simp only [put, if_pos e2]; exact Or.inl trivial
          · simp only [put, if_neg e2]; exact Or.inr e1
  · intro l hl
    by_cases e : l = t.mfalseStack p
    · exact ⟨p, by omega, h1, e.symm⟩
    · simp only [put, if_neg e] at hl
      exact h.gone l hl

/-- The body of the loop `while (p >= forced)` of `analyze`, given what the
test `mfalse[*p] == MARK && !implied(*p)` did. -/
theorem buildLoop_iter (fuel f : Nat) (s : State) (p size lbd flag : Int)
    (hp : p ≥ s.forced) (add : Bool) (s1 : State)
    (htest : buildTest fuel s p = .ok (add, s1)) :
    ∃ lbd1 flag2, buildLoop fuel (f + 1) s p size lbd flag =
      buildLoop fuel f (buildNext s1 p size add) (p - 1) (if add then size + 1 else size)
        lbd1 flag2 := by
  simp only [buildLoop]
  rw [if_pos hp, htest]
  exact ⟨_, _, rfl⟩

theorem buildNext_fields (s1 : State) (p size : Int) (add : Bool) :
    (buildNext s1 p size add).mfalse = put s1.mfalse (s1.mfalseStack p) 1 ∧
    (buildNext s1 p size add).buffer =
      (if add then put s1.buffer size (s1.mfalseStack p) else s1.buffer) ∧
    (buildNext s1 p size add).processed =
      (if s1.reason (absInt (s1.mfalseStack p)) = 0 ∧ (if add then size + 1 else size) = 1
        then p else s1.processed) ∧
    (buildNext s1 p size add).assigned = s1.assigned ∧
    (buildNext s1 p size add).nVars = s1.nVars ∧
    (buildNext s1 p size add).DB = s1.DB ∧
    (buildNext s1 p size add).first = s1.first ∧
    (buildNext s1 p size add).mem_used = s1.mem_used ∧
    (buildNext s1 p size add).mem_max = s1.mem_max ∧
    (buildNext s1 p size add).mem_fixed = s1.mem_fixed ∧
    (buildNext s1 p size add).nLemmas = s1.nLemmas ∧
    (buildNext s1 p size add).maxLemmas = s1.maxLemmas ∧
    (buildNext s1 p size add).mfalseStack = s1.mfalseStack ∧
    (buildNext s1 p size add).reason = s1.reason ∧
    (buildNext s1 p size add).forced = s1.forced ∧
    (buildNext s1 p size add).model = s1.model := by
  cases add <;> by_cases hd : s1.reason (absInt (s1.mfalseStack p)) = 0 <;>
    by_cases hz : size = 1 <;> by_cases hz2 : size + 1 = 1 <;>
    simp [buildNext, hd, hz, hz2]

theorem Cache.of_fields {t s s2 : State} {D A : Int} (h : Cache t s D A) (hst : Static t s2)
    (hm : s2.mfalse = s.mfalse) : Cache t s2 D A := by
  refine ⟨hst, ?_, ?_, ?_, ?_⟩
  · rw [hm]; exact h.below
  · rw [hm]; exact h.vals
  · rw [hm]; exact h.top
  · rw [hm]; exact h.gone

theorem buildTest_spec {g : Ghost} {t : State} {b : Blk} {D A : Int} (hC : Conflict g t b)
    (hD : TopDec t D) (hA1 : D ≤ A) (hA2 : A < t.assigned) (fuel : Nat) (s s1 : State)
    (p : Int) (add : Bool) (hc : Cache t s D A) (hp0 : t.forced ≤ p) (hp1 : p ≤ A)
    (h : buildTest fuel s p = .ok (add, s1)) :
    Cache t s1 D A ∧ s1 = { s with mfalse := s1.mfalse } ∧
    (∀ i, p < i → i ≤ A → s1.mfalse (t.mfalseStack i) = s.mfalse (t.mfalseStack i)) ∧
    (add = true → s.mfalse (t.mfalseStack p) = MARK) ∧
    (s.mfalse (t.mfalseStack p) = MARK → D ≤ p → add = true) := by
  have hf0 := hC.trail.f0
  unfold buildTest at h
  rw [hc.static.mfalseStack] at h
  by_cases hm : s.mfalse (t.mfalseStack p) = MARK
  · rw [if_pos hm] at h
    cases hi : implied fuel s (t.mfalseStack p) none with
    | error e => rw [hi] at h; simp at h
    | ok v =>
      obtain ⟨r, s2⟩ := v
      rw [hi] at h
      obtain ⟨e1, e2⟩ := Prod.mk.inj (Except.ok.inj h)
      subst e2
      obtain ⟨a1, _, _, a4, a5⟩ := implied_spec hC hD hA1 hA2 fuel s _ none r s2 p hc
        (by omega) hp1 rfl (fun p1 hp1 => by cases hp1) hi
      refine ⟨a1, implied_frame _ _ _ _ _ _ hi, a4, fun _ => hm, fun _ hd => ?_⟩
      rw [← e1]
      have : r = 0 := a5 hd (by rw [hm]; decide)
      simp [this]
  · rw [if_neg hm] at h
    obtain ⟨e1, e2⟩ := Prod.mk.inj (Except.ok.inj h)
    subst e2
    refine ⟨hc, rfl, fun _ _ _ => rfl, fun ha => ?_, fun hm2 => absurd hm2 hm⟩
    rw [← e1] at ha; cases ha

theorem Building.step_building {g : Ghost} {t : State} {b : Blk} {D A : Int} (hC : Conflict g t b)
    (hD : TopDec t D) (hA1 : D ≤ A) (hA2 : A < t.assigned) (fuel : Nat) (s s1 : State)
    (p size : Int) (add : Bool) (hB : Building t s D A p size) (hp : t.forced ≤ p)
    (htest : buildTest fuel s p = .ok (add, s1)) :
    Building t (buildNext s1 p size add) D A (p - 1) (if add then size + 1 else size) := by
  have hf0 := hC.trail.f0
  have hpA := hB.phi
  obtain ⟨c1, c2, c3, c4, c5⟩ := buildTest_spec hC hD hA1 hA2 fuel s s1 p add hB.cache hp hpA htest
  have hms : s1.mfalseStack = t.mfalseStack := c1.static.mfalseStack
  have hrs : s1.reason = t.reason := c1.static.reason
  have hbuf : s1.buffer = s.buffer := by conv_lhs => rw [c2]
  have hpr : s1.processed = s.processed := by conv_lhs => rw [c2]
  have has : s1.assigned = s.assigned := by conv_lhs => rw [c2]
  obtain ⟨n_mf, n_buf, n_proc, n_asg, n1, n2, n3, n4, n5, n6, n7, n8, n9, n10, n11, n12⟩ :=
    buildNext_fields s1 p size add
  rw [hms] at n_mf
  rw [hms, hbuf] at n_buf
  rw [hms, hrs, hpr] at n_proc
  have hst := c1.static
  have hne : ∀ i, 0 ≤ i → i ≤ A → i ≠ p → t.mfalseStack i ≠ t.mfalseStack p := by
    intro i a1 a2 a3 e
    exact a3 (hC.trail.pos_unique a1 (by omega) (by omega) (by omega) e)
  -- the entries of the last level below `A` are not marked
  have hnoadd : D ≤ p → p < A → add = false := by
    intro h1 h2
    cases add with
    | false => rfl
    | true =>
      have := c4 rfl
      rcases hB.cache.top p h1 h2 with e | e
      · rw [e] at this; exact absurd this (by decide)
      · rw [e] at this; exact absurd this (by decide)
  have hfirst : p = A → add = true ∧ size = 0 := fun e =>
    ⟨c5 (by rw [e]; exact (hB.uip e).1) (by omega), (hB.uip e).2⟩
  have hsz : p < A → 1 ≤ size := fun h => (hB.first h).1
  -- the value of `size` while `p` is in the last level
  have hhigh : D ≤ p → (if add then size + 1 else size) = 1 := by
    intro h1
    by_cases e : p = A
    · obtain ⟨a1, a2⟩ := hfirst e
      rw [a1, a2]; rfl
    · have h2 : p < A := by omega
      rw [hnoadd h1 h2]
      exact hB.high h1 h2
  refine ⟨?_, ?_, by have := hB.plo; omega, by omega, ?_, ?_, ?_, ?_, ?_, ?_, ?_⟩
  · refine Cache.of_fields (Cache.reset hC.trail hA2 c1 hp hpA)
      ⟨n1.trans hst.nVars, n2.trans hst.DB, n3.trans hst.first, n4.trans hst.mem_used,
        n5.trans hst.mem_max, n6.trans hst.mem_fixed, n7.trans hst.nLemmas,
        n8.trans hst.maxLemmas, n9.trans hst.mfalseStack, n10.trans hst.reason,
        n11.trans hst.forced, n12.trans hst.model⟩ n_mf
  · rw [n_asg, has]; exact hB.asg
  · intro i a1 a2
    rw [n_mf]
    by_cases e : i = p
    · subst e; simp [put]
    · have := hne i (by omega) a2 e
      simp only [put, if_neg this]
      rw [c3 i (by omega) a2]
      exact hB.finished i (by omega) a2
  · intro e; omega
  · intro _
    rw [n_buf]
    by_cases e : p = A
    · obtain ⟨a1, a2⟩ := hfirst e
      rw [a1, a2, e]
      simp [put]
    · have h2 : p < A := by omega
      obtain ⟨a1, a2⟩ := hB.first h2
      cases add with
      | false => exact ⟨a1, a2⟩
      | true =>
        refine ⟨by simp only [if_true]; omega, ?_⟩
        have : (0 : Int) ≠ size := by omega
        simp only [if_true, put, if_neg this]; exact a2
  · intro h1 _
    exact hhigh (by omega)
  · intro h1
    rw [n_proc]
    by_cases h2 : D ≤ p
    · have e : p = D := by omega
      have hd : t.reason (absInt (t.mfalseStack p)) = 0 := by rw [e]; exact hD.dec
      rw [if_pos ⟨hd, hhigh h2⟩]
      exact ⟨hd, by omega, by omega⟩
    · obtain ⟨a1, a2, a3⟩ := hB.proc (by omega)
      by_cases h3 : t.reason (absInt (t.mfalseStack p)) = 0 ∧
          (if add = true then size + 1 else size) = 1
      · rw [if_pos h3]; exact ⟨h3.1, by omega, by omega⟩
      · rw [if_neg h3]; exact ⟨a1, by omega, a3⟩
  · intro h1 h2 m m1 m2
    rw [n_proc] at m2
    by_cases h3 : D ≤ p
    · have e : p = D := by omega
      have hd : t.reason (absInt (t.mfalseStack p)) = 0 := by rw [e]; exact hD.dec
      rw [if_pos ⟨hd, hhigh h3⟩] at m2
      omega
    · by_cases h4 : t.reason (absInt (t.mfalseStack p)) = 0
      · rw [if_pos ⟨h4, h2⟩] at m2; omega
      · rw [if_neg (fun hc => h4 hc.1)] at m2
        by_cases e : m = p
        · rw [e]; exact h4
        · have hs1 := hsz (by omega)
          have hadd : add = false := by
            cases add with
            | false => rfl
            | true => simp at h2; omega
          rw [hadd] at h2
          exact hB.one (by omega) h2 m (by omega) m2
  · intro h1 h2
    rw [n_proc, n_buf]
    by_cases h3 : D ≤ p
    · have := hhigh h3; omega
    · have hs1 := hsz (by omega)
      obtain ⟨a1, a2, a3⟩ := hB.proc (by omega)
      rw [if_neg (fun hc => by have := hc.2; omega)]
      cases add with
      | false =>
        simp only [Bool.false_eq_true, if_false] at h2 ⊢
        obtain ⟨q1, b1, b2, b3, b4, b5⟩ := hB.more (by omega) h2
        refine ⟨q1, by omega, b2, b3, b4, fun r r1 r2 => ?_⟩
        obtain ⟨q, d1, d2, d3⟩ := b5 r r1 r2
        exact ⟨q, by omega, d2, d3⟩
      | true =>
        simp only [if_true] at h2 ⊢
        by_cases h4 : size = 1
        · refine ⟨p, by omega, a2, ?_, ?_, fun r r1 r2 => by omega⟩
          · rw [h4]; simp [put]
          · exact hB.one (by omega) h4
        · obtain ⟨q1, b1, b2, b3, b4, b5⟩ := hB.more (by omega) (by omega)
          refine ⟨q1, by omega, b2, ?_, b4, fun r r1 r2 => ?_⟩
          · have : (1 : Int) ≠ size := by omega
            simp only [put, if_neg this]; exact b3
          · by_cases e : r = size
            · exact ⟨p, by omega, b1, by rw [e]; simp [put]⟩
            · obtain ⟨q, d1, d2, d3⟩ := b5 r r1 (by omega)
              refine ⟨q, by omega, d2, ?_⟩
              simp only [put, if_neg e]; exact d3

theorem buildLoop_spec {g : Ghost} {t : State} {b : Blk} {D A : Int} (hC : Conflict g t b)
    (hD : TopDec t D) (hA1 : D ≤ A) (hA2 : A < t.assigned) (fuel : Nat) :
    ∀ (f : Nat) (s : State) (p size lbd flag : Int) (r : State × Int × Int),
    Building t s D A p size → buildLoop fuel f s p size lbd flag = .ok r →
    Building t r.1 D A (t.forced - 1) r.2.1
  | 0, _, _, _, _, _, _, _, h => by simp [buildLoop] at h
  | f + 1, s, p, size, lbd, flag, r, hB, h => by
    by_cases hp : p ≥ s.forced
    · cases ht : buildTest fuel s p with
      | error e => simp [buildLoop, if_pos hp, ht] at h
      | ok v =>
        obtain ⟨add, s1⟩ := v
        obtain ⟨lbd1, flag2, e⟩ := buildLoop_iter fuel f s p size lbd flag hp add s1 ht
        rw [e] at h
        have hp2 : t.forced ≤ p := by rw [← hB.cache.static.forced]; exact hp
        exact buildLoop_spec hC hD hA1 hA2 fuel f _ _ _ _ _ r
          (Building.step_building hC hD hA1 hA2 fuel s s1 p size add hB hp2 ht) h
    · simp only [buildLoop, if_neg hp] at h
      have e := Except.ok.inj h
      subst e
      have hp2 : ¬ p ≥ t.forced := by rw [← hB.cache.static.forced]; exact hp
      have : p = t.forced - 1 := by have := hB.plo; omega
      rw [← this]
      exact hB

theorem backjumpLoop_spec : ∀ (k : Nat) (s : State), s.processed ≤ s.assigned →
    (s.assigned - s.processed).toNat ≤ k →
    backjumpLoop k s =
      { s with assigned := s.processed, mfalse := (backjumpLoop k s).mfalse } ∧
    (∀ l, (∃ i, s.processed < i ∧ i ≤ s.assigned ∧ s.mfalseStack i = l) →
      (backjumpLoop k s).mfalse l = 0) ∧
    (∀ l, (∀ i, s.processed < i → i ≤ s.assigned → s.mfalseStack i ≠ l) →
      (backjumpLoop k s).mfalse l = s.mfalse l)
  | 0, s, h1, h2 => by
    have e : s.assigned = s.processed := by omega
    refine ⟨?_, ?_, ?_⟩
    · simp only [backjumpLoop]
      cases s; simp only at e; subst e; rfl
    · rintro l ⟨i, a1, a2, _⟩; omega
    · intro l _; rfl
  | k + 1, s, h1, h2 => by
    by_cases hgt : s.assigned > s.processed
    · have hstep : backjumpLoop (k + 1) s = backjumpLoop k
          { unassign s (s.mfalseStack s.assigned) with assigned := s.assigned - 1 } := by
        simp only [backjumpLoop]; rw [if_pos hgt]
      obtain ⟨r1, r2, r3⟩ := backjumpLoop_spec k
        { unassign s (s.mfalseStack s.assigned) with assigned := s.assigned - 1 }
        (by show s.processed ≤ s.assigned - 1; omega)
        (by show (s.assigned - 1 - s.processed).toNat ≤ k; omega)
      rw [hstep]
      refine ⟨?_, ?_, ?_⟩
      · rw [r1]; rfl
      · rintro l ⟨i, a1, a2, a3⟩
        by_cases e : i = s.assigned
        · by_cases hex : ∃ j, s.processed < j ∧ j ≤ s.assigned - 1 ∧ s.mfalseStack j = l
          · exact r2 l hex
          · rw [r3 l (fun j b1 b2 b3 => hex ⟨j, b1, b2, b3⟩)]
            show put s.mfalse (s.mfalseStack s.assigned) 0 l = 0
            rw [← e, a3]; simp [put]
        · exact r2 l ⟨i, a1, by show i ≤ s.assigned - 1; omega, a3⟩
      · intro l hl
        rw [r3 l (fun j b1 b2 => hl j b1 (by have : j ≤ s.assigned - 1 := b2; omega))]
        show put s.mfalse (s.mfalseStack s.assigned) 0 l = s.mfalse l
        have : l ≠ s.mfalseStack s.assigned := fun e => hl s.assigned hgt (le_refl _) e.symm
        simp only [put, if_neg this]
    · have e : s.assigned = s.processed := by omega
      have hstep : backjumpLoop (k + 1) s = s := by
        simp only [backjumpLoop]; rw [if_neg hgt]
      rw [hstep]
      refine ⟨?_, ?_, ?_⟩
      · cases s; simp only at e; subst e; rfl
      · rintro l ⟨i, a1, a2, _⟩; omega
      · intro l _; rfl

theorem addClause_mem {s : State} {inp : LitPtr} {size irr : Int} {r : Int × State}
    (h : addClause s inp size irr = .ok r) : s.mem_used + size + 3 ≤ s.mem_max := by
  unfold addClause getMemory at h
  by_cases hm : s.mem_used + (size + 3) > s.mem_max
  · rw [if_pos hm] at h; simp at h
  · omega

theorem Resolved.building {t s4 : State} {D : Int} (hD : TopDec t D) (h : Resolved t s4 D) :
    Building t { s4 with processed := s4.assigned } D s4.assigned s4.assigned 0 := by
  have hst := h.static
  have hlo := h.lo
  have := hD.lo
  refine ⟨⟨⟨hst.nVars, hst.DB, hst.first, hst.mem_used, hst.mem_max, hst.mem_fixed,
    hst.nLemmas, hst.maxLemmas, hst.mfalseStack, hst.reason, hst.forced, hst.model⟩,
    h.below, ?_, ?_, h.gone⟩, rfl, by omega, le_refl _, ?_, ?_, ?_, ?_, ?_, ?_, ?_⟩
  · intro i a1 a2
    rcases h.mid i a1 a2 with e | e
    · exact Or.inl e
    · exact Or.inr (Or.inl e)
  · intro i a1 a2; exact Or.inl (h.alone i a1 a2)
  · intro i a1 a2; omega
  · intro _; exact ⟨h.uip, rfl⟩
  · intro a; omega
  · intro _ a; omega
  · intro a; omega
  · intro a; omega
  · intro a; omega

theorem analyze_run {g : Ghost} {t : State} {b : Blk} (fuel : Nat) (hC : Conflict g t b)
    {lem : Int} {s : State} (h : analyze fuel t (b.c + 2) = .ok (lem, s)) :
    ∃ (D A : Int) (s6 : State) (size lbd : Int) (s10 s11 s12 : State),
      TopDec t D ∧ D ≤ A ∧ A < t.assigned ∧
      Building t s6 D A (t.forced - 1) size ∧
      s10 = { s6 with fast := s6.fast - (s6.fast >>> 5) + (lbd <<< 15),
                      slow := s6.slow - (s6.slow >>> 15) + (lbd <<< 5) } ∧
      s11 = backjumpLoop (s10.assigned - s10.processed).toNat s10 ∧
      s12 = unassign s11 (s11.mfalseStack s11.assigned) ∧
      addClause { s12 with buffer := put s12.buffer size 0 } (.buf 0) size 0 =
        .ok (lem, s) := by
  obtain ⟨D, hD⟩ := hC.topDec
  unfold analyze at h
  simp only [] at h
  split at h
  · cases h
  · rename_i s3 hb
    obtain ⟨hR, -⟩ := hC.resolving hD hb
    split at h
    · cases h
    · rename_i s4 hr
      have hR4 := resolveLoop_spec fuel hC hD fuel s3 s4 hR hr
      split at h
      · cases h
      · rename_i s6 size lbd hbl
        have hB := buildLoop_spec hC hD hR4.lo hR4.hi fuel fuel _ _ _ _ _ _
          (hR4.building hD) hbl
        exact ⟨D, s4.assigned, s6, size, lbd, _, _, _, hD, hR4.lo, hR4.hi, hB, rfl, rfl, rfl, h⟩

theorem backjumpLoop_frame : ∀ (k : Nat) (s : State),
    backjumpLoop k s =
      { s with assigned := (backjumpLoop k s).assigned, mfalse := (backjumpLoop k s).mfalse }
  | 0, s => rfl
  | k + 1, s => by
    by_cases hgt : s.assigned > s.processed
    · have hstep : backjumpLoop (k + 1) s = backjumpLoop k
          { unassign s (s.mfalseStack s.assigned) with assigned := s.assigned - 1 } := by
        simp only [backjumpLoop]; rw [if_pos hgt]
      rw [hstep]
      conv_lhs => rw [backjumpLoop_frame k]
      rfl
    · have hstep : backjumpLoop (k + 1) s = s := by
        simp only [backjumpLoop]; rw [if_neg hgt]
      rw [hstep]

/-- The state on which `analyze` calls `addClause`. -/
theorem analyze_tail {t s6 : State} {D A size lbd : Int} (ht : TrailInv t)
    (hD : TopDec t D) (hA1 : D ≤ A) (hA2 : A < t.assigned)
    (hB : Building t s6 D A (t.forced - 1) size) (s10 s11 s12 : State)
    (e10 : s10 =
      { s6 with
        fast := s6.fast - (s6.fast >>> 5) + (lbd <<< 15),
        slow := s6.slow - (s6.slow >>> 15) + (lbd <<< 5) })
    (e11 : s11 = backjumpLoop (s10.assigned - s10.processed).toNat s10)
    (e12 : s12 = unassign s11 (s11.mfalseStack s11.assigned)) :
    ∃ M : Cells, ({ s12 with buffer := put s12.buffer size 0 } : State) =
      { s6 with fast := s6.fast - (s6.fast >>> 5) + (lbd <<< 15),
                slow := s6.slow - (s6.slow >>> 15) + (lbd <<< 5),
                assigned := s6.processed, mfalse := M, buffer := put s6.buffer size 0 } ∧
      (∀ i, 0 ≤ i → i < t.forced → M (t.mfalseStack i) = IMPLIED) ∧
      (∀ i, t.forced ≤ i → i < s6.processed → M (t.mfalseStack i) = 1) ∧
      (∀ l, M l ≠ 0 → ∃ i, 0 ≤ i ∧ i < s6.processed ∧ t.mfalseStack i = l) := by
  have hf0 := ht.f0
  have hDlo := hD.lo
  obtain ⟨p1, p2, p3⟩ := hB.proc (by omega)
  have hst := hB.cache.static
  have hasg := hB.asg
  have h10a : s10.assigned = A := by rw [e10]; exact hasg
  have h10p : s10.processed = s6.processed := by rw [e10]
  have h10t : s10.mfalseStack = t.mfalseStack := by rw [e10]; exact hst.mfalseStack
  have h10m : s10.mfalse = s6.mfalse := by rw [e10]
  obtain ⟨r1, r2, r3⟩ := backjumpLoop_spec (s10.assigned - s10.processed).toNat s10
    (by omega) (le_refl _)
  rw [← e11] at r1 r2 r3
  rw [h10a, h10p, h10t] at r2 r3
  rw [h10m] at r3
  have h11a : s11.assigned = s6.processed := by
    conv_lhs => rw [r1]
    exact h10p
  have h11t : s11.mfalseStack = t.mfalseStack := by
    conv_lhs => rw [r1]
    exact h10t
  have hne : ∀ i j, 0 ≤ i → i ≤ A → 0 ≤ j → j ≤ A → i ≠ j →
      t.mfalseStack i ≠ t.mfalseStack j := by
    intro i j a1 a2 a3 a4 a5 e
    exact a5 (ht.pos_unique a1 (by omega) a3 (by omega) e)
  have h11s : s11.mfalseStack = s6.mfalseStack := by rw [h11t, hst.mfalseStack]
  refine ⟨put s11.mfalse (t.mfalseStack s6.processed) 0, ?_, ?_, ?_, ?_⟩
  · rw [e12]
    unfold unassign
    rw [h11a, h11s]
    conv_lhs => rw [r1]
    rw [e10, ← hst.mfalseStack]
  · intro i a1 a2
    have := hne i s6.processed a1 (by omega) (by omega) (by omega) (by omega)
    simp only [put, if_neg this]
    rw [r3 _ (fun j b1 b2 => hne j i (by omega) b2 a1 (by omega) (by omega))]
    exact hB.cache.below i a1 a2
  · intro i a1 a2
    have := hne i s6.processed (by omega) (by omega) (by omega) (by omega) (by omega)
    simp only [put, if_neg this]
    rw [r3 _ (fun j b1 b2 => hne j i (by omega) b2 (by omega) (by omega) (by omega))]
    exact hB.finished i (by omega) (by omega)
  · intro l hl
    by_cases e : l = t.mfalseStack s6.processed
    · rw [e] at hl; simp [put] at hl
    · simp only [put, if_neg e] at hl
      by_cases hex : ∃ i, s6.processed < i ∧ i ≤ A ∧ t.mfalseStack i = l
      · exact absurd (r2 l hex) hl
      · rw [r3 l (fun j b1 b2 b3 => hex ⟨j, b1, b2, b3⟩)] at hl
        obtain ⟨i, a1, a2, a3⟩ := hB.cache.gone l hl
        refine ⟨i, a1, ?_, a3⟩
        by_contra hcn
        by_cases e2 : i = s6.processed
        · rw [e2] at a3; exact e a3.symm
        · exact hex ⟨i, by omega, a2, a3⟩

/-- The literals that `analyze` has put into the buffer. -/
theorem Building.lits {t s6 : State} {D A size : Int} (hD : TopDec t D) (hA1 : D ≤ A)
    (hB : Building t s6 D A (t.forced - 1) size) :
    1 ≤ size ∧ s6.buffer 0 = t.mfalseStack A ∧
    (size = 1 → ∀ m, t.forced ≤ m → m < s6.processed → ¬ IsDec t m) ∧
    (2 ≤ size → ∃ q1, t.forced ≤ q1 ∧ q1 < s6.processed ∧
      s6.buffer 1 = t.mfalseStack q1 ∧ (∀ m, q1 < m → m < s6.processed → ¬ IsDec t m) ∧
      ∀ r, 2 ≤ r → r < size → ∃ q, t.forced ≤ q ∧ q < q1 ∧ s6.buffer r = t.mfalseStack q) := by
  have hDlo := hD.lo
  obtain ⟨a1, a2⟩ := hB.first (by omega)
  refine ⟨a1, a2, fun h m m1 m2 => hB.one (by omega) h m (by omega) m2, fun h => ?_⟩
  obtain ⟨q1, b1, b2, b3, b4, b5⟩ := hB.more (by omega) h
  refine ⟨q1, by omega, b2, b3, b4, fun r r1 r2 => ?_⟩
  obtain ⟨q, c1, c2, c3⟩ := b5 r r1 r2
  exact ⟨q, by omega, c2, c3⟩

theorem analyze_spec {g : Ghost} {t : State} {b : Blk} (fuel : Nat) (hC : Conflict g t b)
    {lem : Int} {s : State} (h : analyze fuel t (b.c + 2) = .ok (lem, s)) :
    ∃ (k : Nat) (P : Int), Learned g t s lem k P := by
  obtain ⟨D, A, s6, size, lbd, s10, s11, s12, hD, hA1, hA2, hB, e10, e11, e12, hadd⟩ :=
    analyze_run fuel hC h
  obtain ⟨M, e13, m1, m2, m3⟩ := analyze_tail hC.trail hD hA1 hA2 hB s10 s11 s12 e10 e11 e12
  obtain ⟨z1, z2, z3, z4⟩ := hB.lits hD hA1
  obtain ⟨p1, p2, p3⟩ := hB.proc (by have := hD.lo; omega)
  have hf0 := hC.trail.f0
  have hDlo := hD.lo
  have hDhi := hD.hi
  have hst := hB.cache.static
  rw [e13] at hadd
  obtain ⟨k, hk⟩ : ∃ k : Nat, size = k := ⟨size.toNat, by omega⟩
  subst hk
  have hmem := addClause_mem hadd
  obtain ⟨s1, a0, a1, a2, a3, a4, a5, a6, a7, a8, a9, a10, a11, a12, a13, a14, a15, a16, a17,
    a18, a19, a20, a21⟩ := addClause_spec _ (.buf 0) k 0 hmem trivial
  rw [a0] at hadd
  obtain ⟨e1, e2⟩ := Prod.mk.inj (Except.ok.inj hadd)
  subst e2
  simp only [LitPtr.get] at a1 a2 a3 a4 a5 a6 a7 a8 a9 a10 a11 a12
  simp only [] at a13 a14 a15 a16 a17 a18 a19 a20 a21 e1
  -- the buffer entries are trail entries
  have hbuf : ∀ r : Nat, r < k → ∃ q, 0 ≤ q ∧ q < t.assigned ∧
      put s6.buffer (k : Int) 0 (0 + r) = t.mfalseStack q := by
    intro r hr
    have hne : (0 : Int) + r ≠ k := by omega
    simp only [put, if_neg hne]
    by_cases r0 : r = 0
    · subst r0; exact ⟨A, by omega, hA2, by simpa using z2⟩
    · obtain ⟨q1, b1, b2, b3, b4, b5⟩ := z4 (by omega)
      by_cases r1 : r = 1
      · subst r1; exact ⟨q1, by omega, by omega, by simpa using b3⟩
      · obtain ⟨q, c1, c2, c3⟩ := b5 r (by omega) (by omega)
        exact ⟨q, by omega, by omega, by simpa using c3⟩
  have hval : ∀ r : Nat, r < k → s1.DB (lem + r) = s6.buffer r := by
    intro r hr
    have hne : (r : Int) ≠ k := by omega
    rw [← e1, a2 r hr]
    simp only [put, zero_add, if_neg hne]
  have hlem0 : s1.DB lem = s6.buffer 0 := by simpa using hval 0 (by omega)
  have hx0 : put s6.buffer (k : Int) 0 (0 + 0) = s1.DB lem := by
    rw [hlem0]
    have hne : (0 : Int) ≠ k := by omega
    simp only [put, zero_add, if_neg hne]
  have hx1 : 2 ≤ k → put s6.buffer (k : Int) 0 (0 + 1) = s1.DB (lem + 1) := by
    intro h2
    have := hval 1 (by omega)
    rw [show lem + ((1 : Nat) : Int) = lem + 1 by norm_num] at this
    rw [this]
    have hne : (1 : Int) ≠ k := by omega
    simp only [put, zero_add, if_neg hne]
    norm_num
  have hA6 : ArenaInv g s6 := hC.arena.congr_arenainv hst.nVars hst.DB hst.mem_used hst.first
  have hpush := @ArenaInv.push _ _ s1 hA6 k (s1.DB lem) (s1.DB (lem + 1))
    (by omega) a9 a1 ?_ (by rw [e1]) ?_ a3 (fun x hx => a4 x (Or.inl hx)) ?_ a6
  rotate_left
  · intro i hi
    obtain ⟨q, q0, q1, q2⟩ := hbuf i hi
    rw [a2 i hi, q2, hst.nVars]
    exact hC.trail.lit q q0 q1
  · intro _
    rw [← e1]; ring_nf
  · intro h2
    have := a5 h2
    rw [hx0, hx1 h2] at this
    exact this
  refine ⟨k, s6.processed, ?_⟩
  refine { off := ?_, k1 := by omega, arena := ?_, lo := by omega, hi := by omega, dec := p1,
           asg := a15, proc := a14, forced := a13.trans hst.forced,
           nVars := a9.trans hst.nVars, trail := a11.trans hst.mfalseStack,
           reason := a12.trans hst.reason, model := a16.trans hst.model,
           mem_fixed := ?_, mem_max := a21.1.trans hst.mem_max,
           maxLemmas := a21.2.trans hst.maxLemmas, nLemmas := ?_, old := ?_, root := ?_,
           kept := ?_, gone := ?_, uip := ?_, fin := ?_, unit := ?_, second := ?_ }
  · rw [← e1, hst.mem_used]
  · rw [← hst.mem_used]; exact hpush
  · rw [a7]; simp only [ne_eq, not_true_eq_false, if_false]; exact hst.mem_fixed
  · rw [a8]; simp only [ne_eq, not_true_eq_false, if_false]; rw [hst.nLemmas]
  · intro x hx
    rw [a4 x (Or.inl (by rw [hst.mem_used]; exact hx)), hst.DB]
  · rw [a10]; exact m1
  · rw [a10]; exact m2
  · rw [a10]; exact m3
  · exact ⟨A, by omega, hA2, by rw [hlem0, z2]⟩
  · rw [← e1]; exact a3
  · intro h1
    have hfd := hC.level.firstDec rfl (by have := hC.fpos; have := hC.trail.pa; omega)
    by_contra hcn
    exact z3 (by omega) t.forced (le_refl _) (by omega) hfd
  · intro h2
    obtain ⟨q1, b1, b2, b3, b4, b5⟩ := z4 (by omega)
    refine ⟨q1, b1, b2, ?_, b4, fun r r1 r2 => ?_⟩
    · have := hval 1 (by omega)
      rw [show lem + ((1 : Nat) : Int) = lem + 1 by norm_num] at this
      rw [this]; simpa using b3
    · obtain ⟨q, c1, c2, c3⟩ := b5 r (by omega) (by omega)
      exact ⟨q, c1, c2, by rw [hval r r2]; exact c3⟩

/-- The first literal of the learned clause is unassigned when `analyze`
returns. -/
theorem Learned.fresh {g : Ghost} {t s : State} {b : Blk} {lem P : Int} {k : Nat}
    (hC : Conflict g t b) (hL : Learned g t s lem k P) : Fresh s (s.DB lem) := by
  obtain ⟨A, a1, a2, a3⟩ := hL.uip
  have hf0 := hC.trail.f0
  have hlo := hL.lo
  refine ⟨?_, ?_, ?_⟩
  · rw [a3, hL.nVars]; exact hC.trail.lit A (by omega) a2
  · by_contra hcn
    obtain ⟨i, i0, i1, i2⟩ := hL.gone _ hcn
    have := hC.trail.pos_unique i0 (by omega) (by omega) a2 (i2.trans a3)
    omega
  · by_contra hcn
    obtain ⟨i, i0, i1, i2⟩ := hL.gone _ hcn
    have := hC.trail.inj i A i0 (by omega) (by omega) a2 (by rw [i2, a3, absInt_neg])
    omega

theorem Learned.trailInv {g : Ghost} {t s : State} {b : Blk} {lem P : Int} {k : Nat}
    (hC : Conflict g t b) (hL : Learned g t s lem k P) : TrailInv s := by
  have hf0 := hC.trail.f0
  have hlo := hL.lo
  have hhi := hL.hi
  have hpa := hC.trail.pa
  refine ⟨by rw [hL.forced]; exact hf0, by rw [hL.forced, hL.proc]; exact hlo,
    by rw [hL.proc, hL.asg], ?_, ?_, ?_⟩
  · intro i i0 i1
    rw [hL.asg] at i1
    rw [hL.nVars, hL.trail]; exact hC.trail.lit i i0 (by omega)
  · intro i j i0 i1 j0 j1
    rw [hL.asg] at i1 j1
    rw [hL.trail]; exact hC.trail.inj i j i0 (by omega) j0 (by omega)
  · intro l
    rw [hL.asg, hL.trail]
    constructor
    · exact hL.gone l
    · rintro ⟨i, i0, i1, i2⟩
      rw [← i2]
      by_cases hi : i < t.forced
      · rw [hL.root i i0 hi]; decide
      · rw [hL.kept i (by omega) i1]; decide

theorem Learned.second_ne {g : Ghost} {t s : State} {b : Blk} {lem P : Int} {k : Nat}
    (hC : Conflict g t b) (hL : Learned g t s lem k P) :
    (s.DB (lem + 1) = 0 ↔ k = 1) := by
  have hk := hL.k1
  constructor
  · intro h0
    by_contra hcn
    obtain ⟨q1, a1, a2, a3, _⟩ := hL.second (by omega)
    have := (hC.trail.lit q1 (by have := hC.trail.f0; omega)
      (by have := hL.hi; have := hC.trail.pa; omega)).1
    rw [← a3] at this
    exact this h0
  · intro h1
    have := hL.fin
    rw [h1] at this
    simpa using this

theorem Learned.levelInv {g : Ghost} {t s : State} {b : Blk} {lem P : Int} {k : Nat}
    (hC : Conflict g t b) (hL : Learned g t s lem k P) :
    LevelInv s (if s.DB (lem + 1) = 0 then 1 else 0) := by
  have hdec : ∀ i, IsDec s i ↔ IsDec t i := IsDec.congr_isdec hL.reason hL.trail
  have hsn := hL.second_ne hC
  refine ⟨?_, ?_, ?_, ?_, ?_⟩
  · intro i i0 i1
    rw [hL.forced] at i1
    rw [hL.trail, hdec]
    exact ⟨hL.root i i0 i1, (hC.level.root i i0 i1).2⟩
  · intro hfl i i1 i2
    have hk : k = 1 := by
      by_contra hcn
      rw [if_neg (fun h0 => hcn (hsn.mp h0))] at hfl
      exact hfl rfl
    have := hL.unit hk
    rw [hL.forced] at i1; rw [hL.asg] at i2
    omega
  · intro hfl i i1 i2
    rw [hL.forced] at i1; rw [hL.asg] at i2
    rw [hL.trail]; exact hL.kept i i1 i2
  · intro hfl i1
    rw [hL.forced, hdec]
    exact hC.level.firstDec rfl (by have := hC.fpos; have := hC.trail.pa; omega)
  · intro i i1 i2
    rw [hL.proc] at i1; rw [hL.asg] at i2
    omega

/-- The reasons of the entries that survive the backjump. -/
theorem Learned.reasonInv {g : Ghost} {t s : State} {b : Blk} {lem P : Int} {k : Nat}
    (hC : Conflict g t b) (hL : Learned g t s lem k P) : ReasonInv g s := by
  have hdec : ∀ i, IsDec s i ↔ IsDec t i := IsDec.congr_isdec hL.reason hL.trail
  have hpa := hC.trail.pa
  have hhi := hL.hi
  constructor
  intro i i1 i2 hd
  rw [hL.forced] at i1; rw [hL.asg] at i2
  rw [hdec] at hd
  obtain ⟨rb, hrb, hk, hr, h0, hall, t0, ht1, ht2, j, hj0, hj1, hj2, hj3⟩ :=
    hC.reason.ok i i1 (by omega) hd
  have hbb := hC.arena.toArenaCore.blk_bounds hrb
  have hcell : ∀ r : Nat, r < rb.k → s.DB (rb.c + 2 + r) = t.DB (rb.c + 2 + r) :=
    fun r hr => hL.old _ (by omega)
  refine ⟨rb, hrb, hk, ?_, ?_, ?_, ?_⟩
  · rw [hL.reason, hL.trail]; exact hr
  · rw [hL.trail, ← h0]
    simpa using hcell 0 (by omega)
  · intro r hr1 hr2
    obtain ⟨j, a1, a2, a3⟩ := hall r hr1 hr2
    exact ⟨j, a1, a2, by rw [hL.trail, hcell r hr2]; exact a3⟩
  · refine ⟨t0, ht1, ht2, j, hj0, hj1, ?_, ?_⟩
    · rw [hL.trail, hcell t0 ht2]; exact hj2
    · intro m hm1 hm2
      rw [hdec]
      exact hj3 m hm1 hm2

/-- The state in which the watch loop of `propagate` is left after a conflict:
the learned clause has been added and its first literal assigned. -/
theorem Learned.pinv_learned {g : Ghost} {t s : State} {b : Blk} {lem P : Int} {k : Nat}
    {rest : List Int} (hC : Conflict g t b) (hW : WatchInv g t rest)
    (hL : Learned g t s lem k P) :
    PInv (g.push t.mem_used k (s.DB lem) (s.DB (lem + 1)))
      (assign s lem (if s.DB (lem + 1) = 0 then 1 else 0))
      (if s.DB (lem + 1) = 0 then 1 else 0) := by
  obtain ⟨e1, e2, e3, e4, e5, e6, e7, e8, e9, e10⟩ :=
    assign_fields s lem (if s.DB (lem + 1) = 0 then 1 else 0)
  have hy := hL.fresh hC
  have hT := hL.trailInv hC
  have hLv := hL.levelInv hC
  have hsn := hL.second_ne hC
  have hdec : ∀ i, IsDec s i ↔ IsDec t i := IsDec.congr_isdec hL.reason hL.trail
  have hf0 := hC.trail.f0
  have hlo := hL.lo
  have hhi := hL.hi
  have hpa := hC.trail.pa
  have hbase := arenaBase_pos hC.arena.npos
  have hlay := Layout.le hC.arena.layout
  have hr : 1 + lem ≠ 0 := by rw [hL.off]; omega
  have hk1 := hL.k1
  have hnew : ¬ IsDec (assign s lem (if s.DB (lem + 1) = 0 then 1 else 0)) P := by
    rw [← hL.asg]; exact assign_isDec_new hr
  have hold : ∀ m, 0 ≤ m → m < P →
      (IsDec (assign s lem (if s.DB (lem + 1) = 0 then 1 else 0)) m ↔ IsDec t m) := by
    intro m m0 m1
    rw [assign_isDec_old hy hT m0 (by rw [hL.asg]; exact m1), hdec]
  have hent : ∀ m, m < P →
      (assign s lem (if s.DB (lem + 1) = 0 then 1 else 0)).mfalseStack m = t.mfalseStack m := by
    intro m m1
    rw [assign_old_entry _ _ (by rw [hL.asg]; exact m1), hL.trail]
  refine ⟨hL.arena.congr_arenainv e3 e1 e4 e2, assign_trail hy hT, assign_level hy hT hLv hr ?_, ?_, ?_⟩
  · intro hfl
    have hk : 2 ≤ k := by
      by_contra hcn
      have : k = 1 := by omega
      rw [if_pos (hsn.mpr this)] at hfl
      exact absurd hfl (by decide)
    obtain ⟨q1, a1, a2, _⟩ := hL.second hk
    rw [hL.forced, hL.asg]; omega
  · intro hfl
    have hk : 2 ≤ k := by
      by_contra hcn
      have : k = 1 := by omega
      rw [if_pos (hsn.mpr this)] at hfl
      exact absurd hfl (by decide)
    obtain ⟨q1, a1, a2, a3, a4, a5⟩ := hL.second hk
    constructor
    intro i hi0 hi1 hd
    rw [e5, hL.forced] at hi0; rw [e7, hL.asg] at hi1
    by_cases e : i = P
    · subst e
      refine ⟨⟨t.mem_used, k⟩, List.mem_cons_self _ _, hk, ?_, ?_, ?_, ?_⟩
      · show _ = t.mem_used + 3
        rw [e8, e10, hL.asg]
        simp only [put, if_true, absInt_neg]
        rw [hL.off]; ring
      · show _ = _
        rw [e8, e1, hL.asg]
        simp only [put, if_true, neg_neg]
        rw [hL.off]
      · intro r hr1 hr2
        show ∃ j, _ ∧ _ ∧ _ = _
        rw [e1, ← hL.off]
        by_cases r1 : r = 1
        · subst r1
          refine ⟨q1, by omega, a2, ?_⟩
          rw [hent q1 a2, ← a3]; norm_num
        · obtain ⟨q, c1, c2, c3⟩ := a5 r (by omega) hr2
          exact ⟨q, by omega, by omega, by rw [hent q (by omega), c3]⟩
      · refine ⟨1, le_refl _, hk, q1, by omega, a2, ?_, ?_⟩
        · show _ = _
          rw [e1, ← hL.off, hent q1 a2, ← a3]; norm_num
        · intro m hm1 hm2
          by_cases e : m = i
          · rw [e]; exact hnew
          · rw [hold m (by omega) (by omega)]
            exact a4 m hm1 (by omega)
    · obtain ⟨rb, hrb, r1, r2, r3, r4, r5⟩ := assign_reason_old hy hT (hL.reasonInv hC) i
        (by rw [hL.forced]; exact hi0) (by rw [hL.asg]; omega) hd
      exact ⟨rb, List.mem_cons_of_mem _ hrb, r1, r2, r3, r4, r5⟩
  · constructor
    intro b2 hb2 hk2 u v l l2 hp hu hv i hi0 hi1 hil hdone
    rw [e7, hL.asg] at hi1
    rw [e6, hL.proc] at hdone
    have hiP : i < P := by omega
    rw [hent i hiP] at hil
    rw [mem_push] at hu hv
    rcases List.mem_cons.mp hb2 with enew | hb2old
    · -- the learned clause
      subst enew
      simp only at hp hk2
      have hnot : ∀ x l, (x = t.mem_used ∨ x = t.mem_used + 1) → x ∉ g.ch l := by
        intro x l hx hmem
        have := hC.arena.toArenaCore.cell_lt hmem
        omega
      obtain ⟨q1, a1, a2, a3, a4, a5⟩ := hL.second hk2
      obtain ⟨A, b1, b2, b3⟩ := hL.uip
      rcases hp with ⟨eu, ev⟩ | ⟨eu, ev⟩
      · -- `u` is the cell of the first literal, which is not a trail entry
        rcases hu with ⟨_, _, e⟩ | ⟨_, el, _⟩ | hmem
        · omega
        · rw [el, b3] at hil
          have := hC.trail.pos_unique hi0 (by omega) (by omega) b2 hil
          omega
        · exact absurd hmem (hnot u l (Or.inl eu))
      · rcases hu with ⟨_, el, _⟩ | ⟨_, _, e⟩ | hmem
        · rcases hv with ⟨_, _, e⟩ | ⟨_, el2, _⟩ | hmem2
          · omega
          · rw [el, a3] at hil
            have eiq : i = q1 := hC.trail.pos_unique hi0 (by omega) (by omega) (by omega) hil
            refine ⟨P, by omega, by rw [e7, hL.asg]; omega, ?_, Or.inr ?_⟩
            · rw [el2, e8, hL.asg]; simp [put]
            · intro m hm1 hm2
              by_cases e : m = P
              · rw [e]; exact hnew
              · rw [hold m (by omega) (by omega)]
                exact a4 m (by omega) (by omega)
          · exact absurd hmem2 (hnot v l2 (Or.inl ev))
        · omega
        · exact absurd hmem (hnot u l (Or.inr eu))
    · -- a clause that was in the arena before
      have hbb := hC.arena.toArenaCore.blk_bounds hb2old
      have hu2 : u ∈ g.ch l := by
        rcases hu with ⟨_, _, e⟩ | ⟨_, _, e⟩ | hmem
        · rcases hp with ⟨eu, _⟩ | ⟨eu, _⟩ <;> omega
        · rcases hp with ⟨eu, _⟩ | ⟨eu, _⟩ <;> omega
        · exact hmem
      have hv2 : v ∈ g.ch l2 := by
        rcases hv with ⟨_, _, e⟩ | ⟨_, _, e⟩ | hmem
        · rcases hp with ⟨_, ev⟩ | ⟨_, ev⟩ <;> omega
        · rcases hp with ⟨_, ev⟩ | ⟨_, ev⟩ <;> omega
        · exact hmem
      obtain ⟨j, j0, j1, j2, j3⟩ := hW.ok b2 hb2old hk2 u v l l2 hp hu2 hv2 i hi0 (by omega) hil
        (Or.inl (by omega))
      have hjP : j < P := by
        by_contra hcn
        rcases j3 with j3 | j3
        · omega
        · exact j3 P hiP (by omega) hL.dec
      refine ⟨j, j0, by rw [e7, hL.asg]; omega, by rw [hent j hjP]; exact j2, ?_⟩
      rcases j3 with j3 | j3
      · exact Or.inl j3
      · refine Or.inr (fun m m1 m2 => ?_)
        rw [hold m (by omega) (by omega)]
        exact j3 m m1 m2

/-- One iteration of the watch loop of `propagate` keeps the loop invariant, or
ends with a clause all of whose literals are falsified. -/
theorem WLoop.step_wloop {g : Ghost} {s : State} {fl lit : Int} {watch : WatchPtr}
    {visited rest : List Int} (h : WLoop g s fl lit watch visited rest) (fuel : Nat)
    (hne : watch.get s ≠ END) {r : WatchStep} (hstep : watchStep fuel s lit fl watch = .ok r) :
    (∀ s1 w1, r = .next s1 w1 →
      ∃ g1 vis1 rest1, WLoop g1 s1 fl lit w1 vis1 rest1 ∧ g1.bs = g.bs) ∧
    (∀ s1, r = .unsat s1 →
      fl ≠ 0 ∧ ∃ b ∈ g.bs, ∃ rest1, WLoop g s1 fl lit watch visited rest1 ∧
        ∀ r : Nat, r < b.k → s1.mfalse (s1.DB (b.c + 2 + r)) ≠ 0) ∧
    (∀ s2 clause, r = .conflict s2 clause →
      fl = 0 ∧ ∃ b rest1, clause = b.c + 2 ∧ Conflict g s2 b ∧ WatchInv g s2 rest1) := by
  rcases h.rest_cases with ⟨he, _⟩ | ⟨_, rest2, hrest⟩
  · exact absurd he hne
  subst hrest
  obtain ⟨b, hb, hk, hwb, hclause, hN, hlit, hother⟩ := h.norm
  rw [watchStep_eq, hclause] at hstep
  have hblk := hN.arena.blk b hb
  have h3 : b.c + 2 + ((1 : Nat) : Int) = b.c + 3 := by push_cast; ring
  have h2 : b.c + 2 + ((0 : Nat) : Int) = b.c + 2 := by push_cast; ring
  cases hff : findFree fuel (wlNorm s (b.c + 2) lit) (b.c + 2) 2 with
  | error e => rw [hff] at hstep; cases hstep
  | ok o =>
    rw [hff] at hstep
    cases o with
    | some i =>
      obtain ⟨t, e, t1, t2, t3, _⟩ := findFree_some_lt hblk hk hff
      subst e
      simp only [] at hstep
      have er := Except.ok.inj hstep
      subst er
      refine ⟨fun s1 w1 e => ?_, fun s1 e => (by cases e), fun s2 cl e => by cases e⟩
      cases e
      exact ⟨_, _, _, hN.swap hb hk hwb hlit hother t1 t2 t3, rfl⟩
    | none =>
      have hall := findFree_none_all hblk hff
      simp only [] at hstep
      have hrest : ∀ r : Nat, 1 ≤ r → r < b.k →
          (wlNorm s (b.c + 2) lit).mfalse ((wlNorm s (b.c + 2) lit).DB (b.c + 2 + r)) ≠ 0 := by
        intro r r1 r2
        by_cases e : r = 1
        · subst e; rw [h3, hlit]; exact hN.lit_false
        · exact hall r (by omega) r2
      by_cases c1 : (wlNorm s (b.c + 2) lit).mfalse (-((wlNorm s (b.c + 2) lit).DB (b.c + 2))) ≠ 0
      · rw [if_pos c1] at hstep
        have er := Except.ok.inj hstep
        subst er
        refine ⟨fun s1 w1 e => ?_, fun s1 e => (by cases e), fun s2 cl e => by cases e⟩
        cases e
        rw [hN.get_cons.1]
        exact ⟨g, _, _, hN.pass hb hwb hother (hN.witness_of_true c1), rfl⟩
      · rw [if_neg c1] at hstep
        by_cases c2 : (wlNorm s (b.c + 2) lit).mfalse ((wlNorm s (b.c + 2) lit).DB (b.c + 2)) = 0
        · rw [if_pos c2] at hstep
          have er := Except.ok.inj hstep
          subst er
          refine ⟨fun s1 w1 e => ?_, fun s1 e => (by cases e), fun s2 cl e => by cases e⟩
          cases e
          rw [hN.get_cons.1]
          have hy : Fresh (wlNorm s (b.c + 2) lit) ((wlNorm s (b.c + 2) lit).DB (b.c + 2)) :=
            ⟨by have := hblk.2.1 0 (by omega); rwa [h2] at this, c2, not_not.mp c1⟩
          have hA := hN.assign hb hk hy hrest hlit
          obtain ⟨e1, e2, e3, e4, e5, e6, e7, e8, e9, e10⟩ :=
            assign_fields (wlNorm s (b.c + 2) lit) (b.c + 2) fl
          refine ⟨g, _, _, hA.pass hb hwb (by rw [e1]; exact hother)
            (hA.witness_of_true ?_), rfl⟩
          rw [e1, assign_mfalse_new]
          split_ifs <;> decide
        · rw [if_neg c2] at hstep
          by_cases c3 : fl ≠ 0
          · rw [if_pos c3] at hstep
            have er := Except.ok.inj hstep
            subst er
            refine ⟨fun s1 w1 e => (by cases e), fun s1 e => ?_, fun s2 cl e => by cases e⟩
            cases e
            refine ⟨c3, b, hb, _, hN, fun r hr => ?_⟩
            by_cases e : r = 0
            · subst e; rw [h2]; exact c2
            · exact hrest r (by omega) hr
          · rw [if_neg c3] at hstep
            have er := Except.ok.inj hstep
            subst er
            have hfl : fl = 0 := not_not.mp c3
            refine ⟨fun s1 w1 e => (by cases e), fun s1 e => (by cases e), fun s2 cl e => ?_⟩
            cases e
            refine ⟨hfl, b, _, rfl, ⟨hN.arena, hN.trail, by rw [← hfl]; exact hN.level,
              hN.reason hfl, hN.fpos, hN.pend, hb, hk, fun r hr => ?_, ?_⟩, hN.watch2⟩
            · by_cases e : r = 0
              · subst e; rw [h2]; exact c2
              · exact hrest r (by omega) hr
            · rw [hlit, hN.cur]

/-! ## Induction principles for the loops of `propagate` and `solve` -/

/-- A property of the heads of the watch loop that every iteration keeps holds
when the loop is left. -/
theorem watchLoop_induct (fuel : Nat) (lit fl : Int) (I : State → WatchPtr → Prop)
    (Q : WatchExit → Prop)
    (hnext : ∀ s w s1 w1, I s w → w.get s ≠ END →
      watchStep fuel s lit fl w = .ok (.next s1 w1) → I s1 w1)
    (hend : ∀ s w, I s w → w.get s = END → Q (.cont s fl))
    (hunsat : ∀ s w s1, I s w → w.get s ≠ END →
      watchStep fuel s lit fl w = .ok (.unsat s1) → Q (.unsat s1))
    (hconf : ∀ s w s2 clause lem s3, I s w → w.get s ≠ END →
      watchStep fuel s lit fl w = .ok (.conflict s2 clause) →
      analyze fuel s2 clause = .ok (lem, s3) →
      Q (.cont (assign s3 lem (if s3.DB (lem + 1) = 0 then 1 else fl))
        (if s3.DB (lem + 1) = 0 then 1 else fl))) :
    ∀ (f : Nat) (s : State) (w : WatchPtr) (ex : WatchExit), I s w →
      watchLoop fuel f s lit fl w = .ok ex → Q ex
  | 0, _, _, _, _, h => by rw [watchLoop_zero] at h; cases h
  | f + 1, s, w, ex, hI, h => by
    rw [watchLoop_succ] at h
    by_cases hw : w.get s ≠ END
    · rw [if_pos hw] at h
      cases hs : watchStep fuel s lit fl w with
      | error e => rw [hs] at h; cases h
      | ok r =>
        rw [hs] at h
        cases r with
        | next s1 w1 =>
          exact watchLoop_induct fuel lit fl I Q hnext hend hunsat hconf f s1 w1 ex
            (hnext s w s1 w1 hI hw hs) h
        | unsat s1 =>
          have e := Except.ok.inj h
          rw [← e]
          exact hunsat s w s1 hI hw hs
        | conflict s2 clause =>
          simp only [] at h
          cases ha : analyze fuel s2 clause with
          | error e => rw [ha] at h; cases h
          | ok v =>
            obtain ⟨lem, s3⟩ := v
            rw [ha] at h
            have e := Except.ok.inj h
            rw [← e]
            exact hconf s w s2 clause lem s3 hI hw hs ha
    · rw [if_neg hw] at h
      have e := Except.ok.inj h
      rw [← e]
      exact hend s w hI (not_not.mp hw)

/-- A property of the heads of the loop `while (processed < assigned)` of
`propagate` that every iteration keeps holds when `propagate` returns. -/
theorem propagateLoop_induct (fuel : Nat) (J : State → Int → Prop) (Q : Int × State → Prop)
    (hiter : ∀ s fl s2 fl1, J s fl → s.processed < s.assigned →
      watchLoop fuel fuel { s with processed := s.processed + 1 } (s.mfalseStack s.processed)
        fl (.head (s.mfalseStack s.processed)) = .ok (.cont s2 fl1) → J s2 fl1)
    (hunsat : ∀ s fl s2, J s fl → s.processed < s.assigned →
      watchLoop fuel fuel { s with processed := s.processed + 1 } (s.mfalseStack s.processed)
        fl (.head (s.mfalseStack s.processed)) = .ok (.unsat s2) → Q (UNSAT, s2))
    (hexit : ∀ s fl, J s fl → ¬ s.processed < s.assigned →
      Q (SAT, if fl ≠ 0 then { s with forced := s.processed } else s)) :
    ∀ (f : Nat) (s : State) (fl : Int) (r : Int × State), J s fl →
      propagateLoop fuel f s fl = .ok r → Q r
  | 0, _, _, _, _, h => by simp [propagateLoop] at h
  | f + 1, s, fl, r, hJ, h => by
    simp only [propagateLoop] at h
    by_cases hp : s.processed < s.assigned
    · rw [if_pos hp] at h
      cases hw : watchLoop fuel fuel { s with processed := s.processed + 1 }
          (s.mfalseStack s.processed) fl (.head (s.mfalseStack s.processed)) with
      | error e => rw [hw] at h; cases h
      | ok ex =>
        rw [hw] at h
        cases ex with
        | unsat s2 =>
          have e := Except.ok.inj h
          rw [← e]
          exact hunsat s fl s2 hJ hp hw
        | cont s2 fl1 =>
          exact propagateLoop_induct fuel J Q hiter hunsat hexit f s2 fl1 r
            (hiter s fl s2 fl1 hJ hp hw) h
    · rw [if_neg hp] at h
      have e := Except.ok.inj h
      rw [← e]
      exact hexit s fl hJ hp

/-- The watch loop for the entry at `processed` starts in its invariant. -/
theorem PInv.start_pinv {g : Ghost} {s : State} {fl : Int} (h : PInv g s fl)
    (hp : s.processed < s.assigned) :
    WLoop g { s with processed := s.processed + 1 } fl (s.mfalseStack s.processed)
      (.head (s.mfalseStack s.processed)) [] (g.ch (s.mfalseStack s.processed)) := by
  have hf0 := h.trail.f0
  have hfp := h.trail.fp
  refine ⟨h.arena.congr_arenainv rfl rfl rfl rfl, ?_, ?_, fun hfl => (h.reason hfl).congr_reasoninv rfl rfl rfl rfl rfl,
    ?_, ?_, ?_, ?_, rfl, Or.inl ⟨rfl, rfl⟩⟩
  · exact ⟨h.trail.f0, by show s.forced ≤ s.processed + 1; omega,
      by show s.processed + 1 ≤ s.assigned; omega, h.trail.lit, h.trail.inj, h.trail.mf⟩
  · exact ⟨h.level.root, h.level.rootMode, h.level.search, h.level.firstDec,
      fun i i1 i2 => h.level.pend i (by have : s.processed + 1 < i := i1; omega) i2⟩
  · constructor
    intro b hb hk u v l l2 hpair hu hv i i0 i1 il hdone
    have hdone2 : i + 1 < s.processed + 1 ∨
        (i + 1 = s.processed + 1 ∧ u ∉ g.ch (s.mfalseStack s.processed)) := hdone
    rcases hdone2 with hd | ⟨hd, hn⟩
    · exact h.watch2.ok b hb hk u v l l2 hpair hu hv i i0 i1 il
        (by rcases lt_or_eq_of_le (show i + 1 ≤ s.processed by omega) with a | a
            · exact Or.inl a
            · exact Or.inr ⟨a, List.not_mem_nil _⟩)
    · have e : i = s.processed := by omega
      have il2 : s.mfalseStack i = l := il
      rw [e] at il2
      rw [il2] at hn
      exact absurd hu hn
  · show s.forced < s.processed + 1; omega
  · show s.mfalseStack (s.processed + 1 - 1) = _
    rw [add_sub_cancel_right]
  · intro m m1 m2
    exact h.level.pend m (by have : s.processed + 1 ≤ m := m1; omega) m2

/-- The invariant when the watch loop has reached the end of the chain. -/
theorem WLoop.finish {g : Ghost} {s : State} {fl lit : Int} {watch : WatchPtr}
    {visited rest : List Int} (h : WLoop g s fl lit watch visited rest)
    (he : watch.get s = END) : PInv g s fl := by
  rcases h.rest_cases with ⟨_, hr⟩ | ⟨hne, _⟩
  · subst hr
    exact ⟨h.arena, h.trail, h.level, h.reason, h.watch2⟩
  · exact absurd he hne

/-- What holds when the watch loop for one trail entry is left. -/
theorem watchLoop_spec (fuel : Nat) {g : Ghost} {s : State} {fl lit : Int} {watch : WatchPtr}
    {visited rest : List Int} (h : WLoop g s fl lit watch visited rest) (f : Nat)
    {ex : WatchExit} (hrun : watchLoop fuel f s lit fl watch = .ok ex) :
    (∀ s2 fl1, ex = .cont s2 fl1 → ∃ g2, PInv g2 s2 fl1) ∧
    (∀ s2, ex = .unsat s2 → fl ≠ 0 ∧ ∃ g2 w2 vis2 rest2, WLoop g2 s2 fl lit w2 vis2 rest2 ∧
      ∃ b ∈ g2.bs, ∀ r : Nat, r < b.k → s2.mfalse (s2.DB (b.c + 2 + r)) ≠ 0) := by
  refine watchLoop_induct fuel lit fl
    (fun s w => ∃ g vis rest, WLoop g s fl lit w vis rest)
    (fun ex => (∀ s2 fl1, ex = .cont s2 fl1 → ∃ g2, PInv g2 s2 fl1) ∧
      (∀ s2, ex = .unsat s2 → fl ≠ 0 ∧ ∃ g2 w2 vis2 rest2, WLoop g2 s2 fl lit w2 vis2 rest2 ∧
        ∃ b ∈ g2.bs, ∀ r : Nat, r < b.k → s2.mfalse (s2.DB (b.c + 2 + r)) ≠ 0))
    ?_ ?_ ?_ ?_ f s watch ex ⟨g, visited, rest, h⟩ hrun
  · rintro s w s1 w1 ⟨g, vis, rest, hW⟩ hne hs
    obtain ⟨g1, vis1, rest1, h1, _⟩ := (hW.step_wloop fuel hne hs).1 s1 w1 rfl
    exact ⟨g1, vis1, rest1, h1⟩
  · rintro s w ⟨g, vis, rest, hW⟩ he
    refine ⟨fun s2 fl1 e => ?_, fun s2 e => by cases e⟩
    cases e
    exact ⟨g, hW.finish he⟩
  · rintro s w s1 ⟨g, vis, rest, hW⟩ hne hs
    refine ⟨fun s2 fl1 e => (by cases e), fun s2 e => ?_⟩
    cases e
    obtain ⟨hfl, b, hb, rest1, h1, h2⟩ := (hW.step_wloop fuel hne hs).2.1 s1 rfl
    exact ⟨hfl, g, w, vis, rest1, h1, b, hb, h2⟩
  · rintro s w s2 clause lem s3 ⟨g, vis, rest, hW⟩ hne hs ha
    refine ⟨fun s4 fl1 e => ?_, fun s4 e => by cases e⟩
    obtain ⟨hfl, b, rest1, hcl, hC, hWI⟩ := (hW.step_wloop fuel hne hs).2.2 s2 clause rfl
    subst hcl
    obtain ⟨k, P, hL⟩ := analyze_spec fuel hC ha
    have := hL.pinv_learned hC hWI
    cases e
    rw [hfl]
    exact ⟨_, this⟩

/-- The state that `propagate` returns with `SAT`. -/
theorem PInv.quiet_pinv {g : Ghost} {s : State} {fl : Int} (h : PInv g s fl)
    (hp : ¬ s.processed < s.assigned) :
    PInv g (if fl ≠ 0 then { s with forced := s.processed } else s) 0 ∧
    (if fl ≠ 0 then { s with forced := s.processed } else s).processed =
      (if fl ≠ 0 then { s with forced := s.processed } else s).assigned := by
  have hpa := h.trail.pa
  have hfp := h.trail.fp
  have hf0 := h.trail.f0
  have e : s.processed = s.assigned := by omega
  by_cases hfl : fl ≠ 0
  · rw [if_pos hfl]
    refine ⟨⟨h.arena.congr_arenainv rfl rfl rfl rfl, ?_, ?_, fun _ => ⟨?_⟩,
      h.watch2.congr_watchinv rfl rfl rfl rfl⟩, e⟩
    · exact ⟨by show 0 ≤ s.processed; omega, le_refl _, hpa, h.trail.lit, h.trail.inj,
        h.trail.mf⟩
    · refine ⟨?_, ?_, ?_, ?_, h.level.pend⟩
      · intro i i0 i1
        have i2 : i < s.processed := i1
        by_cases hi : i < s.forced
        · exact h.level.root i i0 hi
        · exact h.level.rootMode hfl i (by omega) (by omega)
      · intro hc; exact absurd rfl hc
      · intro _ i i1 i2
        have : s.processed ≤ i := i1
        have : i < s.assigned := i2
        omega
      · intro _ i1
        have : s.processed < s.assigned := i1
        omega
    · intro i i1 i2
      have : s.processed ≤ i := i1
      have : i < s.assigned := i2
      omega
  · rw [if_neg hfl]
    have hfl0 : fl = 0 := not_not.mp hfl
    rw [hfl0] at h
    exact ⟨h, e⟩

/-- What holds when `propagate` returns. -/
theorem propagateLoop_spec (fuel : Nat) : ∀ (f : Nat) (s : State) (fl : Int) (r : Int × State),
    (∃ g, PInv g s fl) → propagateLoop fuel f s fl = .ok r →
    (r.1 = SAT ∧ ∃ g, PInv g r.2 0 ∧ r.2.processed = r.2.assigned) ∨
    (r.1 = UNSAT ∧ ∃ g fl2 lit w vis rest, fl2 ≠ 0 ∧ WLoop g r.2 fl2 lit w vis rest ∧
      ∃ b ∈ g.bs, ∀ i : Nat, i < b.k → r.2.mfalse (r.2.DB (b.c + 2 + i)) ≠ 0) := by
  refine propagateLoop_induct fuel (fun s fl => ∃ g, PInv g s fl) _ ?_ ?_ ?_
  · rintro s fl s2 fl1 ⟨g, h⟩ hp hw
    exact (watchLoop_spec fuel (h.start_pinv hp) fuel hw).1 s2 fl1 rfl
  · rintro s fl s2 ⟨g, h⟩ hp hw
    obtain ⟨hfl, g2, w2, vis2, rest2, h1, h2⟩ := (watchLoop_spec fuel (h.start_pinv hp) fuel hw).2 s2 rfl
    exact Or.inr ⟨rfl, g2, fl, _, w2, vis2, rest2, hfl, h1, h2⟩
  · rintro s fl ⟨g, h⟩ hp
    exact Or.inl ⟨rfl, g, h.quiet_pinv hp⟩

/-! ## The decision list under `bump` -/

theorem Linked.congr_linked {prev next prev2 next2 : Cells} : ∀ {l : List Int},
    (∀ c ∈ l, prev2 c = prev c) → (∀ d ∈ l.tail, next2 d = next d) →
    Linked prev next l → Linked prev2 next2 l
  | [], _, _, _ => trivial
  | [v], hp, _, h => by
    simp only [Linked] at h ⊢
    rw [hp v (by simp)]; exact h
  | a :: b :: vs, hp, hn, h => by
    simp only [Linked] at h ⊢
    refine ⟨by rw [hp a (by simp)]; exact h.1, by rw [hn b (by simp)]; exact h.2.1, ?_⟩
    exact Linked.congr_linked (fun c hc => hp c (List.mem_cons_of_mem _ hc))
      (fun d hd => hn d (by simp only [List.tail_cons] at hd ⊢; exact List.mem_cons_of_mem _ hd))
      h.2.2

theorem Linked.tail {prev next : Cells} {a : Int} {l : List Int}
    (h : Linked prev next (a :: l)) : Linked prev next l := by
  cases l with
  | nil => trivial
  | cons b vs => exact h.2.2

/-- The successor of an element of the list. -/
theorem Linked.prev_mem {prev next : Cells} {var : Int} : ∀ {pre post : List Int},
    Linked prev next (pre ++ var :: post) →
    (post = [] ∧ prev var = 0) ∨ (∃ post2, post = prev var :: post2)
  | [], [], h => Or.inl ⟨rfl, h⟩
  | [], b :: vs, h => Or.inr ⟨vs, by rw [h.1]⟩
  | a :: pre, post, h => @Linked.prev_mem _ _ _ (pre) _ (Linked.tail h)

/-- The predecessor of an element of the list that is not the first one. -/
theorem Linked.next_mem_linked {prev next : Cells} {var : Int} : ∀ {pre post : List Int},
    Linked prev next (pre ++ var :: post) → pre ≠ [] →
    ∃ pre0, pre = pre0 ++ [next var]
  | [], _, _, hne => absurd rfl hne
  | [a], post, h, _ => ⟨[], by
      have : Linked prev next (a :: var :: post) := h
      rw [this.2.1]; rfl⟩
  | a :: a2 :: pre, post, h, _ => by
    obtain ⟨pre0, e⟩ := @Linked.next_mem_linked _ _ _ (a2 :: pre) _ (Linked.tail h) (by simp)
    exact ⟨a :: pre0, by rw [e]; rfl⟩

/-- Unlinking an element that is not the first one. -/
theorem Linked.remove {prev next : Cells} {var : Int} : ∀ {pre post : List Int},
    Linked prev next (pre ++ var :: post) → (pre ++ var :: post).Nodup →
    (0 : Int) ∉ pre ++ var :: post → pre ≠ [] →
    Linked (put prev (next var) (prev var)) (put next (prev var) (next var)) (pre ++ post)
  | [], _, _, _, _, hne => absurd rfl hne
  | [a], post, h, hnd, h0, _ => by
    have h1 : Linked prev next (a :: var :: post) := h
    obtain ⟨e1, e2, h3⟩ := h1
    have hnd2 : (a :: var :: post).Nodup := hnd
    have h02 : (0 : Int) ∉ a :: var :: post := h0
    simp only [List.nodup_cons, List.mem_cons, not_or] at hnd2 h02
    rw [e2]
    cases post with
    | nil =>
      show put prev a (prev var) a = 0
      have : prev var = 0 := h3
      simp [put, this]
    | cons b post2 =>
      obtain ⟨e3, e4, h5⟩ := h3
      show put prev a (prev var) a = b ∧ put next (prev var) a b = a ∧
        Linked (put prev a (prev var)) (put next (prev var) a) (b :: post2)
      rw [e3]
      refine ⟨by simp [put], by simp [put], ?_⟩
      refine Linked.congr_linked (fun c hc => ?_) (fun d hd => ?_) h5
      · have : c ≠ a := by
          rintro rfl
          exact hnd2.1.2 hc
        simp [put, this]
      · have : d ≠ b := by
          rintro rfl
          simp only [List.tail_cons] at hd
          have := hnd2.2.2
          simp only [List.nodup_cons] at this
          exact this.1 hd
        simp [put, this]
  | a :: a2 :: pre, post, h, hnd, h0, _ => by
    have h1 : Linked prev next (a :: a2 :: (pre ++ var :: post)) := h
    obtain ⟨e1, e2, h3⟩ := h1
    have hnd2 : (a :: (a2 :: pre ++ var :: post)).Nodup := hnd
    have h02 : (0 : Int) ∉ a :: (a2 :: pre ++ var :: post) := h0
    rw [List.nodup_cons] at hnd2
    rw [List.mem_cons, not_or] at h02
    have ih := @Linked.remove _ _ _ (a2 :: pre) _ h3 hnd2.2 h02.2 (by simp)
    obtain ⟨pre0, hp0⟩ := @Linked.next_mem_linked _ _ _ (a2 :: pre) _ h3 (by simp)
    have hx : next var ∈ a2 :: pre ++ var :: post := by
      rw [hp0]; simp
    have hxa : a ≠ next var := by
      rintro e; rw [← e] at hx; exact hnd2.1 hx
    have hy : a2 ≠ prev var := by
      intro e
      rcases @Linked.prev_mem _ _ _ (a2 :: pre) _ h3 with ⟨_, e0⟩ | ⟨post2, e3⟩
      · rw [e0] at e; rw [e] at h02; exact h02.2 (by simp)
      · have hnd3 := hnd2.2
        rw [e3, ← e] at hnd3
        have : a2 ∈ pre ++ var :: a2 :: post2 := by simp
        simp only [List.cons_append, List.nodup_cons] at hnd3
        exact hnd3.1 this
    show put prev (next var) (prev var) a = a2 ∧ put next (prev var) (next var) a2 = a ∧
      Linked (put prev (next var) (prev var)) (put next (prev var) (next var))
        (a2 :: pre ++ post)
    refine ⟨by simp only [put, if_neg hxa]; exact e1, by simp only [put, if_neg hy]; exact e2, ih⟩

theorem bump_links_same (s : State) (lit : Int)
    (h : s.mfalse lit = IMPLIED ∨ absInt lit = s.head) :
    (bump s lit).head = s.head ∧ (bump s lit).prev = s.prev ∧ (bump s lit).next = s.next := by
  by_cases h1 : s.mfalse lit = IMPLIED
  · simp [bump, h1]
  · rcases h with h | h
    · exact absurd h h1
    · simp [bump, h1, h]

theorem bump_links_move (s : State) (lit : Int) (h1 : s.mfalse lit ≠ IMPLIED)
    (h2 : absInt lit ≠ s.head) :
    (bump s lit).head = absInt lit ∧
    (bump s lit).prev =
      put (put s.prev (s.next (absInt lit)) (s.prev (absInt lit))) (absInt lit) s.head ∧
    (bump s lit).next =
      put (put s.next (put s.prev (s.next (absInt lit)) (s.prev (absInt lit)) (absInt lit))
        (s.next (absInt lit))) s.head (absInt lit) := by
  simp [bump, h1, h2]

theorem Vmtf.bump {s : State} {order : List Int} (h : Vmtf s order) {lit : Int}
    (hl : IsLit s.nVars lit) : ∃ order2, Vmtf (bump s lit) order2 := by
  have hn : (Microsat.bump s lit).nVars = s.nVars := (bump_static s lit).1.nVars
  by_cases hsame : s.mfalse lit = IMPLIED ∨ absInt lit = s.head
  · obtain ⟨e1, e2, e3⟩ := bump_links_same s lit hsame
    exact ⟨order, h.nodup, by rw [hn]; exact h.mem, by rw [e1]; exact h.head,
      by rw [e2, e3]; exact h.linked⟩
  · rw [not_or] at hsame
    obtain ⟨e1, e2, e3⟩ := bump_links_move s lit hsame.1 hsame.2
    have hv : absInt lit ∈ order := (h.mem _).mpr hl.abs_pos
    obtain ⟨pre, post, hsplit⟩ := List.append_of_mem hv
    have hnd := h.nodup
    have hlk := h.linked
    have hhd := h.head
    rw [hsplit] at hnd hlk hhd
    have h0 : (0 : Int) ∉ pre ++ absInt lit :: post := by
      rw [← hsplit]; intro hc
      have := (h.mem 0).mp hc
      omega
    have hpre : pre ≠ [] := by
      rintro rfl
      simp only [List.nil_append, List.head?_cons, Option.some.injEq] at hhd
      exact hsame.2 hhd
    obtain ⟨hh, pre1, epre⟩ : ∃ hh pre1, pre = hh :: pre1 := by
      cases pre with
      | nil => exact absurd rfl hpre
      | cons a l => exact ⟨a, l, rfl⟩
    have ehead : hh = s.head := by
      rw [epre] at hhd
      simpa using hhd
    obtain ⟨pre0, hp0⟩ := Linked.next_mem_linked hlk hpre
    have hxmem : s.next (absInt lit) ∈ pre := by rw [hp0]; simp
    have hvpre : absInt lit ∉ pre := by
      intro hc
      have := List.nodup_append.mp hnd
      exact this.2.2 hc (by simp)
    have hvx : absInt lit ≠ s.next (absInt lit) := by
      intro e; rw [← e] at hxmem; exact hvpre hxmem
    have e3b : (Microsat.bump s lit).next =
        put (put s.next (s.prev (absInt lit)) (s.next (absInt lit))) s.head (absInt lit) := by
      rw [e3]
      simp only [put, if_neg hvx]
    have hrem := Linked.remove hlk hnd h0 hpre
    have hnd2 : (absInt lit :: (pre ++ post)).Nodup := by
      have := List.nodup_append.mp hnd
      rw [List.nodup_cons] at this ⊢
      refine ⟨?_, ?_⟩
      · rw [List.mem_append, not_or]
        exact ⟨hvpre, this.2.1.1⟩
      · rw [List.nodup_append]
        refine ⟨this.1, this.2.1.2, fun a ha hb => this.2.2 ha (List.mem_cons_of_mem _ hb)⟩
    refine ⟨absInt lit :: (pre ++ post), hnd2, ?_, by rw [e1]; rfl, ?_⟩
    · intro v
      rw [hn, ← h.mem v, hsplit]
      simp only [List.mem_cons, List.mem_append]
      tauto
    · rw [e2, e3b, epre]
      show put _ _ _ (absInt lit) = hh ∧ put _ _ _ hh = absInt lit ∧ Linked _ _ (hh :: (pre1 ++ post))
      rw [← ehead]
      refine ⟨by simp [put], by simp [put], ?_⟩
      rw [epre] at hrem hnd2
      refine Linked.congr_linked (fun c hc => ?_) (fun d hd => ?_) hrem
      · have : c ≠ absInt lit := by
          rintro rfl
          rw [List.nodup_cons] at hnd2
          exact hnd2.1 hc
        simp only [put, if_neg this]
      · have : d ≠ hh := by
          rintro rfl
          rw [List.nodup_cons] at hnd2
          have h3 := hnd2.2
          simp only [List.cons_append, List.nodup_cons] at h3
          exact h3.1 hd
        simp only [put, if_neg this]

/-! ## Properties of the decision list are kept by `analyze` -/

theorem bumpAll_keeps (R : State → Prop) (n : Int)
    (hRb : ∀ s lit, IsLit n lit → s.nVars = n → R s → R (bump s lit)) :
    ∀ (m f : Nat) (s s1 : State) (c0 : Int),
    (∀ i : Nat, i < m → IsLit n (s.DB (c0 + i))) → s.DB (c0 + m) = 0 → s.nVars = n → R s →
    bumpAll f s c0 = .ok s1 → R s1
  | _, 0, _, _, _, _, _, _, _, h => by simp [bumpAll] at h
  | 0, f + 1, s, s1, c0, _, h0, _, hR, h => by
    simp only [bumpAll] at h
    have h0b : s.DB c0 = 0 := by simpa using h0
    rw [if_neg (by simpa using h0b)] at h
    have e := Except.ok.inj h
    rw [← e]; exact hR
  | m + 1, f + 1, s, s1, c0, hl, h0, hn, hR, h => by
    simp only [bumpAll] at h
    have hl0 : IsLit n (s.DB c0) := by simpa using hl 0 (by omega)
    rw [if_pos hl0.1] at h
    have b1 := (bump_static s (s.DB c0)).1
    refine bumpAll_keeps R n hRb m f _ s1 (c0 + 1) ?_ ?_ (b1.nVars.trans hn)
      (hRb s _ hl0 hn hR) h
    · intro i hi
      rw [b1.DB]
      have := hl (i + 1) (by omega)
      have e : c0 + ((i + 1 : Nat) : Int) = c0 + 1 + i := by push_cast; ring
      rwa [e] at this
    · rw [b1.DB]
      have e : c0 + ((m + 1 : Nat) : Int) = c0 + 1 + m := by push_cast; ring
      rwa [e] at h0

theorem buildTest_frame {fuel : Nat} {s s1 : State} {p : Int} {add : Bool}
    (h : buildTest fuel s p = .ok (add, s1)) : s1 = { s with mfalse := s1.mfalse } := by
  unfold buildTest at h
  split_ifs at h with hm
  · cases hi : implied fuel s (s.mfalseStack p) none with
    | error e => rw [hi] at h; cases h
    | ok v =>
      obtain ⟨r, s2⟩ := v
      rw [hi] at h
      obtain ⟨_, e2⟩ := Prod.mk.inj (Except.ok.inj h)
      subst e2
      exact implied_frame _ _ _ _ _ _ hi
  · obtain ⟨_, e2⟩ := Prod.mk.inj (Except.ok.inj h)
    subst e2; rfl

theorem buildNext_links (s1 : State) (p size : Int) (add : Bool) :
    (buildNext s1 p size add).next = s1.next ∧ (buildNext s1 p size add).prev = s1.prev ∧
    (buildNext s1 p size add).head = s1.head := by
  cases add <;> by_cases hd : s1.reason (absInt (s1.mfalseStack p)) = 0 <;>
    by_cases hz : size = 1 <;> by_cases hz2 : size + 1 = 1 <;>
    simp [buildNext, hd, hz, hz2]

theorem buildLoop_links (fuel : Nat) : ∀ (f : Nat) (s : State) (p size lbd flag : Int)
    (r : State × Int × Int), buildLoop fuel f s p size lbd flag = .ok r →
    r.1.next = s.next ∧ r.1.prev = s.prev ∧ r.1.head = s.head
  | 0, _, _, _, _, _, _, h => by simp [buildLoop] at h
  | f + 1, s, p, size, lbd, flag, r, h => by
    by_cases hp : p ≥ s.forced
    · cases ht : buildTest fuel s p with
      | error e => simp [buildLoop, if_pos hp, ht] at h
      | ok v =>
        obtain ⟨add, s1⟩ := v
        obtain ⟨lbd1, flag2, e⟩ := buildLoop_iter fuel f s p size lbd flag hp add s1 ht
        rw [e] at h
        obtain ⟨a1, a2, a3⟩ := buildLoop_links fuel f _ _ _ _ _ r h
        obtain ⟨b1, b2, b3⟩ := buildNext_links s1 p size add
        have hfr := buildTest_frame ht
        have c1 : s1.next = s.next := by conv_lhs => rw [hfr]
        have c2 : s1.prev = s.prev := by conv_lhs => rw [hfr]
        have c3 : s1.head = s.head := by conv_lhs => rw [hfr]
        exact ⟨a1.trans (b1.trans c1), a2.trans (b2.trans c2), a3.trans (b3.trans c3)⟩
    · simp only [buildLoop, if_neg hp] at h
      have e := Except.ok.inj h
      subst e
      exact ⟨rfl, rfl, rfl⟩

/-- A property of `next`, `prev`, `head` that `bump` keeps holds after
`analyze`. -/
theorem analyze_keeps {g : Ghost} {t : State} {b : Blk} (fuel : Nat) (hC : Conflict g t b)
    (R : State → Prop)
    (hRb : ∀ s lit, IsLit t.nVars lit → s.nVars = t.nVars → R s → R (bump s lit))
    (hRc : ∀ s s2, s2.next = s.next → s2.prev = s.prev → s2.head = s.head →
      s2.nVars = s.nVars → R s → R s2)
    {lem : Int} {s : State} (h : analyze fuel t (b.c + 2) = .ok (lem, s)) (hR : R t) : R s := by
  obtain ⟨D, hD⟩ := hC.topDec
  unfold analyze at h
  simp only [] at h
  split at h
  · cases h
  · rename_i s3 hb
    obtain ⟨hR3, -⟩ := hC.resolving hD hb
    have hbk := hC.arena.blk b hC.hb
    have r3 : R s3 := bumpAll_keeps R t.nVars hRb b.k fuel
      { { t with res := t.res + 1 } with nConflicts := t.nConflicts + 1 } s3 (b.c + 2)
      (fun i hi => hbk.2.1 i hi) hbk.2.2 rfl
      (hRc t { { t with res := t.res + 1 } with nConflicts := t.nConflicts + 1 }
        rfl rfl rfl rfl hR) hb
    split at h
    · cases h
    · rename_i s4 hr
      have hR4 := resolveLoop_spec fuel hC hD fuel s3 s4 hR3 hr
      have r4 : R s4 := by
        refine (resolveLoop_induct fuel (fun s => Resolving t s D ∧ R s)
          (fun s => R s) ?_ ?_ ?_ ?_ fuel s3 s4 ⟨hR3, r3⟩ hr)
        · rintro s0 ⟨hI, hr0⟩ hdd hmk
          exact ⟨hI.step_drop hC hD hdd hmk, hRc s0 _ rfl rfl rfl rfl hr0⟩
        · rintro s0 s2 ⟨hI, hr0⟩ hdd hmk hrd hba
          refine ⟨hI.step_resolve fuel hC hD hdd hrd hba, ?_⟩
          obtain ⟨_, hst2, _, rb, hrb, hrk, hr1, _, _, _⟩ := hI.bumped fuel hC hD hdd hba
          have harg : s0.reason (absInt (s0.mfalseStack (s0.assigned - 1))) = rb.c + 3 := by
            rw [hI.static.reason, hI.static.mfalseStack]; exact hr1
          rw [harg] at hba
          have hbk2 := hC.arena.blk rb hrb
          have hsDB : ({ s0 with assigned := s0.assigned - 1 } : State).DB = t.DB :=
            hI.static.DB
          have r2 : R s2 := bumpAll_keeps R t.nVars hRb (rb.k - 1) fuel
            { s0 with assigned := s0.assigned - 1 } s2 (rb.c + 3)
            (fun i hi => by
              rw [hsDB]
              have := hbk2.2.1 (i + 1) (by omega)
              have e : rb.c + 2 + ((i + 1 : Nat) : Int) = rb.c + 3 + i := by push_cast; ring
              rwa [e] at this)
            (by
              rw [hsDB]
              have : rb.c + 3 + ((rb.k - 1 : Nat) : Int) = rb.c + 2 + (rb.k : Int) := by omega
              rw [this]; exact hbk2.2.2)
            hI.static.nVars
            (hRc s0 { s0 with assigned := s0.assigned - 1 } rfl rfl rfl rfl hr0) hba
          exact hRc s2 _ rfl rfl rfl rfl r2
        · rintro s0 ⟨_, hr0⟩ _
          exact hRc s0 _ rfl rfl rfl rfl hr0
        · rintro s0 ⟨_, hr0⟩ _ _ _
          exact hRc s0 _ rfl rfl rfl rfl hr0
      split at h
      · cases h
      · rename_i s6 size lbd hbl
        obtain ⟨l1, l2, l3⟩ := buildLoop_links fuel fuel _ _ _ _ _ _ hbl
        have hB := buildLoop_spec hC hD hR4.lo hR4.hi fuel fuel _ _ _ _ _ _
          (hR4.building hD) hbl
        have r6 : R s6 := hRc s4 s6 l1 l2 l3 (hB.cache.static.nVars.trans hR4.static.nVars.symm) r4
        have hs1 : 1 ≤ size := (hB.lits hD hR4.lo).1
        obtain ⟨k, hk⟩ : ∃ k : Nat, size = k := ⟨size.toNat, by omega⟩
        subst hk
        have hmem := addClause_mem h
        obtain ⟨s1, a0, a1, a2, a3, a4, a5, a6, a7, a8, a9, a10, a11, a12, a13, a14, a15, a16,
          a17, a18, a19, a20, a21⟩ := addClause_spec _ (.buf 0) k 0 hmem trivial
        rw [a0] at h
        obtain ⟨_, e2⟩ := Prod.mk.inj (Except.ok.inj h)
        subst e2
        have bj := backjumpLoop_frame (s6.assigned - s6.processed).toNat
          { s6 with fast := s6.fast - (s6.fast >>> 5) + (lbd <<< 15),
                    slow := s6.slow - (s6.slow >>> 15) + (lbd <<< 5) }
        refine hRc s6 s1 ?_ ?_ ?_ ?_ r6
        · rw [a18]; show (backjumpLoop _ _).next = _; rw [bj]
        · rw [a19]; show (backjumpLoop _ _).prev = _; rw [bj]
        · rw [a20]; show (backjumpLoop _ _).head = _; rw [bj]
        · rw [a9]; show (backjumpLoop _ _).nVars = _; rw [bj]

theorem Admin.refl_admin (s : State) : Admin s s := ⟨rfl, rfl, rfl, rfl, rfl, rfl, rfl, rfl, rfl⟩

theorem Admin.trans_admin {s t u : State} (h1 : Admin s t) (h2 : Admin t u) : Admin s u :=
  ⟨h2.nVars.trans h1.nVars, h2.next.trans h1.next, h2.prev.trans h1.prev,
    h2.head.trans h1.head, h2.mem_used.trans h1.mem_used, h2.mem_fixed.trans h1.mem_fixed,
    h2.mem_max.trans h1.mem_max, h2.nLemmas.trans h1.nLemmas,
    h2.maxLemmas.trans h1.maxLemmas⟩

theorem wlNorm_admin (s : State) (c lit : Int) : Admin s (wlNorm s c lit) := by
  rw [wlNorm_eq]; exact ⟨rfl, rfl, rfl, rfl, rfl, rfl, rfl, rfl, rfl⟩

theorem wlSwap_admin (s : State) (c lit i : Int) (w : WatchPtr) :
    Admin s (wlSwap s c lit i w) := by
  cases w <;> exact ⟨rfl, rfl, rfl, rfl, rfl, rfl, rfl, rfl, rfl⟩

theorem assign_admin (s : State) (r fl : Int) : Admin s (assign s r fl) :=
  ⟨rfl, rfl, rfl, rfl, rfl, rfl, rfl, rfl, rfl⟩

/-- One iteration of the watch loop leaves the administrative members alone. -/
theorem watchStep_admin {fuel : Nat} {s : State} {lit fl : Int} {watch : WatchPtr}
    {r : WatchStep} (h : watchStep fuel s lit fl watch = .ok r) :
    (∀ s1 w1, r = .next s1 w1 → Admin s s1) ∧ (∀ s1, r = .unsat s1 → Admin s s1) ∧
    (∀ s2 clause, r = .conflict s2 clause → Admin s s2) := by
  rw [watchStep_eq] at h
  have hN := wlNorm_admin s (wlClause s watch) lit
  split at h
  · cases h
  · have e := Except.ok.inj h
    subst e
    refine ⟨fun s1 w1 e => ?_, fun s1 e => (by cases e), fun s2 cl e => (by cases e)⟩
    cases e
    exact hN.trans_admin (wlSwap_admin _ _ _ _ _)
  · split_ifs at h
    all_goals
      have e := Except.ok.inj h
      subst e
      refine ⟨fun s1 w1 e => ?_, fun s1 e => ?_, fun s2 cl e => ?_⟩ <;> cases e
    · exact hN
    · exact hN.trans_admin (assign_admin _ _ _)
    · exact hN
    · exact hN

theorem Vmtf.congr_vmtf {s s2 : State} {order : List Int} (h : Vmtf s order)
    (h1 : s2.nVars = s.nVars) (h2 : s2.next = s.next) (h3 : s2.prev = s.prev)
    (h4 : s2.head = s.head) : Vmtf s2 order :=
  ⟨h.nodup, by rw [h1]; exact h.mem, by rw [h4]; exact h.head, by rw [h2, h3]; exact h.linked⟩

theorem FixedInv.congr_fixedinv {g g2 : Ghost} {s s2 : State} {lem fix : List Blk}
    (h : FixedInv g s lem fix) (hb : g2.bs = g.bs) (h1 : s2.nVars = s.nVars)
    (h2 : s2.mem_fixed = s.mem_fixed) : FixedInv g2 s2 lem fix :=
  ⟨by rw [hb]; exact h.split, by rw [h1, h2]; exact h.layout, h.none⟩

theorem Extra.admin {N : Int} {g g2 : Ghost} {s s2 : State} (h : Extra N g s)
    (ha : Admin s s2) (hb : g2.bs = g.bs) : Extra N g2 s2 := by
  obtain ⟨order, hv⟩ := h.vmtf
  obtain ⟨lem, fix, hf, hc⟩ := h.fixed
  exact ⟨ha.nVars.trans h.nvars, ⟨order, hv.congr_vmtf ha.nVars ha.next ha.prev ha.head⟩,
    ⟨lem, fix, hf.congr_fixedinv hb ha.nVars ha.mem_fixed, by rw [ha.nLemmas]; exact hc⟩,
    by rw [ha.maxLemmas]; exact h.maxpos⟩

/-- The decision list and the border after a conflict has been analysed. -/
theorem Extra.learn {N : Int} {g : Ghost} {t s : State} {b : Blk} {lem P : Int} {k : Nat}
    (fuel : Nat) (hC : Conflict g t b) (hE : Extra N g t)
    (ha : analyze fuel t (b.c + 2) = .ok (lem, s)) (hL : Learned g t s lem k P) (fl : Int) :
    Extra N (g.push t.mem_used k (s.DB lem) (s.DB (lem + 1))) (assign s lem fl) := by
  have hv : ∃ order, Vmtf s order := by
    refine analyze_keeps fuel hC (fun u => ∃ order, Vmtf u order) ?_ ?_ ha hE.vmtf
    · rintro u lit hl hn ⟨order, ho⟩
      exact ho.bump (by rw [hn]; exact hl)
    · rintro u u2 h1 h2 h3 h4 ⟨order, ho⟩
      exact ⟨order, ho.congr_vmtf h4 h1 h2 h3⟩
  obtain ⟨order, ho⟩ := hv
  obtain ⟨lm, fix, hf, hc⟩ := hE.fixed
  refine ⟨hL.nVars.trans hE.nvars, ⟨order, ho.congr_vmtf rfl rfl rfl rfl⟩,
    ⟨⟨t.mem_used, k⟩ :: lm, fix, ⟨?_, ?_, ?_⟩, ?_⟩, ?_⟩
  rotate_left 3
  · show s.nLemmas = _
    rw [hL.nLemmas, hc]; simp
  · show 0 ≤ s.maxLemmas
    rw [hL.maxLemmas]; exact hE.maxpos
  · show ⟨t.mem_used, k⟩ :: g.bs = _
    rw [hf.split]; rfl
  · intro hne
    show Layout (arenaBase s.nVars) fix s.mem_fixed
    rw [hL.nVars, hL.mem_fixed]; exact hf.layout hne
  · intro hfix
    have := hf.none hfix
    have hb := hC.hb
    rw [hf.split, this, hfix] at hb
    cases hb

/-- What holds when the watch loop for one trail entry is left. -/
theorem watchLoop_extra (fuel : Nat) {N : Int} {g : Ghost} {s : State} {fl lit : Int} {watch : WatchPtr}
    {visited rest : List Int} (h : WLoop g s fl lit watch visited rest) (hE : Extra N g s)
    (f : Nat) {ex : WatchExit} (hrun : watchLoop fuel f s lit fl watch = .ok ex) :
    (∀ s2 fl1, ex = .cont s2 fl1 → ∃ g2, PInv g2 s2 fl1 ∧ Extra N g2 s2) ∧
    (∀ s2, ex = .unsat s2 → fl ≠ 0 ∧ ∃ g2 w2 vis2 rest2, WLoop g2 s2 fl lit w2 vis2 rest2 ∧
      Extra N g2 s2 ∧ ∃ b ∈ g2.bs, ∀ r : Nat, r < b.k → s2.mfalse (s2.DB (b.c + 2 + r)) ≠ 0) := by
  refine watchLoop_induct fuel lit fl
    (fun s w => ∃ g vis rest, WLoop g s fl lit w vis rest ∧ Extra N g s)
    (fun ex => (∀ s2 fl1, ex = .cont s2 fl1 → ∃ g2, PInv g2 s2 fl1 ∧ Extra N g2 s2) ∧
      (∀ s2, ex = .unsat s2 → fl ≠ 0 ∧ ∃ g2 w2 vis2 rest2, WLoop g2 s2 fl lit w2 vis2 rest2 ∧
        Extra N g2 s2 ∧
        ∃ b ∈ g2.bs, ∀ r : Nat, r < b.k → s2.mfalse (s2.DB (b.c + 2 + r)) ≠ 0))
    ?_ ?_ ?_ ?_ f s watch ex ⟨g, visited, rest, h, hE⟩ hrun
  · rintro s w s1 w1 ⟨g, vis, rest, hW, hX⟩ hne hs
    obtain ⟨g1, vis1, rest1, h1, hb⟩ := (hW.step_wloop fuel hne hs).1 s1 w1 rfl
    exact ⟨g1, vis1, rest1, h1, hX.admin ((watchStep_admin hs).1 s1 w1 rfl) hb⟩
  · rintro s w ⟨g, vis, rest, hW, hX⟩ he
    refine ⟨fun s2 fl1 e => ?_, fun s2 e => by cases e⟩
    cases e
    exact ⟨g, hW.finish he, hX⟩
  · rintro s w s1 ⟨g, vis, rest, hW, hX⟩ hne hs
    refine ⟨fun s2 fl1 e => (by cases e), fun s2 e => ?_⟩
    cases e
    obtain ⟨hfl, b, hb, rest1, h1, h2⟩ := (hW.step_wloop fuel hne hs).2.1 s1 rfl
    exact ⟨hfl, g, w, vis, rest1, h1, hX.admin ((watchStep_admin hs).2.1 s1 rfl) rfl, b, hb, h2⟩
  · rintro s w s2 clause lem s3 ⟨g, vis, rest, hW, hX⟩ hne hs ha
    refine ⟨fun s4 fl1 e => ?_, fun s4 e => by cases e⟩
    obtain ⟨hfl, b, rest1, hcl, hC, hWI⟩ := (hW.step_wloop fuel hne hs).2.2 s2 clause rfl
    subst hcl
    obtain ⟨k, P, hL⟩ := analyze_spec fuel hC ha
    have hX2 : Extra N g s2 := hX.admin ((watchStep_admin hs).2.2 s2 _ rfl) rfl
    have := hL.pinv_learned hC hWI
    cases e
    rw [hfl]
    exact ⟨_, this, hX2.learn fuel hC ha hL _⟩

theorem Extra.start_extra {N : Int} {g : Ghost} {s : State} (h : Extra N g s) :
    Extra N g { s with processed := s.processed + 1 } :=
  h.admin ⟨rfl, rfl, rfl, rfl, rfl, rfl, rfl, rfl, rfl⟩ rfl

theorem Extra.quiet_extra {N : Int} {g : Ghost} {s : State} (h : Extra N g s) (fl : Int) :
    Extra N g (if fl ≠ 0 then { s with forced := s.processed } else s) := by
  split_ifs
  · exact h.admin ⟨rfl, rfl, rfl, rfl, rfl, rfl, rfl, rfl, rfl⟩ rfl
  · exact h

/-- What holds when `propagate` returns. -/
theorem propagateLoop_extra (fuel : Nat) (N : Int) : ∀ (f : Nat) (s : State) (fl : Int)
    (r : Int × State), (∃ g, PInv g s fl ∧ Extra N g s) → propagateLoop fuel f s fl = .ok r →
    (r.1 = SAT ∧ ∃ g, PInv g r.2 0 ∧ Extra N g r.2 ∧ r.2.processed = r.2.assigned) ∨
    (r.1 = UNSAT ∧ ∃ g fl2 lit w vis rest, fl2 ≠ 0 ∧ WLoop g r.2 fl2 lit w vis rest ∧
      Extra N g r.2 ∧ ∃ b ∈ g.bs, ∀ i : Nat, i < b.k → r.2.mfalse (r.2.DB (b.c + 2 + i)) ≠ 0) := by
  refine propagateLoop_induct fuel (fun s fl => ∃ g, PInv g s fl ∧ Extra N g s) _ ?_ ?_ ?_
  · rintro s fl s2 fl1 ⟨g, h, hX⟩ hp hw
    exact (watchLoop_extra fuel (h.start_pinv hp) hX.start_extra fuel hw).1 s2 fl1 rfl
  · rintro s fl s2 ⟨g, h, hX⟩ hp hw
    obtain ⟨hfl, g2, w2, vis2, rest2, h1, hX2, h2⟩ :=
      (watchLoop_extra fuel (h.start_pinv hp) hX.start_extra fuel hw).2 s2 rfl
    exact Or.inr ⟨rfl, g2, fl, _, w2, vis2, rest2, hfl, h1, hX2, h2⟩
  · rintro s fl ⟨g, h, hX⟩ hp
    exact Or.inl ⟨rfl, g, (h.quiet_pinv hp).1, hX.quiet_extra fl, (h.quiet_pinv hp).2⟩

/-! ## restart -/

theorem restartLoop_spec : ∀ (k : Nat) (s : State), s.forced ≤ s.assigned →
    (s.assigned - s.forced).toNat ≤ k →
    restartLoop k s = { s with assigned := s.forced, mfalse := (restartLoop k s).mfalse } ∧
    (∀ l, (∃ i, s.forced ≤ i ∧ i < s.assigned ∧ s.mfalseStack i = l) →
      (restartLoop k s).mfalse l = 0) ∧
    (∀ l, (∀ i, s.forced ≤ i → i < s.assigned → s.mfalseStack i ≠ l) →
      (restartLoop k s).mfalse l = s.mfalse l)
  | 0, s, h1, h2 => by
    have e : s.assigned = s.forced := by omega
    refine ⟨?_, ?_, ?_⟩
    · simp only [restartLoop]
      cases s; simp only at e; subst e; rfl
    · rintro l ⟨i, a1, a2, _⟩; omega
    · intro l _; rfl
  | k + 1, s, h1, h2 => by
    by_cases hgt : s.assigned > s.forced
    · have hstep : restartLoop (k + 1) s = restartLoop k
          (unassign { s with assigned := s.assigned - 1 } (s.mfalseStack (s.assigned - 1))) := by
        simp only [restartLoop]; rw [if_pos hgt]
      obtain ⟨r1, r2, r3⟩ := restartLoop_spec k
        (unassign { s with assigned := s.assigned - 1 } (s.mfalseStack (s.assigned - 1)))
        (by show s.forced ≤ s.assigned - 1; omega)
        (by show (s.assigned - 1 - s.forced).toNat ≤ k; omega)
      rw [hstep]
      refine ⟨?_, ?_, ?_⟩
      · rw [r1]; rfl
      · rintro l ⟨i, a1, a2, a3⟩
        by_cases e : i = s.assigned - 1
        · by_cases hex : ∃ j, s.forced ≤ j ∧ j < s.assigned - 1 ∧ s.mfalseStack j = l
          · exact r2 l hex
          · rw [r3 l (fun j b1 b2 b3 => hex ⟨j, b1, b2, b3⟩)]
            show put s.mfalse (s.mfalseStack (s.assigned - 1)) 0 l = 0
            rw [← e, a3]; simp [put]
        · exact r2 l ⟨i, a1, by show i < s.assigned - 1; omega, a3⟩
      · intro l hl
        rw [r3 l (fun j b1 b2 => hl j b1 (by have : j < s.assigned - 1 := b2; omega))]
        show put s.mfalse (s.mfalseStack (s.assigned - 1)) 0 l = s.mfalse l
        have : l ≠ s.mfalseStack (s.assigned - 1) :=
          fun e => hl (s.assigned - 1) (by omega) (by omega) e.symm
        simp only [put, if_neg this]
    · have e : s.assigned = s.forced := by omega
      have hstep : restartLoop (k + 1) s = s := by
        simp only [restartLoop]; rw [if_neg hgt]
      rw [hstep]
      refine ⟨?_, ?_, ?_⟩
      · cases s; simp only at e; subst e; rfl
      · rintro l ⟨i, a1, a2, _⟩; omega
      · intro l _; rfl

/-- The state after `restart()`, called when propagation has come to rest. -/
theorem PInv.restarted {g : Ghost} {s : State} (h : PInv g s 0) (hq : s.processed = s.assigned) :
    PInv g (restart s) 0 ∧ (restart s).processed = (restart s).assigned ∧
    (restart s).assigned = s.forced ∧ Admin s (restart s) ∧ (restart s).forced = s.forced ∧
    (restart s).model = s.model ∧ (restart s).mfalseStack = s.mfalseStack ∧
    (∀ i, 0 ≤ i → i < s.forced → (restart s).mfalse (s.mfalseStack i) = s.mfalse (s.mfalseStack i)) := by
  have hf0 := h.trail.f0
  have hfp := h.trail.fp
  have hpa := h.trail.pa
  obtain ⟨r1, r2, r3⟩ := restartLoop_spec (s.assigned - s.forced).toNat s (by omega) (le_refl _)
  obtain ⟨R, hR⟩ : ∃ R, R = restartLoop (s.assigned - s.forced).toNat s := ⟨_, rfl⟩
  rw [← hR] at r1 r2 r3
  have e : restart s = { s with assigned := s.forced, processed := s.forced, mfalse := R.mfalse } := by
    unfold restart
    simp only []
    rw [← hR]
    conv_lhs => rw [r1]
  rw [e]
  have hkeep : ∀ i, 0 ≤ i → i < s.forced → R.mfalse (s.mfalseStack i) = s.mfalse (s.mfalseStack i) := by
    intro i i0 i1
    refine r3 _ (fun j j1 j2 e => ?_)
    have := h.trail.pos_unique (by omega) j2 i0 (by omega) e
    omega
  refine ⟨⟨h.arena.congr_arenainv rfl rfl rfl rfl, ?_, ?_, fun _ => ⟨?_⟩, ⟨?_⟩⟩, rfl, rfl,
    ⟨rfl, rfl, rfl, rfl, rfl, rfl, rfl, rfl, rfl⟩, rfl, rfl, rfl, hkeep⟩
  · refine ⟨hf0, le_refl _, le_refl _, ?_, ?_, ?_⟩
    · intro i i0 i1
      have i2 : i < s.forced := i1
      exact h.trail.lit i i0 (by omega)
    · intro i j i0 i1 j0 j1
      have i2 : i < s.forced := i1
      have j2 : j < s.forced := j1
      exact h.trail.inj i j i0 (by omega) j0 (by omega)
    · intro l
      show R.mfalse l ≠ 0 ↔ ∃ i, 0 ≤ i ∧ i < s.forced ∧ s.mfalseStack i = l
      constructor
      · intro hl
        by_cases hex : ∃ i, s.forced ≤ i ∧ i < s.assigned ∧ s.mfalseStack i = l
        · exact absurd (r2 l hex) hl
        · rw [r3 l (fun j b1 b2 b3 => hex ⟨j, b1, b2, b3⟩)] at hl
          obtain ⟨i, i0, i1, i2⟩ := (h.trail.mf l).mp hl
          refine ⟨i, i0, ?_, i2⟩
          by_contra hc
          exact hex ⟨i, by omega, i1, i2⟩
      · rintro ⟨i, i0, i1, i2⟩
        rw [← i2, hkeep i i0 i1]
        exact h.trail.on_trail i0 (by omega)
  · refine ⟨?_, fun hc => absurd rfl hc, ?_, ?_, ?_⟩
    · intro i i0 i1
      have i2 : i < s.forced := i1
      exact ⟨by show R.mfalse (s.mfalseStack i) = IMPLIED
                rw [hkeep i i0 i2]; exact (h.level.root i i0 i2).1,
        (h.level.root i i0 i2).2⟩
    · intro _ i i1 i2
      have : s.forced ≤ i := i1
      have : i < s.forced := i2
      omega
    · intro _ i1
      have : s.forced < s.forced := i1
      omega
    · intro i i1 i2
      have : s.forced < i := i1
      have : i < s.forced := i2
      omega
  · intro i i1 i2
    have : s.forced ≤ i := i1
    have : i < s.forced := i2
    omega
  · intro b hb hk u v l l2 hp hu hv i i0 i1 il hdone
    have i2 : i < s.forced := i1
    obtain ⟨j, j0, j1, j2, j3⟩ := h.watch2.ok b hb hk u v l l2 hp hu hv i i0 (by omega) il
      (by rcases lt_or_eq_of_le (show i + 1 ≤ s.processed by omega) with a | a
          · exact Or.inl a
          · exact Or.inr ⟨a, List.not_mem_nil _⟩)
    have hj : j < s.forced := by
      by_contra hc
      rcases j3 with j3 | j3
      · omega
      · exact j3 s.forced i2 (by omega) (h.level.firstDec rfl (by omega))
    exact ⟨j, j0, hj, j2, j3⟩

/-! ## The decision of `solve` -/

/-- The scan for the next decision variable passes assigned variables of the
decision list and stops at an unassigned one or at the end. -/
theorem nextDecision_scan {s : State} (h0 : s.mfalse 0 = 0) : ∀ (f : Nat) (l : List Int)
    (d d2 : Int), Linked s.prev s.next l → ((l = [] ∧ d = 0) ∨ l.head? = some d) →
    nextDecision f s d = .ok d2 →
    ∃ mid rest, l = mid ++ rest ∧ (∀ v ∈ mid, s.mfalse v ≠ 0 ∨ s.mfalse (-v) ≠ 0) ∧
      ((rest = [] ∧ d2 = 0) ∨
       (rest.head? = some d2 ∧ s.mfalse d2 = 0 ∧ s.mfalse (-d2) = 0))
  | 0, _, _, _, _, _, h => by simp [nextDecision] at h
  | f + 1, l, d, d2, hl, hd, h => by
    simp only [nextDecision] at h
    by_cases ha : s.mfalse d ≠ 0 ∨ s.mfalse (-d) ≠ 0
    · rw [if_pos ha] at h
      rcases hd with ⟨_, e0⟩ | hd
      · rw [e0] at ha
        simp only [neg_zero, or_self] at ha
        exact absurd h0 ha
      · cases l with
        | nil => simp at hd
        | cons a l2 =>
          have ea : a = d := by simpa using hd
          subst ea
          have hnext : (l2 = [] ∧ s.prev a = 0) ∨ l2.head? = some (s.prev a) := by
            cases l2 with
            | nil => exact Or.inl ⟨rfl, hl⟩
            | cons b l3 => exact Or.inr (by rw [hl.1]; rfl)
          obtain ⟨mid, rest, e, hm, hr⟩ := nextDecision_scan h0 f l2 (s.prev a) d2
            (Linked.tail hl) hnext h
          refine ⟨a :: mid, rest, by rw [e]; rfl, ?_, hr⟩
          intro v hv
          rcases List.mem_cons.mp hv with e1 | e1
          · rw [e1]; exact ha
          · exact hm v e1
    · rw [if_neg ha] at h
      have e := Except.ok.inj h
      subst e
      rw [not_or, not_not, not_not] at ha
      refine ⟨[], l, rfl, fun v hv => (by cases hv), ?_⟩
      rcases hd with ⟨e1, e0⟩ | hd
      · exact Or.inl ⟨e1, e0⟩
      · exact Or.inr ⟨hd, ha.1, ha.2⟩

/-- The state after `solve` has pushed the decision for the variable `d`
with the saved phase. -/
theorem PInv.decide {g : Ghost} {s : State} (h : PInv g s 0) (hq : s.processed = s.assigned)
    {e : Int} (he : IsLit s.nVars e) (hf1 : s.mfalse e = 0) (hf2 : s.mfalse (-e) = 0) :
    PInv g { s with mfalse := put s.mfalse e 1,
                    mfalseStack := put s.mfalseStack s.assigned e,
                    assigned := s.assigned + 1,
                    reason := put s.reason (absInt e) 0 } 0 := by
  have hf0 := h.trail.f0
  have hfp := h.trail.fp
  have hpa := h.trail.pa
  have hfresh : ∀ i, 0 ≤ i → i < s.assigned → absInt (s.mfalseStack i) ≠ absInt e := by
    intro i i0 i1 hc
    have hon := h.trail.on_trail i0 i1
    rcases (absInt_eq_iff _ _).mp hc with e1 | e1
    · rw [e1] at hon; exact hon hf1
    · rw [e1] at hon; exact hon hf2
  have hent : ∀ i, i < s.assigned → put s.mfalseStack s.assigned e i = s.mfalseStack i := by
    intro i i1
    have : i ≠ s.assigned := by omega
    simp only [put, if_neg this]
  have hnew : put s.mfalseStack s.assigned e s.assigned = e := by simp [put]
  have hdecold : ∀ i, 0 ≤ i → i < s.assigned →
      (put s.reason (absInt e) 0 (absInt (put s.mfalseStack s.assigned e i)) = 0 ↔ IsDec s i) := by
    intro i i0 i1
    rw [hent i i1]
    simp only [put, if_neg (hfresh i i0 i1)]
    rfl
  have hdecnew : put s.reason (absInt e) 0 (absInt (put s.mfalseStack s.assigned e s.assigned)) = 0 := by
    rw [hnew]; simp [put]
  refine ⟨h.arena.congr_arenainv rfl rfl rfl rfl, ?_, ?_, fun _ => ⟨?_⟩, ⟨?_⟩⟩
  · refine ⟨hf0, hfp, by show s.processed ≤ s.assigned + 1; omega, ?_, ?_, ?_⟩
    · intro i i0 i1
      have i2 : i < s.assigned + 1 := i1
      show IsLit s.nVars (put s.mfalseStack s.assigned e i)
      by_cases e1 : i = s.assigned
      · rw [e1, hnew]; exact he
      · rw [hent i (by omega)]; exact h.trail.lit i i0 (by omega)
    · intro i j i0 i1 j0 j1
      have i2 : i < s.assigned + 1 := i1
      have j2 : j < s.assigned + 1 := j1
      show absInt (put s.mfalseStack s.assigned e i) = absInt (put s.mfalseStack s.assigned e j) → i = j
      intro hc
      by_cases e1 : i = s.assigned <;> by_cases e2 : j = s.assigned
      · omega
      · rw [e1, hnew, hent j (by omega)] at hc
        exact absurd hc.symm (hfresh j j0 (by omega))
      · rw [e2, hnew, hent i (by omega)] at hc
        exact absurd hc (hfresh i i0 (by omega))
      · rw [hent i (by omega), hent j (by omega)] at hc
        exact h.trail.inj i j i0 (by omega) j0 (by omega) hc
    · intro l
      show put s.mfalse e 1 l ≠ 0 ↔
        ∃ i, 0 ≤ i ∧ i < s.assigned + 1 ∧ put s.mfalseStack s.assigned e i = l
      constructor
      · intro hl
        by_cases e1 : l = e
        · exact ⟨s.assigned, by omega, by omega, by rw [hnew, e1]⟩
        · simp only [put, if_neg e1] at hl
          obtain ⟨i, i0, i1, i2⟩ := (h.trail.mf l).mp hl
          exact ⟨i, i0, by omega, by rw [hent i i1]; exact i2⟩
      · rintro ⟨i, i0, i1, i2⟩
        by_cases e1 : l = e
        · rw [e1]; simp [put]
        · simp only [put, if_neg e1]
          have : i ≠ s.assigned := by
            intro e2; rw [e2, hnew] at i2; exact e1 i2.symm
          rw [hent i (by omega)] at i2
          rw [← i2]; exact h.trail.on_trail i0 (by omega)
  · refine ⟨?_, fun hc => absurd rfl hc, ?_, ?_, ?_⟩
    · intro i i0 i1
      have i2 : i < s.forced := i1
      have hr := h.level.root i i0 i2
      refine ⟨?_, fun hd => hr.2 ((hdecold i i0 (by omega)).mp hd)⟩
      show put s.mfalse e 1 (put s.mfalseStack s.assigned e i) = IMPLIED
      rw [hent i (by omega)]
      have : s.mfalseStack i ≠ e := by
        intro e1
        have := h.trail.on_trail i0 (show i < s.assigned by omega)
        rw [e1] at this; exact this hf1
      simp only [put, if_neg this]; exact hr.1
    · intro _ i i1 i2
      have i3 : s.forced ≤ i := i1
      have i4 : i < s.assigned + 1 := i2
      show put s.mfalse e 1 (put s.mfalseStack s.assigned e i) = 1
      by_cases e1 : i = s.assigned
      · rw [e1, hnew]; simp [put]
      · rw [hent i (by omega)]
        have : s.mfalseStack i ≠ e := by
          intro e2
          have := h.trail.on_trail (show 0 ≤ i by omega) (show i < s.assigned by omega)
          rw [e2] at this; exact this hf1
        simp only [put, if_neg this]
        exact h.level.search rfl i i3 (by omega)
    · intro _ i1
      have i2 : s.forced < s.assigned + 1 := i1
      by_cases e1 : s.forced = s.assigned
      · show put s.reason (absInt e) 0 (absInt (put s.mfalseStack s.assigned e s.forced)) = 0
        rw [e1]; exact hdecnew
      · exact (hdecold s.forced hf0 (by omega)).mpr (h.level.firstDec rfl (by omega))
    · intro i i1 i2
      have : s.processed < i := i1
      have : i < s.assigned + 1 := i2
      omega
  · intro i i1 i2 hd
    have i3 : s.forced ≤ i := i1
    have i4 : i < s.assigned + 1 := i2
    by_cases e1 : i = s.assigned
    · rw [e1] at hd; exact absurd hdecnew hd
    · have hi : i < s.assigned := by omega
      have hd2 : ¬ IsDec s i := fun hc => hd ((hdecold i (by omega) hi).mpr hc)
      obtain ⟨rb, hrb, hk, hr, hr0, hall, t0, ht1, ht2, j, hj0, hj1, hj2, hj3⟩ :=
        (h.reason rfl).ok i i3 hi hd2
      refine ⟨rb, hrb, hk, ?_, ?_, ?_, ?_⟩
      · show put s.reason (absInt e) 0 (absInt (put s.mfalseStack s.assigned e i)) = _
        rw [hent i hi]
        simp only [put, if_neg (hfresh i (by omega) hi)]
        exact hr
      · show s.DB (rb.c + 2) = -(put s.mfalseStack s.assigned e i)
        rw [hent i hi]; exact hr0
      · intro r r1 r2
        obtain ⟨j, a1, a2, a3⟩ := hall r r1 r2
        exact ⟨j, a1, a2, by show put s.mfalseStack s.assigned e j = _
                             rw [hent j (by omega)]; exact a3⟩
      · refine ⟨t0, ht1, ht2, j, hj0, hj1, ?_, ?_⟩
        · show put s.mfalseStack s.assigned e j = _
          rw [hent j (by omega)]; exact hj2
        · intro m m1 m2 hd3
          exact hj3 m m1 m2 ((hdecold m (by omega) (by omega)).mp hd3)
  · intro b hb hk u v l l2 hp hu hv i i0 i1 il hdone
    have i2 : i < s.assigned + 1 := i1
    have hdone2 : i + 1 < s.processed ∨ (i + 1 = s.processed ∧ u ∉ ([] : List Int)) := hdone
    have hi : i < s.assigned := by omega
    have il2 : put s.mfalseStack s.assigned e i = l := il
    rw [hent i hi] at il2
    obtain ⟨j, j0, j1, j2, j3⟩ := h.watch2.ok b hb hk u v l l2 hp hu hv i i0 hi il2 hdone2
    refine ⟨j, j0, by show j < s.assigned + 1; omega, ?_, ?_⟩
    · show put s.mfalseStack s.assigned e j = _
      rw [hent j j1]; exact j2
    · rcases j3 with j3 | j3
      · exact Or.inl j3
      · exact Or.inr (fun m m1 m2 hd3 => j3 m m1 m2 ((hdecold m (by omega) (by omega)).mp hd3))

/-! ## reduceDB: the lemmas leave the watch chains -/

/-- The loop of `reduceDB` for one chain: the cells from `mem_fixed` on are
unlinked, the others stay in order. -/
theorem unwatchLemmas_spec : ∀ (f : Nat) (rest : List Int) (s s1 : State) (W : WatchPtr),
    Lseg s.DB (W.get s) rest END → rest.Nodup → (∀ u, W = .cell u → u ∉ rest) →
    unwatchLemmas f s W = .ok s1 →
    Lseg s1.DB (W.get s1) (rest.filter (fun w => decide (w < s.mem_fixed))) END ∧
    s1 = { s with DB := s1.DB, first := s1.first } ∧
    (∀ y, W ≠ .cell y → y ∉ rest.filter (fun w => decide (w < s.mem_fixed)) →
      s1.DB y = s.DB y) ∧
    (∀ l, W ≠ .head l → s1.first l = s.first l)
  | 0, _, _, _, _, _, _, _, h => by simp [unwatchLemmas] at h
  | f + 1, [], s, s1, W, hseg, _, _, h => by
    have he : W.get s = END := hseg
    simp only [unwatchLemmas] at h
    rw [if_neg (by simpa using he)] at h
    have e := Except.ok.inj h
    subst e
    exact ⟨hseg, rfl, fun _ _ _ => rfl, fun _ _ => rfl⟩
  | f + 1, w :: rest, s, s1, W, hseg, hnd, hW, h => by
    obtain ⟨hw, hne, hseg2⟩ := hseg
    have hnd2 := List.nodup_cons.mp hnd
    simp only [unwatchLemmas] at h
    rw [if_pos (by rw [hw]; exact hne), hw] at h
    by_cases hfix : w < s.mem_fixed
    · rw [if_pos hfix] at h
      obtain ⟨a1, a2, a3, a4⟩ := unwatchLemmas_spec f rest s s1 (.cell w) hseg2 hnd2.2
        (fun u hu => by cases hu; exact hnd2.1) h
      have hflt : (w :: rest).filter (fun w => decide (w < s.mem_fixed)) =
          w :: rest.filter (fun w => decide (w < s.mem_fixed)) := by
        rw [List.filter_cons_of_pos (by simpa using hfix)]
      rw [hflt]
      have hget : W.get s1 = w := by
        cases W with
        | head l =>
          show s1.first l = w
          rw [a4 l (by simp)]; exact hw
        | cell u =>
          show s1.DB u = w
          have hu := hW u rfl
          rw [a3 u (by intro e; cases e; exact hu (List.mem_cons_self _ _))
            (fun hm => hu (List.mem_cons_of_mem _ (List.mem_of_mem_filter hm)))]
          exact hw
      refine ⟨⟨hget, hne, a1⟩, a2, ?_, ?_⟩
      · intro y hy1 hy2
        rw [List.mem_cons, not_or] at hy2
        exact a3 y (by intro e; cases e; exact hy2.1 rfl) hy2.2
      · intro l hl
        exact a4 l (by simp)
    · rw [if_neg hfix] at h
      have hmf : (W.set s (s.DB w)).mem_fixed = s.mem_fixed := by cases W <;> rfl
      have hsegn : Lseg (W.set s (s.DB w)).DB (W.get (W.set s (s.DB w))) rest END := by
        cases W with
        | head l =>
          show Lseg s.DB (put s.first l (s.DB w) l) rest END
          simp only [put, if_true]; exact hseg2
        | cell u =>
          show Lseg (put s.DB u (s.DB w)) (put s.DB u (s.DB w) u) rest END
          simp only [put, if_true]
          refine Lseg.congr_lseg (fun y hy => ?_) hseg2
          have : y ≠ u := by
            rintro rfl
            exact hW y rfl (List.mem_cons_of_mem _ hy)
          simp only [put, if_neg this]
      obtain ⟨a1, a2, a3, a4⟩ := unwatchLemmas_spec f rest _ s1 W hsegn hnd2.2
        (fun u hu hm => hW u hu (List.mem_cons_of_mem _ hm)) h
      rw [hmf] at a1 a3
      have hflt : (w :: rest).filter (fun w => decide (w < s.mem_fixed)) =
          rest.filter (fun w => decide (w < s.mem_fixed)) := by
        rw [List.filter_cons_of_neg (by simpa using hfix)]
      rw [hflt]
      refine ⟨a1, ?_, ?_, ?_⟩
      · conv_lhs => rw [a2]
        cases W <;> rfl
      · intro y hy1 hy2
        rw [a3 y hy1 hy2]
        cases W with
        | head l => rfl
        | cell u =>
          have : y ≠ u := by
            rintro rfl
            exact hy1 rfl
          show put s.DB u (s.DB w) y = s.DB y
          simp only [put, if_neg this]
      · intro l hl
        rw [a4 l hl]
        cases W with
        | head l2 =>
          have : l ≠ l2 := by
            rintro rfl
            exact hl rfl
          show put s.first l2 (s.DB w) l = s.first l
          simp only [put, if_neg this]
        | cell u => rfl

theorem unwatchAll_spec {g : Ghost} {s : State} (hA : ArenaCore g s) (fuel : Nat) :
    ∀ (k : Nat) (i : Int) (t t1 : State), -s.nVars ≤ i → i + k = s.nVars + 1 →
    Unwatching g s t i → unwatchAll fuel k i t = .ok t1 → Unwatching g s t1 (s.nVars + 1)
  | 0, i, t, t1, _, hk, hU, h => by
    simp only [unwatchAll] at h
    have e := Except.ok.inj h
    subst e
    have : i = s.nVars + 1 := by omega
    rw [← this]; exact hU
  | k + 1, i, t, t1, hi, hk, hU, h => by
    simp only [unwatchAll] at h
    by_cases h0 : i = 0
    · rw [if_pos h0] at h
      refine unwatchAll_spec hA fuel k (i + 1) t t1 (by omega) (by push_cast at hk; omega)
        ⟨hU.frame, ?_, ?_, hU.same⟩ h
      · intro l hl hlt
        exact hU.done l hl (by have := hl.1; omega)
      · intro l hl hle
        exact hU.todo l hl (by omega)
    · rw [if_neg h0] at h
      have hlit : IsLit s.nVars i := ⟨h0, hi, by push_cast at hk; omega⟩
      cases hu : unwatchLemmas fuel t (.head i) with
      | error e => rw [hu] at h; cases h
      | ok t2 =>
        rw [hu] at h
        have hmf : t.mem_fixed = s.mem_fixed := by conv_lhs => rw [hU.frame]
        obtain ⟨a1, a2, a3, a4⟩ := unwatchLemmas_spec fuel (g.ch i) t t2 (.head i)
          (hU.todo i hlit (le_refl _)) (hA.nodup i) (fun u hu => by cases hu) hu
        rw [hmf] at a1 a3
        have hdisj : ∀ l, l ≠ i → ∀ y ∈ g.ch l, t2.DB y = t.DB y := by
          intro l hl y hy
          refine a3 y (by simp) (fun hm => ?_)
          exact hl (hA.disj _ _ _ hy (List.mem_of_mem_filter hm))
        refine unwatchAll_spec hA fuel k (i + 1) t2 t1 (by omega) (by push_cast at hk; omega)
          ⟨?_, ?_, ?_, ?_⟩ h
        · conv_lhs => rw [a2]
          conv_lhs => rw [hU.frame]
        · intro l hl hlt
          by_cases e : l = i
          · rw [e]; exact a1
          · rw [a4 l (by simp only [ne_eq, WatchPtr.head.injEq]; exact fun hc => e hc.symm)]
            refine Lseg.congr_lseg (fun y hy => ?_) (hU.done l hl (by omega))
            exact hdisj l e y (List.mem_of_mem_filter hy)
        · intro l hl hle
          have e : l ≠ i := by omega
          rw [a4 l (by simp only [ne_eq, WatchPtr.head.injEq]; exact fun hc => e hc.symm)]
          exact Lseg.congr_lseg (fun y hy => hdisj l e y hy) (hU.todo l hl (by omega))
        · intro y hy
          rw [a3 y (by simp) (hy i)]
          exact hU.same y hy

theorem Layout.append_layout {lo : Int} : ∀ {xs ys : List Blk} {hi : Int},
    Layout lo (xs ++ ys) hi ↔ ∃ mid, Layout mid xs hi ∧ Layout lo ys mid
  | [], ys, hi => by
    simp only [List.nil_append, Layout]
    constructor
    · intro h; exact ⟨hi, rfl, h⟩
    · rintro ⟨mid, rfl, h⟩; exact h
  | x :: xs, ys, hi => by
    simp only [List.cons_append, Layout]
    constructor
    · rintro ⟨h1, h2⟩
      obtain ⟨mid, m1, m2⟩ := Layout.append_layout.mp h2
      exact ⟨mid, ⟨h1, m1⟩, m2⟩
    · rintro ⟨mid, ⟨h1, m1⟩, m2⟩
      exact ⟨h1, Layout.append_layout.mpr ⟨mid, m1, m2⟩⟩

theorem Layout.hi_unique {lo : Int} {bs : List Blk} {h1 h2 : Int} (hne : bs ≠ [])
    (a : Layout lo bs h1) (b : Layout lo bs h2) : h1 = h2 := by
  cases bs with
  | nil => exact absurd rfl hne
  | cons x xs => rw [a.1, b.1]

/-- The lemmas lie above `mem_fixed`, the irredundant clauses below. -/
theorem FixedInv.bounds {g : Ghost} {s : State} {lem fix : List Blk} (hA : ArenaCore g s)
    (hF : FixedInv g s lem fix) (hne : fix ≠ []) :
    Layout s.mem_fixed lem s.mem_used ∧ Layout (arenaBase s.nVars) fix s.mem_fixed := by
  have hl := hA.layout
  rw [hF.split] at hl
  obtain ⟨mid, m1, m2⟩ := Layout.append_layout.mp hl
  have := Layout.hi_unique hne m2 (hF.layout hne)
  rw [this] at m1
  exact ⟨m1, hF.layout hne⟩

/-- The arena of the irredundant clauses after the first loop of `reduceDB`. -/
theorem Unwatching.arena {g : Ghost} {s t : State} {lem fix : List Blk} (hA : ArenaInv g s)
    (hF : FixedInv g s lem fix) (hne : fix ≠ []) (hU : Unwatching g s t (s.nVars + 1)) :
    ArenaInv (g.keepBelow s.mem_fixed fix) { t with mem_used := s.mem_fixed } ∧
    (∀ b ∈ g.bs, ∀ x, b.c + 2 ≤ x → x ≤ b.c + 2 + b.k → t.DB x = s.DB x) := by
  obtain ⟨hlem, hfix⟩ := hF.bounds hA.toArenaCore hne
  have hn : t.nVars = s.nVars := by conv_lhs => rw [hU.frame]
  have hfixmem : ∀ b ∈ fix, b ∈ g.bs := by
    intro b hb; rw [hF.split]; exact List.mem_append_right _ hb
  have hbody : ∀ b ∈ g.bs, ∀ x, b.c + 2 ≤ x → x ≤ b.c + 2 + b.k → t.DB x = s.DB x := by
    intro b hb x x1 x2
    refine hU.same x (fun l hm => ?_)
    have := hA.toArenaCore.cell_not_body (List.mem_of_mem_filter hm) hb
    omega
  have hcellfix : ∀ l w, w ∈ (g.ch l).filter (fun w => decide (w < s.mem_fixed)) →
      ∃ b ∈ fix, 2 ≤ b.k ∧ (w = b.c ∨ w = b.c + 1) := by
    intro l w hw
    have hw1 := List.mem_of_mem_filter hw
    have hw2 : w < s.mem_fixed := by simpa using (List.mem_filter.mp hw).2
    obtain ⟨_, b, hb, hk, hwb⟩ := hA.cell l w hw1
    rw [hF.split] at hb
    rcases List.mem_append.mp hb with hb1 | hb1
    · have := Layout.mem_bounds hlem b hb1
      omega
    · exact ⟨b, hb1, hk, hwb⟩
  refine ⟨⟨⟨?_, ?_, ?_, ?_, ?_, ?_, ?_, ?_⟩, ?_⟩, hbody⟩
  · show 1 ≤ t.nVars; rw [hn]; exact hA.npos
  · show t.DB (arenaBase t.nVars - 1) = 0
    rw [hn, hU.same]
    · exact hA.base0
    · intro l hm
      have := hA.toArenaCore.cell_lt (List.mem_of_mem_filter hm)
      omega
  · show Layout (arenaBase t.nVars) fix s.mem_fixed
    rw [hn]; exact hfix
  · intro b hb
    show BlkOK t.nVars t.DB b
    rw [hn]
    obtain ⟨a1, a2, a3⟩ := hA.blk b (hfixmem b hb)
    refine ⟨a1, fun i hi => ?_, ?_⟩
    · rw [hbody b (hfixmem b hb) _ (by omega) (by omega)]; exact a2 i hi
    · rw [hbody b (hfixmem b hb) _ (by omega) (by omega)]; exact a3
  · intro l hl
    show Lseg t.DB (t.first l) _ END
    rw [show ({ t with mem_used := s.mem_fixed } : State).nVars = s.nVars from hn] at hl
    exact hU.done l hl (by have := hl.2.2; omega)
  · intro l
    exact (hA.nodup l).filter _
  · intro l w hw
    show IsLit t.nVars l ∧ _
    rw [hn]
    exact ⟨(hA.cell l w (List.mem_of_mem_filter hw)).1, hcellfix l w hw⟩
  · intro l l2 w h1 h2
    exact hA.disj l l2 w (List.mem_of_mem_filter h1) (List.mem_of_mem_filter h2)
  · intro b hb hk
    have hbg := hfixmem b hb
    have hbb := Layout.mem_bounds hfix b hb
    have hw := hA.watched b hbg hk
    have e2 := hbody b hbg (b.c + 2) (by omega) (by omega)
    have e3 := hbody b hbg (b.c + 3) (by omega) (by omega)
    show Watched _ t.DB b
    unfold Watched at hw ⊢
    rw [e2, e3]
    have hin : ∀ l w, w ∈ g.ch l → w < s.mem_fixed →
        w ∈ (g.keepBelow s.mem_fixed fix).ch l := by
      intro l w h1 h2
      exact List.mem_filter.mpr ⟨h1, by simpa using h2⟩
    rcases hw with ⟨h1, h2⟩ | ⟨h1, h2⟩
    · exact Or.inl ⟨hin _ _ h1 (by omega), hin _ _ h2 (by omega)⟩
    · exact Or.inr ⟨hin _ _ h1 (by omega), hin _ _ h2 (by omega)⟩

/-- The scan of a lemma by the second loop of `reduceDB` ends at its
terminating 0. -/
theorem countSatisfied_spec : ∀ (k f : Nat) (s : State) (i c0 i1 count : Int),
    (∀ r : Nat, r < k → s.DB (i + r) ≠ 0) → s.DB (i + k) = 0 →
    countSatisfied f s i c0 = .ok (i1, count) → i1 = i + k
  | _, 0, _, _, _, _, _, _, _, h => by simp [countSatisfied] at h
  | 0, f + 1, s, i, c0, i1, count, _, h0, h => by
    simp only [countSatisfied] at h
    have h0b : s.DB i = 0 := by simpa using h0
    rw [if_neg (by simpa using h0b)] at h
    have e := (Prod.mk.inj (Except.ok.inj h)).1
    simp [← e]
  | k + 1, f + 1, s, i, c0, i1, count, hl, h0, h => by
    simp only [countSatisfied] at h
    have hl0 : s.DB i ≠ 0 := by simpa using hl 0 (by omega)
    rw [if_pos hl0] at h
    have := countSatisfied_spec k f s (i + 1) _ i1 count
      (fun r hr => by
        have := hl (r + 1) (by omega)
        have e : i + ((r + 1 : Nat) : Int) = i + 1 + r := by push_cast; ring
        rwa [e] at this)
      (by
        have e : i + ((k + 1 : Nat) : Int) = i + 1 + k := by push_cast; ring
        rwa [e] at h0) h
    rw [this]; push_cast; ring

theorem Sweeping.skip {g0 : Ghost} {s0 : State} {fix : List Blk} {gc : Ghost} {t : State}
    {rem : List Blk} {b : Blk} {i U : Int} (h : Sweeping g0 s0 fix gc t (rem ++ [b]) i U) :
    b.c = i - 2 ∧ Sweeping g0 s0 fix gc t rem (i + b.k + 3) U := by
  obtain ⟨mid, m1, m2⟩ := Layout.append_layout.mp h.tiles
  have hm : mid = b.c + b.k + 3 ∧ b.c = i - 2 := m2
  refine ⟨hm.2, ⟨h.arena, ?_, by have := h.room; omega,
    fun x hx => h.sub x (List.mem_append_left _ hx),
    fun x hx => h.intact x (List.mem_append_left _ hx), h.prov, h.fixed, h.fixbody, h.maxpos,
    h.keep⟩⟩
  have e : i + b.k + 3 - 2 = mid := by omega
  rw [e]; exact m1

theorem Sweeping.add {g0 : Ghost} {s0 : State} {fix : List Blk} {gc : Ghost} {t t1 : State}
    {rem : List Blk} {b : Blk} {i U c1 : Int} (hA0 : ArenaInv g0 s0) (hfix : fix ≠ [])
    (h : Sweeping g0 s0 fix gc t (rem ++ [b]) i U)
    (hadd : addClause t (.db i) b.k 0 = .ok (c1, t1)) :
    ∃ gc1, Sweeping g0 s0 fix gc1 t1 rem (i + b.k + 3) U ∧
      gc1.bs = ⟨t.mem_used, b.k⟩ :: gc.bs := by
  obtain ⟨hbc, hskip⟩ := h.skip
  have hbg := h.sub b (by simp)
  have hblk := hA0.blk b hbg
  have hint := h.intact b (by simp)
  have hroom := h.room
  have hmem := addClause_mem hadd
  obtain ⟨s1, a0, a1, a2, a3, a4, a5, a6, a7, a8, a9, a10, a11, a12, a13, a14, a15, a16, a17,
    a18, a19, a20, a21, a22⟩ := addClause_spec t (.db i) b.k 0 hmem (Or.inr (by omega))
  rw [a0] at hadd
  obtain ⟨_, e2⟩ := Prod.mk.inj (Except.ok.inj hadd)
  subst e2
  simp only [LitPtr.get] at a2 a5
  have hi : i = b.c + 2 := by omega
  have hlit : ∀ r : Nat, r < b.k → t.DB (i + r) = s0.DB (b.c + 2 + r) := by
    intro r hr
    rw [hi]; exact hint _ (by omega) (by omega)
  have hk1 := hblk.1
  have hx0 : t.DB (i + 0) = s1.DB (t.mem_used + 2) := by
    have := a2 0 (by omega)
    simp only [Nat.cast_zero, add_zero] at this ⊢
    exact this.symm
  have hx1 : 2 ≤ b.k → t.DB (i + 1) = s1.DB (t.mem_used + 3) := by
    intro h2
    have := a2 1 (by omega)
    rw [show t.mem_used + 2 + ((1 : Nat) : Int) = t.mem_used + 3 by push_cast; ring] at this
    rw [this]; norm_num
  have hpush := @ArenaInv.push _ _ s1 h.arena b.k (s1.DB (t.mem_used + 2))
    (s1.DB (t.mem_used + 3)) hk1 a9 a1 ?_ rfl (fun _ => rfl) a3
    (fun x hx => a4 x (Or.inl hx)) ?_ a6
  rotate_left
  · intro r hr
    rw [a2 r hr, hlit r hr, h.keep.nVars]
    exact hblk.2.1 r hr
  · intro h2
    have := a5 h2
    rw [hx0, hx1 h2] at this
    exact this
  obtain ⟨lemc, hF, hcount⟩ := h.fixed
  have hkeep := h.keep
  refine ⟨_, ⟨hpush, ?_, ?_, hskip.sub, ?_, ?_, ⟨⟨t.mem_used, b.k⟩ :: lemc, ⟨?_, ?_, ?_⟩, ?_⟩, ?_,
    by rw [a22]; exact h.maxpos,
    ⟨a9.trans hkeep.nVars, a10.trans hkeep.mfalse, a11.trans hkeep.mfalseStack,
      a12.trans hkeep.reason, a13.trans hkeep.forced, a14.trans hkeep.processed,
      a15.trans hkeep.assigned, a16.trans hkeep.model, a18.trans hkeep.next,
      a19.trans hkeep.prev, a20.trans hkeep.head, ?_, a21.trans hkeep.mem_max⟩⟩, rfl⟩
  · exact hskip.tiles
  · rw [a1]; omega
  · intro x hx y y1 y2
    have hxb := Layout.mem_bounds hskip.tiles x hx
    rw [a4 y (Or.inr (by omega))]
    exact hskip.intact x hx y y1 y2
  · intro b2 hb2
    rcases List.mem_cons.mp hb2 with e | hb2
    · subst e
      refine ⟨b, hbg, rfl, fun r hr => ?_⟩
      show s1.DB (t.mem_used + 2 + r) = _
      rw [a2 r hr, hlit r hr]
    · obtain ⟨b0, hb0, e1, e2⟩ := h.prov b2 hb2
      refine ⟨b0, hb0, e1, fun r hr => ?_⟩
      have hbb := h.arena.toArenaCore.blk_bounds hb2
      rw [a4 _ (Or.inl (by omega))]
      exact e2 r hr
  · show ⟨t.mem_used, b.k⟩ :: gc.bs = _
    rw [hF.split]; rfl
  · intro hne
    rw [a9, a7]
    simp only [ne_eq, not_true_eq_false, if_false]
    exact hF.layout hne
  · intro hc; exact absurd hc hfix
  · rw [a8]
    simp only [ne_eq, not_true_eq_false, if_false]
    rw [hcount]; simp
  · intro b2 hb2 r hr
    have hb2g : b2 ∈ gc.bs := by rw [hF.split]; exact List.mem_append_right _ hb2
    have hbb := h.arena.toArenaCore.blk_bounds hb2g
    rw [a4 _ (Or.inl (by omega))]
    exact h.fixbody b2 hb2 r hr
  · rw [a7]
    simp only [ne_eq, not_true_eq_false, if_false]
    exact hkeep.mem_fixed

theorem sweepLemmas_spec {g0 : Ghost} {s0 : State} {fix : List Blk} (hA0 : ArenaInv g0 s0)
    (hfix : fix ≠ []) (fuel : Nat) (k U : Int) : ∀ (f : Nat) (rem : List Blk) (gc : Ghost)
    (t t1 : State) (i : Int), Sweeping g0 s0 fix gc t rem i U →
    sweepLemmas fuel f t U k i = .ok t1 → ∃ gc1 i1, Sweeping g0 s0 fix gc1 t1 [] i1 U
  | 0, _, _, _, _, _, _, h => by simp [sweepLemmas] at h
  | f + 1, rem, gc, t, t1, i, hS, h => by
    simp only [sweepLemmas] at h
    rcases List.eq_nil_or_concat rem with e | ⟨rem1, b, e⟩
    · subst e
      have hU : U = i - 2 := hS.tiles
      rw [if_neg (by omega)] at h
      have e := Except.ok.inj h
      subst e
      exact ⟨gc, i, hS⟩
    · subst e
      rw [List.concat_eq_append] at hS
      obtain ⟨hbc, hskip⟩ := hS.skip
      obtain ⟨mid, m1, m2⟩ := Layout.append_layout.mp hS.tiles
      have hm : mid = b.c + b.k + 3 ∧ b.c = i - 2 := m2
      have hmid := Layout.le m1
      rw [if_pos (by omega)] at h
      have hbg := hS.sub b (by simp)
      have hblk := hA0.blk b hbg
      have hint := hS.intact b (by simp)
      cases hc : countSatisfied fuel t i 0 with
      | error e => rw [hc] at h; cases h
      | ok v =>
        obtain ⟨i1, count⟩ := v
        rw [hc] at h
        simp only [] at h
        have hi1 : i1 = i + b.k := by
          refine countSatisfied_spec b.k fuel t i 0 i1 count (fun r hr => ?_) ?_ hc
          · have : i + (r : Int) = b.c + 2 + r := by omega
            rw [this, hint _ (by omega) (by omega)]
            exact (hblk.2.1 r hr).1
          · have : i + (b.k : Int) = b.c + 2 + b.k := by omega
            rw [this, hint _ (by omega) (by omega)]
            exact hblk.2.2
        have hnext : i1 + 3 = i + b.k + 3 := by omega
        have hsize : i1 - i = b.k := by omega
        rw [hnext, hsize] at h
        by_cases hcnt : count < k
        · rw [if_pos hcnt] at h
          cases ha : addClause t (.db i) b.k 0 with
          | error e => rw [ha] at h; cases h
          | ok v =>
            obtain ⟨c1, t2⟩ := v
            rw [ha] at h
            simp only [] at h
            obtain ⟨gc1, hS1, _⟩ := hS.add hA0 hfix ha
            exact sweepLemmas_spec hA0 hfix fuel k U f rem1 gc1 t2 t1 _ hS1 h
        · rw [if_neg hcnt] at h
          exact sweepLemmas_spec hA0 hfix fuel k U f rem1 gc t t1 _ hskip h

theorem growMaxLemmas_ge : ∀ (k : Nat) (nL maxL : Int), maxL ≤ growMaxLemmas k nL maxL
  | 0, _, _ => le_refl _
  | k + 1, nL, maxL => by
    simp only [growMaxLemmas]
    split_ifs
    · exact le_trans (by omega) (growMaxLemmas_ge k nL (maxL + 300))
    · exact le_refl _

/-- The state of `reduceDB(k)` at the head of its second loop. -/
theorem reduceDB_start {g : Ghost} {s s1 : State} {lem fix : List Blk} (fuel : Nat) (k : Int)
    (hA : ArenaInv g s) (hF : FixedInv g s lem fix) (hfix : fix ≠ [])
    (hmax : 0 ≤ s.maxLemmas) (hrun : reduceDB fuel s k = .ok s1) :
    ∃ t : State, t.nLemmas = 0 ∧ t.mem_fixed = s.mem_fixed ∧
      Sweeping g s fix (g.keepBelow s.mem_fixed fix) { t with mem_used := t.mem_fixed } lem
        (t.mem_fixed + 2) t.mem_used ∧
      sweepLemmas fuel fuel { t with mem_used := t.mem_fixed } t.mem_used k (t.mem_fixed + 2) =
        .ok s1 := by
  unfold reduceDB at hrun
  simp only [] at hrun
  split at hrun
  · cases hrun
  · rename_i t hu
    obtain ⟨s2, hs2⟩ : ∃ s2 : State, s2 = { s with
        maxLemmas := growMaxLemmas (s.nLemmas - s.maxLemmas).toNat s.nLemmas s.maxLemmas,
        nLemmas := 0 } := ⟨_, rfl⟩
    have hu2 : unwatchAll fuel (2 * s2.nVars + 1).toNat (-s2.nVars) s2 = .ok t := by
      rw [hs2]; exact hu
    have hA2 : ArenaInv g s2 := by rw [hs2]; exact hA.congr_arenainv rfl rfl rfl rfl
    have hF2 : FixedInv g s2 lem fix := by rw [hs2]; exact hF.congr_fixedinv rfl rfl rfl
    have hnp := hA2.npos
    have hU := unwatchAll_spec hA2.toArenaCore fuel (2 * s2.nVars + 1).toNat (-s2.nVars) s2 t
      (le_refl _) (by omega)
      ⟨rfl, fun l hl hlt => by have := hl.2.1; omega, fun l hl _ => hA2.seg l hl,
        fun _ _ => rfl⟩ hu2
    obtain ⟨hAr, hbody⟩ := hU.arena hA2 hF2 hfix
    obtain ⟨hlem, hfixl⟩ := hF2.bounds hA2.toArenaCore hfix
    have hfr := hU.frame
    have e1 : t.mem_fixed = s.mem_fixed := by conv_lhs => rw [hfr]; rw [hs2]
    have e2 : t.mem_used = s.mem_used := by conv_lhs => rw [hfr]; rw [hs2]
    have e3 : s2.mem_fixed = s.mem_fixed := by rw [hs2]
    have e4 : s2.DB = s.DB := by rw [hs2]
    have e5 : s2.mem_used = s.mem_used := by rw [hs2]
    rw [e3] at hAr hlem
    rw [e5] at hlem
    rw [e4] at hbody
    have key : ∀ F U, F = s.mem_fixed → U = s.mem_used →
        Sweeping g s fix (g.keepBelow s.mem_fixed fix)
          { t with mem_used := F } lem (F + 2) U := by
      intro F U hFe hUe
      subst hFe hUe
      have hmx : t.maxLemmas =
          growMaxLemmas (s.nLemmas - s.maxLemmas).toNat s.nLemmas s.maxLemmas := by
        conv_lhs => rw [hfr]; rw [hs2]
      have hnv : t.nVars = s.nVars := by conv_lhs => rw [hfr]; rw [hs2]
      have hnl : t.nLemmas = 0 := by conv_lhs => rw [hfr]; rw [hs2]
      refine { arena := hAr, tiles := ?_, room := le_of_eq (by ring), sub := ?_, intact := ?_,
               prov := ?_, fixed := ⟨[], ⟨rfl, ?_, fun _ => rfl⟩, hnl⟩, fixbody := ?_,
               maxpos := ?_, keep := ?_ }
      · rw [add_sub_cancel_right]; exact hlem
      · intro b hb; rw [hF.split]; exact List.mem_append_left _ hb
      · intro b hb x x1 x2
        exact hbody b (by rw [hF.split]; exact List.mem_append_left _ hb) x x1 x2
      · intro b2 hb2
        have hb2g : b2 ∈ g.bs := by rw [hF.split]; exact List.mem_append_right _ hb2
        exact ⟨b2, hb2g, rfl, fun r hr => hbody b2 hb2g _ (by omega) (by omega)⟩
      · intro hne
        show Layout (arenaBase t.nVars) fix t.mem_fixed
        rw [hnv, e1]; exact hF.layout hne
      · intro b hb r hr
        exact hbody b (by rw [hF.split]; exact List.mem_append_right _ hb) _ (by omega) (by omega)
      · show 0 ≤ t.maxLemmas
        rw [hmx]
        exact le_trans hmax (growMaxLemmas_ge _ _ _)
      · rw [hfr, hs2]
        exact ⟨rfl, rfl, rfl, rfl, rfl, rfl, rfl, rfl, rfl, rfl, rfl, rfl, rfl⟩
    have hstart := key t.mem_fixed t.mem_used e1 e2
    have hnl : t.nLemmas = 0 := by conv_lhs => rw [hfr]; rw [hs2]
    exact ⟨t, hnl, e1, hstart, hrun⟩

/-- The arena after `reduceDB`: the irredundant clauses are in place, every
lemma that is left has the literals of a lemma that was there before. -/
theorem reduceDB_spec {g : Ghost} {s s1 : State} {lem fix : List Blk} (fuel : Nat) (k : Int)
    (hA : ArenaInv g s) (hF : FixedInv g s lem fix) (hfix : fix ≠ [])
    (hmax : 0 ≤ s.maxLemmas) (hrun : reduceDB fuel s k = .ok s1) :
    ∃ gc i1 U, Sweeping g s fix gc s1 [] i1 U := by
  obtain ⟨t, _, _, hstart, hrun2⟩ := reduceDB_start fuel k hA hF hfix hmax hrun
  obtain ⟨gc1, i1, hS⟩ := sweepLemmas_spec hA hfix fuel k _ fuel lem _ _ s1 _ hstart hrun2
  exact ⟨gc1, i1, _, hS⟩

/-! ## The two watched literals when propagation has come to rest -/

theorem PInv.two_watch {g : Ghost} {s : State} {fl : Int} (h : PInv g s fl)
    (hq : s.processed = s.assigned) {b : Blk} (hb : b ∈ g.bs) (hk : 2 ≤ b.k) :
    TwoWatch s b.c := by
  have key : ∀ u v l l2, ((u = b.c ∧ v = b.c + 1) ∨ (u = b.c + 1 ∧ v = b.c)) →
      u ∈ g.ch l → v ∈ g.ch l2 → s.mfalse l ≠ 0 → s.mfalse (-l2) ≠ 0 := by
    intro u v l l2 hp hu hv hl
    obtain ⟨i, i0, i1, i2⟩ := (h.trail.mf l).mp hl
    obtain ⟨j, j0, j1, j2, _⟩ := h.watch2.ok b hb hk u v l l2 hp hu hv i i0 i1 i2
      (by rcases lt_or_eq_of_le (show i + 1 ≤ s.processed by omega) with a | a
          · exact Or.inl a
          · exact Or.inr ⟨a, List.not_mem_nil _⟩)
    rw [← j2]; exact h.trail.on_trail j0 j1
  rcases h.arena.watched b hb hk with ⟨h1, h2⟩ | ⟨h1, h2⟩
  · exact ⟨key _ _ _ _ (Or.inl ⟨rfl, rfl⟩) h1 h2, key _ _ _ _ (Or.inr ⟨rfl, rfl⟩) h2 h1⟩
  · exact ⟨key _ _ _ _ (Or.inr ⟨rfl, rfl⟩) h2 h1, key _ _ _ _ (Or.inl ⟨rfl, rfl⟩) h1 h2⟩

/-- The invariant of `propagate` at the root level from the two-watched-literal
property of every clause. -/
theorem PInv.of_two_watch {g : Ghost} {s : State} (hA : ArenaInv g s) (hT : TrailInv s)
    (hL : LevelInv s 0) (hq : s.forced = s.assigned)
    (hW : ∀ b ∈ g.bs, 2 ≤ b.k → TwoWatch s b.c) : PInv g s 0 := by
  refine ⟨hA, hT, hL, fun _ => ⟨fun i i1 i2 => by omega⟩, ⟨?_⟩⟩
  intro b hb hk u v l l2 hp hu hv i i0 i1 il _
  have hl : s.mfalse l ≠ 0 := by rw [← il]; exact hT.on_trail i0 i1
  have htrue : s.mfalse (-l2) ≠ 0 := by
    obtain ⟨w1, w2⟩ := hW b hb hk
    rcases hA.watched b hb hk with ⟨h1, h2⟩ | ⟨h1, h2⟩ <;> rcases hp with ⟨eu, ev⟩ | ⟨eu, ev⟩
    · rw [eu] at hu; rw [ev] at hv
      rw [hA.disj _ _ _ hu h1] at hl
      rw [hA.disj _ _ _ hv h2]
      exact w1 hl
    · rw [eu] at hu; rw [ev] at hv
      rw [hA.disj _ _ _ hu h2] at hl
      rw [hA.disj _ _ _ hv h1]
      exact w2 hl
    · rw [eu] at hu; rw [ev] at hv
      rw [hA.disj _ _ _ hu h1] at hl
      rw [hA.disj _ _ _ hv h2]
      exact w2 hl
    · rw [eu] at hu; rw [ev] at hv
      rw [hA.disj _ _ _ hu h2] at hl
      rw [hA.disj _ _ _ hv h1]
      exact w1 hl
  obtain ⟨j, j0, j1, j2⟩ := (hT.mf _).mp htrue
  refine ⟨j, j0, j1, j2, Or.inr (fun m m1 m2 => ?_)⟩
  exact (hL.root m (by omega) (by omega)).2

/-- The invariant of `propagate` after `reduceDB`. -/
theorem Sweeping.pinv_sweeping {N : Int} {g : Ghost} {s : State} {fix : List Blk} {gc : Ghost}
    {t : State} {i U : Int} (h : PInv g s 0) (hE : Extra N g s) (hq : s.processed = s.assigned)
    (hqf : s.forced = s.assigned) (hS : Sweeping g s fix gc t [] i U) :
    PInv gc t 0 ∧ Extra N gc t ∧ t.processed = t.assigned := by
  have hk := hS.keep
  have hT : TrailInv t :=
    h.trail.congr_trailinv hk.nVars hk.mfalseStack hk.mfalse hk.forced hk.processed hk.assigned
  have hL : LevelInv t 0 :=
    h.level.congr_levelinv hk.mfalseStack hk.mfalse hk.forced hk.processed hk.assigned hk.reason
  refine ⟨PInv.of_two_watch hS.arena hT hL (by rw [hk.forced, hk.assigned]; exact hqf) ?_,
    ⟨hk.nVars.trans hE.nvars, ?_, ?_, hS.maxpos⟩, by rw [hk.processed, hk.assigned]; exact hq⟩
  · intro b2 hb2 hk2
    obtain ⟨b, hb, e1, e2⟩ := hS.prov b2 hb2
    rw [e1] at hk2
    obtain ⟨w1, w2⟩ := h.two_watch hq hb hk2
    have d0 : t.DB (b2.c + 2) = s.DB (b.c + 2) := by simpa using e2 0 (by omega)
    have d1 : t.DB (b2.c + 3) = s.DB (b.c + 3) := by
      have := e2 1 (by omega)
      rw [show b2.c + 2 + ((1 : Nat) : Int) = b2.c + 3 by push_cast; ring,
        show b.c + 2 + ((1 : Nat) : Int) = b.c + 3 by push_cast; ring] at this
      exact this
    unfold TwoWatch
    rw [d0, d1, hk.mfalse]
    exact ⟨w1, w2⟩
  · obtain ⟨order, ho⟩ := hE.vmtf
    exact ⟨order, ho.congr_vmtf hk.nVars hk.next hk.prev hk.head⟩
  · obtain ⟨lemc, hf, hc⟩ := hS.fixed
    exact ⟨lemc, fix, hf, hc⟩

theorem PInv.congr_pinv {g : Ghost} {s t : State} {fl : Int} (h : PInv g s fl)
    (h1 : t.nVars = s.nVars) (h2 : t.DB = s.DB) (h3 : t.mem_used = s.mem_used)
    (h4 : t.first = s.first) (h5 : t.mfalseStack = s.mfalseStack) (h6 : t.mfalse = s.mfalse)
    (h7 : t.forced = s.forced) (h8 : t.processed = s.processed)
    (h9 : t.assigned = s.assigned) (h10 : t.reason = s.reason) : PInv g t fl :=
  ⟨h.arena.congr_arenainv h1 h2 h3 h4, h.trail.congr_trailinv h1 h5 h6 h7 h8 h9,
    h.level.congr_levelinv h5 h6 h7 h8 h9 h10, fun hfl => (h.reason hfl).congr_reasoninv h2 h5 h7 h9 h10,
    h.watch2.congr_watchinv h5 h8 h9 h10⟩

theorem Vmtf.head_mem {s : State} {order : List Int} (h : Vmtf s order) :
    1 ≤ s.head ∧ s.head ≤ s.nVars := by
  apply (h.mem _).mp
  have := h.head
  cases order with
  | nil => simp at this
  | cons a l =>
    have e : a = s.head := by simpa using this
    rw [e]; exact List.mem_cons_self _ _

/-- The part of the main loop of `solve` after `propagate`: restart and
`reduceDB` keep the invariants. -/
theorem afterPropagate_spec {N : Int} {g : Ghost} {s : State} (fuel : Nat) (old d : Int)
    (h : PInv g s 0) (hE : Extra N g s) (hq : s.processed = s.assigned) (hd : 1 ≤ d ∧ d ≤ N)
    {s1 : State} {d1 : Int} (hrun : afterPropagate fuel s old d = .ok (s1, d1)) :
    ∃ g1, PInv g1 s1 0 ∧ Extra N g1 s1 ∧ s1.processed = s1.assigned ∧ 1 ≤ d1 ∧ d1 ≤ N := by
  obtain ⟨order, ho⟩ := hE.vmtf
  have hhead := ho.head_mem
  rw [hE.nvars] at hhead
  unfold afterPropagate at hrun
  simp only [] at hrun
  split_ifs at hrun with c1 c2 c3
  · -- restart and reduceDB
    obtain ⟨s2, hs2⟩ : ∃ s2 : State,
        s2 = { s with res := 0, fast := (Int.tdiv s.slow 100) * 60 } := ⟨_, rfl⟩
    have h2 : PInv g s2 0 := by rw [hs2]; exact h.congr_pinv rfl rfl rfl rfl rfl rfl rfl rfl rfl rfl
    have hE2 : Extra N g s2 := by
      rw [hs2]; exact hE.admin ⟨rfl, rfl, rfl, rfl, rfl, rfl, rfl, rfl, rfl⟩ rfl
    have hq2 : s2.processed = s2.assigned := by rw [hs2]; exact hq
    obtain ⟨r1, r2, r3, r4, r5, _⟩ := h2.restarted hq2
    have hE3 := hE2.admin r4 rfl
    have hc3 : (restart s2).nLemmas > (restart s2).maxLemmas := by rw [hs2]; exact c3
    obtain ⟨lem, fix, hF, hcnt⟩ := hE3.fixed
    have hfix : fix ≠ [] := by
      intro hc
      have := hF.none hc
      rw [this] at hcnt
      have := hE3.maxpos
      simp only [List.length_nil, Nat.cast_zero] at hcnt
      omega
    cases hr : reduceDB fuel (restart s2) 6 with
    | error e =>
      rw [hs2] at hr
      rw [hr] at hrun; cases hrun
    | ok s4 =>
      have hr2 := hr
      rw [hs2] at hr
      rw [hr] at hrun
      obtain ⟨e1, e2⟩ := Prod.mk.inj (Except.ok.inj hrun)
      subst e1
      obtain ⟨gc, i1, U, hS⟩ := reduceDB_spec fuel 6 r1.arena hF hfix hE3.maxpos hr2
      obtain ⟨p1, p2, p3⟩ := hS.pinv_sweeping r1 hE3 r2 (by rw [r3, r5])
      refine ⟨gc, p1, p2, p3, ?_⟩
      rw [← e2]; exact hhead
  · obtain ⟨s2, hs2⟩ : ∃ s2 : State,
        s2 = { s with res := 0, fast := (Int.tdiv s.slow 100) * 60 } := ⟨_, rfl⟩
    have h2 : PInv g s2 0 := by rw [hs2]; exact h.congr_pinv rfl rfl rfl rfl rfl rfl rfl rfl rfl rfl
    have hE2 : Extra N g s2 := by
      rw [hs2]; exact hE.admin ⟨rfl, rfl, rfl, rfl, rfl, rfl, rfl, rfl, rfl⟩ rfl
    have hq2 : s2.processed = s2.assigned := by rw [hs2]; exact hq
    obtain ⟨r1, r2, r3, r4, r5, _⟩ := h2.restarted hq2
    have hE3 := hE2.admin r4 rfl
    obtain ⟨e1, e2⟩ := Prod.mk.inj (Except.ok.inj hrun)
    rw [hs2] at r1 r2 hE3
    rw [← e1, ← e2]
    exact ⟨g, r1, hE3, r2, hhead⟩
  · obtain ⟨e1, e2⟩ := Prod.mk.inj (Except.ok.inj hrun)
    rw [← e1, ← e2]
    exact ⟨g, h, hE, hq, hhead⟩
  · obtain ⟨e1, e2⟩ := Prod.mk.inj (Except.ok.inj hrun)
    rw [← e1, ← e2]
    exact ⟨g, h, hE, hq, hd⟩

theorem Linked.suffix {prev next : Cells} : ∀ {pre l : List Int},
    Linked prev next (pre ++ l) → Linked prev next l
  | [], _, h => h
  | a :: pre, l, h => @Linked.suffix _ _ pre _ (Linked.tail h)

theorem TrailInv.zero {s : State} (h : TrailInv s) : s.mfalse 0 = 0 := by
  by_contra hc
  obtain ⟨i, i0, i1, i2⟩ := (h.mf 0).mp hc
  exact (h.lit i i0 i1).1 i2

/-- The variable that the decision scan of `solve` returns. -/
theorem nextDecision_spec {s : State} {order : List Int} (hv : Vmtf s order)
    (hT : TrailInv s) {f : Nat} {d d2 : Int} (hd : 1 ≤ d ∧ d ≤ s.nVars)
    (h : nextDecision f s d = .ok d2) :
    d2 = 0 ∨ (1 ≤ d2 ∧ d2 ≤ s.nVars ∧ s.mfalse d2 = 0 ∧ s.mfalse (-d2) = 0) := by
  have hmem := (hv.mem d).mpr hd
  obtain ⟨pre, post, e⟩ := List.append_of_mem hmem
  have hl := hv.linked
  rw [e] at hl
  obtain ⟨mid, rest, e2, _, hr⟩ := nextDecision_scan hT.zero f (d :: post) d d2
    (Linked.suffix hl) (Or.inr rfl) h
  rcases hr with ⟨_, h0⟩ | ⟨h1, h2, h3⟩
  · exact Or.inl h0
  · right
    have : d2 ∈ order := by
      rw [e]
      apply List.mem_append_right
      rw [e2]
      apply List.mem_append_right
      cases rest with
      | nil => simp at h1
      | cons a l =>
        have : a = d2 := by simpa using h1
        rw [this]; exact List.mem_cons_self _ _
    have := (hv.mem d2).mp this
    exact ⟨this.1, this.2, h2, h3⟩

/-- One iteration of the main loop of `solve` keeps the invariant. -/
theorem solveStep_next {N : Int} {s : State} {d : Int} (fuel : Nat) (h : SInv N s d)
    {s1 : State} {d1 : Int} (hrun : solveStep fuel s d = .ok (.next s1 d1)) :
    SInv N s1 d1 := by
  obtain ⟨g, hP, hE, hd⟩ := h
  unfold solveStep at hrun
  simp only [] at hrun
  split at hrun
  · cases hrun
  · rename_i r t hp
    have hpl : propagateLoop fuel fuel s (s.reason (absInt (s.mfalseStack s.processed))) =
        .ok (r, t) := hp
    rcases propagateLoop_extra fuel N fuel s _ (r, t) ⟨g, hP, hE⟩ hpl with
      ⟨hr, g1, p1, p2, p3⟩ | ⟨hr, _⟩
    · have hr1 : r = SAT := hr
      have hne : ¬ r = UNSAT := by rw [hr1]; decide
      rw [if_neg hne] at hrun
      split at hrun
      · cases hrun
      · rename_i t2 dd ha
        obtain ⟨g2, q1, q2, q3, q4⟩ := afterPropagate_spec fuel _ d p1 p2 p3 hd ha
        split at hrun
        · cases hrun
        · rename_i d2 hn
          obtain ⟨order, ho⟩ := q2.vmtf
          have hdd : 1 ≤ dd ∧ dd ≤ t2.nVars := by rw [q2.nvars]; exact q4
          have hsp := nextDecision_spec ho q1.trail hdd hn
          by_cases hz : d2 = 0
          · rw [if_pos hz] at hrun; cases hrun
          · rw [if_neg hz] at hrun
            rcases hsp with h0 | ⟨a1, a2, a3, a4⟩
            · exact absurd h0 hz
            · have hN : t2.nVars = N := q2.nvars
              have key : ∀ e : Int, IsLit t2.nVars e → t2.mfalse e = 0 → t2.mfalse (-e) = 0 →
                  SInv N { t2 with mfalse := put t2.mfalse e 1,
                                   mfalseStack := put t2.mfalseStack t2.assigned e,
                                   assigned := t2.assigned + 1,
                                   reason := put t2.reason (absInt e) 0 } (absInt e) := by
                intro e he f1 f2
                have hp := PInv.decide q1 q3 he f1 f2
                refine ⟨g2, ?_, Extra.admin q2 ⟨rfl, rfl, rfl, rfl, rfl, rfl, rfl, rfl, rfl⟩ rfl, ?_⟩
                · have : put t2.reason (absInt e) 0
                      (absInt (put t2.mfalseStack t2.assigned e t2.processed)) = 0 := by
                    rw [q3]; simp [put]
                  show PInv g2 _ (put t2.reason (absInt e) 0
                      (absInt (put t2.mfalseStack t2.assigned e t2.processed)))
                  rw [this]; exact hp
                · have := he.2
                  have h0 := he.1
                  rw [hN] at this
                  have hab : absInt e ≠ 0 := fun hc => h0 ((absInt_eq_zero e).mp hc)
                  have hnn := absInt_nonneg e
                  have hle : absInt e ≤ N := by unfold absInt; split <;> omega
                  omega
              by_cases hm : t2.model d2 ≠ 0
              · simp only [if_pos hm] at hrun
                have e0 := Except.ok.inj hrun
                have e1 : s1 = _ := (SolveStep.next.inj e0).1.symm
                have e2 : d1 = _ := (SolveStep.next.inj e0).2.symm
                rw [e1, e2]
                have hlit : IsLit t2.nVars (-d2) := by
                  refine ⟨by omega, by omega, by omega⟩
                have := key (-d2) hlit a4 (by rw [neg_neg]; exact a3)
                rw [absInt_neg] at this
                exact this
              · simp only [if_neg hm] at hrun
                have e0 := Except.ok.inj hrun
                have e1 : s1 = _ := (SolveStep.next.inj e0).1.symm
                have e2 : d1 = _ := (SolveStep.next.inj e0).2.symm
                rw [e1, e2]
                have hlit : IsLit t2.nVars d2 := by
                  refine ⟨by omega, by omega, by omega⟩
                have := key d2 hlit a3 a4
                rw [absInt_neg]
                simp only [neg_neg]
                exact this
    · have hr1 : r = UNSAT := hr
      rw [if_pos hr1] at hrun
      cases hrun

/-! ## `initCDCL` -/

/-- The arrays after the loop of `initCDCL` has run from `i` for `k`
iterations. -/
theorem initLists_spec : ∀ (k : Nat) (i : Int) (s : State),
    (∀ j, (initLists k i s).prev j = if i ≤ j ∧ j < i + k then j - 1 else s.prev j) ∧
    (∀ j, (initLists k i s).next j = if i - 1 ≤ j ∧ j < i - 1 + k then j + 1 else s.next j) ∧
    (∀ j, (initLists k i s).mfalse j =
      if (i ≤ j ∧ j < i + k) ∨ (i ≤ -j ∧ -j < i + k) then 0 else s.mfalse j) ∧
    (∀ j, (initLists k i s).model j = if i ≤ j ∧ j < i + k then 0 else s.model j) ∧
    (∀ j, (initLists k i s).first j =
      if (i ≤ j ∧ j < i + k) ∨ (i ≤ -j ∧ -j < i + k) then END else s.first j) ∧
    (initLists k i s).DB = s.DB ∧ (initLists k i s).nVars = s.nVars ∧
    (initLists k i s).mem_used = s.mem_used ∧ (initLists k i s).mem_fixed = s.mem_fixed ∧
    (initLists k i s).mem_max = s.mem_max ∧ (initLists k i s).maxLemmas = s.maxLemmas ∧
    (initLists k i s).nLemmas = s.nLemmas ∧ (initLists k i s).reason = s.reason ∧
    (initLists k i s).mfalseStack = s.mfalseStack ∧ (initLists k i s).forced = s.forced ∧
    (initLists k i s).processed = s.processed ∧ (initLists k i s).assigned = s.assigned
  | 0, i, s => by
    refine ⟨?_, ?_, ?_, ?_, ?_, rfl, rfl, rfl, rfl, rfl, rfl, rfl, rfl, rfl, rfl, rfl, rfl⟩ <;>
      intro j <;> rw [if_neg (by simp only [Nat.cast_zero]; omega)] <;> rfl
  | k + 1, i, s => by
    obtain ⟨h1, h2, h3, h4, h5, h6, h7, h8, h9, h10, h11, h12, h13, h14, h15, h16, h17⟩ :=
      initLists_spec k (i + 1)
        { s with prev := put s.prev i (i - 1), next := put s.next (i - 1) i,
                 mfalse := put (put s.mfalse i 0) (-i) 0, model := put s.model i 0,
                 first := put (put s.first (-i) END) i END }
    have e : initLists (k + 1) i s = initLists k (i + 1)
        { s with prev := put s.prev i (i - 1), next := put s.next (i - 1) i,
                 mfalse := put (put s.mfalse i 0) (-i) 0, model := put s.model i 0,
                 first := put (put s.first (-i) END) i END } := rfl
    rw [e]
    refine ⟨?_, ?_, ?_, ?_, ?_, h6, h7, h8, h9, h10, h11, h12, h13, h14, h15, h16, h17⟩
    · intro j; rw [h1 j]; simp only [put, Nat.cast_add, Nat.cast_one]
      split_ifs <;> first | rfl | omega
    · intro j; rw [h2 j]; simp only [put, Nat.cast_add, Nat.cast_one]
      split_ifs <;> first | rfl | omega
    · intro j; rw [h3 j]; simp only [put, Nat.cast_add, Nat.cast_one]
      split_ifs <;> first | rfl | omega
    · intro j; rw [h4 j]; simp only [put, Nat.cast_add, Nat.cast_one]
      split_ifs <;> first | rfl | omega
    · intro j; rw [h5 j]; simp only [put, Nat.cast_add, Nat.cast_one]
      split_ifs <;> first | rfl | omega

theorem getBlocks_spec : ∀ (bs : List Int) (s t : State), getBlocks bs s = .ok t →
    t = { s with mem_used := s.mem_used + bs.sum }
  | [], s, t, h => by
    simp only [getBlocks] at h
    cases h
    simp
  | b :: bs, s, t, h => by
    simp only [getBlocks, getMemory] at h
    split at h
    · cases h
    · rename_i x s1 hx
      split at hx
      · cases hx
      · cases hx
        have := getBlocks_spec bs _ t h
        rw [this]
        simp only [List.sum_cons, add_assoc]

theorem countdown_mem : ∀ (k : Nat) (v : Int), v ∈ countdown k ↔ 1 ≤ v ∧ v ≤ k
  | 0, v => by simp only [countdown, List.not_mem_nil, Nat.cast_zero, false_iff]; omega
  | k + 1, v => by
    simp only [countdown, List.mem_cons, countdown_mem k v, Nat.cast_add, Nat.cast_one]
    omega

theorem countdown_nodup : ∀ k : Nat, (countdown k).Nodup
  | 0 => List.nodup_nil
  | k + 1 => by
    simp only [countdown, List.nodup_cons, countdown_mem]
    exact ⟨by omega, countdown_nodup k⟩

theorem countdown_linked {prev next : Cells} : ∀ k : Nat,
    (∀ j : Int, 1 ≤ j → j ≤ k → prev j = j - 1 ∧ next (j - 1) = j) →
    Linked prev next (countdown k)
  | 0, _ => trivial
  | 1, h => by
    show prev ((0 : Nat) + 1 : Int) = 0
    have := (h 1 (by omega) (by simp)).1
    simpa using this
  | k + 2, h => by
    show prev _ = _ ∧ next _ = _ ∧ Linked prev next (countdown (k + 1))
    have a := h ((k : Int) + 2) (by omega) (by push_cast; omega)
    refine ⟨?_, ?_, countdown_linked (k + 1) (fun j j1 j2 => h j j1 (by push_cast at j2 ⊢; omega))⟩
    · push_cast; rw [show ((k : Int) + 1 + 1) = (k : Int) + 2 by ring, a.1]; ring
    · push_cast
      have := a.2
      rw [show ((k : Int) + 2 - 1) = (k : Int) + 1 by ring] at this
      rw [this]; ring

theorem initCDCL_eq {n m : Int} {s : State} (hn : 1 ≤ n)
    (h : initCDCL zeroState n m = .ok s) :
    s = { (initLists n.toNat 1 (initArena n m)) with head := n } := by
  unfold initCDCL at h
  simp only [if_neg (show ¬ n < 1 by omega)] at h
  split at h
  · cases h
  · rename_i s2 hs2
    have e2 := getBlocks_spec _ _ _ hs2
    have hsum : (initBlocks n).sum = 10 * n + 7 := by
      simp only [initBlocks, List.sum_cons, List.sum_nil]; ring
    rw [hsum] at e2
    subst e2
    cases h
    have : ∀ a b : State, a = b → ({ (initLists n.toNat 1 a) with head := n } : State) =
        { (initLists n.toNat 1 b) with head := n } := fun a b e => by rw [e]
    apply this
    simp only [initArena, zeroState, zero_add]
    congr 1
    ring

/-- The state that `initCDCL(n, m)` builds on zeroed memory. -/
theorem initCDCL_spec {n m : Int} {s : State} (hn : 1 ≤ n)
    (h : initCDCL zeroState n m = .ok s) :
    Loading n ⟨[], fun _ => []⟩ s ∧ s.assigned = 0 ∧ s.head = n := by
  have e := initCDCL_eq hn h
  obtain ⟨h1, h2, h3, h4, h5, h6, h7, h8, h9, h10, h11, h12, h13, h14, h15, h16, h17⟩ :=
    initLists_spec n.toNat 1 (initArena n m)
  have hnat : ((n.toNat : Nat) : Int) = n := Int.toNat_of_nonneg (by omega)
  rw [hnat] at h1 h2 h3 h5
  have f1 : s.prev = (initLists n.toNat 1 (initArena n m)).prev := by rw [e]
  have f2 : s.next = (initLists n.toNat 1 (initArena n m)).next := by rw [e]
  have f3 : s.mfalse = (initLists n.toNat 1 (initArena n m)).mfalse := by rw [e]
  have f5 : s.first = (initLists n.toNat 1 (initArena n m)).first := by rw [e]
  have f6 : s.DB = (initArena n m).DB := by rw [e]; exact h6
  have f7 : s.nVars = n := by rw [e]; exact h7
  have f8 : s.mem_used = 10 * n + 8 := by rw [e]; exact h8
  have f11 : s.maxLemmas = 3000 := by rw [e]; exact h11
  have f12 : s.nLemmas = 0 := by rw [e]; exact h12
  have f15 : s.forced = 0 := by rw [e]; exact h15
  have f16 : s.processed = 0 := by rw [e]; exact h16
  have f17 : s.assigned = 0 := by rw [e]; exact h17
  have fh : s.head = n := by rw [e]
  have hmf : ∀ l, s.mfalse l = 0 := by
    intro l; rw [f3, h3 l]; split <;> rfl
  refine ⟨⟨⟨⟨by omega, ?_, ?_, ?_, ?_, ?_, ?_, ?_⟩, ?_⟩, ⟨?_, ?_, ?_, ?_, ?_, ?_⟩, f15, f16, ?_,
    f7, ⟨countdown n.toNat, ?_, ?_, ?_, ?_⟩, ⟨rfl, ?_, fun _ => rfl⟩, f12, f11⟩, f17, fh⟩
  · rw [f6, f7]; simp only [initArena, arenaBase, put]; split <;> rfl
  · rw [f7, f8]; show _ = _; rfl
  · intro b hb; cases hb
  · intro l hl
    rw [f7] at hl
    show s.first l = END
    rw [f5, h5 l, if_pos]
    have := hl.1; have := hl.2
    omega
  · intro l; exact List.nodup_nil
  · intro l w hw; cases hw
  · intro l l2 w hw; cases hw
  · intro b hb; cases hb
  · omega
  · omega
  · omega
  · intro i i0 i1; omega
  · intro i j i0 i1; omega
  · intro l
    constructor
    · intro hc; exact absurd (hmf l) hc
    · rintro ⟨i, i0, i1, _⟩; omega
  · intro i i0 i1; omega
  · exact countdown_nodup _
  · intro v; rw [countdown_mem, hnat, f7]
  · rw [fh]
    obtain ⟨k, hk⟩ : ∃ k, n.toNat = k + 1 := ⟨n.toNat - 1, by omega⟩
    rw [hk]
    show some ((k : Int) + 1) = some n
    congr 1; omega
  · rw [f1, f2]
    apply countdown_linked
    intro j j1 j2
    rw [hnat] at j2
    rw [h1 j, h2 (j - 1), if_pos (by omega), if_pos (by omega)]
    exact ⟨rfl, by ring⟩
  · intro hc; exact absurd rfl hc

/-! ## The loading loop of `parse` -/

theorem setBufferCell_inside {s : State} {i : Int} (v : Int) (h : i < s.nVars) :
    setBufferCell s i v = { s with buffer := put s.buffer i v } := by
  unfold setBufferCell
  rw [if_pos h]

theorem fillBuffer_spec : ∀ (ls : List Int) (size : Int) (s : State),
    size + (ls.length : Int) ≤ s.nVars →
    (∀ i : Nat, i < ls.length → (fillBuffer ls size s).buffer (size + i) = ls.getD i 0) ∧
    (∀ j, j < size → (fillBuffer ls size s).buffer j = s.buffer j) ∧
    fillBuffer ls size s = { s with buffer := (fillBuffer ls size s).buffer }
  | [], size, s, _ => ⟨fun i hi => by simp at hi, fun _ _ => rfl, rfl⟩
  | l :: ls, size, s, hb => by
    have hlt : size < s.nVars := by
      have : ((l :: ls).length : Int) = (ls.length : Int) + 1 := by simp
      have : (0 : Int) ≤ (ls.length : Int) := Int.ofNat_nonneg _
      omega
    obtain ⟨h1, h2, h3⟩ := fillBuffer_spec ls (size + 1) { s with buffer := put s.buffer size l }
      (by
        have : ((l :: ls).length : Int) = (ls.length : Int) + 1 := by simp
        show size + 1 + (ls.length : Int) ≤ s.nVars
        omega)
    have e : fillBuffer (l :: ls) size s =
        fillBuffer ls (size + 1) { s with buffer := put s.buffer size l } := by
      show fillBuffer ls (size + 1) (setBufferCell s size l) = _
      rw [setBufferCell_inside l hlt]
    rw [e]
    refine ⟨?_, ?_, ?_⟩
    · intro i hi
      cases i with
      | zero =>
        rw [h2 _ (by simp)]
        simp [put]
      | succ i =>
        have := h1 i (by simpa using hi)
        rw [show size + ((i + 1 : Nat) : Int) = size + 1 + i by push_cast; ring, this]
        simp
    · intro j hj
      rw [h2 j (by omega)]
      have : j ≠ size := by omega
      simp [put, this]
    · rw [h3]

/-- One clause of the loading loop. -/
theorem loadClause_spec {N : Int} {g : Ghost} {s s1 : State} {lits : List Int}
    (h : Loading N g s) (hl : (lits.length : Int) ≤ N ∧ ∀ l ∈ lits, IsLit N l)
    (hrun : loadClause s lits = .ok (some s1)) :
    ∃ g1, Loading N g1 s1 ∧ g1.bs = ⟨s.mem_used, lits.length⟩ :: g.bs ∧
      (∀ i : Nat, i < lits.length → s1.DB (s.mem_used + 2 + i) = lits.getD i 0) ∧
      (∀ x, x < s.mem_used → s1.DB x = s.DB x) ∧
      (lits.length = 1 → s1.mfalse (-(lits.getD 0 0)) ≠ 0) ∧
      (∀ l, s.mfalse l ≠ 0 → s1.mfalse l ≠ 0) := by
  obtain ⟨hlen, hl⟩ := hl
  obtain ⟨b1, b2, b3⟩ := fillBuffer_spec lits 0 s (by rw [h.nvars]; omega)
  obtain ⟨t, ht⟩ : ∃ t, t = fillBuffer lits 0 s := ⟨_, rfl⟩
  rw [← ht] at b1 b2 b3
  unfold loadClause at hrun
  simp only [] at hrun
  rw [← ht] at hrun
  have tn : t.nVars = N := by rw [b3]; exact h.nvars
  by_cases hmem : t.mem_used + (lits.length : Nat) + 3 ≤ t.mem_max
  · obtain ⟨t1, c1, c2, c3, c4, c5, c6, c7, c8, c9, c10, c11, c12, c13, c14, c15, c16, c17, c18,
      c19, c20, c21, c22, c23⟩ := addClause_spec t (.raw 0) lits.length 1 hmem
        (by show (0 : Int) + (lits.length : Nat) ≤ t.nVars; rw [tn]; omega)
    rw [c1] at hrun
    simp only [] at hrun
    have tm : t.mem_used = s.mem_used := by rw [b3]
    have tf : t.first = s.first := by rw [b3]
    have tD : t.DB = s.DB := by rw [b3]
    have hk : 1 ≤ lits.length := by
      by_contra hc
      have : ((lits.length : Nat) : Int) = 0 := by omega
      rw [if_pos (Or.inl this)] at hrun
      cases hrun
    have hget : ∀ i : Nat, i < lits.length → LitPtr.get t (.raw 0) i = lits.getD i 0 := by
      intro i hi
      show bufferCell t (0 + i) = _
      rw [bufferCell_inside (by rw [tn]; omega)]
      exact b1 i hi
    have hlit : ∀ i : Nat, i < lits.length → IsLit N (lits.getD i 0) := by
      intro i hi
      apply hl
      rw [List.getD_eq_getElem _ _ hi]
      exact List.getElem_mem _
    have hbody : ∀ i : Nat, i < lits.length → t1.DB (s.mem_used + 2 + i) = lits.getD i 0 := by
      intro i hi
      rw [← tm, c3 i hi, hget i hi]
    have hA : ArenaInv (g.push s.mem_used lits.length (lits.getD 0 0) (lits.getD 1 0)) t1 := by
      refine ArenaInv.push h.arena hk (by rw [c10, b3]) (by rw [c2, tm])
        (fun i hi => by rw [hbody i hi, h.nvars]; exact hlit i hi)
        (by have := hbody 0 (by omega); simpa using this)
        (fun h2 => by
          have := hbody 1 (by omega)
          rw [← this]; congr 1; push_cast; ring)
        (by rw [← tm]; exact c4)
        (fun x hx => by rw [c5 x (Or.inl (by omega)), tD]) ?_ (fun h1 => by rw [c7 h1, tf])
      intro h2
      have := c6 h2
      have e0 : LitPtr.get t (.raw 0) 0 = lits.getD 0 0 := by
        have := hget 0 (by omega)
        simpa using this
      have e1 : LitPtr.get t (.raw 0) 1 = lits.getD 1 0 := by
        have := hget 1 (by omega)
        simpa using this
      rw [e0, e1, tm, tf] at this
      exact this
    have hT : TrailInv t1 := h.trail.congr_trailinv (by rw [c10, b3]) (by rw [c12, b3]) (by rw [c11, b3])
      (by rw [c14, b3]) (by rw [c15, b3]) (by rw [c16, b3])
    have hL : Loading N (g.push s.mem_used lits.length (lits.getD 0 0) (lits.getD 1 0)) t1 := by
      refine ⟨hA, hT, by rw [c14, b3]; exact h.forced, by rw [c15, b3]; exact h.processed, ?_,
        by rw [c10, b3]; exact h.nvars, ?_, ⟨rfl, ?_, fun _ => rfl⟩, ?_, ?_⟩
      · intro i i0 i1
        have e16 : t1.assigned = s.assigned := by rw [c16, b3]
        rw [e16] at i1
        have := h.units i i0 i1
        have e12 : t1.mfalseStack = s.mfalseStack := by rw [c12, b3]
        have e11 : t1.mfalse = s.mfalse := by rw [c11, b3]
        have e13 : t1.reason = s.reason := by rw [c13, b3]
        rw [e12, e11, IsDec.congr_isdec e13 e12 i]
        exact this
      · obtain ⟨order, ho⟩ := h.vmtf
        exact ⟨order, ho.congr_vmtf (by rw [c10, b3]) (by rw [c19, b3]) (by rw [c20, b3])
          (by rw [c21, b3])⟩
      · intro _
        have := hA.layout
        rw [c8, if_pos (by decide), ← c2]
        exact this
      · rw [c9, if_pos (by decide), b3]; exact h.nLemmas
      · rw [c23, b3]; exact h.maxLemmas
    have e11 : t1.mfalse = s.mfalse := by rw [c11, b3]
    have hx : ∀ x, x < s.mem_used → t1.DB x = s.DB x := fun x hx => by
      rw [c5 x (Or.inl (by omega)), tD]
    have h0 : t1.DB (s.mem_used + 2) = lits.getD 0 0 := by
      have := hbody 0 (by omega); simpa using this
    rw [tm] at hrun
    split_ifs at hrun with q1 q2
    · cases hrun
    · -- a new unit clause
      have e := Option.some.inj (Except.ok.inj hrun)
      have hy : Fresh t1 (t1.DB (s.mem_used + 2)) := by
        refine ⟨?_, ?_, q2.2⟩
        · rw [h0, c10, b3]; show IsLit s.nVars _; rw [h.nvars]; exact hlit 0 (by omega)
        · by_contra hc
          exact q1 (Or.inr ⟨q2.1, hc⟩)
      obtain ⟨a1, a2, a3, a4, a5, a6, a7, a8, a9, a10⟩ := assign_fields t1 (s.mem_used + 2) 1
      have hbase := arenaBase_pos h.arena.npos
      have hle := Layout.le h.arena.layout
      refine ⟨g.push s.mem_used lits.length (lits.getD 0 0) (lits.getD 1 0),
        ?_, rfl, ?_, ?_, ?_, ?_⟩
      · rw [← e]
        refine ⟨hL.arena.congr_arenainv a3 a1 a4 a2, assign_trail hy hL.trail, by rw [a5]; exact hL.forced,
          by rw [a6]; exact hL.processed, ?_, by rw [a3]; exact hL.nvars, ?_,
          ⟨rfl, ?_, fun _ => rfl⟩, hL.nLemmas, hL.maxLemmas⟩
        · intro i i0 i1
          rw [a7] at i1
          by_cases hi : i = t1.assigned
          · rw [hi, assign_new_entry, assign_mfalse_new]
            exact ⟨by rw [if_pos (by decide)], by
              have := @assign_isDec_new t1 (s.mem_used + 2) 1 (by omega)
              exact this⟩
          · have i2 : i < t1.assigned := by omega
            rw [assign_old_entry _ _ i2, assign_mfalse_old hy hL.trail i0 i2,
              assign_isDec_old hy hL.trail i0 i2]
            exact hL.units i i0 i2
        · obtain ⟨order, ho⟩ := hL.vmtf
          exact ⟨order, ho.congr_vmtf rfl rfl rfl rfl⟩
        · intro hne
          exact hL.fixed.layout hne
      · intro i hi; rw [← e, a1]; exact hbody i hi
      · intro x hx2; rw [← e, a1]; exact hx x hx2
      · intro _
        rw [← e, ← h0, assign_mfalse_new, if_pos (by decide)]
        decide
      · intro l hl0
        rw [← e, a9]
        simp only [put]
        split
        · rw [if_pos (by decide)]; decide
        · rw [e11]; exact hl0
    · have e := Option.some.inj (Except.ok.inj hrun)
      rw [← e]
      refine ⟨g.push s.mem_used lits.length (lits.getD 0 0) (lits.getD 1 0),
        hL, rfl, hbody, hx, ?_, ?_⟩
      · intro h1
        have h1i : ((lits.length : Nat) : Int) = 1 := by omega
        by_contra hc
        rw [← h0] at hc
        exact q2 ⟨h1i, hc⟩
      · intro l hl0; rw [e11]; exact hl0
  · exfalso
    unfold addClause getMemory at hrun
    rw [if_pos (by omega)] at hrun
    cases hrun

theorem loadClauses_spec {N : Int} : ∀ (cs : List (List Int)) {g : Ghost} {s s1 : State},
    Loading N g s → (∀ c ∈ cs, (c.length : Int) ≤ N ∧ ∀ l ∈ c, IsLit N l) → loadClauses cs s = .ok (some s1) →
    ∃ g1, Loading N g1 s1
  | [], g, s, s1, h, _, hrun => by
    simp only [loadClauses] at hrun
    cases hrun
    exact ⟨g, h⟩
  | c :: cs, g, s, s1, h, hl, hrun => by
    simp only [loadClauses] at hrun
    split at hrun
    · cases hrun
    · cases hrun
    · rename_i t ht
      obtain ⟨g1, h1, _⟩ := loadClause_spec h (hl c (List.mem_cons_self _ _)) ht
      exact loadClauses_spec cs h1 (fun c2 hc2 => hl c2 (List.mem_cons_of_mem _ hc2)) hrun

/-- The invariant of the main loop of `solve` holds for a loaded formula. -/
theorem Loading.sinv_loading {N : Int} {g : Ghost} {s : State} (h : Loading N g s) :
    SInv N { s with res := 0 } s.head := by
  obtain ⟨order, ho⟩ := h.vmtf
  have hh := ho.head_mem
  rw [h.nvars] at hh
  have hE : Extra N g s := ⟨h.nvars, ⟨order, ho⟩,
    ⟨[], g.bs, h.fixed, by rw [h.nLemmas]; rfl⟩, by rw [h.maxLemmas]; decide⟩
  refine ⟨g, ?_, hE.admin ⟨rfl, rfl, rfl, rfl, rfl, rfl, rfl, rfl, rfl⟩ rfl, hh.1, hh.2⟩
  show PInv g { s with res := 0 } (s.reason (absInt (s.mfalseStack s.processed)))
  refine @PInv.congr_pinv g s _ (s.reason (absInt (s.mfalseStack s.processed))) ?_
    rfl rfl rfl rfl rfl rfl rfl rfl rfl rfl
  refine ⟨h.arena, h.trail, ⟨?_, ?_, ?_, ?_, ?_⟩, ?_, ⟨?_⟩⟩
  · intro i i0 i1; have := h.forced; omega
  · intro _ i i0 i1
    exact h.units i (by have := h.forced; omega) i1
  · intro hfl i i0 i1
    have hp := h.processed
    have hf := h.forced
    have := (h.units 0 (by omega) (by omega)).2
    rw [hp] at hfl
    exact absurd hfl this
  · intro hfl i1
    have hp := h.processed
    have hf := h.forced
    have := (h.units 0 (by omega) (by omega)).2
    rw [hp] at hfl
    exact absurd hfl this
  · intro i i0 i1
    exact (h.units i (by have := h.processed; omega) i1).2
  · intro hfl
    constructor
    intro i i0 i1 _
    have hp := h.processed
    have hf := h.forced
    have := (h.units 0 (by omega) (by omega)).2
    rw [hp] at hfl
    exact absurd hfl this
  · intro b hb hk u v l l2 _ _ _ i i0 i1 _ hc
    have := h.processed
    omega

theorem loaded_spec {n m : Int} {cs : List (List Int)} {s : State} (hn : 1 ≤ n)
    (hl : ∀ c ∈ cs, (c.length : Int) ≤ n ∧ ∀ l ∈ c, IsLit n l) (h : loaded n m cs = some s) :
    ∃ g, Loading n g s := by
  unfold loaded at h
  split at h
  · cases h
  · rename_i s0 h0
    split at h
    · rename_i s1 h1
      cases h
      exact loadClauses_spec cs (initCDCL_spec hn h0).1 hl h1
    · cases h

/-- Every state at the head of the main loop of `solve` satisfies the
invariant. -/
theorem SolveHead.sinv_solvehead {n m : Int} {cs : List (List Int)} (hn : 1 ≤ n)
    (hl : ∀ c ∈ cs, (c.length : Int) ≤ n ∧ ∀ l ∈ c, IsLit n l) {s : State} {d : Int}
    (h : SolveHead n m cs s d) : SInv n s d := by
  induction h with
  | init s h0 =>
    obtain ⟨g, hg⟩ := loaded_spec hn hl h0
    exact hg.sinv_loading
  | step fuel s d s1 d1 _ hstep ih => exact solveStep_next fuel ih hstep

theorem Layout.first_block {lo : Int} : ∀ {bs : List Blk} {hi : Int}, Layout lo bs hi →
    lo < hi → ∃ b ∈ bs, b.c = lo
  | [], hi, h, hlt => by simp only [Layout] at h; omega
  | b0 :: bs, hi, h, _ => by
    simp only [Layout] at h
    by_cases e : b0.c = lo
    · exact ⟨b0, List.mem_cons_self _ _, e⟩
    · have := Layout.le h.2
      obtain ⟨b, hb, hc⟩ := Layout.first_block h.2 (by omega)
      exact ⟨b, List.mem_cons_of_mem _ hb, hc⟩

theorem Layout.next_block {lo : Int} : ∀ {bs : List Blk} {hi : Int}, Layout lo bs hi →
    ∀ b ∈ bs, b.c + b.k + 3 < hi → ∃ b2 ∈ bs, b2.c = b.c + b.k + 3
  | [], _, _, b, hb, _ => by cases hb
  | b0 :: bs, hi, h, b, hb, hlt => by
    simp only [Layout] at h
    rcases List.mem_cons.mp hb with e | hm
    · rw [e] at hlt; omega
    · have := Layout.mem_bounds h.2 b hm
      by_cases e : b0.c = b.c + b.k + 3
      · exact ⟨b0, List.mem_cons_self _ _, e⟩
      · obtain ⟨b2, hb2, hc⟩ := Layout.next_block h.2 b hm (by omega)
        exact ⟨b2, List.mem_cons_of_mem _ hb2, hc⟩

theorem BlkOK.size_unique {n : Int} {DB : Cells} {b : Blk} (h : BlkOK n DB b) {k : Nat}
    (h1 : ∀ i : Nat, i < k → DB (b.c + 2 + i) ≠ 0) (h2 : DB (b.c + 2 + k) = 0) : b.k = k := by
  rcases Nat.lt_trichotomy b.k k with a | a | a
  · exact absurd h.2.2 (h1 b.k a)
  · exact a
  · exact absurd h2 (h.2.1 k a).1

/-- The blocks that the state shows are the blocks of the description of the
arena. -/
theorem ArenaCore.block_mem {g : Ghost} {s : State} (h : ArenaCore g s) {c : Int} {k : Nat}
    (hb : ArenaBlock s c k) : (⟨c, k⟩ : Blk) ∈ g.bs := by
  induction hb with
  | first k hlt h1 h2 =>
    obtain ⟨b, hb, hc⟩ := Layout.first_block h.layout hlt
    rw [← hc] at h1 h2
    have := (h.blk b hb).size_unique h1 h2
    rw [← hc, ← this]
    exact hb
  | next c k k1 _ hlt h1 h2 ih =>
    obtain ⟨b, hb, hc⟩ := Layout.next_block h.layout _ ih hlt
    have hc2 : b.c = c + k + 3 := hc
    rw [← hc2] at h1 h2
    have := (h.blk b hb).size_unique h1 h2
    rw [← hc2, ← this]
    exact hb

theorem Lseg.reach_of_mem {DB : Cells} : ∀ {ws : List Int} {v : Int}, Lseg DB v ws END →
    ∀ w ∈ ws, ChainReach DB v w
  | [], _, _, w, hw => by cases hw
  | u :: ws, v, h, w, hw => by
    obtain ⟨e, hne, hrest⟩ := h
    subst e
    rcases List.mem_cons.mp hw with e | hm
    · rw [e]; exact .here _ hne
    · exact .step _ _ hne (Lseg.reach_of_mem hrest w hm)

theorem Lseg.mem_of_reach {DB : Cells} {v w : Int} (hr : ChainReach DB v w) :
    ∀ {ws : List Int}, Lseg DB v ws END → w ∈ ws := by
  induction hr with
  | here w hne =>
    intro ws h
    cases ws with
    | nil => exact absurd h hne
    | cons u ws =>
      obtain ⟨e, _, _⟩ := h
      rw [e]; exact List.mem_cons_self _ _
  | step v w hne _ ih =>
    intro ws h
    cases ws with
    | nil => exact absurd h hne
    | cons u ws =>
      obtain ⟨e, _, hrest⟩ := h
      rw [← e] at hrest
      exact List.mem_cons_of_mem _ (ih hrest)

/-- A link cell is in the chain of a literal exactly when the walk from the
watch head of the literal meets it. -/
theorem ArenaCore.reach_iff {g : Ghost} {s : State} (h : ArenaCore g s) {l : Int}
    (hl : IsLit s.nVars l) (w : Int) : ChainReach s.DB (s.first l) w ↔ w ∈ g.ch l :=
  ⟨fun hr => Lseg.mem_of_reach hr (h.seg l hl), fun hm => Lseg.reach_of_mem (h.seg l hl) w hm⟩

/-! ## Invariants of the quiescent states -/

theorem SInv.propagated {N : Int} {s : State} {d : Int} (h : SInv N s d) {fuel : Nat}
    {s1 : State} (hrun : propagate fuel s = .ok (SAT, s1)) :
    ∃ g, PInv g s1 0 ∧ Extra N g s1 ∧ s1.processed = s1.assigned := by
  obtain ⟨g, hP, hE, _⟩ := h
  rcases propagateLoop_extra fuel N fuel s _ (SAT, s1) ⟨g, hP, hE⟩ hrun with
    ⟨_, g1, p1, p2, p3⟩ | ⟨hc, _⟩
  · exact ⟨g1, p1, p2, p3⟩
  · exact absurd hc (show ¬ SAT = UNSAT by decide)

theorem growMaxLemmas_spec : ∀ (k : Nat) (nL maxL : Int), (nL - maxL).toNat ≤ k →
    ∃ j : Nat, growMaxLemmas k nL maxL = maxL + 300 * j ∧ nL ≤ maxL + 300 * j ∧
      (0 < j → maxL + 300 * j - 300 < nL)
  | 0, nL, maxL, h => ⟨0, by simp [growMaxLemmas], by simp; omega, by simp⟩
  | k + 1, nL, maxL, h => by
    simp only [growMaxLemmas]
    split_ifs with c
    · obtain ⟨j, h1, h2, h3⟩ := growMaxLemmas_spec k nL (maxL + 300) (by omega)
      refine ⟨j + 1, ?_, ?_, ?_⟩
      · rw [h1]; push_cast; ring
      · push_cast; omega
      · intro _
        push_cast
        by_cases hj : 0 < j
        · have := h3 hj; omega
        · have : j = 0 := by omega
          subst this
          simp only [Nat.cast_zero]; omega
    · exact ⟨0, by simp, by simp; omega, by simp⟩

theorem unwatchLemmas_maxLemmas : ∀ (f : Nat) (s : State) (w : WatchPtr) (t : State),
    unwatchLemmas f s w = .ok t → t.maxLemmas = s.maxLemmas ∧ t.nLemmas = s.nLemmas
  | 0, _, _, _, h => by simp [unwatchLemmas] at h
  | f + 1, s, w, t, h => by
    simp only [unwatchLemmas] at h
    split_ifs at h with c1 c2
    · exact unwatchLemmas_maxLemmas f s _ t h
    · have := unwatchLemmas_maxLemmas f _ w t h
      cases w <;> exact this
    · cases h; exact ⟨rfl, rfl⟩

theorem unwatchAll_maxLemmas (fuel : Nat) : ∀ (k : Nat) (i : Int) (s t : State),
    unwatchAll fuel k i s = .ok t → t.maxLemmas = s.maxLemmas ∧ t.nLemmas = s.nLemmas
  | 0, _, _, _, h => by
    simp only [unwatchAll] at h
    cases h; exact ⟨rfl, rfl⟩
  | k + 1, i, s, t, h => by
    simp only [unwatchAll] at h
    split_ifs at h with c
    · exact unwatchAll_maxLemmas fuel k _ s t h
    · split at h
      · cases h
      · rename_i s1 h1
        have a := unwatchLemmas_maxLemmas fuel s _ s1 h1
        have b := unwatchAll_maxLemmas fuel k _ s1 t h
        exact ⟨b.1.trans a.1, b.2.trans a.2⟩

theorem addClause_maxLemmas {s : State} {inp : LitPtr} {size irr : Int} {r : Int × State}
    (h : addClause s inp size irr = .ok r) : r.2.maxLemmas = s.maxLemmas := by
  have hm := addClause_mem h
  unfold addClause getMemory at h
  rw [if_neg (by omega)] at h
  simp only [] at h
  cases h
  simp only []
  rw [copyLits_frame]
  split_ifs <;> rfl

theorem sweepLemmas_maxLemmas (fuel : Nat) : ∀ (f : Nat) (s : State) (old k i : Int)
    (t : State), sweepLemmas fuel f s old k i = .ok t → t.maxLemmas = s.maxLemmas
  | 0, _, _, _, _, _, h => by simp [sweepLemmas] at h
  | f + 1, s, old, k, i, t, h => by
    simp only [sweepLemmas] at h
    split_ifs at h with c
    · split at h
      · cases h
      · rename_i i1 count hc
        split_ifs at h with c2
        · split at h
          · cases h
          · rename_i x s1 ha
            have a : s1.maxLemmas = s.maxLemmas := addClause_maxLemmas ha
            exact (sweepLemmas_maxLemmas fuel f s1 old k _ t h).trans a
        · exact sweepLemmas_maxLemmas fuel f s old k _ t h
    · cases h; rfl

/-- The value of `maxLemmas` after `reduceDB(k)`. -/
theorem reduceDB_maxLemmas {fuel : Nat} {s s1 : State} {k : Int}
    (h : reduceDB fuel s k = .ok s1) :
    s1.maxLemmas = growMaxLemmas (s.nLemmas - s.maxLemmas).toNat s.nLemmas s.maxLemmas := by
  unfold reduceDB at h
  simp only [] at h
  split at h
  · cases h
  · rename_i t hu
    have a := (unwatchAll_maxLemmas fuel _ _ _ t hu).1
    have b := sweepLemmas_maxLemmas fuel fuel _ _ _ _ s1 h
    rw [b]
    exact a

/-! ## The answers of `implied` -/

/-- The loop of `implied(lit)` ends with the answer 0 and the label
`IMPLIED - 1` on `lit`, or with the answer 1 and the label `IMPLIED`. -/
theorem implied_loop_result : ∀ (f : Nat) (s : State) (lit p : Int) (r : Int) (s1 : State),
    implied f s lit (some p) = .ok (r, s1) →
    (r = 0 ∧ s1.mfalse lit = IMPLIED - 1) ∨ (r = 1 ∧ s1.mfalse lit = IMPLIED)
  | 0, _, _, _, _, _, h => by simp [implied] at h
  | f + 1, s, lit, p, r, s1, h => by
    simp only [implied] at h
    split_ifs at h with c1 c2
    · split at h
      · cases h
      · rename_i r0 t ht
        split_ifs at h with c3
        · cases h
          left
          exact ⟨rfl, by simp [put]⟩
        · exact implied_loop_result f t lit _ r s1 h
    · exact implied_loop_result f s lit _ r s1 h
    · cases h
      right
      exact ⟨rfl, by simp [put]⟩

/-- The three ways in which a call `implied(lit)` returns. -/
theorem implied_result {f : Nat} {s : State} {lit r : Int} {s1 : State}
    (h : implied f s lit none = .ok (r, s1)) :
    (s.mfalse lit > MARK ∧ r = Int.land (s.mfalse lit) MARK ∧ s1 = s) ∨
    (¬ s.mfalse lit > MARK ∧ s.reason (absInt lit) = 0 ∧ r = 0 ∧ s1 = s) ∨
    (r = 0 ∧ s1.mfalse lit = IMPLIED - 1) ∨ (r = 1 ∧ s1.mfalse lit = IMPLIED) := by
  cases f with
  | zero => simp [implied] at h
  | succ f =>
    simp only [implied] at h
    split_ifs at h with c1 c2
    · cases h
      exact Or.inl ⟨c1, rfl, rfl⟩
    · cases h
      exact Or.inr (Or.inl ⟨c1, c2, rfl, rfl⟩)
    · exact Or.inr (Or.inr (implied_loop_result f s lit _ r s1 h))

/-! ## `implied` terminates -/

theorem implied_mono : ∀ (f : Nat) (s : State) (lit : Int) (mode : Option Int)
    (x : Int × State), implied f s lit mode = .ok x → ∀ f2, f ≤ f2 →
    implied f2 s lit mode = .ok x
  | 0, _, _, _, _, h, _, _ => by simp [implied] at h
  | f + 1, s, lit, none, x, h, f2, hle => by
    obtain ⟨g, rfl⟩ : ∃ g, f2 = g + 1 := ⟨f2 - 1, by omega⟩
    simp only [implied] at h ⊢
    split_ifs at h ⊢ with c1 c2
    · exact h
    · exact h
    · exact implied_mono f s lit _ x h g (by omega)
  | f + 1, s, lit, some p0, x, h, f2, hle => by
    obtain ⟨g, rfl⟩ : ∃ g, f2 = g + 1 := ⟨f2 - 1, by omega⟩
    simp only [implied] at h ⊢
    split_ifs at h ⊢ with c1 c2
    · cases hrec : implied f s (s.DB (p0 + 1)) none with
      | error e => rw [hrec] at h; simp at h
      | ok v =>
        rw [hrec] at h
        rw [implied_mono f s _ none v hrec g (by omega)]
        simp only [] at h ⊢
        split_ifs at h ⊢ with c3
        · exact h
        · exact implied_mono f _ lit _ x h g (by omega)
    · exact implied_mono f s lit _ x h g (by omega)
    · exact h

/-- A run of the bounded loop is a run of the loop of `implied`. -/
theorem scanReason_implied {call : State → Int → Except Fault (Int × State)}
    (hcall : ∀ s l x, call s l = .ok x → ∃ f, implied f s l none = .ok x) :
    ∀ (w : Nat) (s : State) (lit p0 : Int) (x : Int × State),
    scanReason call w s lit p0 = .ok x → ∃ f, implied f s lit (some p0) = .ok x
  | 0, _, _, _, _, h => by simp [scanReason] at h
  | w + 1, s, lit, p0, x, h => by
    simp only [scanReason] at h
    split_ifs at h with c1 c2
    · cases hrec : call s (s.DB (p0 + 1)) with
      | error e => rw [hrec] at h; simp at h
      | ok v =>
        rw [hrec] at h
        simp only [] at h
        obtain ⟨f1, hf1⟩ := hcall _ _ _ hrec
        split_ifs at h with c3
        · refine ⟨f1 + 1, ?_⟩
          simp only [implied, if_pos c1, if_pos c2, hf1, if_pos c3]
          exact h
        · obtain ⟨f2, hf2⟩ := scanReason_implied hcall w _ lit _ x h
          refine ⟨max f1 f2 + 1, ?_⟩
          simp only [implied, if_pos c1, if_pos c2,
            implied_mono f1 _ _ _ _ hf1 (max f1 f2) (le_max_left _ _), if_neg c3]
          exact implied_mono f2 _ _ _ _ hf2 _ (le_max_right _ _)
    · obtain ⟨f2, hf2⟩ := scanReason_implied hcall w s lit _ x h
      refine ⟨f2 + 1, ?_⟩
      simp only [implied, if_pos c1, if_neg c2]
      exact hf2
    · refine ⟨1, ?_⟩
      simp only [implied, if_neg c1]
      exact h

/-- A run of `impliedNest` is a run of `implied`. -/
theorem impliedNest_implied (w : Nat) : ∀ (d : Nat) (s : State) (lit : Int) (x : Int × State),
    impliedNest w d s lit = .ok x → ∃ f, implied f s lit none = .ok x
  | 0, _, _, _, h => by simp [impliedNest] at h
  | d + 1, s, lit, x, h => by
    simp only [impliedNest] at h
    split_ifs at h with c1 c2
    · exact ⟨1, by simp only [implied, if_pos c1]; exact h⟩
    · exact ⟨1, by simp only [implied, if_neg c1, if_pos c2]; exact h⟩
    · obtain ⟨f, hf⟩ := scanReason_implied (impliedNest_implied w d) w s lit _ x h
      exact ⟨f + 1, by simp only [implied, if_neg c1, if_neg c2]; exact hf⟩

theorem impliedNest_frame {w d : Nat} {s : State} {lit : Int} {x : Int × State}
    (h : impliedNest w d s lit = .ok x) : x.2 = { s with mfalse := x.2.mfalse } := by
  obtain ⟨f, hf⟩ := impliedNest_implied w d s lit x h
  exact implied_frame f s lit none x.1 x.2 hf

/-- The bounded loop returns when the calls it makes return. -/
theorem scanReason_returns {call : State → Int → Except Fault (Int × State)} {s : State}
    {lit R : Int} {K : Nat} (h0 : s.DB (R + K) = 0)
    (hcall : ∀ s1 : State, s1 = { s with mfalse := s1.mfalse } → ∀ t : Nat, t < K →
      ∃ x, call s1 (s.DB (R + t)) = .ok x ∧ x.2 = { s with mfalse := x.2.mfalse }) :
    ∀ (m : Nat) (s1 : State) (t : Nat), s1 = { s with mfalse := s1.mfalse } → t ≤ K →
      K - t < m → ∃ x, scanReason call m s1 lit (R - 1 + t) = .ok x
  | 0, _, _, _, _, hm => by omega
  | m + 1, s1, t, hfr, ht, hm => by
    have hDB : s1.DB = s.DB := by rw [hfr]
    have hp : R - 1 + (t : Int) + 1 = R + t := by ring
    simp only [scanReason, hp, hDB]
    by_cases c1 : s.DB (R + t) ≠ 0
    · have htK : t < K := by
        rcases Nat.lt_or_ge t K with a | a
        · exact a
        · have : t = K := by omega
          rw [this] at c1
          exact absurd h0 c1
      have hnext : R + (t : Int) = R - 1 + ((t + 1 : Nat) : Int) := by push_cast; ring
      rw [if_pos c1]
      by_cases c2 : s1.mfalse (s.DB (R + t)) ≠ MARK
      · rw [if_pos c2]
        obtain ⟨x, hx, hxf⟩ := hcall s1 hfr t htK
        rw [hx]
        simp only []
        by_cases c3 : x.1 = 0
        · rw [if_pos c3]; exact ⟨_, rfl⟩
        · rw [if_neg c3, hnext]
          exact scanReason_returns h0 hcall m x.2 (t + 1) hxf (by omega) (by omega)
      · rw [if_neg c2, hnext]
        exact scanReason_returns h0 hcall m s1 (t + 1) hfr (by omega) (by omega)
    · rw [if_neg c1]; exact ⟨_, rfl⟩

/-- With the nesting bounded by the trail position of the literal (plus one for
the call itself), `impliedNest` returns. -/
theorem impliedNest_returns {s : State} {w : Nat} (hE : EarlierReasons s w) :
    ∀ (d : Nat) (s1 : State), s1 = { s with mfalse := s1.mfalse } →
    ∀ i, 0 ≤ i → i < s.assigned → i < d →
    ∃ x, impliedNest w d s1 (s.mfalseStack i) = .ok x ∧ x.2 = { s with mfalse := x.2.mfalse }
  | 0, _, _, i, i0, _, hd => by omega
  | d + 1, s1, hfr, i, i0, i1, hd => by
    have hr : s1.reason = s.reason := by rw [hfr]
    simp only [impliedNest, hr]
    by_cases c1 : s1.mfalse (s.mfalseStack i) > MARK
    · rw [if_pos c1]; exact ⟨_, rfl, hfr⟩
    · rw [if_neg c1]
      by_cases c2 : s.reason (absInt (s.mfalseStack i)) = 0
      · rw [if_pos c2]; exact ⟨_, rfl, hfr⟩
      · rw [if_neg c2]
        obtain ⟨K, hK, h0, hlits⟩ := hE i i0 i1 c2
        have hcall : ∀ s2 : State, s2 = { s with mfalse := s2.mfalse } → ∀ t : Nat, t < K →
            ∃ x, impliedNest w d s2 (s.DB (s.reason (absInt (s.mfalseStack i)) + t)) = .ok x ∧
              x.2 = { s with mfalse := x.2.mfalse } := by
          intro s2 hfr2 t ht
          obtain ⟨_, j, j0, j1, j2⟩ := hlits t ht
          rw [← j2]
          exact impliedNest_returns hE d s2 hfr2 j j0 (by omega) (by omega)
        obtain ⟨x, hx⟩ := @scanReason_returns _ s (s.mfalseStack i) _ K h0 hcall w s1 0 hfr
          (Nat.zero_le _) (by omega)
        simp only [Nat.cast_zero, add_zero] at hx
        refine ⟨x, hx, ?_⟩
        have hx2 : impliedNest w (d + 1) s1 (s.mfalseStack i) = .ok x := by
          simp only [impliedNest, hr, if_neg c1, if_neg c2]
          exact hx
        have := impliedNest_frame hx2
        rw [this, hfr]

/-! ## The lemmas that `reduceDB` keeps -/

theorem countSatisfied_count : ∀ (k f : Nat) (s : State) (i c0 i1 count : Int),
    (∀ r : Nat, r < k → s.DB (i + r) ≠ 0) → s.DB (i + k) = 0 →
    countSatisfied f s i c0 = .ok (i1, count) → count = c0 + satCount s i k
  | _, 0, _, _, _, _, _, _, _, h => by simp [countSatisfied] at h
  | 0, f + 1, s, i, c0, i1, count, _, h0, h => by
    simp only [countSatisfied] at h
    have h0b : s.DB i = 0 := by simpa using h0
    rw [if_neg (by simpa using h0b)] at h
    have e := (Prod.mk.inj (Except.ok.inj h)).2
    simp [satCount, ← e]
  | k + 1, f + 1, s, i, c0, i1, count, hl, h0, h => by
    simp only [countSatisfied] at h
    have hl0 : s.DB i ≠ 0 := by simpa using hl 0 (by omega)
    rw [if_pos hl0] at h
    have := countSatisfied_count k f s (i + 1) _ i1 count
      (fun r hr => by
        have := hl (r + 1) (by omega)
        have e : i + ((r + 1 : Nat) : Int) = i + 1 + r := by push_cast; ring
        rwa [e] at this)
      (by
        have e : i + ((k + 1 : Nat) : Int) = i + 1 + k := by push_cast; ring
        rwa [e] at h0) h
    rw [this]
    simp only [satCount]
    split_ifs <;> ring

theorem satCount_congr {s t : State} (hm : t.model = s.model) : ∀ (k : Nat) (i j : Int),
    (∀ r : Nat, r < k → t.DB (i + r) = s.DB (j + r)) → satCount t i k = satCount s j k
  | 0, _, _, _ => rfl
  | k + 1, i, j, h => by
    have h0 : t.DB i = s.DB j := by simpa using h 0 (by omega)
    simp only [satCount, h0, hm]
    rw [satCount_congr hm k (i + 1) (j + 1) (fun r hr => by
      have := h (r + 1) (by omega)
      have e1 : i + ((r + 1 : Nat) : Int) = i + 1 + r := by push_cast; ring
      have e2 : j + ((r + 1 : Nat) : Int) = j + 1 + r := by push_cast; ring
      rwa [e1, e2] at this)]

theorem sweepLemmas_retained {g0 : Ghost} {s0 : State} {fix lem : List Blk}
    (hA0 : ArenaInv g0 s0) (hfix : fix ≠ []) (fuel : Nat) (k U : Int) :
    ∀ (f : Nat) (rem : List Blk) (gc : Ghost) (t t1 : State) (i : Int),
    Sweeping g0 s0 fix gc t rem i U → Retained s0 lem k gc.bs t rem →
    sweepLemmas fuel f t U k i = .ok t1 →
    ∃ gc1 i1, Sweeping g0 s0 fix gc1 t1 [] i1 U ∧ Retained s0 lem k gc1.bs t1 []
  | 0, _, _, _, _, _, _, _, h => by simp [sweepLemmas] at h
  | f + 1, rem, gc, t, t1, i, hS, hR, h => by
    simp only [sweepLemmas] at h
    rcases List.eq_nil_or_concat rem with e | ⟨rem1, b, e⟩
    · subst e
      have hU : U = i - 2 := hS.tiles
      rw [if_neg (by omega)] at h
      have e := Except.ok.inj h
      subst e
      exact ⟨gc, i, hS, hR⟩
    · subst e
      rw [List.concat_eq_append] at hS hR
      obtain ⟨hbc, hskip⟩ := hS.skip
      obtain ⟨mid, m1, m2⟩ := Layout.append_layout.mp hS.tiles
      have hm : mid = b.c + b.k + 3 ∧ b.c = i - 2 := m2
      have hmid := Layout.le m1
      rw [if_pos (by omega)] at h
      have hbg := hS.sub b (by simp)
      have hblk := hA0.blk b hbg
      have hint := hS.intact b (by simp)
      have hlit : ∀ r : Nat, r < b.k → t.DB (i + r) = s0.DB (b.c + 2 + r) := by
        intro r hr
        have : i + (r : Int) = b.c + 2 + r := by omega
        rw [this]; exact hint _ (by omega) (by omega)
      have hnz : ∀ r : Nat, r < b.k → t.DB (i + r) ≠ 0 := by
        intro r hr
        rw [hlit r hr]; exact (hblk.2.1 r hr).1
      have hz : t.DB (i + b.k) = 0 := by
        have : i + (b.k : Int) = b.c + 2 + b.k := by omega
        rw [this, hint _ (by omega) (by omega)]
        exact hblk.2.2
      have hnum : t.nLemmas + rem1.length + 1 ≤ lem.length := by
        have := hR.num
        simp only [List.length_append, List.length_singleton, Nat.cast_add, Nat.cast_one] at this
        omega
      cases hc : countSatisfied fuel t i 0 with
      | error e => rw [hc] at h; cases h
      | ok v =>
        obtain ⟨i1, count⟩ := v
        rw [hc] at h
        simp only [] at h
        have hi1 : i1 = i + b.k := countSatisfied_spec b.k fuel t i 0 i1 count hnz hz hc
        have hcount : count = satCount s0 (b.c + 2) b.k := by
          rw [countSatisfied_count b.k fuel t i 0 i1 count hnz hz hc, zero_add]
          exact satCount_congr hS.keep.model b.k i (b.c + 2) hlit
        have hnext : i1 + 3 = i + b.k + 3 := by omega
        have hsize : i1 - i = b.k := by omega
        rw [hnext, hsize] at h
        by_cases hcnt : count < k
        · rw [if_pos hcnt] at h
          cases ha : addClause t (.db i) b.k 0 with
          | error e => rw [ha] at h; cases h
          | ok v =>
            obtain ⟨c1, t2⟩ := v
            rw [ha] at h
            simp only [] at h
            obtain ⟨gc1, hS1, hbs⟩ := hS.add hA0 hfix ha
            have hroom := hS.room
            obtain ⟨s1, a0, a1, a2, a3, a4, a5, a6, a7, a8, _⟩ :=
              addClause_spec t (.db i) b.k 0 (addClause_mem ha) (Or.inr (by omega))
            rw [a0] at ha
            obtain ⟨_, e2⟩ := Prod.mk.inj (Except.ok.inj ha)
            subst e2
            simp only [LitPtr.get] at a2
            refine sweepLemmas_retained hA0 hfix fuel k U f rem1 gc1 s1 t1 _ hS1 ⟨?_, ?_, ?_⟩ h
            · intro x hx; exact hR.sub x (List.mem_append_left _ hx)
            · rw [a8]
              simp only [ne_eq, not_true_eq_false, if_false]
              omega
            · intro b2 hb2 hge
              rw [hbs] at hb2
              rcases List.mem_cons.mp hb2 with e | hb2
              · subst e
                refine ⟨b, hR.sub b (by simp), rfl, fun r hr => ?_, by rw [← hcount]; exact hcnt⟩
                show s1.DB (t.mem_used + 2 + r) = _
                rw [a2 r hr, hlit r hr]
              · obtain ⟨b0, hb0, e1, e2, e3⟩ := hR.copy b2 hb2 hge
                refine ⟨b0, hb0, e1, fun r hr => ?_, e3⟩
                have hbb := hS.arena.toArenaCore.blk_bounds hb2
                rw [a4 _ (Or.inl (by omega))]
                exact e2 r hr
        · rw [if_neg hcnt] at h
          refine sweepLemmas_retained hA0 hfix fuel k U f rem1 gc t t1 _ hskip
            ⟨fun x hx => hR.sub x (List.mem_append_left _ hx), by omega, hR.copy⟩ h

theorem Layout.blocks_shown {s : State} {lo : Int} (hlo : lo = arenaBase s.nVars) :
    ∀ {bs : List Blk} {hi : Int}, Layout lo bs hi → hi ≤ s.mem_used →
    (∀ b ∈ bs, BlkOK s.nVars s.DB b) → ∀ b ∈ bs, ArenaBlock s b.c b.k
  | [], _, _, _, _, b, hb => by cases hb
  | b0 :: bs, hi, h, hhi, hok, b, hb => by
    simp only [Layout] at h
    have hlay := h.2
    have hle := Layout.le hlay
    have ih := Layout.blocks_shown hlo hlay (by omega)
      (fun x hx => hok x (List.mem_cons_of_mem _ hx))
    rcases List.mem_cons.mp hb with e | hm
    · subst e
      have hb0 := hok b (List.mem_cons_self _ _)
      cases bs with
      | nil =>
        have e : b.c = arenaBase s.nVars := by
          simp only [Layout] at hlay; omega
        rw [e]
        refine .first b.k (by omega) (fun i hi => ?_) ?_
        · rw [← e]; exact (hb0.2.1 i hi).1
        · rw [← e]; exact hb0.2.2
      | cons b1 bs =>
        simp only [Layout] at hlay
        have h1 := ih b1 (List.mem_cons_self _ _)
        have e : b.c = b1.c + b1.k + 3 := hlay.1
        rw [e]
        refine .next b1.c b1.k b.k h1 (by omega) (fun i hi => ?_) ?_
        · rw [← e]; exact (hb0.2.1 i hi).1
        · rw [← e]; exact hb0.2.2
    · exact ih b hm

/-- Every block of the description of the arena is a block that the state
shows. -/
theorem ArenaCore.mem_block {g : Ghost} {s : State} (h : ArenaCore g s) {b : Blk}
    (hb : b ∈ g.bs) : ArenaBlock s b.c b.k :=
  Layout.blocks_shown rfl h.layout (le_refl _) h.blk b hb

/-- The lemmas after `reduceDB(k)`. -/
theorem reduceDB_retained {g : Ghost} {s s1 : State} {lem fix : List Blk} (fuel : Nat) (k : Int)
    (hA : ArenaInv g s) (hF : FixedInv g s lem fix) (hfix : fix ≠ [])
    (hmax : 0 ≤ s.maxLemmas) (hrun : reduceDB fuel s k = .ok s1) :
    ∃ gc i1 U, Sweeping g s fix gc s1 [] i1 U ∧ Retained s lem k gc.bs s1 [] := by
  obtain ⟨t, hnl, hmf, hstart, hrun2⟩ := reduceDB_start fuel k hA hF hfix hmax hrun
  obtain ⟨_, hfixl⟩ := hF.bounds hA.toArenaCore hfix
  have hR : Retained s lem k (g.keepBelow s.mem_fixed fix).bs
      { t with mem_used := t.mem_fixed } lem := by
    refine ⟨fun b hb => hb, ?_, ?_⟩
    · show t.nLemmas + _ ≤ _
      rw [hnl]; simp
    · intro b2 hb2 hge
      have hb2f : b2 ∈ fix := hb2
      have := Layout.mem_bounds hfixl b2 hb2f
      omega
  obtain ⟨gc1, i1, hS, hR1⟩ :=
    sweepLemmas_retained hA hfix fuel k _ fuel lem _ _ s1 _ hstart hR hrun2
  exact ⟨gc1, i1, _, hS, hR1⟩

/-! ## Threading a property through `propagate` -/

/-- The watch loop for one trail entry keeps a closed property. -/
theorem watchLoop_closed {fuel : Nat} {N : Int} {A : List Blk → State → Int → Prop}
    (hA : PropClosed fuel N A) {g : Ghost} {s : State} {fl lit : Int} {watch : WatchPtr}
    {visited rest : List Int} (h : WLoop g s fl lit watch visited rest) (hE : Extra N g s)
    (ha : A g.bs s fl) (f : Nat) {ex : WatchExit}
    (hrun : watchLoop fuel f s lit fl watch = .ok ex) :
    (∀ s2 fl1, ex = .cont s2 fl1 → ∃ g2, PInv g2 s2 fl1 ∧ Extra N g2 s2 ∧ A g2.bs s2 fl1) ∧
    (∀ s2, ex = .unsat s2 → fl ≠ 0 ∧ ∃ g2 w2 vis2 rest2, WLoop g2 s2 fl lit w2 vis2 rest2 ∧
      Extra N g2 s2 ∧ A g2.bs s2 fl ∧
      ∃ b ∈ g2.bs, ∀ r : Nat, r < b.k → s2.mfalse (s2.DB (b.c + 2 + r)) ≠ 0) := by
  refine watchLoop_induct fuel lit fl
    (fun s w => ∃ g vis rest, WLoop g s fl lit w vis rest ∧ Extra N g s ∧ A g.bs s fl)
    (fun ex => (∀ s2 fl1, ex = .cont s2 fl1 →
        ∃ g2, PInv g2 s2 fl1 ∧ Extra N g2 s2 ∧ A g2.bs s2 fl1) ∧
      (∀ s2, ex = .unsat s2 → fl ≠ 0 ∧ ∃ g2 w2 vis2 rest2, WLoop g2 s2 fl lit w2 vis2 rest2 ∧
        Extra N g2 s2 ∧ A g2.bs s2 fl ∧
        ∃ b ∈ g2.bs, ∀ r : Nat, r < b.k → s2.mfalse (s2.DB (b.c + 2 + r)) ≠ 0))
    ?_ ?_ ?_ ?_ f s watch ex ⟨g, visited, rest, h, hE, ha⟩ hrun
  · rintro s w s1 w1 ⟨g, vis, rest, hW, hX, hQ⟩ hne hs
    obtain ⟨g1, vis1, rest1, h1, hb⟩ := (hW.step_wloop fuel hne hs).1 s1 w1 rfl
    refine ⟨g1, vis1, rest1, h1, hX.admin ((watchStep_admin hs).1 s1 w1 rfl) hb, ?_⟩
    rw [hb]
    exact hA.next g s fl lit w vis rest s1 w1 hW hX hne hQ hs
  · rintro s w ⟨g, vis, rest, hW, hX, hQ⟩ he
    refine ⟨fun s2 fl1 e => ?_, fun s2 e => by cases e⟩
    cases e
    exact ⟨g, hW.finish he, hX, hQ⟩
  · rintro s w s1 ⟨g, vis, rest, hW, hX, hQ⟩ hne hs
    refine ⟨fun s2 fl1 e => (by cases e), fun s2 e => ?_⟩
    cases e
    obtain ⟨hfl, b, hb, rest1, h1, h2⟩ := (hW.step_wloop fuel hne hs).2.1 s1 rfl
    exact ⟨hfl, g, w, vis, rest1, h1, hX.admin ((watchStep_admin hs).2.1 s1 rfl) rfl,
      hA.unsat g s fl lit w vis rest s1 hW hX hne hQ hs, b, hb, h2⟩
  · rintro s w s2 clause lem s3 ⟨g, vis, rest, hW, hX, hQ⟩ hne hs han
    refine ⟨fun s4 fl1 e => ?_, fun s4 e => by cases e⟩
    obtain ⟨hfl, b, rest1, hcl, hC, hWI⟩ := (hW.step_wloop fuel hne hs).2.2 s2 clause rfl
    subst hcl
    obtain ⟨k, P, hL⟩ := analyze_spec fuel hC han
    have hX2 : Extra N g s2 := hX.admin ((watchStep_admin hs).2.2 s2 _ rfl) rfl
    have := hL.pinv_learned hC hWI
    cases e
    rw [hfl] at hW hQ hs ⊢
    exact ⟨_, this, hX2.learn fuel hC han hL _,
      hA.learn g s lit w vis rest s2 b lem s3 k P hW hX hne hQ hs hC han hL⟩

/-- `propagate` keeps a closed property. -/
theorem propagateLoop_closed {fuel : Nat} {N : Int} {A : List Blk → State → Int → Prop}
    (hA : PropClosed fuel N A) : ∀ (f : Nat) (s : State) (fl : Int) (r : Int × State),
    (∃ g, PInv g s fl ∧ Extra N g s ∧ A g.bs s fl) → propagateLoop fuel f s fl = .ok r →
    (r.1 = SAT ∧ ∃ g, PInv g r.2 0 ∧ Extra N g r.2 ∧ A g.bs r.2 0 ∧
      r.2.processed = r.2.assigned) ∨
    (r.1 = UNSAT ∧ ∃ g fl2 lit w vis rest, fl2 ≠ 0 ∧ WLoop g r.2 fl2 lit w vis rest ∧
      Extra N g r.2 ∧ A g.bs r.2 fl2 ∧
      ∃ b ∈ g.bs, ∀ i : Nat, i < b.k → r.2.mfalse (r.2.DB (b.c + 2 + i)) ≠ 0) := by
  refine propagateLoop_induct fuel
    (fun s fl => ∃ g, PInv g s fl ∧ Extra N g s ∧ A g.bs s fl) _ ?_ ?_ ?_
  · rintro s fl s2 fl1 ⟨g, h, hX, hQ⟩ hp hw
    exact (watchLoop_closed hA (h.start_pinv hp) hX.start_extra
      (hA.start g s fl h hX hp hQ) fuel hw).1 s2 fl1 rfl
  · rintro s fl s2 ⟨g, h, hX, hQ⟩ hp hw
    obtain ⟨hfl, g2, w2, vis2, rest2, h1, hX2, hQ2, h2⟩ :=
      (watchLoop_closed hA (h.start_pinv hp) hX.start_extra
        (hA.start g s fl h hX hp hQ) fuel hw).2 s2 rfl
    exact Or.inr ⟨rfl, g2, fl, _, w2, vis2, rest2, hfl, h1, hX2, hQ2, h2⟩
  · rintro s fl ⟨g, h, hX, hQ⟩ hp
    exact Or.inl ⟨rfl, g, (h.quiet_pinv hp).1, hX.quiet_extra fl, hA.quiet g s fl h hX hp hQ,
      (h.quiet_pinv hp).2⟩

/-! ## What the watch loop does to the trail -/

theorem Scanned.keep {s t : State} {d : Int} (h : Scanned s d) (hn : t.nVars = s.nVars)
    (h1 : t.next = s.next) (h2 : t.prev = s.prev) (h3 : t.head = s.head)
    (hm : ∀ l, s.mfalse l ≠ 0 → t.mfalse l ≠ 0) : Scanned t d := by
  obtain ⟨pre, post, ho, ha⟩ := h
  refine ⟨pre, post, ho.congr_vmtf hn h1 h2 h3, fun v hv => ?_⟩
  rcases ha v hv with a | a
  · exact Or.inl (hm _ a)
  · exact Or.inr (hm _ a)

theorem ModelOK.same {s t : State} (h : ModelOK s) (h1 : t.model = s.model)
    (h2 : t.mfalseStack = s.mfalseStack) (h3 : t.assigned ≤ s.assigned) : ModelOK t :=
  ⟨fun i i0 i1 => by rw [h1, h2]; exact h.agree i i0 (by omega), fun v => by rw [h1]; exact h.bool v⟩

theorem ModelOK.assigned {t : State} (h : ModelOK t) (c fl : Int)
    (hfresh : ∀ i, 0 ≤ i → i < t.assigned → absInt (t.mfalseStack i) ≠ absInt (t.DB c)) :
    ModelOK (assign t c fl) := by
  constructor
  · intro i i0 i1
    have i1b : i < t.assigned + 1 := i1
    by_cases e : i = t.assigned
    · rw [e, assign_new_entry]
      show put t.model (absInt (t.DB c)) (b2i (decide (t.DB c > 0))) (absInt (-(t.DB c))) = _
      rw [absInt_neg]
      simp only [put, if_true]
      congr 1
      simp
    · have i2 : i < t.assigned := by omega
      rw [assign_old_entry c fl i2]
      show put t.model (absInt (t.DB c)) _ (absInt (t.mfalseStack i)) = _
      simp only [put, if_neg (hfresh i i0 i2)]
      exact h.agree i i0 i2
  · intro v
    have e : (assign t c fl).model v =
        put t.model (absInt (t.DB c)) (b2i (decide (t.DB c > 0))) v := rfl
    rw [e]
    unfold put
    split
    · unfold b2i; split <;> simp
    · exact h.bool v

theorem bodyOf_congr {DB DB2 : Cells} {c : Int} {k : Nat}
    (h : ∀ i : Nat, i < k → DB2 (c + 2 + i) = DB (c + 2 + i)) :
    bodyOf DB2 c k = bodyOf DB c k := by
  unfold bodyOf
  apply List.map_congr_left
  intro i hi
  exact h i (List.mem_range.mp hi)

theorem swap_lt {k p q : Nat} (hp : p < k) (hq : q < k) (i : Nat) (hi : i < k) :
    Equiv.swap p q i < k := by
  by_cases e1 : i = p
  · subst e1; rw [Equiv.swap_apply_left]; exact hq
  · by_cases e2 : i = q
    · subst e2; rw [Equiv.swap_apply_right]; exact hp
    · rw [Equiv.swap_apply_of_ne_of_ne e1 e2]; exact hi

/-- Exchanging the literals at two positions of a block permutes its body. -/
theorem bodyOf_swap {DB DB2 : Cells} {c : Int} {k p q : Nat} (hp : p < k) (hq : q < k)
    (h1 : DB2 (c + 2 + p) = DB (c + 2 + q)) (h2 : DB2 (c + 2 + q) = DB (c + 2 + p))
    (ho : ∀ i : Nat, i < k → i ≠ p → i ≠ q → DB2 (c + 2 + i) = DB (c + 2 + i)) :
    (bodyOf DB2 c k).Perm (bodyOf DB c k) := by
  have e : bodyOf DB2 c k =
      ((List.range k).map (Equiv.swap p q)).map (fun i : Nat => DB (c + 2 + (i : Int))) := by
    unfold bodyOf
    rw [List.map_map]
    apply List.map_congr_left
    intro i hi
    have hi := List.mem_range.mp hi
    simp only [Function.comp]
    by_cases e1 : i = p
    · subst e1; rw [Equiv.swap_apply_left]; exact h1
    · by_cases e2 : i = q
      · subst e2; rw [Equiv.swap_apply_right]; exact h2
      · rw [Equiv.swap_apply_of_ne_of_ne e1 e2]; exact ho i hi e1 e2
  rw [e]
  unfold bodyOf
  apply List.Perm.map
  apply (List.perm_ext_iff_of_nodup ?_ (List.nodup_range k)).mpr
  · intro a
    simp only [List.mem_map, List.mem_range]
    constructor
    · rintro ⟨i, hi, rfl⟩
      exact swap_lt hp hq i hi
    · intro ha
      exact ⟨Equiv.swap p q a, swap_lt hp hq a ha, Equiv.swap_apply_self p q a⟩
  · exact (List.nodup_range k).map (Equiv.injective _)

/-- Bringing the falsified literal to the second position permutes the body of
the clause and leaves the other bodies alone. -/
theorem WLoop.norm_bodies {g : Ghost} {s : State} {fl lit : Int} {watch : WatchPtr}
    {visited rest : List Int} {w : Int} (h : WLoop g s fl lit watch visited (w :: rest))
    {b : Blk} (hb : b ∈ g.bs) (hk : 2 ≤ b.k) (hwb : w = b.c ∨ w = b.c + 1) :
    ∀ b2 ∈ g.bs, (bodyOf (wlNorm s (b.c + 2) lit).DB b2.c b2.k).Perm (bodyOf s.DB b2.c b2.k) := by
  have hwmem : w ∈ g.ch lit := by rw [h.chain]; simp
  obtain ⟨hab, _⟩ := h.arena.other_cell hb hk hwmem hwb
  have e3 : b.c + 2 + 1 = b.c + 3 := by ring
  have hDB : (wlNorm s (b.c + 2) lit).DB =
      put (put s.DB (b.c + 2) (if s.DB (b.c + 2) = lit then s.DB (b.c + 3) else s.DB (b.c + 2)))
        (b.c + 3) lit := by
    rw [wlNorm_eq, e3]
  intro b2 hb2
  rcases Layout.apart h.arena.layout b hb b2 hb2 with e | e | e
  · subst e
    rcases hab with ha | ⟨ha, ha3⟩
    · refine @bodyOf_swap _ _ _ _ 0 1 (by omega) (by omega) ?_ ?_ ?_
      · rw [hDB, if_pos ha]
        have : b.c + 2 ≠ b.c + 3 := by omega
        simp [put, this]
        rw [show b.c + 2 + 1 = b.c + 3 by ring]
      · rw [hDB, if_pos ha]
        simp [put, ha]
        intro hx; omega
      · intro i hi i0 i1
        rw [hDB]
        have h1 : b.c + 2 + (i : Int) ≠ b.c + 3 := by omega
        have h2 : b.c + 2 + (i : Int) ≠ b.c + 2 := by omega
        simp [put, h1, h2]
    · rw [bodyOf_congr]
      intro i hi
      rw [hDB, if_neg ha]
      by_cases h1 : b.c + 2 + (i : Int) = b.c + 3
      · rw [h1]; simp [put, ha3]
      · by_cases h2 : b.c + 2 + (i : Int) = b.c + 2
        · rw [h2]
          have : b.c + 2 ≠ b.c + 3 := by omega
          simp [put, this]
        · simp [put, h1, h2]
  · rw [bodyOf_congr]
    intro i hi
    rw [hDB]
    have h1 : b2.c + 2 + (i : Int) ≠ b.c + 3 := by omega
    have h2 : b2.c + 2 + (i : Int) ≠ b.c + 2 := by omega
    simp [put, h1, h2]
  · rw [bodyOf_congr]
    intro i hi
    rw [hDB]
    have h1 : b2.c + 2 + (i : Int) ≠ b.c + 3 := by omega
    have h2 : b2.c + 2 + (i : Int) ≠ b.c + 2 := by omega
    simp [put, h1, h2]

/-- Moving the watch to the literal at index `r` exchanges the literals at the
indices 1 and `r` of the clause and leaves the other bodies alone. -/
theorem WLoop.swap_bodies {g : Ghost} {t : State} {fl lit : Int} {watch : WatchPtr}
    {visited rest : List Int} {w : Int} (h : WLoop g t fl lit watch visited (w :: rest))
    {b : Blk} (hb : b ∈ g.bs) (hk : 2 ≤ b.k) (hlit : t.DB (b.c + 3) = lit)
    {r : Nat} (hr1 : 2 ≤ r) (hr2 : r < b.k) :
    ∀ b2 ∈ g.bs, (bodyOf (wlSwap t (b.c + 2) lit r watch).DB b2.c b2.k).Perm
      (bodyOf t.DB b2.c b2.k) := by
  have hwmem : w ∈ g.ch lit := by rw [h.chain]; simp
  have e3 : b.c + 2 + 1 = b.c + 3 := by ring
  obtain ⟨t3, ht3⟩ : ∃ t3 : State, t3 =
      { t with DB := put (put t.DB (b.c + 3) (t.DB (b.c + 2 + r))) (b.c + 2 + r) lit } :=
    ⟨_, rfl⟩
  have hout : ∀ y, y ≠ b.c + 3 → y ≠ b.c + 2 + r → t3.DB y = t.DB y := by
    intro y h1 h2; rw [ht3]; simp [put, h1, h2]
  have hD3 : t3.DB (b.c + 3) = t.DB (b.c + 2 + r) := by
    rw [ht3]
    have : b.c + 3 ≠ b.c + 2 + (r : Int) := by omega
    simp [put, this]
  have hDr : t3.DB (b.c + 2 + r) = lit := by rw [ht3]; simp [put]
  have hsame : ∀ y, (∀ l, y ∉ g.ch l) → (wlSwap t (b.c + 2) lit r watch).DB y = t3.DB y := by
    rw [wlSwap_body, e3, ← ht3]
    rcases h.wptr with ⟨hv, hw⟩ | ⟨vs, u, hv, hw⟩
    · subst hw
      intro y hy
      have : y ≠ WatchPtr.get t3 (WatchPtr.head lit) := by
        have hg : WatchPtr.get t3 (WatchPtr.head lit) = w := by
          have := h.get_cons.1
          simp only [WatchPtr.get] at this ⊢
          rw [ht3]; exact this
        rw [hg]
        exact fun e => hy lit (e ▸ hwmem)
      simp [addWatch, WatchPtr.set, put, this]
    · subst hw
      have humem : u ∈ g.ch lit := by rw [h.chain, hv]; simp
      have hu := h.arena.toArenaCore.cell_not_body humem hb
      have hg : WatchPtr.get t3 (WatchPtr.cell u) = w := by
        have := h.get_cons.1
        simp only [WatchPtr.get] at this ⊢
        rw [hout u (by omega) (by omega)]; exact this
      intro y hy
      have h1 : y ≠ w := fun e => hy lit (e ▸ hwmem)
      have h2 : y ≠ u := fun e => hy lit (e ▸ humem)
      simp only [hg]
      simp [addWatch, WatchPtr.set, put, h1, h2]
  have hbodyall : ∀ b2 ∈ g.bs, ∀ i : Nat, i < b2.k →
      (wlSwap t (b.c + 2) lit r watch).DB (b2.c + 2 + i) = t3.DB (b2.c + 2 + i) := by
    intro b2 hb2 i hi
    apply hsame
    intro l hy
    have := h.arena.toArenaCore.cell_not_body hy hb2
    omega
  intro b2 hb2
  rcases Layout.apart h.arena.layout b hb b2 hb2 with e | e | e
  · subst e
    refine @bodyOf_swap _ _ _ _ 1 r (by omega) hr2 ?_ ?_ ?_
    · rw [hbodyall b hb 1 (by omega)]
      rw [show b.c + 2 + ((1 : Nat) : Int) = b.c + 3 by push_cast; ring]
      exact hD3
    · rw [hbodyall b hb r hr2, hDr]
      rw [show b.c + 2 + ((1 : Nat) : Int) = b.c + 3 by push_cast; ring]
      exact hlit.symm
    · intro i hi i0 i1
      rw [hbodyall b hb i hi]
      exact hout _ (by omega) (by omega)
  · rw [bodyOf_congr]
    intro i hi
    rw [hbodyall b2 hb2 i hi]
    exact hout _ (by omega) (by omega)
  · rw [bodyOf_congr]
    intro i hi
    rw [hbodyall b2 hb2 i hi]
    exact hout _ (by omega) (by omega)

/-- One iteration of the watch loop of `propagate` permutes the body of each
block. -/
theorem watchStep_bodies {g : Ghost} {s : State} {fl lit : Int} {watch : WatchPtr}
    {visited rest : List Int} (h : WLoop g s fl lit watch visited rest) (fuel : Nat)
    (hne : watch.get s ≠ END) {r : WatchStep} (hstep : watchStep fuel s lit fl watch = .ok r) :
    ∀ b ∈ g.bs, (bodyOf r.after.DB b.c b.k).Perm (bodyOf s.DB b.c b.k) := by
  rcases h.rest_cases with ⟨he, _⟩ | ⟨_, rest2, hrest⟩
  · exact absurd he hne
  subst hrest
  obtain ⟨b, hb, hk, hwb, hclause, hN, hlit, hother⟩ := h.norm
  have hnorm := h.norm_bodies hb hk hwb
  rw [watchStep_eq, hclause] at hstep
  have hblk := hN.arena.blk b hb
  cases hff : findFree fuel (wlNorm s (b.c + 2) lit) (b.c + 2) 2 with
  | error e => rw [hff] at hstep; cases hstep
  | ok o =>
    rw [hff] at hstep
    cases o with
    | some i =>
      obtain ⟨t, e, t1, t2, t3, _⟩ := findFree_some_lt hblk hk hff
      subst e
      simp only [] at hstep
      have er := Except.ok.inj hstep
      subst er
      intro b2 hb2
      exact (hN.swap_bodies hb hk hlit t1 t2 b2 hb2).trans (hnorm b2 hb2)
    | none =>
      simp only [] at hstep
      split_ifs at hstep <;>
      · have er := Except.ok.inj hstep
        subst er
        exact hnorm

theorem KeptBodies.refl_kept (bs : List Blk) (s : State) : KeptBodies bs s bs s :=
  ⟨⟨[], rfl, fun _ hb => by cases hb⟩, fun _ _ => List.Perm.refl _, le_refl _, rfl⟩

theorem KeptBodies.step_kept {bs0 bs : List Blk} {s0 s t : State} (h : KeptBodies bs0 s0 bs s)
    (hp : ∀ b ∈ bs, (bodyOf t.DB b.c b.k).Perm (bodyOf s.DB b.c b.k))
    (hu : t.mem_used = s.mem_used) (hf : t.mem_fixed = s.mem_fixed) :
    KeptBodies bs0 s0 bs t := by
  obtain ⟨new, e, hn⟩ := h.more
  refine ⟨⟨new, e, hn⟩, fun b hb => ?_, by rw [hu]; exact h.used, hf.trans h.fixed⟩
  exact (hp b (by rw [e]; exact List.mem_append_right _ hb)).trans (h.perm b hb)

/-- `propagate` keeps `KeptBodies bs0 s0`. -/
theorem KeptBodies.closed_kept (fuel : Nat) (N : Int) (bs0 : List Blk) (s0 : State) :
    PropClosed fuel N (fun bs t _ => KeptBodies bs0 s0 bs t) := by
  refine ⟨?_, ?_, ?_, ?_, ?_⟩
  · intro g s fl _ _ _ h
    exact h.step_kept (fun _ _ => List.Perm.refl _) rfl rfl
  · intro g s fl lit w vis rest s1 w1 hW _ hne h hs
    have ha := (watchStep_admin hs).1 s1 w1 rfl
    exact h.step_kept (watchStep_bodies hW fuel hne hs) ha.mem_used ha.mem_fixed
  · intro g s fl lit w vis rest s1 hW _ hne h hs
    have ha := (watchStep_admin hs).2.1 s1 rfl
    exact h.step_kept (watchStep_bodies hW fuel hne hs) ha.mem_used ha.mem_fixed
  · intro g s lit w vis rest s2 b lem s3 k P hW _ hne h hs hC _ hL
    have ha := (watchStep_admin hs).2.2 s2 _ rfl
    have h2 : KeptBodies bs0 s0 g.bs s2 :=
      h.step_kept (watchStep_bodies hW fuel hne hs) ha.mem_used ha.mem_fixed
    obtain ⟨new, e, hn⟩ := h2.more
    have hlay := hL.arena.layout
    simp only [Ghost.push, Layout] at hlay
    refine ⟨⟨⟨s2.mem_used, k⟩ :: new, by rw [e]; rfl, fun b1 hb1 => ?_⟩, fun b1 hb1 => ?_, ?_, ?_⟩
    · rcases List.mem_cons.mp hb1 with e1 | m1
      · rw [e1]; exact h2.used
      · exact hn b1 m1
    · refine List.Perm.trans ?_ (h2.perm b1 hb1)
      rw [show (assign s3 lem (learnFlag s3 lem)).DB = s3.DB from rfl, bodyOf_congr]
      intro i hi
      have := hC.arena.toArenaCore.blk_bounds
        (show b1 ∈ g.bs by rw [e]; exact List.mem_append_right _ hb1)
      exact hL.old _ (by omega)
    · show s0.mem_used ≤ s3.mem_used
      have := h2.used
      rw [hlay.1]
      show s0.mem_used ≤ s2.mem_used + (k : Int) + 3
      omega
    · show s3.mem_fixed = _
      rw [hL.mem_fixed]; exact h2.fixed
  · intro g s fl _ _ _ h
    split_ifs
    · exact h.step_kept (fun _ _ => List.Perm.refl _) rfl rfl
    · exact h

/-- What `propagate` does to the clause blocks, in a state that satisfies the
invariants of the head of its loop. -/
theorem propagate_bodies {N : Int} {g : Ghost} {s : State}
    (hP : PInv g s (s.reason (absInt (s.mfalseStack s.processed)))) (hE : Extra N g s)
    {fuel : Nat} {r : Int × State} (hrun : propagate fuel s = .ok r) :
    (∀ (c : Int) (k : Nat), ArenaBlock s c k →
      ArenaBlock r.2 c k ∧ (bodyOf r.2.DB c k).Perm (bodyOf s.DB c k)) ∧
    (∀ (c : Int) (k : Nat), ArenaBlock r.2 c k → ArenaBlock s c k ∨ s.mem_used ≤ c) ∧
    r.2.mem_fixed = s.mem_fixed := by
  have key : ∃ g1, ArenaInv g1 r.2 ∧ KeptBodies g.bs s g1.bs r.2 := by
    rcases propagateLoop_closed (KeptBodies.closed_kept fuel N g.bs s) fuel s _ r
      ⟨g, hP, hE, KeptBodies.refl_kept _ _⟩ hrun with
      ⟨_, g1, h1, _, hK, _⟩ | ⟨_, g1, fl2, lit, w, vis, rest, _, h1, _, hK, _⟩
    · exact ⟨g1, h1.arena, hK⟩
    · exact ⟨g1, h1.arena, hK⟩
  obtain ⟨g1, hA1, hK⟩ := key
  obtain ⟨new, e, hn⟩ := hK.more
  refine ⟨fun c k hb => ?_, fun c k hb => ?_, hK.fixed⟩
  · have hm := hP.arena.toArenaCore.block_mem hb
    exact ⟨hA1.toArenaCore.mem_block (b := ⟨c, k⟩) (by rw [e]; exact List.mem_append_right _ hm),
      hK.perm _ hm⟩
  · have hm := hA1.toArenaCore.block_mem hb
    rw [e] at hm
    rcases List.mem_append.mp hm with m1 | m2
    · exact Or.inr (hn _ m1)
    · exact Or.inl (hP.arena.toArenaCore.mem_block m2)

/-- The arena invariant gives W1 on the state. -/
theorem ArenaInv.w1 {g : Ghost} {s : State} (hA : ArenaInv g s) : W1 s := by
  intro c k hb hk
  have hm := hA.block_mem hb
  have hblk := hA.blk _ hm
  have l0 : IsLit s.nVars (s.DB (c + 2)) := by
    have := hblk.2.1 0 (by show 0 < k; omega)
    simpa using this
  have l1 : IsLit s.nVars (s.DB (c + 3)) := by
    have := hblk.2.1 1 (by show 1 < k; omega)
    rw [show (c + 2 + ((1 : Nat) : Int)) = c + 3 by push_cast; ring] at this
    exact this
  have key : ∀ u v, u ∈ g.ch (s.DB (c + 2)) → v ∈ g.ch (s.DB (c + 3)) →
      ChainReach s.DB (s.first (s.DB (c + 2))) u ∧
      ChainReach s.DB (s.first (s.DB (c + 3))) v ∧
      (∀ l, IsLit s.nVars l → ChainReach s.DB (s.first l) u → l = s.DB (c + 2)) ∧
      (∀ l, IsLit s.nVars l → ChainReach s.DB (s.first l) v → l = s.DB (c + 3)) := by
    intro u v hu hv
    refine ⟨(hA.reach_iff l0 u).mpr hu, (hA.reach_iff l1 v).mpr hv, ?_, ?_⟩
    · intro l hl0 hr
      exact hA.disj _ _ u ((hA.reach_iff hl0 u).mp hr) hu
    · intro l hl0 hr
      exact hA.disj _ _ v ((hA.reach_iff hl0 v).mp hr) hv
  rcases hA.watched _ hm hk with ⟨a, b⟩ | ⟨a, b⟩
  · exact ⟨c, c + 1, Or.inl ⟨rfl, rfl⟩, key _ _ a b⟩
  · exact ⟨c + 1, c, Or.inr ⟨rfl, rfl⟩, key _ _ b a⟩

theorem ArenaBlock.congr_block {s t : State} (hD : t.DB = s.DB) (hn : t.nVars = s.nVars)
    (hm : t.mem_used = s.mem_used) {c : Int} {k : Nat} (h : ArenaBlock s c k) :
    ArenaBlock t c k := by
  induction h with
  | first k h0 h1 h2 =>
    rw [← hn]
    exact .first k (by rw [hn, hm]; exact h0) (by rw [hn, hD]; exact h1) (by rw [hn, hD]; exact h2)
  | next c k k1 _ h0 h1 h2 ih =>
    exact .next c k k1 ih (by rw [hm]; exact h0) (by rw [hD]; exact h1) (by rw [hD]; exact h2)

theorem ArenaBlock.nonzero {s : State} {c : Int} {k : Nat} (h : ArenaBlock s c k) :
    ∀ i : Nat, i < k → s.DB (c + 2 + i) ≠ 0 := by
  cases h with
  | first k h0 h1 h2 => exact h1
  | next c k k1 _ h0 h1 h2 => exact h1

/-- W1 reads the arena and the watch heads of the literals only. -/
theorem W1.congr_w1 {s t : State} (h : W1 s) (hD : t.DB = s.DB) (hn : t.nVars = s.nVars)
    (hm : t.mem_used = s.mem_used) (hf : ∀ l, l ≠ 0 → t.first l = s.first l) : W1 t := by
  intro c k hb hk
  have hb0 : ArenaBlock s c k := hb.congr_block hD.symm hn.symm hm.symm
  have n0 : s.DB (c + 2) ≠ 0 := by
    have := hb0.nonzero 0 (by omega)
    simpa using this
  have n1 : s.DB (c + 3) ≠ 0 := by
    have := hb0.nonzero 1 (by omega)
    rw [show (c + 2 + ((1 : Nat) : Int)) = c + 3 by push_cast; ring] at this
    exact this
  obtain ⟨u, v, huv, a1, a2, a3, a4⟩ := h c k hb0 hk
  rw [hD, hn, hf _ n0, hf _ n1]
  refine ⟨u, v, huv, a1, a2, fun l hl hr => a3 l hl ?_, fun l hl hr => a4 l hl ?_⟩
  · rw [hf l hl.1] at hr; exact hr
  · rw [hf l hl.1] at hr; exact hr

/-! ## The unit clauses stay true -/

/-- The pointer `clause` of the watch loop is `headerPtr` of the entry `*watch`. -/
theorem wlClause_headerPtr (s : State) (watch : WatchPtr) :
    wlClause s watch = headerPtr s (watch.get s) := rfl

/-- When `bump(lit)` moves the variable of `lit`, the decision list is the old
one with that variable taken out and put in front. -/
theorem Vmtf.bump_move {s : State} {order : List Int} (h : Vmtf s order) {lit : Int}
    (hl : IsLit s.nVars lit) (hm : s.mfalse lit ≠ IMPLIED) (hne : absInt lit ≠ s.head) :
    Vmtf (Microsat.bump s lit) (absInt lit :: order.erase (absInt lit)) := by
  have hn : (Microsat.bump s lit).nVars = s.nVars := (bump_static s lit).1.nVars
  obtain ⟨e1, e2, e3⟩ := bump_links_move s lit hm hne
  have hv : absInt lit ∈ order := (h.mem _).mpr hl.abs_pos
  obtain ⟨pre, post, hsplit⟩ := List.append_of_mem hv
  have hnd := h.nodup
  have hlk := h.linked
  have hhd := h.head
  rw [hsplit] at hnd hlk hhd
  have h0 : (0 : Int) ∉ pre ++ absInt lit :: post := by
    rw [← hsplit]; intro hc
    have := (h.mem 0).mp hc
    omega
  have hpre : pre ≠ [] := by
    rintro rfl
    simp only [List.nil_append, List.head?_cons, Option.some.injEq] at hhd
    exact hne hhd
  obtain ⟨hh, pre1, epre⟩ : ∃ hh pre1, pre = hh :: pre1 := by
    cases pre with
    | nil => exact absurd rfl hpre
    | cons a l => exact ⟨a, l, rfl⟩
  have ehead : hh = s.head := by
    rw [epre] at hhd
    simpa using hhd
  obtain ⟨pre0, hp0⟩ := Linked.next_mem_linked hlk hpre
  have hxmem : s.next (absInt lit) ∈ pre := by rw [hp0]; simp
  have hvpre : absInt lit ∉ pre := by
    intro hc
    have := List.nodup_append.mp hnd
    exact this.2.2 hc (by simp)
  have hvx : absInt lit ≠ s.next (absInt lit) := by
    intro e; rw [← e] at hxmem; exact hvpre hxmem
  have e3b : (Microsat.bump s lit).next =
      put (put s.next (s.prev (absInt lit)) (s.next (absInt lit))) s.head (absInt lit) := by
    rw [e3]
    simp only [put, if_neg hvx]
  have hrem := Linked.remove hlk hnd h0 hpre
  have hnd2 : (absInt lit :: (pre ++ post)).Nodup := by
    have := List.nodup_append.mp hnd
    rw [List.nodup_cons] at this ⊢
    refine ⟨?_, ?_⟩
    · rw [List.mem_append, not_or]
      exact ⟨hvpre, this.2.1.1⟩
    · rw [List.nodup_append]
      refine ⟨this.1, this.2.1.2, fun a ha hb => this.2.2 ha (List.mem_cons_of_mem _ hb)⟩
  have her : order.erase (absInt lit) = pre ++ post := by
    rw [hsplit, List.erase_append_right _ hvpre, List.erase_cons_head]
  rw [her]
  refine ⟨hnd2, ?_, by rw [e1]; rfl, ?_⟩
  · intro v
    rw [hn, ← h.mem v, hsplit]
    simp only [List.mem_cons, List.mem_append]
    tauto
  · rw [e2, e3b, epre]
    show put _ _ _ (absInt lit) = hh ∧ put _ _ _ hh = absInt lit ∧ Linked _ _ (hh :: (pre1 ++ post))
    rw [← ehead]
    refine ⟨by simp [put], by simp [put], ?_⟩
    rw [epre] at hrem hnd2
    refine Linked.congr_linked (fun c hc => ?_) (fun d hd => ?_) hrem
    · have : c ≠ absInt lit := by
        rintro rfl
        rw [List.nodup_cons] at hnd2
        exact hnd2.1 hc
      simp only [put, if_neg this]
    · have : d ≠ hh := by
        rintro rfl
        rw [List.nodup_cons] at hnd2
        have h3 := hnd2.2
        simp only [List.cons_append, List.nodup_cons] at h3
        exact h3.1 hd
      simp only [put, if_neg this]

/-- The decision list after `bump(lit)` for a literal that is not labelled
`IMPLIED`. -/
theorem Vmtf.bump_front {s : State} {order : List Int} (h : Vmtf s order) {lit : Int}
    (hl : IsLit s.nVars lit) (hm : s.mfalse lit ≠ IMPLIED) :
    Vmtf (Microsat.bump s lit) (absInt lit :: order.erase (absInt lit)) := by
  by_cases hne : absInt lit = s.head
  · obtain ⟨e1, e2, e3⟩ := bump_links_same s lit (Or.inr hne)
    have hn : (Microsat.bump s lit).nVars = s.nVars := (bump_static s lit).1.nVars
    have ho : absInt lit :: order.erase (absInt lit) = order := by
      have hhd := h.head
      cases order with
      | nil => cases hhd
      | cons a tl =>
        simp only [List.head?_cons, Option.some.injEq] at hhd
        rw [hne, ← hhd, List.erase_cons_head]
    rw [ho]
    exact ⟨h.nodup, by rw [hn]; exact h.mem, by rw [e1]; exact h.head,
      by rw [e2, e3]; exact h.linked⟩
  · exact h.bump_move hl hm hne

theorem bump_implied (s : State) (lit : Int) (h : s.mfalse lit = IMPLIED) : bump s lit = s := by
  simp [bump, h]

/-! ## The averages across `analyze` -/

theorem LbdInv.init (t s : State) (A : Int) : LbdInv t s A A 0 0 0 := by
  have e : bufList s 0 = [] := rfl
  refine ⟨le_refl _, fun l hl => ?_, ?_, Or.inr ⟨rfl, ?_⟩⟩
  · rw [e] at hl; cases hl
  · unfold lemmaLevels
    simp
  · rintro ⟨i, _, _, i3, _⟩
    rw [e] at i3; cases i3

theorem MarkFalse.same_marks {σ : Int → Bool} {t s s2 : State} {j : Int} (h : MarkFalse σ t s j)
    (hm : ∀ i, 0 ≤ i → i < j → s2.mfalse (t.mfalseStack i) = MARK →
      s.mfalse (t.mfalseStack i) = MARK) : MarkFalse σ t s2 j :=
  fun i i0 i1 hk => h i i0 i1 (hm i i0 i1 hk)

theorem nextOf_eq {r : Except Fault SolveStep} {p : State × Int} (h : nextOf r = some p) :
    r = .ok (.next p.1 p.2) := by
  unfold nextOf at h
  split at h
  · cases h; rfl
  · cases h

theorem watchNextOf_eq {r : Except Fault WatchStep} {p : State × WatchPtr}
    (h : watchNextOf r = some p) : r = .ok (.next p.1 p.2) := by
  unfold watchNextOf at h
  split at h
  · cases h; rfl
  · cases h

theorem conflictOf_eq {r : Except Fault WatchStep} {p : State × Int}
    (h : conflictOf r = some p) : r = .ok (.conflict p.1 p.2) := by
  unfold conflictOf at h
  split at h
  · cases h; rfl
  · cases h

theorem resultOf_eq {α : Type} {r : Except Fault α} {p : α} (h : resultOf r = some p) :
    r = .ok p := by
  unfold resultOf at h
  split at h
  · cases h; rfl
  · cases h

theorem getD_eq_of_isSome {α : Type} {o : Option α} (d : α) (h : o.isSome = true) :
    o = some (o.getD d) := by
  cases o with
  | none => cases h
  | some a => rfl

set_option maxRecDepth 100000 in
theorem sampleLoaded_eq : loaded 2 2 sampleCnf = some sampleLoaded :=
  getD_eq_of_isSome _ (by decide!)

set_option maxRecDepth 100000 in
theorem sampleDecided_eq :
    solveStep 10 { sampleLoaded with res := 0 } sampleLoaded.head =
      .ok (.next sampleDecided.1 sampleDecided.2) :=
  nextOf_eq (getD_eq_of_isSome _ (by decide!))

theorem sampleDecided_head : SolveHead 2 2 sampleCnf sampleDecided.1 sampleDecided.2 :=
  .step 10 _ _ _ _ (.init _ sampleLoaded_eq) sampleDecided_eq

set_option maxRecDepth 100000 in
theorem samplePropagated_eq :
    propagate 10 sampleDecided.1 = .ok (SAT, samplePropagated.2) := by
  have h : propagate 10 sampleDecided.1 = .ok (samplePropagated.1, samplePropagated.2) :=
    resultOf_eq (p := samplePropagated) (getD_eq_of_isSome (0, zeroState) (by decide!))
  have e : samplePropagated.1 = SAT := by decide!
  rw [e] at h
  exact h

theorem sampleCnf_lits : ∀ c ∈ sampleCnf, (c.length : Int) ≤ 2 ∧ ∀ l ∈ c, IsLit 2 l := by decide

set_option maxRecDepth 100000 in
theorem sampleReduced_eq : reduceDB 10 sampleLoaded 6 = .ok sampleReduced :=
  resultOf_eq (getD_eq_of_isSome _ (by decide!))

set_option maxRecDepth 100000 in
theorem sampleOverfullReduced_eq : reduceDB 10 sampleOverfull 6 = .ok sampleOverfullReduced :=
  resultOf_eq (getD_eq_of_isSome _ (by decide!))

set_option maxRecDepth 100000 in
/-- C17, the claim as stated fails. In the state in which `solve` is called on
`sampleCnf` (`nLemmas` 0, `maxLemmas` 3000) `reduceDB(6)` returns with
`maxLemmas` still 3000, not 3300: the loop `while (nLemmas > maxLemmas)` is not
entered. -/
theorem reduceDB_growth_counterexample :
    reduceDB 10 sampleLoaded 6 = .ok sampleReduced ∧ sampleLoaded.maxLemmas = 3000 ∧
    sampleReduced.maxLemmas = 3000 ∧
    ¬ (sampleReduced.maxLemmas = sampleLoaded.maxLemmas + 300) :=
  ⟨sampleReduced_eq, by decide!, by decide!, by decide!⟩

/-- C17, amended. After `reduceDB(k)` the value of `maxLemmas` is the old one
plus `300 * j` for the least `j ≥ 0` that makes it at least the old `nLemmas`
(the loop `while (nLemmas > maxLemmas) maxLemmas += 300`): it is unchanged when
`nLemmas ≤ maxLemmas` held, and exactly 300 larger when
`maxLemmas < nLemmas ≤ maxLemmas + 300` held. -/
theorem reduceDB_growth {fuel : Nat} {s s1 : State} {k : Int}
    (h : reduceDB fuel s k = .ok s1) :
    (∃ j : Nat, s1.maxLemmas = s.maxLemmas + 300 * j ∧ s.nLemmas ≤ s1.maxLemmas ∧
      (0 < j → s1.maxLemmas - 300 < s.nLemmas)) ∧
    (s.nLemmas ≤ s.maxLemmas → s1.maxLemmas = s.maxLemmas) ∧
    (s.maxLemmas < s.nLemmas → s.nLemmas ≤ s.maxLemmas + 300 →
      s1.maxLemmas = s.maxLemmas + 300) := by
  have e := reduceDB_maxLemmas h
  obtain ⟨j, h1, h2, h3⟩ := growMaxLemmas_spec (s.nLemmas - s.maxLemmas).toNat s.nLemmas
    s.maxLemmas (le_refl _)
  rw [← e] at h1
  refine ⟨⟨j, h1, by rw [h1]; exact h2, fun hj => by rw [h1]; exact h3 hj⟩, ?_, ?_⟩
  · intro hle
    by_cases hj : 0 < j
    · have := h3 hj; omega
    · have : j = 0 := by omega
      rw [h1, this]; simp
  · intro hlt hle
    by_cases hj : 0 < j
    · have := h3 hj
      have : j = 1 := by omega
      rw [h1, this]; simp
    · have : j = 0 := by omega
      rw [this] at h2
      simp only [Nat.cast_zero] at h2
      omega

set_option maxRecDepth 100000 in
theorem reduceDB_growth_witness :
    reduceDB 10 sampleOverfull 6 = .ok sampleOverfullReduced ∧
    ((∃ j : Nat, sampleOverfullReduced.maxLemmas = sampleOverfull.maxLemmas + 300 * j ∧
      sampleOverfull.nLemmas ≤ sampleOverfullReduced.maxLemmas ∧
      (0 < j → sampleOverfullReduced.maxLemmas - 300 < sampleOverfull.nLemmas)) ∧
    (sampleOverfull.nLemmas ≤ sampleOverfull.maxLemmas →
      sampleOverfullReduced.maxLemmas = sampleOverfull.maxLemmas) ∧
    (sampleOverfull.maxLemmas < sampleOverfull.nLemmas →
      sampleOverfull.nLemmas ≤ sampleOverfull.maxLemmas + 300 →
      sampleOverfullReduced.maxLemmas = sampleOverfull.maxLemmas + 300)) :=
  ⟨sampleOverfullReduced_eq, reduceDB_growth sampleOverfullReduced_eq⟩

set_option maxRecDepth 100000 in
theorem chainLoaded_eq : loaded 4 3 chainCnf = some chainLoaded :=
  getD_eq_of_isSome _ (by decide!)

set_option maxRecDepth 100000 in
theorem chainHead1_eq :
    solveStep 20 { chainLoaded with res := 0 } chainLoaded.head =
      .ok (.next chainHead1.1 chainHead1.2) :=
  nextOf_eq (getD_eq_of_isSome _ (by decide!))

set_option maxRecDepth 100000 in
theorem chainHead2_eq :
    solveStep 20 chainHead1.1 chainHead1.2 = .ok (.next chainHead2.1 chainHead2.2) :=
  nextOf_eq (getD_eq_of_isSome _ (by decide!))

theorem chainHead2_head : SolveHead 4 3 chainCnf chainHead2.1 chainHead2.2 :=
  .step 20 _ _ _ _ (.step 20 _ _ _ _ (.init _ chainLoaded_eq) chainHead1_eq) chainHead2_eq

set_option maxRecDepth 100000 in
theorem chainWatch1_eq :
    watchStep 20 { chainHead2.1 with processed := chainHead2.1.processed + 1 } chainLit
      (chainHead2.1.reason (absInt chainLit)) (.head chainLit) =
      .ok (.next chainWatch1.1 chainWatch1.2) :=
  watchNextOf_eq (getD_eq_of_isSome _ (by decide!))

set_option maxRecDepth 100000 in
theorem chainWatch1_head :
    WatchHead 4 3 chainCnf chainWatch1.1 chainLit (chainHead2.1.reason (absInt chainLit))
      chainWatch1.2 :=
  .next 20 _ _ _ _ _ _ (.start _ _ (.start _ _ chainHead2_head) (by decide!)) (by decide!)
    chainWatch1_eq

set_option maxRecDepth 100000 in
theorem chainConflict_eq :
    watchStep 20 chainWatch1.1 chainLit (chainHead2.1.reason (absInt chainLit)) chainWatch1.2 =
      .ok (.conflict chainConflict.1 chainConflict.2) :=
  conflictOf_eq (getD_eq_of_isSome _ (by decide!))

set_option maxRecDepth 100000 in
theorem chainImplied_eq :
    implied 20 chainBuild chainBuildLit none = .ok (chainImplied.1, chainImplied.2) :=
  resultOf_eq (p := chainImplied) (getD_eq_of_isSome (0, zeroState) (by decide!))

set_option maxRecDepth 100000 in
/-- C19, the claim as stated fails. On `chainCnf`, `propagate` meets a conflict
after the second decision; in `analyze`, at the second iteration of the loop
`while (p >= forced)`, the trail entry `*p` is marked and `implied(*p)` returns
1, setting the label `IMPLIED`; a second call `implied(*p)` returns
`IMPLIED & MARK`, which is 2, not 1. -/
theorem implied_idempotent_counterexample :
    WatchHead 4 3 chainCnf chainWatch1.1 chainLit (chainHead2.1.reason (absInt chainLit))
      chainWatch1.2 ∧
    watchStep 20 chainWatch1.1 chainLit (chainHead2.1.reason (absInt chainLit)) chainWatch1.2 =
      .ok (.conflict chainConflict.1 chainConflict.2) ∧
    chainTest.1 = true ∧ chainBuild.mfalse chainBuildLit = MARK ∧
    (resultOf (implied 20 chainBuild chainBuildLit none)).map Prod.fst = some 1 ∧
    (resultOf (implied 20 chainImplied.2 chainBuildLit none)).map Prod.fst = some 2 :=
  ⟨chainWatch1_head, chainConflict_eq, by decide!, by decide!, by decide!, by decide!⟩

/-- C19, amended. Whenever a call `implied(l)` returns, a second call in the
state it left returns without changing `mfalse` or any other part of the state,
and its answer has the same truth value: it is the same `int`, except that the
answer 1 of a call that ran the loop is repeated as 2 (`IMPLIED & MARK`) from
the cache. This holds in every state and for every literal, so also in the
build phase of `analyze` for the falsified literals on the trail. -/
theorem implied_idempotent {f : Nat} {s : State} {l r : Int} {s1 : State}
    (h : implied f s l none = .ok (r, s1)) (f2 : Nat) :
    ∃ r2, implied (f2 + 1) s1 l none = .ok (r2, s1) ∧ (r2 = 0 ↔ r = 0) ∧
      (r2 = r ∨ (r = 1 ∧ r2 = 2)) := by
  rcases implied_result h with ⟨a1, a2, a3⟩ | ⟨a1, a2, a3, a4⟩ | ⟨a1, a2⟩ | ⟨a1, a2⟩
  · subst a3
    refine ⟨r, ?_, Iff.rfl, Or.inl rfl⟩
    simp only [implied, if_pos a1, a2]
  · subst a4
    refine ⟨r, ?_, Iff.rfl, Or.inl rfl⟩
    simp only [implied, if_neg a1, if_pos a2, a3]
  · refine ⟨0, ?_, by rw [a1], Or.inl a1.symm⟩
    have : s1.mfalse l > MARK := by rw [a2]; decide
    simp only [implied, if_pos this, a2]
    rfl
  · refine ⟨2, ?_, by rw [a1]; decide, Or.inr ⟨a1, rfl⟩⟩
    have : s1.mfalse l > MARK := by rw [a2]; decide
    simp only [implied, if_pos this, a2]
    rfl

theorem implied_idempotent_witness :
    implied 20 chainBuild chainBuildLit none = .ok (chainImplied.1, chainImplied.2) ∧
    ∃ r2, implied (0 + 1) chainImplied.2 chainBuildLit none = .ok (r2, chainImplied.2) ∧
      (r2 = 0 ↔ chainImplied.1 = 0) ∧ (r2 = chainImplied.1 ∨ (chainImplied.1 = 1 ∧ r2 = 2)) :=
  ⟨chainImplied_eq, implied_idempotent chainImplied_eq 0⟩

/-- C20. `implied` terminates. In a state in which every trail entry with a
non-zero reason has a reason clause whose literals after the first (fewer than
`w` of them, then the 0) are trail entries strictly below it, the call
`implied(l)` for the trail entry `l` at index `i` returns: it does so with the
nesting of the recursive calls bounded by `i` below the call itself and every
run of the loop bounded by `w` iterations (`impliedNest`), and the result is
that of `implied` with enough fuel. That the literals are falsified is not
needed. -/
theorem implied_terminates {s : State} {w : Nat} (hE : EarlierReasons s w) {i : Int}
    (i0 : 0 ≤ i) (i1 : i < s.assigned) :
    ∃ x, impliedNest w (i.toNat + 1) s (s.mfalseStack i) = .ok x ∧
      ∃ f, implied f s (s.mfalseStack i) none = .ok x := by
  obtain ⟨x, hx, _⟩ := impliedNest_returns hE (i.toNat + 1) s rfl i i0 i1
    (by push_cast; omega)
  exact ⟨x, hx, impliedNest_implied w _ s _ x hx⟩

set_option maxRecDepth 100000 in
theorem chainBuild_reasons : EarlierReasons chainBuild 2 := by
  intro i i0 i1 hne
  have ha : chainBuild.assigned = 2 := by decide!
  have hi : i = 0 ∨ i = 1 := by omega
  rcases hi with e | e
  · subst e
    exact absurd (by decide!) hne
  · subst e
    refine ⟨1, by decide, by decide!, ?_⟩
    intro t ht
    have : t = 0 := by omega
    subst this
    exact ⟨by decide!, 0, le_refl _, by decide, by decide!⟩

set_option maxRecDepth 100000 in
theorem implied_terminates_witness :
    EarlierReasons chainBuild 2 ∧ (0 : Int) ≤ 1 ∧ 1 < chainBuild.assigned ∧
    ∃ x, impliedNest 2 ((1 : Int).toNat + 1) chainBuild (chainBuild.mfalseStack 1) = .ok x ∧
      ∃ f, implied f chainBuild (chainBuild.mfalseStack 1) none = .ok x :=
  ⟨chainBuild_reasons, by decide, by decide!,
    implied_terminates chainBuild_reasons (by decide) (by decide!)⟩

/-- C16. The lemmas that `reduceDB` keeps. Let the arena of `s` be well formed
(`ArenaInv`), with the clauses `fix` below `mem_fixed` and the lemmas `lem` in
the region from `mem_fixed` to `mem_used` (`FixedInv`), let `nLemmas` be the
number of these lemmas and `maxLemmas ≥ 0`. When `reduceDB(k)` returns, the new
`nLemmas` is at most the old one, `mem_fixed` is unchanged, and every clause
block of the new arena at or above `mem_fixed` has fewer than `k` literals `l`
with `(l > 0) == model[|l|]` and holds, in the same order, the literals of a
lemma that was stored at or above `mem_fixed` before the call. -/
theorem reduceDB_retention {g : Ghost} {s s1 : State} {lem fix : List Blk} {fuel : Nat}
    {k : Int} (hA : ArenaInv g s) (hF : FixedInv g s lem fix) (hfix : fix ≠ [])
    (hmax : 0 ≤ s.maxLemmas) (hn : s.nLemmas = lem.length)
    (hrun : reduceDB fuel s k = .ok s1) :
    s1.nLemmas ≤ s.nLemmas ∧ s1.mem_fixed = s.mem_fixed ∧
    ∀ (c : Int) (k2 : Nat), ArenaBlock s1 c k2 → s1.mem_fixed ≤ c →
      satCount s1 (c + 2) k2 < k ∧
      ∃ c0, ArenaBlock s c0 k2 ∧ s.mem_fixed ≤ c0 ∧
        ∀ r : Nat, r < k2 → s1.DB (c + 2 + r) = s.DB (c0 + 2 + r) := by
  obtain ⟨gc, i1, U, hS, hR⟩ := reduceDB_retained fuel k hA hF hfix hmax hrun
  obtain ⟨hlem, _⟩ := hF.bounds hA.toArenaCore hfix
  have hmf := hS.keep.mem_fixed
  refine ⟨?_, hmf, ?_⟩
  · have := hR.num
    simp only [List.length_nil, Nat.cast_zero, add_zero] at this
    rw [hn]; exact this
  · intro c k2 hb hc
    have hm := hS.arena.block_mem hb
    rw [hmf] at hc
    obtain ⟨b, hbl, e1, e2, e3⟩ := hR.copy _ hm hc
    have e1k : k2 = b.k := e1
    subst e1k
    have hbs : ArenaBlock s b.c b.k :=
      hA.toArenaCore.mem_block (by rw [hF.split]; exact List.mem_append_left _ hbl)
    refine ⟨?_, b.c, hbs, (Layout.mem_bounds hlem b hbl).1, e2⟩
    rw [satCount_congr hS.keep.model b.k (c + 2) (b.c + 2) e2]
    exact e3

set_option maxRecDepth 100000 in
theorem samplePropagatedReduced_eq :
    reduceDB 20 samplePropagated.2 6 = .ok samplePropagatedReduced :=
  resultOf_eq (getD_eq_of_isSome _ (by decide!))

set_option maxRecDepth 100000 in
theorem reduceDB_retention_witness :
    reduceDB 20 samplePropagated.2 6 = .ok samplePropagatedReduced ∧
    samplePropagated.2.nLemmas = 1 ∧
    (samplePropagatedReduced.nLemmas ≤ samplePropagated.2.nLemmas ∧
    samplePropagatedReduced.mem_fixed = samplePropagated.2.mem_fixed ∧
    ∀ (c : Int) (k2 : Nat), ArenaBlock samplePropagatedReduced c k2 →
      samplePropagatedReduced.mem_fixed ≤ c →
      satCount samplePropagatedReduced (c + 2) k2 < 6 ∧
      ∃ c0, ArenaBlock samplePropagated.2 c0 k2 ∧ samplePropagated.2.mem_fixed ≤ c0 ∧
        ∀ r : Nat, r < k2 →
          samplePropagatedReduced.DB (c + 2 + r) = samplePropagated.2.DB (c0 + 2 + r)) := by
  obtain ⟨g, hP, hE, _⟩ :=
    (sampleDecided_head.sinv_solvehead (by decide) sampleCnf_lits).propagated samplePropagated_eq
  obtain ⟨lem, fix, hF, hn⟩ := hE.fixed
  have h1 : samplePropagated.2.nLemmas = 1 := by decide!
  have hfix : fix ≠ [] := by
    intro hc
    have := hF.none hc
    rw [this, h1] at hn
    simp at hn
  exact ⟨samplePropagatedReduced_eq, h1,
    reduceDB_retention hP.arena hF hfix hE.maxpos hn samplePropagatedReduced_eq⟩

theorem strayState_w1 : W1 strayState := by
  obtain ⟨g, hP, _⟩ := (SolveHead.init _ sampleLoaded_eq).sinv_solvehead (by decide)
    sampleCnf_lits
  refine hP.arena.w1.congr_w1 rfl rfl rfl (fun l hl => ?_)
  show put sampleLoaded.first 0 _ l = _
  simp [put, hl]

set_option maxRecDepth 100000 in
theorem strayResult_eq : propagate 10 strayState = .ok (SAT, strayResult.2) := by
  have h : propagate 10 strayState = .ok (strayResult.1, strayResult.2) :=
    resultOf_eq (p := strayResult) (getD_eq_of_isSome (0, zeroState) (by decide!))
  have e : strayResult.1 = SAT := by decide!
  rw [e] at h
  exact h

set_option maxRecDepth 100000 in
theorem strayState_block : ArenaBlock strayState (arenaBase strayState.nVars) 2 :=
  .first 2 (by decide!) (by decide!) (by decide!)

set_option maxRecDepth 100000 in
theorem strayState_body : bodyOf strayState.DB (arenaBase strayState.nVars) 2 = [1, 2] := by
  decide!

set_option maxRecDepth 100000 in
theorem strayResult_body : bodyOf strayResult.2.DB (arenaBase strayState.nVars) 2 = [1, 0] := by
  decide!

set_option maxRecDepth 100000 in
theorem strayState_trail :
    strayState.processed = 0 ∧ strayState.assigned = 1 ∧ strayState.mfalseStack 0 = 0 ∧
    strayState.first 0 = arenaBase strayState.nVars := by
  decide!

/-- C15, the claim as stated fails. The state `strayState` satisfies W1: it is
the state in which `solve` is called on `(x1 ∨ x2) ∧ (¬x1 ∨ x2)`, except that
the trail holds the single entry 0 and `first[0]` holds the offset of the first
link cell of the first clause, and 0 is not a literal. `propagate` takes the
entry 0 from the trail, walks the chain of `first[0]`, finds no literal after
the first two and stores 0 as the second literal of the clause: it returns SAT
with the body `[1, 0]` in the place of `[1, 2]`, which is not a permutation of
it. -/
theorem propagate_permutes_bodies_counterexample :
    W1 strayState ∧
    (strayState.processed = 0 ∧ strayState.assigned = 1 ∧ strayState.mfalseStack 0 = 0 ∧
      strayState.first 0 = arenaBase strayState.nVars) ∧
    ArenaBlock strayState (arenaBase strayState.nVars) 2 ∧
    propagate 10 strayState = .ok (SAT, strayResult.2) ∧
    bodyOf strayState.DB (arenaBase strayState.nVars) 2 = [1, 2] ∧
    bodyOf strayResult.2.DB (arenaBase strayState.nVars) 2 = [1, 0] ∧
    ¬ (bodyOf strayResult.2.DB (arenaBase strayState.nVars) 2).Perm
      (bodyOf strayState.DB (arenaBase strayState.nVars) 2) ∧
    ¬ ArenaBlock strayResult.2 (arenaBase strayState.nVars) 2 := by
  refine ⟨strayState_w1, strayState_trail, strayState_block, strayResult_eq, strayState_body,
    strayResult_body, ?_, ?_⟩
  · rw [strayState_body, strayResult_body]
    decide
  · intro h
    have := h.nonzero 1 (by omega)
    have e := strayResult_body
    unfold bodyOf at e
    simp only [List.range, List.range.loop, List.map] at e
    injection e with _ e
    injection e with e _
    exact this e

set_option maxRecDepth 100000 in
theorem chainPropagated_eq : propagate 20 chainHead2.1 = .ok (SAT, chainPropagated.2) := by
  have h : propagate 20 chainHead2.1 = .ok (chainPropagated.1, chainPropagated.2) :=
    resultOf_eq (p := chainPropagated) (getD_eq_of_isSome (0, zeroState) (by decide!))
  have e : chainPropagated.1 = SAT := by decide!
  rw [e] at h
  exact h

theorem chainHead2_sinv : SInv 4 chainHead2.1 chainHead2.2 :=
  chainHead2_head.sinv_solvehead (by decide) (by decide)

/-- C15, amended. Let the state `s` satisfy the invariants of the head of the
main loop of `solve`, where `propagate` is called (`SInv`: a well-formed arena
with W1, a trail of different assigned literals with their labels and reasons,
the decision list). Then `s` satisfies W1, and when `propagate()` returns,
with SAT or with UNSAT, every clause block of `s` is a clause block of the
state returned, at the same offset and with the same number of literals, so
that its 0 is in the same place, and its literals are a permutation of those it
had; every other block of the state returned starts at or after the old
`mem_used`; and `mem_fixed` is unchanged, so that such a block is a lemma. -/
theorem propagate_permutes_bodies {N : Int} {s : State} {d : Int} (h : SInv N s d)
    {fuel : Nat} {r : Int} {s1 : State} (hrun : propagate fuel s = .ok (r, s1)) :
    W1 s ∧
    (∀ (c : Int) (k : Nat), ArenaBlock s c k →
      ArenaBlock s1 c k ∧ (bodyOf s1.DB c k).Perm (bodyOf s.DB c k)) ∧
    (∀ (c : Int) (k : Nat), ArenaBlock s1 c k → ArenaBlock s c k ∨ s.mem_used ≤ c) ∧
    s1.mem_fixed = s.mem_fixed := by
  obtain ⟨g, hP, hE, _⟩ := h
  exact ⟨hP.arena.w1, propagate_bodies hP hE hrun⟩

theorem propagate_permutes_bodies_witness :
    SInv 4 chainHead2.1 chainHead2.2 ∧
    propagate 20 chainHead2.1 = .ok (SAT, chainPropagated.2) ∧
    (W1 chainHead2.1 ∧
    (∀ (c : Int) (k : Nat), ArenaBlock chainHead2.1 c k →
      ArenaBlock chainPropagated.2 c k ∧
        (bodyOf chainPropagated.2.DB c k).Perm (bodyOf chainHead2.1.DB c k)) ∧
    (∀ (c : Int) (k : Nat), ArenaBlock chainPropagated.2 c k →
      ArenaBlock chainHead2.1 c k ∨ chainHead2.1.mem_used ≤ c) ∧
    chainPropagated.2.mem_fixed = chainHead2.1.mem_fixed) :=
  ⟨chainHead2_sinv, chainPropagated_eq, propagate_permutes_bodies chainHead2_sinv
    chainPropagated_eq⟩

/-- C21. `bump` is move-to-front. Let `order` be the decision list of the state
`s`: it holds each variable of `1..nVars` once, starts at `head`, `prev` leads
from each of its elements to the next one and from the last one to 0, and
`next` leads back (`Vmtf s order`); let `lit` be a literal. If `mfalse[lit]` is
not `IMPLIED`, then after `bump(lit)` `mfalse[lit]` is `MARK`, `head` is
`|lit|`, and the decision list is `|lit|` followed by `order` with `|lit|`
taken out, the other variables in their old order. If `mfalse[lit]` is
`IMPLIED`, `bump(lit)` changes nothing. -/
theorem bump_move_to_front {s : State} {order : List Int} (h : Vmtf s order) {lit : Int}
    (hl : IsLit s.nVars lit) :
    (s.mfalse lit ≠ IMPLIED →
      (bump s lit).mfalse lit = MARK ∧ (bump s lit).head = absInt lit ∧
      Vmtf (bump s lit) (absInt lit :: order.erase (absInt lit))) ∧
    (s.mfalse lit = IMPLIED → bump s lit = s) := by
  refine ⟨fun hm => ?_, bump_implied s lit⟩
  have hv := h.bump_front hl hm
  refine ⟨?_, ?_, hv⟩
  · rw [bump_mfalse, if_pos ⟨rfl, hm⟩]
  · have := hv.head
    simp only [List.head?_cons, Option.some.injEq] at this
    exact this.symm

set_option maxRecDepth 100000 in
theorem chainLoaded_vmtf : Vmtf chainLoaded [4, 3, 2, 1] := by
  have hn : chainLoaded.nVars = 4 := by decide!
  refine ⟨by decide, fun v => ?_, by decide!, ?_⟩
  swap
  · show chainLoaded.prev 4 = 3 ∧ chainLoaded.next 3 = 4 ∧ chainLoaded.prev 3 = 2 ∧
      chainLoaded.next 2 = 3 ∧ chainLoaded.prev 2 = 1 ∧ chainLoaded.next 1 = 2 ∧
      chainLoaded.prev 1 = 0
    decide!
  rw [hn]
  simp only [List.mem_cons, List.mem_singleton, List.not_mem_nil, or_false]
  omega

set_option maxRecDepth 100000 in
theorem bump_move_to_front_witness :
    Vmtf chainLoaded [4, 3, 2, 1] ∧ IsLit chainLoaded.nVars (-2) ∧
    ((chainLoaded.mfalse (-2) ≠ IMPLIED →
      (bump chainLoaded (-2)).mfalse (-2) = MARK ∧ (bump chainLoaded (-2)).head = absInt (-2) ∧
      Vmtf (bump chainLoaded (-2)) (absInt (-2) :: [4, 3, 2, 1].erase (absInt (-2)))) ∧
    (chainLoaded.mfalse (-2) = IMPLIED → bump chainLoaded (-2) = chainLoaded)) :=
  ⟨chainLoaded_vmtf, by decide!, bump_move_to_front chainLoaded_vmtf (by decide!)⟩

end Microsat
